import Mathlib

/-!
nolus-core: the simulation test harness (`app/sim_test.go`) and the wire format of
the mint records (`x/mint/types/mint.pb.go`)

A shallow embedding of the divergence reporter `GetSimulationLog`, of the
determinism campaign `TestAppStateDeterminism`, of the export/import
consistency test `TestAppImportExport`, of the provisioner `AppStateFn` and of
the generated marshalling code of `Minter` and `Params`, together with the
properties proved about them.

Conventions of the embedding

* a Go `[]byte` is a `List Nat` (each element a byte);
* a Go slice of pairs is a `List Pair`; an index expression `xs[i]` is the
  checked access `index xs i`, which yields `Fault.indexOutOfRange` where Go
  panics;
* a Go `map[string]V` lookup `v, ok := m[k]` is a function `String → Option V`;
* library code that is not part of the repository (the `%q` verb of
  `fmt.Sprintf`, `simulation.SimulateFromSeed`, the process wide random source,
  the types `sdk.Dec` and `sdk.Uint`) is a parameter of the definitions that
  call it; `sdk.DiffKVStores` is a parameter of the test that calls it, and
  the comparator and the provisioner of `simapp` are also given as definitions
  that follow the specification;
* a loop of the generated code that ends because its index advances has a
  bound on the number of its iterations, the length of the input;
* the methods `Unmarshal`, which update their receiver in place, are given by
  what they return (`Params.Unmarshal`, `Minter.Unmarshal`) and by the receiver
  that they leave and the error (`Params.Unmarshal.inPlace`,
  `Minter.Unmarshal.inPlace`); the first is shown to be the second without the
  receiver of a failed call.
-/

namespace NolusSim

/-- A Go byte slice. -/
abbrev Bytes := List Nat

/-- The type `kv.Pair`: a key and a value, both byte slices. -/
structure Pair where
  Key : Bytes
  Value : Bytes
deriving DecidableEq, Repr

/-- A store decoder, Go type `func(kvA, kvB kv.Pair) string`. -/
abbrev StoreDecoder := Pair → Pair → String

/-- The type `sdk.StoreDecoderRegistry`, a `map[string]func(kvA, kvB kv.Pair) string`,
seen through its lookup `decoder, ok := sdr[storeName]`. -/
abbrev StoreDecoderRegistry := String → Option StoreDecoder

/-- A run-time panic of the Go code. -/
inductive Fault where
  | indexOutOfRange (i len : Nat)
deriving DecidableEq, Repr

/-- The index expression `xs[i]` of Go: the element when `i < len(xs)`, a panic otherwise. -/
def index {α : Type} (xs : List α) (i : Nat) : Except Fault α :=
  match xs[i]? with
  | some x => Except.ok x
  | none => Except.error (Fault.indexOutOfRange i xs.length)

/-- The result of `fmt.Sprintf("store A %q => %q\nstore B %q => %q\n", a.Key, a.Value, b.Key, b.Value)`,
where `quote` is the rendering of a byte slice by the verb `%q`. -/
def rawRendering (quote : Bytes → String) (a b : Pair) : String :=
  "store A " ++ quote a.Key ++ " => " ++ quote a.Value ++ "\nstore B " ++
    quote b.Key ++ " => " ++ quote b.Value ++ "\n"

/-- The state of one execution of `GetSimulationLog`: the named result `log`, and the
arguments of every decoder invocation made so far, in order. -/
structure LogState where
  log : String
  decoderCalls : List (Pair × Pair)
deriving DecidableEq, Repr

/-- The loop `for i := 0; i < len(kvAs); i++ { ... }` of `GetSimulationLog`, from index `i`
on. The condition `len(kvAs[i].Value) == 0 && len(kvBs[i].Value) == 0` is evaluated left
to right and short-circuits. -/
def GetSimulationLog.loop (quote : Bytes → String) (storeName : String)
    (sdr : StoreDecoderRegistry) (kvAs kvBs : List Pair) (i : Nat) (st : LogState) :
    Except Fault LogState :=
  if i < kvAs.length then
    match index kvAs i with
    | Except.error e => Except.error e
    | Except.ok a =>
      match (if a.Value.length = 0 then
              (match index kvBs i with
               | Except.error e => Except.error e
               | Except.ok b => Except.ok (decide (b.Value.length = 0)))
             else Except.ok false : Except Fault Bool) with
      | Except.error e => Except.error e
      | Except.ok true => GetSimulationLog.loop quote storeName sdr kvAs kvBs (i + 1) st
      | Except.ok false =>
        match sdr storeName with
        | some decoder =>
          match index kvAs i, index kvBs i with
          | Except.ok a', Except.ok b' =>
            GetSimulationLog.loop quote storeName sdr kvAs kvBs (i + 1)
              ⟨st.log ++ decoder a' b', st.decoderCalls ++ [(a', b')]⟩
          | Except.error e, _ => Except.error e
          | Except.ok _, Except.error e => Except.error e
        | none =>
          match index kvAs i, index kvBs i with
          | Except.ok a', Except.ok b' =>
            GetSimulationLog.loop quote storeName sdr kvAs kvBs (i + 1)
              ⟨st.log ++ rawRendering quote a' b', st.decoderCalls⟩
          | Except.error e, _ => Except.error e
          | Except.ok _, Except.error e => Except.error e
  else
    Except.ok st
termination_by kvAs.length - i

/-- One execution of `GetSimulationLog`, with the record of the decoder invocations. -/
def GetSimulationLogRun (quote : Bytes → String) (storeName : String)
    (sdr : StoreDecoderRegistry) (kvAs kvBs : List Pair) : Except Fault LogState :=
  GetSimulationLog.loop quote storeName sdr kvAs kvBs 0 ⟨"", []⟩

/-- The function `GetSimulationLog(storeName, sdr, kvAs, kvBs)`: the returned string, or the
panic it raises. -/
def GetSimulationLog (quote : Bytes → String) (storeName : String)
    (sdr : StoreDecoderRegistry) (kvAs kvBs : List Pair) : Except Fault String :=
  match GetSimulationLogRun quote storeName sdr kvAs kvBs with
  | Except.ok st => Except.ok st.log
  | Except.error e => Except.error e

/-! ## The determinism campaign `TestAppStateDeterminism` (lines 110-164) -/

/-- The assignment `xs[i] = x` of Go: the updated slice when `i < len(xs)`, a panic
otherwise. -/
def assignIndex {α : Type} (xs : List α) (i : Nat) (x : α) : Except Fault (List α) :=
  if i < xs.length then Except.ok (xs.set i x)
  else Except.error (Fault.indexOutOfRange i xs.length)

/-- One simulation run, `simulation.SimulateFromSeed` on a fresh application followed by
`LastCommitID().Hash`: from the seed index `i`, the repetition `j` and `config.Seed` to the
error of the run or the app hash it commits. -/
abbrev SimRun := Nat → Nat → Int → Except String Bytes

/-- What the campaign does, in execution order. -/
inductive Event where
  | seedDrawn (i : Nat) (seed : Int)
  | runStarted (i j : Nat) (seed : Int)
  | hashRecorded (i j : Nat) (appHash : Bytes)
  | compared (i j : Nat) (expected actual : Bytes)
deriving DecidableEq, Repr

/-- The message of the assertion at lines 158-161,
`"non-determinism in seed %d: %d/%d, attempt: %d/%d\n"` applied to
`config.Seed, i+1, NumSeeds, j+1, NumTimesToRunPerSeed`. -/
def nonDeterminismMessage (seed : Int) (i NumSeeds j NumTimesToRunPerSeed : Nat) : String :=
  "non-determinism in seed " ++ toString seed ++ ": " ++ toString (i + 1) ++ "/" ++
    toString NumSeeds ++ ", attempt: " ++ toString (j + 1) ++ "/" ++
    toString NumTimesToRunPerSeed ++ "\n"

/-- How the campaign ends. `simulationError` is the failure of `require.NoError(t, err)`,
`nonDeterminism` the failure of `require.Equal` at lines 158-161 with the arguments
of its message. -/
inductive Verdict where
  | pass
  | simulationError (err : String)
  | nonDeterminism (expected actual : Bytes) (seed : Int) (seedNumber NumSeeds attempt
      NumTimesToRunPerSeed : Nat) (message : String)
  | panic (f : Fault)
deriving DecidableEq, Repr

/-- The variables of the campaign: the slice `appHashList`, the field `config.Seed`, the
number of values drawn from the process-wide random source, and what happened so far. -/
structure CampaignState where
  appHashList : List Bytes
  Seed : Int
  draws : Nat
  trace : List Event
deriving DecidableEq, Repr

/-- The inner loop `for j := 0; j < NumTimesToRunPerSeed; j++ { ... }` for the seed index
`i`, from repetition `j` on. -/
def TestAppStateDeterminism.runs (sim : SimRun) (NumSeeds NumTimesToRunPerSeed i : Nat)
    (j : Nat) (st : CampaignState) : Verdict × CampaignState :=
  if j < NumTimesToRunPerSeed then
    let st1 : CampaignState := { st with trace := st.trace ++ [Event.runStarted i j st.Seed] }
    match sim i j st.Seed with
    | Except.error err => (Verdict.simulationError err, st1)
    | Except.ok appHash =>
      match assignIndex st1.appHashList j appHash with
      | Except.error f => (Verdict.panic f, st1)
      | Except.ok l =>
        let st2 : CampaignState :=
          { st1 with appHashList := l, trace := st1.trace ++ [Event.hashRecorded i j appHash] }
        if j ≠ 0 then
          match index st2.appHashList 0, index st2.appHashList j with
          | Except.ok h0, Except.ok hj =>
            let st3 : CampaignState :=
              { st2 with trace := st2.trace ++ [Event.compared i j h0 hj] }
            if h0 = hj then
              TestAppStateDeterminism.runs sim NumSeeds NumTimesToRunPerSeed i (j + 1) st3
            else
              (Verdict.nonDeterminism h0 hj st.Seed (i + 1) NumSeeds (j + 1)
                NumTimesToRunPerSeed
                (nonDeterminismMessage st.Seed i NumSeeds j NumTimesToRunPerSeed), st3)
          | Except.error f, _ => (Verdict.panic f, st2)
          | Except.ok _, Except.error f => (Verdict.panic f, st2)
        else
          TestAppStateDeterminism.runs sim NumSeeds NumTimesToRunPerSeed i (j + 1) st2
  else
    (Verdict.pass, st)
termination_by NumTimesToRunPerSeed - j

/-- The outer loop `for i := 0; i < NumSeeds; i++ { config.Seed = rand.Int63(); ... }`, from
the seed index `i` on; `rand k` is the value of the `k`-th call of `rand.Int63()`. A failed
assertion (`require`) or a panic ends the test at once. -/
def TestAppStateDeterminism.seeds (rand : Nat → Int) (sim : SimRun)
    (NumSeeds NumTimesToRunPerSeed : Nat) (i : Nat) (st : CampaignState) :
    Verdict × CampaignState :=
  if i < NumSeeds then
    let seed := rand st.draws
    let st1 : CampaignState :=
      { st with Seed := seed, draws := st.draws + 1,
                trace := st.trace ++ [Event.seedDrawn i seed] }
    match TestAppStateDeterminism.runs sim NumSeeds NumTimesToRunPerSeed i 0 st1 with
    | (Verdict.pass, st2) =>
      TestAppStateDeterminism.seeds rand sim NumSeeds NumTimesToRunPerSeed (i + 1) st2
    | (v, st2) => (v, st2)
  else
    (Verdict.pass, st)
termination_by NumSeeds - i

/-- The campaign of `TestAppStateDeterminism`, from
`appHashList := make([]json.RawMessage, NumTimesToRunPerSeed)` on; `seed0` is the value of
`config.Seed` that `simapp.NewConfigFromFlags()` left. -/
def TestAppStateDeterminism (rand : Nat → Int) (sim : SimRun) (seed0 : Int)
    (NumSeeds NumTimesToRunPerSeed : Nat) : Verdict × CampaignState :=
  TestAppStateDeterminism.seeds rand sim NumSeeds NumTimesToRunPerSeed 0
    { appHashList := List.replicate NumTimesToRunPerSeed [], Seed := seed0, draws := 0,
      trace := [] }

/-! ## The export/import consistency test `TestAppImportExport` (lines 167-271) -/

/-- The two application instances of the test: `nolusApp` and `newNolusApp`. -/
inductive Instance where
  | A
  | B
deriving DecidableEq, Repr

/-- A store key `app.keys[name]` of an instance; `Name` is its method `Name()`. -/
structure StoreKey where
  app : Instance
  Name : String
deriving DecidableEq, Repr

/-- The struct `StoreKeysPrefixes` of lines 63-67. -/
structure StoreKeysPrefixes where
  A : StoreKey
  B : StoreKey
  Prefixes : List Bytes
deriving DecidableEq, Repr

/-- The failed assertion that ends a test, with the message given to it. -/
inductive Failure where
  | noError (err : String) (message : String)
  | notEqual (expected actual : String)
  | lengthsNotEqual (lenA lenB : Nat) (message : String)
  | lenNotZero (len : Nat) (message : String)
deriving DecidableEq, Repr

/-- How a test function ends. -/
inductive TestResult where
  | skipped
  | passed
  | failed (f : Failure)
  | panicked (f : Fault)
deriving DecidableEq, Repr

/-- What `TestAppImportExport` does, in execution order. -/
inductive Step where
  | simulated
  | checkedExportSimulation
  | exportedState
  | importedState
  | deletedKey (store : StoreKey) (key : Bytes)
  | diffed (skp : StoreKeysPrefixes)
  | logged (count : Nat) (a b : StoreKey)
  | simulationLog (storeName : String) (kvAs kvBs : List Pair)
deriving DecidableEq, Repr

/-- The code the test calls and that is not part of the repository, as the results it
returns in one execution of the test. `DiffKVStores a b prefixes` is the result of
`sdk.DiffKVStores(ctxA.KVStore(a), ctxB.KVStore(b), prefixes)` at line 265. -/
structure World where
  quote : Bytes → String
  Name : String
  setupSkip : Bool
  setupErr : Option String
  nameA : String
  simErr : Option String
  checkExportErr : Option String
  exportErr : Option String
  setupErr2 : Option String
  nameB : String
  unmarshalErr : Option String
  StoreDecoders : StoreDecoderRegistry
  DiffKVStores : StoreKey → StoreKey → List Bytes → List Pair × List Pair

/-- The loop `for _, skp := range storeKeysPrefixes { ... }` of lines 261-270. The message
argument `GetSimulationLog(...)` of `require.Len` is evaluated before `require.Len` is
called, whatever the length of `failedKVAs`. -/
def TestAppImportExport.compare (w : World) :
    List StoreKeysPrefixes → List Step → TestResult × List Step
  | [], tr => (TestResult.passed, tr)
  | skp :: rest, tr =>
    let failedKVAs := (w.DiffKVStores skp.A skp.B skp.Prefixes).1
    let failedKVBs := (w.DiffKVStores skp.A skp.B skp.Prefixes).2
    let tr1 := tr ++ [Step.diffed skp]
    if failedKVAs.length ≠ failedKVBs.length then
      (TestResult.failed (Failure.lengthsNotEqual failedKVAs.length failedKVBs.length
        "unequal sets of key-values to compare"), tr1)
    else
      let tr2 := tr1 ++ [Step.logged failedKVAs.length skp.A skp.B,
        Step.simulationLog skp.A.Name failedKVAs failedKVBs]
      match GetSimulationLog w.quote skp.A.Name w.StoreDecoders failedKVAs failedKVBs with
      | Except.error f => (TestResult.panicked f, tr2)
      | Except.ok log =>
        if failedKVAs.length ≠ 0 then
          (TestResult.failed (Failure.lenNotZero failedKVAs.length log), tr2)
        else
          TestAppImportExport.compare w rest tr2

/-- The constants of imported packages that `TestAppImportExport` names: the store key
names `authtypes.StoreKey`, ..., and the key prefixes `stakingtypes.UnbondingQueueKey`, ... -/
structure Imports where
  authStoreKey : String
  stakingStoreKey : String
  slashingStoreKey : String
  mintStoreKey : String
  distrStoreKey : String
  bankStoreKey : String
  paramsStoreKey : String
  govStoreKey : String
  evidenceStoreKey : String
  capabilityStoreKey : String
  ibchostStoreKey : String
  ibctransferStoreKey : String
  feeStoreKey : String
  wasmStoreKey : String
  UnbondingQueueKey : Bytes
  RedelegationQueueKey : Bytes
  ValidatorQueueKey : Bytes
  HistoricalInfoKey : Bytes
  UnbondingIdKey : Bytes
  UnbondingIndexKey : Bytes
  UnbondingTypeKey : Bytes
  ValidatorUpdatesKey : Bytes
  BalancesPrefix : Bytes
  TXCounterPrefix : Bytes

/-- The entry `{nolusApp.(*App).keys[name], newNolusApp.(*App).keys[name], prefixes}`. -/
def skpEntry (name : String) (prefixes : List Bytes) : StoreKeysPrefixes :=
  ⟨⟨Instance.A, name⟩, ⟨Instance.B, name⟩, prefixes⟩

/-- The slice `storeKeysPrefixes` of lines 234-255; the entry of `wasm.StoreKey` is commented
out in the source. -/
def storeKeysPrefixes (c : Imports) : List StoreKeysPrefixes :=
  [ skpEntry c.authStoreKey [],
    skpEntry c.stakingStoreKey
      [c.UnbondingQueueKey, c.RedelegationQueueKey, c.ValidatorQueueKey,
       c.HistoricalInfoKey, c.UnbondingIdKey, c.UnbondingIndexKey, c.UnbondingTypeKey,
       c.ValidatorUpdatesKey],
    skpEntry c.slashingStoreKey [],
    skpEntry c.mintStoreKey [],
    skpEntry c.distrStoreKey [],
    skpEntry c.bankStoreKey [c.BalancesPrefix],
    skpEntry c.paramsStoreKey [],
    skpEntry c.govStoreKey [],
    skpEntry c.evidenceStoreKey [],
    skpEntry c.capabilityStoreKey [],
    skpEntry c.ibchostStoreKey [],
    skpEntry c.ibctransferStoreKey [],
    skpEntry c.feeStoreKey [] ]

/-- The test `TestAppImportExport`. Every `require` ends the test when it fails; the
simulation error `simErr` is asserted at line 199, after `simapp.CheckExportSimulation`
and before `ExportAppStateAndValidators`. -/
def TestAppImportExport (c : Imports) (w : World) : TestResult × List Step :=
  if w.setupSkip then (TestResult.skipped, [])
  else
    match w.setupErr with
    | some e => (TestResult.failed (Failure.noError e "simulation setup failed"), [])
    | none =>
      if w.Name ≠ w.nameA then (TestResult.failed (Failure.notEqual w.Name w.nameA), [])
      else
        let tr1 := [Step.simulated, Step.checkedExportSimulation]
        match w.checkExportErr with
        | some e => (TestResult.failed (Failure.noError e ""), tr1)
        | none =>
          match w.simErr with
          | some e => (TestResult.failed (Failure.noError e ""), tr1)
          | none =>
            match w.exportErr with
            | some e => (TestResult.failed (Failure.noError e ""), tr1)
            | none =>
              let tr2 := tr1 ++ [Step.exportedState]
              match w.setupErr2 with
              | some e =>
                (TestResult.failed (Failure.noError e "simulation setup failed"), tr2)
              | none =>
                if w.Name ≠ w.nameB then
                  (TestResult.failed (Failure.notEqual w.Name w.nameB), tr2)
                else
                  match w.unmarshalErr with
                  | some e => (TestResult.failed (Failure.noError e ""), tr2)
                  | none =>
                    let tr3 := tr2 ++ [Step.importedState,
                      Step.deletedKey ⟨Instance.A, c.wasmStoreKey⟩ c.TXCounterPrefix]
                    TestAppImportExport.compare w (storeKeysPrefixes c) tr3

/-! ## The store comparator and the provisioner -/

/-- Modelled from the spec: the entry of a key in a store, for the comparator of section
4.1: its value, or `none` when the key is absent. The store is the list of its pairs. -/
def storeLookup (store : List Pair) (key : Bytes) : Option Bytes :=
  (store.find? (fun p => decide (p.Key = key))).map (fun p => p.Value)

/-- Modelled from the spec: the pair that the comparator reports for a key from a store:
the key with its value in the store, with the empty value when the key is absent. -/
def storePair (store : List Pair) (key : Bytes) : Pair :=
  ⟨key, (storeLookup store key).getD []⟩

/-- Modelled from the spec: the union of the keys present in either store, without
repetition and in lexicographic order (section 4.1). -/
def unionKeys (storeA storeB : List Pair) : List Bytes :=
  ((storeA.map (fun p => p.Key) ++ storeB.map (fun p => p.Key)).dedup).insertionSort
    (fun x y => x ≤ y)

/-- Modelled from the spec: a key matches one of the excluded prefixes (section 3,
ExclusionPrefixSet). -/
def matchesExclusion (exclusions : List Bytes) (key : Bytes) : Bool :=
  exclusions.any (fun p => p.isPrefixOf key)

/-- Modelled from the spec: the store comparator `sdk.DiffKVStores(storeA, storeB,
prefixesToSkip)`, a function of the cosmos-sdk library that `TestAppImportExport` calls and
whose code is not in the repository. Section 4.1: it iterates the union of the keys
present in either store in lexicographic order; for each key not matching an excluded
prefix, if the entries of the key differ, in value or in presence, it appends the pair
from A to `divergentA` and the pair from B to `divergentB` at the same index. A key that
is present in one store and absent in the other differs also when its value is empty: the
two pairs reported then have empty values, the pairs that the reporter of section 4.2
skips. -/
def DiffKVStores (storeA storeB : List Pair) (exclusions : List Bytes) :
    List Pair × List Pair :=
  let keys := (unionKeys storeA storeB).filter (fun k =>
    !matchesExclusion exclusions k && decide (storeLookup storeA k ≠ storeLookup storeB k))
  (keys.map (storePair storeA), keys.map (storePair storeB))

/-- The fields of `simtypes.Config` that name the optional input documents of the
provisioner, and the seed. -/
structure Config where
  GenesisFile : Option String
  ParamsFile : Option String
  Seed : Int
deriving DecidableEq, Repr

/-- Where the initial application state comes from. -/
inductive AppStateSource where
  | genesisDocument (path : String)
  | randomizedWithParams (paramsPath : String) (seed : Int)
  | randomized (seed : Int)
deriving DecidableEq, Repr

/-- The configuration error of the provisioner: both documents are supplied. -/
inductive ConfigurationError where
  | bothGenesisAndParams
deriving DecidableEq, Repr

/-- Modelled from the spec: the function that `simapp.AppStateFn(codec, manager)` returns,
code of the cosmos-sdk library that the repository only calls. Section 4.5: it fails fast
if both a genesis document and a simulation-parameters document are supplied; it uses the
genesis document when one is supplied; otherwise it synthesizes a randomized genesis
state, seeded from the campaign seed. -/
def simappAppStateFn (config : Config) : Except ConfigurationError AppStateSource :=
  match config.GenesisFile, config.ParamsFile with
  | some _, some _ => Except.error ConfigurationError.bothGenesisAndParams
  | some genesis, none => Except.ok (AppStateSource.genesisDocument genesis)
  | none, some params => Except.ok (AppStateSource.randomizedWithParams params config.Seed)
  | none, none => Except.ok (AppStateSource.randomized config.Seed)

/-- The package variables of `simapp` that `AppStateFn` assigns: `simapp.ModuleBasics` (the
names of the modules) and `simapp.FlagGenesisTimeValue`. -/
structure SimappGlobals where
  ModuleBasics : List String
  FlagGenesisTimeValue : Int
deriving DecidableEq, Repr

/-- The function `AppStateFn(codec, manager)` of lines 320-327: it assigns
`simapp.ModuleBasics = ModuleBasics`, sets `simapp.FlagGenesisTimeValue` to
`time.Now().Unix()`, here `now`, when it is zero, and returns
`simapp.AppStateFn(codec, manager)`. -/
def AppStateFn (ModuleBasics : List String) (now : Int) (g : SimappGlobals) :
    SimappGlobals × (Config → Except ConfigurationError AppStateSource) :=
  let g1 : SimappGlobals := { g with ModuleBasics := ModuleBasics }
  let g2 : SimappGlobals :=
    if g1.FlagGenesisTimeValue = 0 then { g1 with FlagGenesisTimeValue := now } else g1
  (g2, simappAppStateFn)

/-! ## The records of the mint module and their wire format (`x/mint/types/mint.pb.go`)

The types `sdk.Dec` and `sdk.Uint` of the fields are code of another package: a field type
is a parameter, given with its methods `Size`, `MarshalTo` and `Unmarshal`. The Go type
`int` has 64 bits; the lengths and indices of the marshalling functions are computed in `ℤ`
and `ℕ` (a slice has fewer than `2^63` elements), the arithmetic of the unmarshalling
functions, whose operands come from the input, wraps at 64 bits. -/

/-- The methods of a custom field type `T`: `Size()`, `MarshalTo(data)`, which returns the
content of `data` after the call or the error, and `Unmarshal(data)`, which returns the
receiver after the call or the error; `UnmarshalFailed` is the receiver that a call of
`Unmarshal(data)` leaves when it returns an error. -/
structure CustomType (T : Type) where
  Size : T → Nat
  MarshalTo : T → Bytes → Except String Bytes
  Unmarshal : T → Bytes → Except String T
  UnmarshalFailed : T → Bytes → T

/-- The struct `Minter`, with the types of `sdk.Dec` and `sdk.Uint` as parameters. -/
structure Minter (D U : Type) where
  NormTimePassed : D
  TotalMinted : U
  PrevBlockTimestamp : U
  AnnualInflation : U

/-- The struct `Params`, with the type of `sdk.Uint` as parameter; a Go `string` is the
sequence of its bytes. -/
structure Params (U : Type) where
  MintDenom : Bytes
  MaxMintableNanoseconds : U

/-- The errors that the functions of `mint.pb.go` return, and their panics; `outOfFuel` is
the end of a loop of the embedding that the Go code does not have. -/
inductive MintError where
  | ErrInvalidLengthMint
  | ErrIntOverflowMint
  | ErrUnexpectedEndOfGroupMint
  | ErrUnexpectedEOF
  | wiretypeEndGroup (record : String)
  | illegalTag (record : String) (fieldNum : Int) (wire : Nat)
  | wrongWireType (wireType : Nat) (field : String)
  | illegalWireType (wireType : Nat)
  | customType (err : String)
  | panic
  | outOfFuel
deriving DecidableEq, Repr

/-- The conversion `uint64(n)` of a non-negative integer. -/
def uint64 (n : Nat) : Nat := n % 2 ^ 64

/-- The conversion `int(x)` of a `uint64`: the two's complement value of its 64 bits. -/
def toInt64 (x : Nat) : Int :=
  if x % 2 ^ 64 < 2 ^ 63 then ((x % 2 ^ 64 : Nat) : Int) else ((x % 2 ^ 64 : Nat) : Int) - 2 ^ 64

/-- The value of an `int` expression whose exact value is `z`: `z` wrapped to 64 bits. -/
def wrapInt64 (z : Int) : Int := toInt64 (z % 2 ^ 64).toNat

/-- The conversion `int32(x)` of a `uint64`: the two's complement value of its low 32
bits. -/
def toInt32 (x : Nat) : Int :=
  if x % 2 ^ 32 < 2 ^ 31 then ((x % 2 ^ 32 : Nat) : Int) else ((x % 2 ^ 32 : Nat) : Int) - 2 ^ 32

/-- The function `math_bits.Len64(x)`: the minimum number of bits required to represent
`x`, 0 for `x = 0`. -/
def Len64 (x : Nat) : Nat := Nat.size x

/-- The function `sovMint`. -/
def sovMint (x : Nat) : Nat := (Len64 (x ||| 1) + 6) / 7

/-- The assignment `dAtA[i] = x` on a byte slice: a panic when `i` is out of range. -/
def writeByte (dAtA : Bytes) (i : Int) (x : Nat) : Except MintError Bytes :=
  if 0 ≤ i ∧ i < dAtA.length then Except.ok (dAtA.set i.toNat x)
  else Except.error MintError.panic

/-- The call `write(dAtA[i:])` of a function that writes to the slice it is given: a panic
when `i` is out of range, otherwise `dAtA` with the part from `i` on as `write` leaves it. -/
def writeFrom (dAtA : Bytes) (i : Int) (write : Bytes → Except String Bytes) :
    Except MintError Bytes :=
  if 0 ≤ i ∧ i ≤ dAtA.length then
    match write (dAtA.drop i.toNat) with
    | Except.error e => Except.error (MintError.customType e)
    | Except.ok s => Except.ok (dAtA.take i.toNat ++ s)
  else Except.error MintError.panic

/-- The built-in `copy(dst, src)`: `dst` after the call. -/
def copyBytes (dst src : Bytes) : Bytes := src.take dst.length ++ dst.drop src.length

/-- The loop and the last assignment of `encodeVarintMint`:
`for v >= 1<<7 { dAtA[offset] = uint8(v&0x7f | 0x80); v >>= 7; offset++ }` and
`dAtA[offset] = uint8(v)`. -/
def encodeVarintMint.loop (dAtA : Bytes) (offset : Int) (v : Nat) : Except MintError Bytes :=
  if h : v ≥ 1 <<< 7 then
    match writeByte dAtA offset (((v &&& 0x7f) ||| 0x80) % 256) with
    | Except.error e => Except.error e
    | Except.ok d => encodeVarintMint.loop d (offset + 1) (v >>> 7)
  else writeByte dAtA offset (v % 256)
termination_by v
decreasing_by
  simp only [Nat.shiftRight_eq_div_pow]
  exact Nat.div_lt_self (Nat.lt_of_lt_of_le (by decide) h) (by decide)

/-- The function `encodeVarintMint(dAtA, offset, v)`: the slice after the call and the
returned `base`. -/
def encodeVarintMint (dAtA : Bytes) (offset : Int) (v : Nat) : Except MintError (Bytes × Int) :=
  let base := offset - sovMint v
  match encodeVarintMint.loop dAtA base v with
  | Except.error e => Except.error e
  | Except.ok d => Except.ok (d, base)

/-- The block of `MarshalToSizedBuffer` for a field of a custom type, with the tag that
follows it:
`{ size := x.Size(); i -= size; if _, err := x.MarshalTo(dAtA[i:]); err != nil { return 0, err };
i = encodeVarintMint(dAtA, i, uint64(size)) }; i--; dAtA[i] = tag`. -/
def marshalCustomField {T : Type} (C : CustomType T) (x : T) (tag : Nat) (dAtA : Bytes)
    (i : Int) : Except MintError (Bytes × Int) :=
  let size := C.Size x
  let i1 := i - size
  match writeFrom dAtA i1 (C.MarshalTo x) with
  | Except.error e => Except.error e
  | Except.ok d1 =>
    match encodeVarintMint d1 i1 (uint64 size) with
    | Except.error e => Except.error e
    | Except.ok (d2, i2) =>
      match writeByte d2 (i2 - 1) tag with
      | Except.error e => Except.error e
      | Except.ok d3 => Except.ok (d3, i2 - 1)

/-- The method `Minter.MarshalToSizedBuffer(dAtA)`: the slice after the call and the
returned length, or the error. -/
def Minter.MarshalToSizedBuffer {D U : Type} (dec : CustomType D) (uint : CustomType U)
    (m : Minter D U) (dAtA : Bytes) : Except MintError (Bytes × Int) :=
  let i : Int := dAtA.length
  match marshalCustomField uint m.AnnualInflation 0x2a dAtA i with
  | Except.error e => Except.error e
  | Except.ok (d1, i1) =>
    match marshalCustomField uint m.PrevBlockTimestamp 0x22 d1 i1 with
    | Except.error e => Except.error e
    | Except.ok (d2, i2) =>
      match marshalCustomField uint m.TotalMinted 0x1a d2 i2 with
      | Except.error e => Except.error e
      | Except.ok (d3, i3) =>
        match marshalCustomField dec m.NormTimePassed 0x12 d3 i3 with
        | Except.error e => Except.error e
        | Except.ok (d4, i4) => Except.ok (d4, (dAtA.length : Int) - i4)

/-- The block of `Params.MarshalToSizedBuffer` for the field `MintDenom`:
`if len(m.MintDenom) > 0 { i -= len(m.MintDenom); copy(dAtA[i:], m.MintDenom);
i = encodeVarintMint(dAtA, i, uint64(len(m.MintDenom))); i--; dAtA[i] = 0xa }`. -/
def marshalMintDenom (MintDenom : Bytes) (dAtA : Bytes) (i : Int) :
    Except MintError (Bytes × Int) :=
  if MintDenom.length > 0 then
    let i1 := i - MintDenom.length
    match writeFrom dAtA i1 (fun s => Except.ok (copyBytes s MintDenom)) with
    | Except.error e => Except.error e
    | Except.ok d1 =>
      match encodeVarintMint d1 i1 (uint64 MintDenom.length) with
      | Except.error e => Except.error e
      | Except.ok (d2, i2) =>
        match writeByte d2 (i2 - 1) 0xa with
        | Except.error e => Except.error e
        | Except.ok d3 => Except.ok (d3, i2 - 1)
  else Except.ok (dAtA, i)

/-- The method `Params.MarshalToSizedBuffer(dAtA)`: the slice after the call and the
returned length, or the error. -/
def Params.MarshalToSizedBuffer {U : Type} (uint : CustomType U) (m : Params U)
    (dAtA : Bytes) : Except MintError (Bytes × Int) :=
  let i : Int := dAtA.length
  match marshalCustomField uint m.MaxMintableNanoseconds 0x12 dAtA i with
  | Except.error e => Except.error e
  | Except.ok (d1, i1) =>
    match marshalMintDenom m.MintDenom d1 i1 with
    | Except.error e => Except.error e
    | Except.ok (d2, i2) => Except.ok (d2, (dAtA.length : Int) - i2)

/-- The method `Minter.Size()`. -/
def Minter.Size {D U : Type} (dec : CustomType D) (uint : CustomType U) (m : Minter D U) :
    Nat :=
  let l1 := dec.Size m.NormTimePassed
  let n1 := 1 + l1 + sovMint (uint64 l1)
  let l2 := uint.Size m.TotalMinted
  let n2 := n1 + (1 + l2 + sovMint (uint64 l2))
  let l3 := uint.Size m.PrevBlockTimestamp
  let n3 := n2 + (1 + l3 + sovMint (uint64 l3))
  let l4 := uint.Size m.AnnualInflation
  n3 + (1 + l4 + sovMint (uint64 l4))

/-- The method `Params.Size()`. -/
def Params.Size {U : Type} (uint : CustomType U) (m : Params U) : Nat :=
  let l1 := m.MintDenom.length
  let n1 := if l1 > 0 then 1 + l1 + sovMint (uint64 l1) else 0
  let l2 := uint.Size m.MaxMintableNanoseconds
  n1 + (1 + l2 + sovMint (uint64 l2))

/-- The expression `dAtA[:n]` on a slice of length and capacity `len(dAtA)`: a panic when
`n` is out of range. -/
def sliceTo (dAtA : Bytes) (n : Int) : Except MintError Bytes :=
  if 0 ≤ n ∧ n ≤ dAtA.length then Except.ok (dAtA.take n.toNat)
  else Except.error MintError.panic

/-- The method `Minter.Marshal()`: `size := m.Size()`, `dAtA = make([]byte, size)`,
`n, err := m.MarshalToSizedBuffer(dAtA[:size])`, and the result `dAtA[:n]`. -/
def Minter.Marshal {D U : Type} (dec : CustomType D) (uint : CustomType U) (m : Minter D U) :
    Except MintError Bytes :=
  let size := Minter.Size dec uint m
  match Minter.MarshalToSizedBuffer dec uint m (List.replicate size 0) with
  | Except.error e => Except.error e
  | Except.ok (dAtA, n) => sliceTo dAtA n

/-- The method `Params.Marshal()`. -/
def Params.Marshal {U : Type} (uint : CustomType U) (m : Params U) : Except MintError Bytes :=
  let size := Params.Size uint m
  match Params.MarshalToSizedBuffer uint m (List.replicate size 0) with
  | Except.error e => Except.error e
  | Except.ok (dAtA, n) => sliceTo dAtA n

/-- The loop `for shift := uint(0); ; shift += 7 { ... }` that reads a varint of `dAtA` from
`iNdEx` on: the value read, wrapped to 64 bits, and the index after it;
`ErrIntOverflowMint` when `shift >= 64`, `io.ErrUnexpectedEOF` when `iNdEx >= l`. -/
def decodeVarint (dAtA : Bytes) (iNdEx shift wire : Nat) : Except MintError (Nat × Nat) :=
  if shift ≥ 64 then Except.error MintError.ErrIntOverflowMint
  else if iNdEx ≥ dAtA.length then Except.error MintError.ErrUnexpectedEOF
  else
    match dAtA[iNdEx]? with
    | none => Except.error MintError.panic
    | some b =>
      if b < 0x80 then Except.ok (wire ||| uint64 ((b &&& 0x7F) <<< shift), iNdEx + 1)
      else decodeVarint dAtA (iNdEx + 1) (shift + 7) (wire ||| uint64 ((b &&& 0x7F) <<< shift))
termination_by 64 - shift
decreasing_by omega

/-- The expression `dAtA[lo:hi]`: a panic unless `0 <= lo <= hi <= len(dAtA)`. -/
def slice (dAtA : Bytes) (lo hi : Int) : Except MintError Bytes :=
  if 0 ≤ lo ∧ lo ≤ hi ∧ hi ≤ dAtA.length then
    Except.ok ((dAtA.drop lo.toNat).take (hi.toNat - lo.toNat))
  else Except.error MintError.panic

/-- The part that the cases of the known fields share, from `var stringLen uint64` to the
check `postIndex > l`, with the slice `dAtA[iNdEx:postIndex]` that the case then uses: the
bytes of the field and `postIndex`. -/
def lengthDelimited (dAtA : Bytes) (iNdEx : Nat) : Except MintError (Bytes × Nat) :=
  match decodeVarint dAtA iNdEx 0 0 with
  | Except.error e => Except.error e
  | Except.ok (stringLen, iNdEx1) =>
    let intStringLen := toInt64 stringLen
    if intStringLen < 0 then Except.error MintError.ErrInvalidLengthMint
    else
      let postIndex := wrapInt64 (iNdEx1 + intStringLen)
      if postIndex < 0 then Except.error MintError.ErrInvalidLengthMint
      else if postIndex > dAtA.length then Except.error MintError.ErrUnexpectedEOF
      else
        match slice dAtA iNdEx1 postIndex with
        | Except.error e => Except.error e
        | Except.ok field => Except.ok (field, postIndex.toNat)

/-- The `switch wireType` of `skipMint`, on the index after the tag and the depth: the index
(an `int`) and the depth after it. The loops of the cases 0 and 2 read a varint as
`decodeVarint` does; case 0 ignores its value, case 2 accumulates it in an `int`, which has
the bits of the `uint64` value. -/
def skipMint.field (dAtA : Bytes) (iNdEx depth wireType : Nat) : Except MintError (Int × Nat) :=
  if wireType = 0 then
    match decodeVarint dAtA iNdEx 0 0 with
    | Except.error e => Except.error e
    | Except.ok (_, iNdEx1) => Except.ok ((iNdEx1 : Int), depth)
  else if wireType = 1 then Except.ok (wrapInt64 ((iNdEx : Int) + 8), depth)
  else if wireType = 2 then
    match decodeVarint dAtA iNdEx 0 0 with
    | Except.error e => Except.error e
    | Except.ok (length, iNdEx1) =>
      if toInt64 length < 0 then Except.error MintError.ErrInvalidLengthMint
      else Except.ok (wrapInt64 ((iNdEx1 : Int) + toInt64 length), depth)
  else if wireType = 3 then Except.ok ((iNdEx : Int), depth + 1)
  else if wireType = 4 then
    if depth = 0 then Except.error MintError.ErrUnexpectedEndOfGroupMint
    else Except.ok ((iNdEx : Int), depth - 1)
  else if wireType = 5 then Except.ok (wrapInt64 ((iNdEx : Int) + 4), depth)
  else Except.error (MintError.illegalWireType wireType)

/-- The loop `for iNdEx < l { ... }` of `skipMint`, with a bound on the number of its
iterations. -/
def skipMint.loop (dAtA : Bytes) : Nat → Nat → Nat → Except MintError Int
  | 0, iNdEx, _ =>
    if iNdEx < dAtA.length then Except.error MintError.outOfFuel
    else Except.error MintError.ErrUnexpectedEOF
  | fuel + 1, iNdEx, depth =>
    if iNdEx < dAtA.length then
      match decodeVarint dAtA iNdEx 0 0 with
      | Except.error e => Except.error e
      | Except.ok (wire, iNdEx1) =>
        match skipMint.field dAtA iNdEx1 depth (wire &&& 0x7) with
        | Except.error e => Except.error e
        | Except.ok (iNdEx2, depth2) =>
          if iNdEx2 < 0 then Except.error MintError.ErrInvalidLengthMint
          else if depth2 = 0 then Except.ok iNdEx2
          else skipMint.loop dAtA fuel iNdEx2.toNat depth2
    else Except.error MintError.ErrUnexpectedEOF

/-- The function `skipMint(dAtA)`: the number of bytes of the first field of `dAtA`, or the
error. Every iteration of its loop reads at least one byte, so `len(dAtA)` iterations
are enough. -/
def skipMint (dAtA : Bytes) : Except MintError Int :=
  skipMint.loop dAtA dAtA.length 0 0

/-- The `default` case of the `switch fieldNum` of `Unmarshal`: the index after the field
that starts at `preIndex`. -/
def skipField (dAtA : Bytes) (preIndex : Nat) : Except MintError Nat :=
  match skipMint (dAtA.drop preIndex) with
  | Except.error e => Except.error e
  | Except.ok skippy =>
    if skippy < 0 ∨ wrapInt64 ((preIndex : Int) + skippy) < 0 then
      Except.error MintError.ErrInvalidLengthMint
    else if wrapInt64 ((preIndex : Int) + skippy) > dAtA.length then
      Except.error MintError.ErrUnexpectedEOF
    else Except.ok (wrapInt64 ((preIndex : Int) + skippy)).toNat

/-- A case of a field of a custom type in the `switch fieldNum` of `Unmarshal`: the check
of the wire type, the bytes of the field, and the method `Unmarshal` of the field on
them. -/
def unmarshalCustomField {T : Type} (C : CustomType T) (name : String) (x : T)
    (dAtA : Bytes) (iNdEx wireType : Nat) : Except MintError (T × Nat) :=
  if wireType ≠ 2 then Except.error (MintError.wrongWireType wireType name)
  else
    match lengthDelimited dAtA iNdEx with
    | Except.error e => Except.error e
    | Except.ok (field, postIndex) =>
      match C.Unmarshal x field with
      | Except.error e => Except.error (MintError.customType e)
      | Except.ok x1 => Except.ok (x1, postIndex)

/-- The `switch fieldNum` of `Minter.Unmarshal`: the record and the index after the
field. -/
def Minter.Unmarshal.field {D U : Type} (dec : CustomType D) (uint : CustomType U)
    (dAtA : Bytes) (preIndex iNdEx : Nat) (fieldNum : Int) (wireType : Nat) (m : Minter D U) :
    Except MintError (Minter D U × Nat) :=
  if fieldNum = 2 then
    match unmarshalCustomField dec "NormTimePassed" m.NormTimePassed dAtA iNdEx wireType with
    | Except.error e => Except.error e
    | Except.ok (x, postIndex) => Except.ok ({ m with NormTimePassed := x }, postIndex)
  else if fieldNum = 3 then
    match unmarshalCustomField uint "TotalMinted" m.TotalMinted dAtA iNdEx wireType with
    | Except.error e => Except.error e
    | Except.ok (x, postIndex) => Except.ok ({ m with TotalMinted := x }, postIndex)
  else if fieldNum = 4 then
    match unmarshalCustomField uint "PrevBlockTimestamp" m.PrevBlockTimestamp dAtA iNdEx
      wireType with
    | Except.error e => Except.error e
    | Except.ok (x, postIndex) => Except.ok ({ m with PrevBlockTimestamp := x }, postIndex)
  else if fieldNum = 5 then
    match unmarshalCustomField uint "AnnualInflation" m.AnnualInflation dAtA iNdEx wireType with
    | Except.error e => Except.error e
    | Except.ok (x, postIndex) => Except.ok ({ m with AnnualInflation := x }, postIndex)
  else
    match skipField dAtA preIndex with
    | Except.error e => Except.error e
    | Except.ok iNdEx1 => Except.ok (m, iNdEx1)

/-- The `switch fieldNum` of `Params.Unmarshal`: the record and the index after the
field. -/
def Params.Unmarshal.field {U : Type} (uint : CustomType U) (dAtA : Bytes)
    (preIndex iNdEx : Nat) (fieldNum : Int) (wireType : Nat) (m : Params U) :
    Except MintError (Params U × Nat) :=
  if fieldNum = 1 then
    if wireType ≠ 2 then Except.error (MintError.wrongWireType wireType "MintDenom")
    else
      match lengthDelimited dAtA iNdEx with
      | Except.error e => Except.error e
      | Except.ok (field, postIndex) => Except.ok ({ m with MintDenom := field }, postIndex)
  else if fieldNum = 2 then
    match unmarshalCustomField uint "MaxMintableNanoseconds" m.MaxMintableNanoseconds dAtA
      iNdEx wireType with
    | Except.error e => Except.error e
    | Except.ok (x, postIndex) => Except.ok ({ m with MaxMintableNanoseconds := x }, postIndex)
  else
    match skipField dAtA preIndex with
    | Except.error e => Except.error e
    | Except.ok iNdEx1 => Except.ok (m, iNdEx1)

/-- The part of an iteration of `Unmarshal` before the `switch fieldNum`: the tag varint
`wire`, `fieldNum := int32(wire >> 3)`, `wireType := int(wire & 0x7)` and the two checks;
the field number, the wire type and the index after the tag. -/
def readTag (record : String) (dAtA : Bytes) (iNdEx : Nat) : Except MintError (Int × Nat × Nat) :=
  match decodeVarint dAtA iNdEx 0 0 with
  | Except.error e => Except.error e
  | Except.ok (wire, iNdEx1) =>
    let fieldNum := toInt32 (wire >>> 3)
    let wireType := wire &&& 0x7
    if wireType = 4 then Except.error (MintError.wiretypeEndGroup record)
    else if fieldNum ≤ 0 then Except.error (MintError.illegalTag record fieldNum wire)
    else Except.ok (fieldNum, wireType, iNdEx1)

/-- The loop `for iNdEx < l { ... }` of `Minter.Unmarshal` and the statements after it, with
a bound on the number of its iterations: the receiver after the call, or the error. -/
def Minter.Unmarshal.loop {D U : Type} (dec : CustomType D) (uint : CustomType U)
    (dAtA : Bytes) : Nat → Nat → Minter D U → Except MintError (Minter D U)
  | 0, iNdEx, m =>
    if iNdEx < dAtA.length then Except.error MintError.outOfFuel
    else if iNdEx > dAtA.length then Except.error MintError.ErrUnexpectedEOF
    else Except.ok m
  | fuel + 1, iNdEx, m =>
    if iNdEx < dAtA.length then
      match readTag "Minter" dAtA iNdEx with
      | Except.error e => Except.error e
      | Except.ok (fieldNum, wireType, iNdEx1) =>
        match Minter.Unmarshal.field dec uint dAtA iNdEx iNdEx1 fieldNum wireType m with
        | Except.error e => Except.error e
        | Except.ok (m1, iNdEx2) => Minter.Unmarshal.loop dec uint dAtA fuel iNdEx2 m1
    else if iNdEx > dAtA.length then Except.error MintError.ErrUnexpectedEOF
    else Except.ok m

/-- The method `Minter.Unmarshal(dAtA)` on the receiver `m`, by what it returns: the error,
or the receiver after the call when it returns nil (`Minter.Unmarshal.inPlace` also gives
the receiver after a call that returns an error). Every iteration of its loop reads at
least one byte, so `len(dAtA)` iterations are enough. -/
def Minter.Unmarshal {D U : Type} (dec : CustomType D) (uint : CustomType U) (m : Minter D U)
    (dAtA : Bytes) : Except MintError (Minter D U) :=
  Minter.Unmarshal.loop dec uint dAtA dAtA.length 0 m

/-- The loop `for iNdEx < l { ... }` of `Params.Unmarshal` and the statements after it, with
a bound on the number of its iterations: the receiver after the call, or the error. -/
def Params.Unmarshal.loop {U : Type} (uint : CustomType U) (dAtA : Bytes) :
    Nat → Nat → Params U → Except MintError (Params U)
  | 0, iNdEx, m =>
    if iNdEx < dAtA.length then Except.error MintError.outOfFuel
    else if iNdEx > dAtA.length then Except.error MintError.ErrUnexpectedEOF
    else Except.ok m
  | fuel + 1, iNdEx, m =>
    if iNdEx < dAtA.length then
      match readTag "Params" dAtA iNdEx with
      | Except.error e => Except.error e
      | Except.ok (fieldNum, wireType, iNdEx1) =>
        match Params.Unmarshal.field uint dAtA iNdEx iNdEx1 fieldNum wireType m with
        | Except.error e => Except.error e
        | Except.ok (m1, iNdEx2) => Params.Unmarshal.loop uint dAtA fuel iNdEx2 m1
    else if iNdEx > dAtA.length then Except.error MintError.ErrUnexpectedEOF
    else Except.ok m

/-- The method `Params.Unmarshal(dAtA)` on the receiver `m`, by what it returns: the error,
or the receiver after the call when it returns nil (`Params.Unmarshal.inPlace` also gives
the receiver after a call that returns an error). -/
def Params.Unmarshal {U : Type} (uint : CustomType U) (m : Params U) (dAtA : Bytes) :
    Except MintError (Params U) :=
  Params.Unmarshal.loop uint dAtA dAtA.length 0 m

/-- A case of a field of a custom type in the `switch fieldNum` of `Unmarshal`, on the
field of the receiver: the field after the case, whether the case ends or returns an
error, and the index after the field or the error. The case assigns the field only by the
call `m.Field.Unmarshal(dAtA[iNdEx:postIndex])`. -/
def unmarshalCustomFieldInPlace {T : Type} (C : CustomType T) (name : String) (x : T)
    (dAtA : Bytes) (iNdEx wireType : Nat) : T × Except MintError Nat :=
  if wireType ≠ 2 then (x, Except.error (MintError.wrongWireType wireType name))
  else
    match lengthDelimited dAtA iNdEx with
    | Except.error e => (x, Except.error e)
    | Except.ok (field, postIndex) =>
      match C.Unmarshal x field with
      | Except.error e => (C.UnmarshalFailed x field, Except.error (MintError.customType e))
      | Except.ok x1 => (x1, Except.ok postIndex)

/-- The `switch fieldNum` of `Minter.Unmarshal` on the receiver: the receiver after the
case, whether the case ends or returns an error, and the index after the field or the
error. -/
def Minter.Unmarshal.fieldInPlace {D U : Type} (dec : CustomType D) (uint : CustomType U)
    (dAtA : Bytes) (preIndex iNdEx : Nat) (fieldNum : Int) (wireType : Nat) (m : Minter D U) :
    Minter D U × Except MintError Nat :=
  if fieldNum = 2 then
    match unmarshalCustomFieldInPlace dec "NormTimePassed" m.NormTimePassed dAtA iNdEx
      wireType with
    | (x, r) => ({ m with NormTimePassed := x }, r)
  else if fieldNum = 3 then
    match unmarshalCustomFieldInPlace uint "TotalMinted" m.TotalMinted dAtA iNdEx wireType with
    | (x, r) => ({ m with TotalMinted := x }, r)
  else if fieldNum = 4 then
    match unmarshalCustomFieldInPlace uint "PrevBlockTimestamp" m.PrevBlockTimestamp dAtA iNdEx
      wireType with
    | (x, r) => ({ m with PrevBlockTimestamp := x }, r)
  else if fieldNum = 5 then
    match unmarshalCustomFieldInPlace uint "AnnualInflation" m.AnnualInflation dAtA iNdEx
      wireType with
    | (x, r) => ({ m with AnnualInflation := x }, r)
  else
    match skipField dAtA preIndex with
    | Except.error e => (m, Except.error e)
    | Except.ok iNdEx1 => (m, Except.ok iNdEx1)

/-- The `switch fieldNum` of `Params.Unmarshal` on the receiver: the receiver after the
case, whether the case ends or returns an error, and the index after the field or the
error. The case of `MintDenom` returns its errors before the assignment
`m.MintDenom = string(dAtA[iNdEx:postIndex])`. -/
def Params.Unmarshal.fieldInPlace {U : Type} (uint : CustomType U) (dAtA : Bytes)
    (preIndex iNdEx : Nat) (fieldNum : Int) (wireType : Nat) (m : Params U) :
    Params U × Except MintError Nat :=
  if fieldNum = 1 then
    if wireType ≠ 2 then (m, Except.error (MintError.wrongWireType wireType "MintDenom"))
    else
      match lengthDelimited dAtA iNdEx with
      | Except.error e => (m, Except.error e)
      | Except.ok (field, postIndex) => ({ m with MintDenom := field }, Except.ok postIndex)
  else if fieldNum = 2 then
    match unmarshalCustomFieldInPlace uint "MaxMintableNanoseconds" m.MaxMintableNanoseconds
      dAtA iNdEx wireType with
    | (x, r) => ({ m with MaxMintableNanoseconds := x }, r)
  else
    match skipField dAtA preIndex with
    | Except.error e => (m, Except.error e)
    | Except.ok iNdEx1 => (m, Except.ok iNdEx1)

/-- The loop `for iNdEx < l { ... }` of `Unmarshal` and the statements after it, on the
receiver, for either record and with a bound on the number of its iterations: the receiver
after the call and the error that the call returns, `none` for nil. `record` is the name
in the messages of the tag checks and `fieldInPlace` the `switch fieldNum` of the record.
A `return err` leaves the receiver as the iterations before it and the case that returns
have made it. -/
def unmarshalInPlace {M : Type} (record : String)
    (fieldInPlace : Bytes → Nat → Nat → Int → Nat → M → M × Except MintError Nat)
    (dAtA : Bytes) : Nat → Nat → M → M × Option MintError
  | 0, iNdEx, m =>
    if iNdEx < dAtA.length then (m, some MintError.outOfFuel)
    else if iNdEx > dAtA.length then (m, some MintError.ErrUnexpectedEOF)
    else (m, none)
  | fuel + 1, iNdEx, m =>
    if iNdEx < dAtA.length then
      match readTag record dAtA iNdEx with
      | Except.error e => (m, some e)
      | Except.ok (fieldNum, wireType, iNdEx1) =>
        match fieldInPlace dAtA iNdEx iNdEx1 fieldNum wireType m with
        | (m1, Except.error e) => (m1, some e)
        | (m1, Except.ok iNdEx2) => unmarshalInPlace record fieldInPlace dAtA fuel iNdEx2 m1
    else if iNdEx > dAtA.length then (m, some MintError.ErrUnexpectedEOF)
    else (m, none)

/-- The method `Minter.Unmarshal(dAtA)` on the receiver `m`, which it updates in place: the
receiver after the call, also when the call returns an error, and the error that the call
returns, `none` for nil. -/
def Minter.Unmarshal.inPlace {D U : Type} (dec : CustomType D) (uint : CustomType U)
    (m : Minter D U) (dAtA : Bytes) : Minter D U × Option MintError :=
  unmarshalInPlace "Minter" (Minter.Unmarshal.fieldInPlace dec uint) dAtA dAtA.length 0 m

/-- The method `Params.Unmarshal(dAtA)` on the receiver `m`, which it updates in place: the
receiver after the call, also when the call returns an error, and the error that the call
returns, `none` for nil. -/
def Params.Unmarshal.inPlace {U : Type} (uint : CustomType U) (m : Params U)
    (dAtA : Bytes) : Params U × Option MintError :=
  unmarshalInPlace "Params" (Params.Unmarshal.fieldInPlace uint) dAtA dAtA.length 0 m

/-! ## Auxiliary definitions of the statements -/

/-- The state of `GetSimulationLog` after the iteration on the pair `(a, b)`. -/
def pairStep (quote : Bytes → String) (storeName : String) (sdr : StoreDecoderRegistry)
    (a b : Pair) (st : LogState) : LogState :=
  if a.Value.length = 0 ∧ b.Value.length = 0 then st
  else
    match sdr storeName with
    | some decoder => ⟨st.log ++ decoder a b, st.decoderCalls ++ [(a, b)]⟩
    | none => ⟨st.log ++ rawRendering quote a b, st.decoderCalls⟩

/-- The state of `GetSimulationLog` after the iterations on the pairs of two lists,
taken index by index. -/
def pairsStep (quote : Bytes → String) (storeName : String) (sdr : StoreDecoderRegistry) :
    List Pair → List Pair → LogState → LogState
  | a :: ra, b :: rb, st => pairsStep quote storeName sdr ra rb (pairStep quote storeName sdr a b st)
  | _, _, st => st

/-- The steps of one passing iteration of the comparison loop. -/
def compareSteps (w : World) (skp : StoreKeysPrefixes) : List Step :=
  [Step.diffed skp,
   Step.logged (w.DiffKVStores skp.A skp.B skp.Prefixes).1.length skp.A skp.B,
   Step.simulationLog skp.A.Name (w.DiffKVStores skp.A skp.B skp.Prefixes).1
     (w.DiffKVStores skp.A skp.B skp.Prefixes).2]

/-- The steps of the comparison loop over entries that all pass. -/
def passSteps (w : World) : List StoreKeysPrefixes → List Step
  | [] => []
  | skp :: rest => compareSteps w skp ++ passSteps w rest

/-- Sample values of the imported constants. -/
def sampleImports : Imports :=
  { authStoreKey := "acc", stakingStoreKey := "staking", slashingStoreKey := "slashing",
    mintStoreKey := "mint", distrStoreKey := "distribution", bankStoreKey := "bank",
    paramsStoreKey := "params", govStoreKey := "gov", evidenceStoreKey := "evidence",
    capabilityStoreKey := "capability", ibchostStoreKey := "ibc",
    ibctransferStoreKey := "transfer", feeStoreKey := "feerefunder", wasmStoreKey := "wasm",
    UnbondingQueueKey := [0x41], RedelegationQueueKey := [0x42], ValidatorQueueKey := [0x43],
    HistoricalInfoKey := [0x50], UnbondingIdKey := [0x37], UnbondingIndexKey := [0x38],
    UnbondingTypeKey := [0x39], ValidatorUpdatesKey := [0x61], BalancesPrefix := [0x02],
    TXCounterPrefix := [0x08] }

/-- A sample execution in which every step succeeds and the stores of the two instances
agree on every namespace, but for the result `simErr` of the simulation. -/
def sampleWorld (simErr : Option String) : World :=
  { quote := fun _ => "q", Name := "nolus", setupSkip := false, setupErr := none,
    nameA := "nolus", simErr := simErr, checkExportErr := none, exportErr := none,
    setupErr2 := none, nameB := "nolus", unmarshalErr := none,
    StoreDecoders := fun _ => none, DiffKVStores := fun _ _ _ => ([], []) }

/-- A sample comparator: one divergent pair in the namespace `bank`, sequences of different
lengths in the namespace `gov`, no divergence elsewhere. -/
def sampleDiff (a : StoreKey) (_b : StoreKey) (_prefixes : List Bytes) :
    List Pair × List Pair :=
  if a.Name = "bank" then ([⟨[1], [2]⟩], [⟨[1], [3]⟩])
  else if a.Name = "gov" then ([⟨[1], [2]⟩], [])
  else ([], [])

/-- The sample execution with the comparator `sampleDiff`. -/
def sampleDiffWorld : World :=
  { sampleWorld none with DiffKVStores := sampleDiff }


/-- Three sample entries: the namespaces `acc`, `bank` and `staking`. -/
def sampleEntries : List StoreKeysPrefixes :=
  [skpEntry "acc" [], skpEntry "bank" [[2]], skpEntry "staking" []]


/-- The attempt that the report of a non-determinism failure cites: the argument `j+1` of
its message, the repetition index `j` counted from one. -/
def Verdict.citedAttempt : Verdict → Option Nat
  | Verdict.nonDeterminism _ _ _ _ _ attempt _ _ => some attempt
  | _ => none


/-- The events of the run `(i, j)` that succeeds with the hash `h`, when `h0` is the entry
`appHashList[0]`: the run, the assignment `appHashList[j] = appHash` and, for `j > 0`, the
comparison. -/
def runEvents (i j : Nat) (seed : Int) (h0 h : Bytes) : List Event :=
  [Event.runStarted i j seed, Event.hashRecorded i j h] ++
    (if j = 0 then [] else [Event.compared i j h0 h])

/-- The events of the `n` runs `(i, j), (i, j+1), ...` of one seed, the run `(i, k)`
succeeding with the hash `c k`. -/
def runsEvents (i : Nat) (seed : Int) (c : Nat → Bytes) : Nat → Nat → List Event
  | 0, _ => []
  | n + 1, j => runEvents i j seed (c 0) (c j) ++ runsEvents i seed c n (j + 1)

/-- The events of the `n` seed indices `i, i+1, ...`, each with `R` successful runs: the
draw of the seed, then the runs in the order of the repetitions. -/
def seedsEvents (rand : Nat → Int) (c : Nat → Nat → Bytes) (R : Nat) : Nat → Nat → List Event
  | 0, _ => []
  | n + 1, i =>
    Event.seedDrawn i (rand i) :: runsEvents i (rand i) (c i) R 0 ++
      seedsEvents rand c R n (i + 1)

/-- The event is the start of a simulation run. -/
def Event.isRun : Event → Bool
  | Event.runStarted _ _ _ => true
  | _ => false

/-- The event is a comparison of two app hashes. -/
def Event.isComparison : Event → Bool
  | Event.compared _ _ _ _ => true
  | _ => false

/-- The event is the draw of a seed. -/
def Event.isDraw : Event → Bool
  | Event.seedDrawn _ _ => true
  | _ => false

/-- The seed that an event carries is the one drawn for its seed index: the `i`-th value of
the random source. -/
def Event.seedOk (rand : Nat → Int) : Event → Prop
  | Event.seedDrawn i s => s = rand i
  | Event.runStarted i _ s => s = rand i
  | _ => True


/-- The seed index and the repetition of a run that an event starts. -/
def Event.runIndex : Event → Option (Nat × Nat)
  | Event.runStarted i j _ => some (i, j)
  | _ => none

/-- The `n` runs `(i, j), (i, j+1), ...` of the seed index `i`. -/
def repetitionsFrom (i : Nat) : Nat → Nat → List (Nat × Nat)
  | 0, _ => []
  | n + 1, j => (i, j) :: repetitionsFrom i n (j + 1)

/-- The runs of the `n` seed indices `i, i+1, ...` with `R` repetitions each, in
lexicographic order. -/
def runsInOrder (R : Nat) : Nat → Nat → List (Nat × Nat)
  | 0, _ => []
  | n + 1, i => repetitionsFrom i R 0 ++ runsInOrder R n (i + 1)


/-- The name of the namespace that a step compares: `skp.A.Name()` of a call of the
comparator. -/
def Step.diffedName : Step → Option String
  | Step.diffed skp => some skp.A.Name
  | _ => none

/-- The names of the store keys of the entries of `storeKeysPrefixes`, in order. -/
def comparedNames (c : Imports) : List String :=
  [c.authStoreKey, c.stakingStoreKey, c.slashingStoreKey, c.mintStoreKey, c.distrStoreKey,
   c.bankStoreKey, c.paramsStoreKey, c.govStoreKey, c.evidenceStoreKey,
   c.capabilityStoreKey, c.ibchostStoreKey, c.ibctransferStoreKey, c.feeStoreKey]


/-- The bytes of the varint of `v`: seven bits per byte from the low end, the high bit set
on every byte but the last. -/
def varintBytes (v : Nat) : Bytes :=
  if h : v ≥ 128 then (v % 128 + 128) :: varintBytes (v / 128) else [v]
termination_by v
decreasing_by exact Nat.div_lt_self (Nat.lt_of_lt_of_le (by decide) h) (by decide)

/-- The method `MarshalTo` of a custom type writes the bytes `enc x`, as many as `Size()`
returns, at the start of the slice it is given, and succeeds. -/
def CustomType.Writes {T : Type} (C : CustomType T) (enc : T → Bytes) : Prop :=
  (∀ x, (enc x).length = C.Size x) ∧
  (∀ x s, C.Size x ≤ s.length → C.MarshalTo x s = Except.ok (enc x ++ s.drop (C.Size x)))

/-- The method `Unmarshal` of a custom type, on the zero value as receiver, inverts
`MarshalTo`. -/
def CustomType.Inverts {T : Type} (C : CustomType T) (enc : T → Bytes) (zero : T) : Prop :=
  ∀ x, C.Unmarshal zero (enc x) = Except.ok x

/-- The wire format of a length-delimited field: the tag, the varint of the length and the
bytes. -/
def fieldBytes (tag : Nat) (body : Bytes) : Bytes :=
  tag :: (varintBytes (uint64 body.length) ++ body)

/-- The wire format of a `Params` record, `enc` giving the bytes of the custom field. -/
def Params.wire {U : Type} (enc : U → Bytes) (m : Params U) : Bytes :=
  (if m.MintDenom.length > 0 then fieldBytes 0xa m.MintDenom else []) ++
    fieldBytes 0x12 (enc m.MaxMintableNanoseconds)

/-- The wire format of a `Minter` record, `encD` and `encU` giving the bytes of the
custom fields. -/
def Minter.wire {D U : Type} (encD : D → Bytes) (encU : U → Bytes) (m : Minter D U) : Bytes :=
  fieldBytes 0x12 (encD m.NormTimePassed) ++ fieldBytes 0x1a (encU m.TotalMinted) ++
    fieldBytes 0x22 (encU m.PrevBlockTimestamp) ++ fieldBytes 0x2a (encU m.AnnualInflation)

/-- A custom type for the examples: a byte sequence that is its own encoding. -/
def sampleType : CustomType Bytes :=
  { Size := fun x => x.length,
    MarshalTo := fun x s => Except.ok (copyBytes s x),
    Unmarshal := fun _ b => Except.ok b,
    UnmarshalFailed := fun x _ => x }


/-- The hashes that an event carries are those of the runs of its own seed index: a
recorded hash is the hash of that run, written at an index in range, and a comparison is
between the hash of the run `(i, 0)` and the hash of the run `(i, j)`, `j > 0`. -/
def Event.hashesOk (rand : Nat → Int) (sim : SimRun) (R : Nat) : Event → Prop
  | Event.hashRecorded i j h => j < R ∧ sim i j (rand i) = Except.ok h
  | Event.compared i j h0 hj =>
    j ≠ 0 ∧ sim i 0 (rand i) = Except.ok h0 ∧ sim i j (rand i) = Except.ok hj
  | _ => True


/-- The loop `for iNdEx < l { ... }` of `Unmarshal` and the statements after it, for either
record: `record` is the name in the messages of the tag checks and `field` the
`switch fieldNum` of the record. -/
def unmarshalLoop {M : Type} (record : String)
    (field : Bytes → Nat → Nat → Int → Nat → M → Except MintError (M × Nat)) (dAtA : Bytes) :
    Nat → Nat → M → Except MintError M
  | 0, iNdEx, m =>
    if iNdEx < dAtA.length then Except.error MintError.outOfFuel
    else if iNdEx > dAtA.length then Except.error MintError.ErrUnexpectedEOF
    else Except.ok m
  | fuel + 1, iNdEx, m =>
    if iNdEx < dAtA.length then
      match readTag record dAtA iNdEx with
      | Except.error e => Except.error e
      | Except.ok (fieldNum, wireType, iNdEx1) =>
        match field dAtA iNdEx iNdEx1 fieldNum wireType m with
        | Except.error e => Except.error e
        | Except.ok (m1, iNdEx2) => unmarshalLoop record field dAtA fuel iNdEx2 m1
    else if iNdEx > dAtA.length then Except.error MintError.ErrUnexpectedEOF
    else Except.ok m

/-- The field numbers that occur in the input as `Unmarshal` reads it: the values of
`fieldNum` with which the iterations of its loop, from `iNdEx` on, reach the
`switch fieldNum`. -/
def fieldNumbers {M : Type} (record : String)
    (field : Bytes → Nat → Nat → Int → Nat → M → Except MintError (M × Nat)) (dAtA : Bytes) :
    Nat → Nat → M → List Int
  | 0, _, _ => []
  | fuel + 1, iNdEx, m =>
    if iNdEx < dAtA.length then
      match readTag record dAtA iNdEx with
      | Except.error _ => []
      | Except.ok (fieldNum, wireType, iNdEx1) =>
        fieldNum ::
          (match field dAtA iNdEx iNdEx1 fieldNum wireType m with
           | Except.error _ => []
           | Except.ok (m1, iNdEx2) => fieldNumbers record field dAtA fuel iNdEx2 m1)
    else []

/-- The value of a field on the wire, by wire type: a varint (0), eight bytes (1), four
bytes (5), or a length-delimited sequence of bytes (2). -/
inductive FieldValue where
  | varint (v : Nat)
  | fixed64 (bytes : Bytes)
  | fixed32 (bytes : Bytes)
  | lengthDelimited (body : Bytes)
deriving DecidableEq, Repr

/-- The wire type of a value. -/
def FieldValue.wireType : FieldValue → Nat
  | FieldValue.varint _ => 0
  | FieldValue.fixed64 _ => 1
  | FieldValue.fixed32 _ => 5
  | FieldValue.lengthDelimited _ => 2

/-- The bytes of a value on the wire. -/
def FieldValue.bytes : FieldValue → Bytes
  | FieldValue.varint v => varintBytes v
  | FieldValue.fixed64 bytes => bytes
  | FieldValue.fixed32 bytes => bytes
  | FieldValue.lengthDelimited body => varintBytes body.length ++ body

/-- A value is well formed when a varint is a 64-bit value and a fixed-width value has its
eight or four bytes. -/
def FieldValue.WellFormed : FieldValue → Prop
  | FieldValue.varint v => v < 2 ^ 64
  | FieldValue.fixed64 bytes => bytes.length = 8
  | FieldValue.fixed32 bytes => bytes.length = 4
  | FieldValue.lengthDelimited _ => True

/-- The encoding of a single field: the varint of the tag `fieldNum << 3 | wireType`
followed by the bytes of the value. -/
def encodeField (fieldNum : Nat) (x : FieldValue) : Bytes :=
  varintBytes (fieldNum * 8 + x.wireType) ++ x.bytes


/-- A `switch fieldNum` is safe when, on an input whose length is an `int` and from the
index after a tag, it fails only with an error that the code returns and otherwise ends
after the index at which the field starts and not after the end of the input. -/
def FieldSafe {M : Type}
    (field : Bytes → Nat → Nat → Int → Nat → M → Except MintError (M × Nat)) : Prop :=
  ∀ (dAtA : Bytes) (preIndex iNdEx : Nat) (fieldNum : Int) (wireType : Nat) (m : M),
    dAtA.length < 2 ^ 63 → preIndex < iNdEx → iNdEx ≤ dAtA.length →
    (∀ e, field dAtA preIndex iNdEx fieldNum wireType m = Except.error e →
      e ≠ MintError.panic ∧ e ≠ MintError.outOfFuel) ∧
    (∀ m1 i2, field dAtA preIndex iNdEx fieldNum wireType m = Except.ok (m1, i2) →
      preIndex < i2 ∧ i2 ≤ dAtA.length)

/-- A `switch fieldNum` reads only the bytes of its field: its result stays when bytes are
appended to the input. -/
def FieldMono {M : Type}
    (field : Bytes → Nat → Nat → Int → Nat → M → Except MintError (M × Nat)) : Prop :=
  ∀ (dAtA u : Bytes) (preIndex iNdEx : Nat) (fieldNum : Int) (wireType : Nat) (m : M)
    (r : M × Nat), preIndex < iNdEx → iNdEx ≤ dAtA.length →
    field dAtA preIndex iNdEx fieldNum wireType m = Except.ok r →
    field (dAtA ++ u) preIndex iNdEx fieldNum wireType m = Except.ok r


/-- A custom type for the examples whose `Unmarshal` leaves its receiver as it is on empty
bytes and otherwise sets it to the bytes. -/
def sampleKeepType : CustomType Bytes :=
  { Size := fun x => x.length,
    MarshalTo := fun x s => Except.ok (copyBytes s x),
    Unmarshal := fun x b => if b = [] then Except.ok x else Except.ok b,
    UnmarshalFailed := fun x _ => x }


/-- What a call of `Unmarshal` returns, from the receiver after the call and its error: the
error, or the receiver when the error is nil. -/
def returned {M : Type} : M × Option MintError → Except MintError M
  | (r, none) => Except.ok r
  | (_, some e) => Except.error e

/-- What a case of the `switch fieldNum` yields, from the receiver after the case and the
index or the error: the error, or the receiver and the index. -/
def caseReturned {M : Type} : M × Except MintError Nat → Except MintError (M × Nat)
  | (m1, Except.ok i) => Except.ok (m1, i)
  | (_, Except.error e) => Except.error e


/-! ## The loop of `GetSimulationLog` -/

theorem index_eq_ok {α : Type} (xs : List α) (i : Nat) (h : i < xs.length) :
    index xs i = Except.ok xs[i] := by
  simp [index, List.getElem?_eq_getElem h]

theorem index_eq_error {α : Type} (xs : List α) (i : Nat) (h : xs.length ≤ i) :
    index xs i = Except.error (Fault.indexOutOfRange i xs.length) := by
  simp [index, List.getElem?_eq_none h]

/-- One iteration of the loop, when both accesses are in range. -/
theorem loop_step (quote : Bytes → String) (storeName : String) (sdr : StoreDecoderRegistry)
    (kvAs kvBs : List Pair) (i : Nat) (st : LogState) (ha : i < kvAs.length)
    (hb : i < kvBs.length) :
    GetSimulationLog.loop quote storeName sdr kvAs kvBs i st =
      GetSimulationLog.loop quote storeName sdr kvAs kvBs (i + 1)
        (pairStep quote storeName sdr kvAs[i] kvBs[i] st) := by
  rw [GetSimulationLog.loop]
  simp only [ha, if_true, index_eq_ok kvAs i ha, index_eq_ok kvBs i hb, pairStep]
  by_cases h1 : kvAs[i].Value = []
  · by_cases h2 : kvBs[i].Value = []
    · simp [h1, h2]
    · cases hs : sdr storeName <;> simp [h1, h2, hs]
  · cases hs : sdr storeName <;> simp [h1, hs]

theorem loop_done (quote : Bytes → String) (storeName : String) (sdr : StoreDecoderRegistry)
    (kvAs kvBs : List Pair) (i : Nat) (st : LogState) (ha : kvAs.length ≤ i) :
    GetSimulationLog.loop quote storeName sdr kvAs kvBs i st = Except.ok st := by
  rw [GetSimulationLog.loop]
  simp [Nat.not_lt.mpr ha]

/-- The loop from index `i` is the fold of `pairStep` over the remaining pairs. -/
theorem loop_eq (quote : Bytes → String) (storeName : String) (sdr : StoreDecoderRegistry)
    (kvAs kvBs : List Pair) (hlen : kvAs.length ≤ kvBs.length) :
    ∀ (n i : Nat) (st : LogState), kvAs.length - i = n →
      GetSimulationLog.loop quote storeName sdr kvAs kvBs i st =
        Except.ok (pairsStep quote storeName sdr (kvAs.drop i) (kvBs.drop i) st) := by
  intro n
  induction n with
  | zero =>
    intro i st h
    have hi : kvAs.length ≤ i := by omega
    rw [loop_done _ _ _ _ _ _ _ hi, List.drop_eq_nil_of_le hi]
    simp [pairsStep]
  | succ n ih =>
    intro i st h
    have ha : i < kvAs.length := by omega
    have hb : i < kvBs.length := by omega
    rw [loop_step _ _ _ _ _ _ _ ha hb, ih (i + 1) _ (by omega)]
    rw [List.drop_eq_getElem_cons ha, List.drop_eq_getElem_cons hb]
    simp [pairsStep]

theorem run_eq (quote : Bytes → String) (storeName : String) (sdr : StoreDecoderRegistry)
    (kvAs kvBs : List Pair) (hlen : kvAs.length ≤ kvBs.length) :
    GetSimulationLogRun quote storeName sdr kvAs kvBs =
      Except.ok (pairsStep quote storeName sdr kvAs kvBs ⟨"", []⟩) := by
  unfold GetSimulationLogRun
  rw [loop_eq quote storeName sdr kvAs kvBs hlen _ 0 _ rfl]
  simp

/-- When `kvAs` is longer than `kvBs` the loop panics: `kvBs[i]` is accessed in every
iteration. -/
theorem loop_fault (quote : Bytes → String) (storeName : String) (sdr : StoreDecoderRegistry)
    (kvAs kvBs : List Pair) (hlen : kvBs.length < kvAs.length) :
    ∀ (n i : Nat) (st : LogState), kvBs.length - i = n → i ≤ kvBs.length →
      GetSimulationLog.loop quote storeName sdr kvAs kvBs i st =
        Except.error (Fault.indexOutOfRange kvBs.length kvBs.length) := by
  intro n
  induction n with
  | zero =>
    intro i st h hi
    have hi2 : i = kvBs.length := by omega
    subst hi2
    rw [GetSimulationLog.loop]
    simp only [hlen, if_true, index_eq_ok kvAs _ hlen, index_eq_error kvBs _ (le_refl _)]
    by_cases h1 : kvAs[kvBs.length].Value = []
    · simp [h1]
    · cases hs : sdr storeName <;> simp [h1, hs]
  | succ n ih =>
    intro i st h hi
    have hb : i < kvBs.length := by omega
    rw [loop_step _ _ _ _ _ _ _ (by omega) hb, ih (i + 1) _ (by omega) (by omega)]

theorem append_eq_empty (s t : String) (h : s ++ t = "") : s = "" ∧ t = "" := by
  have h1 : (s ++ t).data = [] := by rw [h]
  rw [String.data_append, List.append_eq_nil] at h1
  exact ⟨String.ext_iff.mpr h1.1, String.ext_iff.mpr h1.2⟩

theorem rawRendering_ne_empty (quote : Bytes → String) (a b : Pair) :
    rawRendering quote a b ≠ "" := by
  intro h
  unfold rawRendering at h
  have h1 := (append_eq_empty _ _ h).2
  exact absurd h1 (by decide)

theorem GetSimulationLog_eq (quote : Bytes → String) (storeName : String)
    (sdr : StoreDecoderRegistry) (kvAs kvBs : List Pair) (hlen : kvAs.length ≤ kvBs.length) :
    GetSimulationLog quote storeName sdr kvAs kvBs =
      Except.ok (pairsStep quote storeName sdr kvAs kvBs ⟨"", []⟩).log := by
  unfold GetSimulationLog
  rw [run_eq quote storeName sdr kvAs kvBs hlen]

/-- The iterations on `a1 ++ a2`, `b1 ++ b2` are those on `a1`, `b1` followed by those on
`a2`, `b2`, when `a1` and `b1` have the same length. -/
theorem pairsStep_append (quote : Bytes → String) (storeName : String)
    (sdr : StoreDecoderRegistry) (a2 b2 : List Pair) :
    ∀ (a1 b1 : List Pair) (st : LogState), a1.length = b1.length →
      pairsStep quote storeName sdr (a1 ++ a2) (b1 ++ b2) st =
        pairsStep quote storeName sdr a2 b2 (pairsStep quote storeName sdr a1 b1 st) := by
  intro a1
  induction a1 with
  | nil =>
    intro b1 st h
    cases b1 with
    | nil => simp [pairsStep]
    | cons b rb => simp at h
  | cons a ra ih =>
    intro b1 st h
    cases b1 with
    | nil => simp at h
    | cons b rb =>
      simp only [List.cons_append, pairsStep]
      exact ih rb _ (by simpa using h)

/-- The log after the iterations is the log before them followed by what they add. -/
theorem pairsStep_log (quote : Bytes → String) (storeName : String)
    (sdr : StoreDecoderRegistry) :
    ∀ (kvAs kvBs : List Pair) (st : LogState),
      (pairsStep quote storeName sdr kvAs kvBs st).log =
        st.log ++ (pairsStep quote storeName sdr kvAs kvBs ⟨"", []⟩).log := by
  intro kvAs
  induction kvAs with
  | nil => intro kvBs st; simp [pairsStep]
  | cons a ra ih =>
    intro kvBs st
    cases kvBs with
    | nil => simp [pairsStep]
    | cons b rb =>
      simp only [pairsStep]
      rw [ih rb (pairStep quote storeName sdr a b st),
        ih rb (pairStep quote storeName sdr a b ⟨"", []⟩)]
      unfold pairStep
      by_cases hv : a.Value = [] ∧ b.Value = []
      · simp [hv]
      · cases hs : sdr storeName <;> simp [hv, String.append_assoc]

theorem pairsStep_all_empty (quote : Bytes → String) (storeName : String)
    (sdr : StoreDecoderRegistry) :
    ∀ (kvAs kvBs : List Pair) (st : LogState),
      (∀ p ∈ kvAs, p.Value = []) → (∀ p ∈ kvBs, p.Value = []) →
      pairsStep quote storeName sdr kvAs kvBs st = st := by
  intro kvAs
  induction kvAs with
  | nil => intro kvBs st _ _; simp [pairsStep]
  | cons a ra ih =>
    intro kvBs st hA hB
    cases kvBs with
    | nil => simp [pairsStep]
    | cons b rb =>
      have ha : a.Value = [] := hA a (List.mem_cons_self _ _)
      have hb : b.Value = [] := hB b (List.mem_cons_self _ _)
      simp only [pairsStep, pairStep, ha, hb, List.length_nil, and_self, if_true]
      exact ih rb st (fun p hp => hA p (List.mem_cons_of_mem _ hp))
        (fun p hp => hB p (List.mem_cons_of_mem _ hp))

/-- C4. On equal-length sequences in which every value of `kvAs` and every value of `kvBs`
is empty, `GetSimulationLog` returns the empty string and invokes no decoder, for every
store name, every registry, every number of pairs and all keys. -/
theorem GetSimulationLog_all_empty (quote : Bytes → String) (storeName : String)
    (sdr : StoreDecoderRegistry) (kvAs kvBs : List Pair)
    (hlen : kvAs.length = kvBs.length)
    (hA : ∀ p ∈ kvAs, p.Value = []) (hB : ∀ p ∈ kvBs, p.Value = []) :
    GetSimulationLog quote storeName sdr kvAs kvBs = Except.ok "" ∧
      GetSimulationLogRun quote storeName sdr kvAs kvBs = Except.ok ⟨"", []⟩ := by
  rw [GetSimulationLog_eq quote storeName sdr kvAs kvBs (le_of_eq hlen),
    run_eq quote storeName sdr kvAs kvBs (le_of_eq hlen),
    pairsStep_all_empty quote storeName sdr kvAs kvBs _ hA hB]
  exact ⟨rfl, rfl⟩

theorem GetSimulationLog_all_empty_witness :
    ([⟨[1], []⟩, ⟨[2, 3], []⟩] : List Pair).length = ([⟨[1], []⟩, ⟨[7], []⟩] : List Pair).length ∧
    GetSimulationLog (fun _ => "q") "bank" (fun _ => some (fun _ _ => "decoded"))
        [⟨[1], []⟩, ⟨[2, 3], []⟩] [⟨[1], []⟩, ⟨[7], []⟩] = Except.ok "" ∧
      GetSimulationLogRun (fun _ => "q") "bank" (fun _ => some (fun _ _ => "decoded"))
        [⟨[1], []⟩, ⟨[2, 3], []⟩] [⟨[1], []⟩, ⟨[7], []⟩] = Except.ok ⟨"", []⟩ :=
  ⟨by decide, GetSimulationLog_all_empty (fun _ => "q") "bank"
    (fun _ => some (fun _ _ => "decoded")) [⟨[1], []⟩, ⟨[2, 3], []⟩] [⟨[1], []⟩, ⟨[7], []⟩]
    (by decide) (by decide) (by decide)⟩

/-- C5. On one pair `(a, b)` with at least one non-empty value, `GetSimulationLog` returns
`decoder(a, b)` when the registry has a decoder for the store name, and otherwise the raw
rendering `store A <quoted a.Key> => <quoted a.Value>`, newline,
`store B <quoted b.Key> => <quoted b.Value>`, newline; with or without a decoder it
returns a string. -/
theorem GetSimulationLog_single (quote : Bytes → String) (storeName : String)
    (sdr : StoreDecoderRegistry) (a b : Pair) (hne : a.Value ≠ [] ∨ b.Value ≠ []) :
    (∀ decoder, sdr storeName = some decoder →
      GetSimulationLog quote storeName sdr [a] [b] = Except.ok (decoder a b)) ∧
    (sdr storeName = none →
      GetSimulationLog quote storeName sdr [a] [b] =
        Except.ok ("store A " ++ quote a.Key ++ " => " ++ quote a.Value ++ "\nstore B " ++
          quote b.Key ++ " => " ++ quote b.Value ++ "\n")) := by
  have hv : ¬ (a.Value = [] ∧ b.Value = []) := by
    intro h
    rcases hne with h1 | h1
    · exact h1 h.1
    · exact h1 h.2
  rw [GetSimulationLog_eq quote storeName sdr [a] [b] (le_refl _)]
  constructor
  · intro decoder hs
    simp [pairsStep, pairStep, hv, hs]
  · intro hs
    simp [pairsStep, pairStep, hv, hs, rawRendering]

theorem GetSimulationLog_single_witness :
    ((⟨[1], [2]⟩ : Pair).Value ≠ [] ∨ (⟨[1], []⟩ : Pair).Value ≠ []) ∧
    (∀ decoder, (fun _ => none : StoreDecoderRegistry) "bank" = some decoder →
      GetSimulationLog (fun _ => "q") "bank" (fun _ => none) [⟨[1], [2]⟩] [⟨[1], []⟩] =
        Except.ok (decoder ⟨[1], [2]⟩ ⟨[1], []⟩)) ∧
    ((fun _ => none : StoreDecoderRegistry) "bank" = none →
      GetSimulationLog (fun _ => "q") "bank" (fun _ => none) [⟨[1], [2]⟩] [⟨[1], []⟩] =
        Except.ok ("store A " ++ (fun _ => "q") ([1] : Bytes) ++ " => " ++
          (fun _ => "q") ([2] : Bytes) ++ "\nstore B " ++
          (fun _ => "q") ([1] : Bytes) ++ " => " ++ (fun _ => "q") ([] : Bytes) ++ "\n")) :=
  ⟨by decide, GetSimulationLog_single (fun _ => "q") "bank" (fun _ => none)
    ⟨[1], [2]⟩ ⟨[1], []⟩ (by decide)⟩

/-- C6. `GetSimulationLog` concatenates the renderings in index order: on `a1 ++ a2` and
`b1 ++ b2`, with `len(a1) = len(b1)` and `len(a2) = len(b2)`, it returns the string it
returns on `a1`, `b1` followed by the string it returns on `a2`, `b2`; on empty sequences
it returns the empty string. -/
theorem GetSimulationLog_append (quote : Bytes → String) (storeName : String)
    (sdr : StoreDecoderRegistry) (a1 b1 a2 b2 : List Pair)
    (h1 : a1.length = b1.length) (h2 : a2.length = b2.length) :
    (∃ s1 s2, GetSimulationLog quote storeName sdr a1 b1 = Except.ok s1 ∧
      GetSimulationLog quote storeName sdr a2 b2 = Except.ok s2 ∧
      GetSimulationLog quote storeName sdr (a1 ++ a2) (b1 ++ b2) = Except.ok (s1 ++ s2)) ∧
    GetSimulationLog quote storeName sdr [] [] = Except.ok "" := by
  refine ⟨⟨_, _, GetSimulationLog_eq quote storeName sdr a1 b1 (le_of_eq h1),
    GetSimulationLog_eq quote storeName sdr a2 b2 (le_of_eq h2), ?_⟩, ?_⟩
  · rw [GetSimulationLog_eq quote storeName sdr (a1 ++ a2) (b1 ++ b2)
      (by simp [List.length_append, h1, h2]),
      pairsStep_append quote storeName sdr a2 b2 a1 b1 _ h1, pairsStep_log]
  · rw [GetSimulationLog_eq quote storeName sdr [] [] (le_refl _)]
    rfl

theorem GetSimulationLog_append_witness :
    ([⟨[1], [2]⟩] : List Pair).length = ([⟨[1], [3]⟩] : List Pair).length ∧
    ([⟨[4], []⟩, ⟨[5], [6]⟩] : List Pair).length =
      ([⟨[4], []⟩, ⟨[5], []⟩] : List Pair).length ∧
    ((∃ s1 s2, GetSimulationLog (fun _ => "q") "bank" (fun _ => none)
        [⟨[1], [2]⟩] [⟨[1], [3]⟩] = Except.ok s1 ∧
      GetSimulationLog (fun _ => "q") "bank" (fun _ => none)
        [⟨[4], []⟩, ⟨[5], [6]⟩] [⟨[4], []⟩, ⟨[5], []⟩] = Except.ok s2 ∧
      GetSimulationLog (fun _ => "q") "bank" (fun _ => none)
        ([⟨[1], [2]⟩] ++ [⟨[4], []⟩, ⟨[5], [6]⟩])
        ([⟨[1], [3]⟩] ++ [⟨[4], []⟩, ⟨[5], []⟩]) = Except.ok (s1 ++ s2)) ∧
    GetSimulationLog (fun _ => "q") "bank" (fun _ => none) [] [] = Except.ok "") :=
  ⟨by decide, by decide, GetSimulationLog_append (fun _ => "q") "bank" (fun _ => none)
    [⟨[1], [2]⟩] [⟨[1], [3]⟩] [⟨[4], []⟩, ⟨[5], [6]⟩] [⟨[4], []⟩, ⟨[5], []⟩]
    (by decide) (by decide)⟩

/-- The log of the iterations on two non-empty lists: the rendering of the heads, then the
log of the iterations on the tails. -/
theorem pairsStep_cons_log (quote : Bytes → String) (storeName : String)
    (sdr : StoreDecoderRegistry) (a b : Pair) (ra rb : List Pair) :
    (pairsStep quote storeName sdr (a :: ra) (b :: rb) ⟨"", []⟩).log =
      (pairStep quote storeName sdr a b ⟨"", []⟩).log ++
        (pairsStep quote storeName sdr ra rb ⟨"", []⟩).log := by
  simp only [pairsStep]
  rw [pairsStep_log]

theorem pairsStep_log_empty (quote : Bytes → String) (storeName : String)
    (sdr : StoreDecoderRegistry) :
    ∀ (kvAs kvBs : List Pair), kvAs.length = kvBs.length →
      (∀ decoder, sdr storeName = some decoder → ∀ p ∈ List.zip kvAs kvBs,
        (p.1.Value ≠ [] ∨ p.2.Value ≠ []) → decoder p.1 p.2 ≠ "") →
      (pairsStep quote storeName sdr kvAs kvBs ⟨"", []⟩).log = "" →
      (∀ p ∈ kvAs, p.Value = []) ∧ (∀ p ∈ kvBs, p.Value = []) := by
  intro kvAs
  induction kvAs with
  | nil =>
    intro kvBs hlen _ _
    cases kvBs with
    | nil => simp
    | cons b rb => simp at hlen
  | cons a ra ih =>
    intro kvBs hlen hdec hlog
    cases kvBs with
    | nil => simp at hlen
    | cons b rb =>
      rw [pairsStep_cons_log] at hlog
      obtain ⟨hhead, htail⟩ := append_eq_empty _ _ hlog
      have hrec := ih rb (by simpa using hlen)
        (fun d hd p hp => hdec d hd p (List.mem_cons_of_mem _ hp)) htail
      have hv : a.Value = [] ∧ b.Value = [] := by
        by_contra hv
        have hne : a.Value ≠ [] ∨ b.Value ≠ [] := by
          by_cases h1 : a.Value = []
          · exact Or.inr (fun h2 => hv ⟨h1, h2⟩)
          · exact Or.inl h1
        cases hs : sdr storeName with
        | none =>
          simp [pairStep, hv, hs] at hhead
          exact rawRendering_ne_empty quote a b hhead
        | some d =>
          simp [pairStep, hv, hs] at hhead
          exact hdec d hs (a, b) (by simp) hne hhead
      constructor
      · intro p hp
        rcases List.mem_cons.mp hp with h | h
        · rw [h]; exact hv.1
        · exact hrec.1 p h
      · intro p hp
        rcases List.mem_cons.mp hp with h | h
        · rw [h]; exact hv.2
        · exact hrec.2 p h

/-- C7, as the code has it. If `GetSimulationLog` returns the empty string on equal-length
sequences, and the decoder registered for the store name, if there is one, returns a
non-empty string on every pair `(kvAs[i], kvBs[i])` that has a non-empty value, then at
every index both values are empty. -/
theorem GetSimulationLog_empty_report (quote : Bytes → String) (storeName : String)
    (sdr : StoreDecoderRegistry) (kvAs kvBs : List Pair)
    (hlen : kvAs.length = kvBs.length)
    (hdec : ∀ decoder, sdr storeName = some decoder → ∀ p ∈ List.zip kvAs kvBs,
      (p.1.Value ≠ [] ∨ p.2.Value ≠ []) → decoder p.1 p.2 ≠ "")
    (hres : GetSimulationLog quote storeName sdr kvAs kvBs = Except.ok "") :
    (∀ p ∈ kvAs, p.Value = []) ∧ (∀ p ∈ kvBs, p.Value = []) := by
  rw [GetSimulationLog_eq quote storeName sdr kvAs kvBs (le_of_eq hlen)] at hres
  exact pairsStep_log_empty quote storeName sdr kvAs kvBs hlen hdec (Except.ok.inj hres)

theorem GetSimulationLog_empty_report_witness :
    GetSimulationLog (fun _ => "q") "bank" (fun _ => some (fun _ _ => "decoded"))
        [⟨[1], []⟩] [⟨[1], []⟩] = Except.ok "" ∧
    ((∀ p ∈ ([⟨[1], []⟩] : List Pair), p.Value = []) ∧
      (∀ p ∈ ([⟨[1], []⟩] : List Pair), p.Value = [])) :=
  have h : GetSimulationLog (fun _ => "q") "bank" (fun _ => some (fun _ _ => "decoded"))
        [⟨[1], []⟩] [⟨[1], []⟩] = Except.ok "" := by
    simp [GetSimulationLog, GetSimulationLogRun, GetSimulationLog.loop, index]
  ⟨h, GetSimulationLog_empty_report (fun _ => "q") "bank"
    (fun _ => some (fun _ _ => "decoded")) [⟨[1], []⟩] [⟨[1], []⟩] (by decide)
    (by
      intro decoder hd p _ _
      have hd2 : decoder = fun _ _ => "decoded" := (Option.some.inj hd).symm
      rw [hd2]
      show "decoded" ≠ ""
      decide) h⟩

/-- C7, as stated, fails: with a decoder that renders a pair as the empty string,
`GetSimulationLog` returns the empty string on a pair whose values are not empty. -/
theorem GetSimulationLog_empty_report_counterexample :
    ([⟨[1], [2]⟩] : List Pair).length = ([⟨[1], [3]⟩] : List Pair).length ∧
    GetSimulationLog (fun _ => "q") "bank" (fun _ => some (fun _ _ => ""))
        [⟨[1], [2]⟩] [⟨[1], [3]⟩] = Except.ok "" ∧
    ¬ ((∀ p ∈ ([⟨[1], [2]⟩] : List Pair), p.Value = []) ∧
      (∀ p ∈ ([⟨[1], [3]⟩] : List Pair), p.Value = [])) := by
  refine ⟨by decide, ?_, by decide⟩
  simp [GetSimulationLog, GetSimulationLogRun, GetSimulationLog.loop, index]

/-- C8. When `len(kvAs) = len(kvBs)`, `GetSimulationLog` returns a string: at every index
`i < len(kvAs)` it visits, the accesses `kvAs[i]` and `kvBs[i]` are in range, and the
result is not an index-out-of-range panic. -/
theorem GetSimulationLog_total (quote : Bytes → String) (storeName : String)
    (sdr : StoreDecoderRegistry) (kvAs kvBs : List Pair)
    (hlen : kvAs.length = kvBs.length) :
    (∃ log, GetSimulationLog quote storeName sdr kvAs kvBs = Except.ok log) ∧
    (∀ i, i < kvAs.length →
      (∃ a, index kvAs i = Except.ok a) ∧ (∃ b, index kvBs i = Except.ok b)) ∧
    (∀ i len, GetSimulationLog quote storeName sdr kvAs kvBs ≠
      Except.error (Fault.indexOutOfRange i len)) := by
  have h := GetSimulationLog_eq quote storeName sdr kvAs kvBs (le_of_eq hlen)
  refine ⟨⟨_, h⟩, ?_, ?_⟩
  · intro i hi
    exact ⟨⟨_, index_eq_ok kvAs i hi⟩, ⟨_, index_eq_ok kvBs i (hlen ▸ hi)⟩⟩
  · intro i len hc
    rw [h] at hc
    cases hc

theorem GetSimulationLog_total_witness :
    ([⟨[1], [2]⟩, ⟨[4], []⟩] : List Pair).length =
      ([⟨[1], [3]⟩, ⟨[4], []⟩] : List Pair).length ∧
    ((∃ log, GetSimulationLog (fun _ => "q") "bank" (fun _ => none)
        [⟨[1], [2]⟩, ⟨[4], []⟩] [⟨[1], [3]⟩, ⟨[4], []⟩] = Except.ok log) ∧
    (∀ i, i < ([⟨[1], [2]⟩, ⟨[4], []⟩] : List Pair).length →
      (∃ a, index ([⟨[1], [2]⟩, ⟨[4], []⟩] : List Pair) i = Except.ok a) ∧
      (∃ b, index ([⟨[1], [3]⟩, ⟨[4], []⟩] : List Pair) i = Except.ok b)) ∧
    (∀ i len, GetSimulationLog (fun _ => "q") "bank" (fun _ => none)
        [⟨[1], [2]⟩, ⟨[4], []⟩] [⟨[1], [3]⟩, ⟨[4], []⟩] ≠
      Except.error (Fault.indexOutOfRange i len))) :=
  ⟨by decide, GetSimulationLog_total (fun _ => "q") "bank" (fun _ => none)
    [⟨[1], [2]⟩, ⟨[4], []⟩] [⟨[1], [3]⟩, ⟨[4], []⟩] (by decide)⟩

/-! ## The comparison loop of `TestAppImportExport` -/

/-- An iteration on an entry with no divergent pair on either side passes on to the next
entry. -/
theorem compare_cons_zero (w : World) (skp : StoreKeysPrefixes) (rest : List StoreKeysPrefixes)
    (tr : List Step) (hA : (w.DiffKVStores skp.A skp.B skp.Prefixes).1.length = 0)
    (hB : (w.DiffKVStores skp.A skp.B skp.Prefixes).2.length = 0) :
    TestAppImportExport.compare w (skp :: rest) tr =
      TestAppImportExport.compare w rest (tr ++ compareSteps w skp) := by
  have hlog := GetSimulationLog_eq w.quote skp.A.Name w.StoreDecoders
    (w.DiffKVStores skp.A skp.B skp.Prefixes).1 (w.DiffKVStores skp.A skp.B skp.Prefixes).2
    (by omega)
  simp only [TestAppImportExport.compare, hlog, hA, hB, compareSteps]
  simp

/-- An iteration on an entry with equal-length, non-empty sequences fails the test with the
simulation log as its message. -/
theorem compare_cons_nonzero (w : World) (skp : StoreKeysPrefixes)
    (rest : List StoreKeysPrefixes) (tr : List Step)
    (hlen : (w.DiffKVStores skp.A skp.B skp.Prefixes).1.length =
      (w.DiffKVStores skp.A skp.B skp.Prefixes).2.length)
    (hA : (w.DiffKVStores skp.A skp.B skp.Prefixes).1.length ≠ 0) :
    ∃ log, GetSimulationLog w.quote skp.A.Name w.StoreDecoders
        (w.DiffKVStores skp.A skp.B skp.Prefixes).1
        (w.DiffKVStores skp.A skp.B skp.Prefixes).2 = Except.ok log ∧
      TestAppImportExport.compare w (skp :: rest) tr =
        (TestResult.failed (Failure.lenNotZero
          (w.DiffKVStores skp.A skp.B skp.Prefixes).1.length log),
         tr ++ compareSteps w skp) := by
  have hlog := GetSimulationLog_eq w.quote skp.A.Name w.StoreDecoders
    (w.DiffKVStores skp.A skp.B skp.Prefixes).1 (w.DiffKVStores skp.A skp.B skp.Prefixes).2
    (le_of_eq hlen)
  refine ⟨_, hlog, ?_⟩
  simp only [TestAppImportExport.compare, hlog, compareSteps]
  rw [if_neg (not_not.mpr hlen), if_pos hA]
  simp

/-- An iteration on an entry with sequences of different lengths fails the test right after
the comparator has returned. -/
theorem compare_cons_mismatch (w : World) (skp : StoreKeysPrefixes)
    (rest : List StoreKeysPrefixes) (tr : List Step)
    (hlen : (w.DiffKVStores skp.A skp.B skp.Prefixes).1.length ≠
      (w.DiffKVStores skp.A skp.B skp.Prefixes).2.length) :
    TestAppImportExport.compare w (skp :: rest) tr =
      (TestResult.failed (Failure.lengthsNotEqual
        (w.DiffKVStores skp.A skp.B skp.Prefixes).1.length
        (w.DiffKVStores skp.A skp.B skp.Prefixes).2.length
        "unequal sets of key-values to compare"), tr ++ [Step.diffed skp]) := by
  simp [TestAppImportExport.compare, hlen]

/-- The loop runs through a prefix of entries without divergent pairs. -/
theorem compare_pass_through (w : World) (rest : List StoreKeysPrefixes) :
    ∀ (pre : List StoreKeysPrefixes) (tr : List Step),
      (∀ e ∈ pre, (w.DiffKVStores e.A e.B e.Prefixes).1.length = 0 ∧
        (w.DiffKVStores e.A e.B e.Prefixes).2.length = 0) →
      TestAppImportExport.compare w (pre ++ rest) tr =
        TestAppImportExport.compare w rest (tr ++ passSteps w pre) := by
  intro pre
  induction pre with
  | nil => intro tr _; simp [passSteps]
  | cons e pre ih =>
    intro tr h
    have he := h e (List.mem_cons_self _ _)
    rw [List.cons_append, compare_cons_zero w e _ tr he.1 he.2,
      ih _ (fun x hx => h x (List.mem_cons_of_mem _ hx))]
    simp [passSteps, List.append_assoc]

theorem compare_pass_iff (w : World) :
    ∀ (l : List StoreKeysPrefixes) (tr : List Step),
      (∀ e ∈ l, (w.DiffKVStores e.A e.B e.Prefixes).1.length =
        (w.DiffKVStores e.A e.B e.Prefixes).2.length) →
      ((TestAppImportExport.compare w l tr).1 = TestResult.passed ↔
        ∀ e ∈ l, (w.DiffKVStores e.A e.B e.Prefixes).1.length = 0) := by
  intro l
  induction l with
  | nil => intro tr _; simp [TestAppImportExport.compare]
  | cons e rest ih =>
    intro tr h
    have he := h e (List.mem_cons_self _ _)
    have hrest := fun x hx => h x (List.mem_cons_of_mem e hx)
    by_cases h0 : (w.DiffKVStores e.A e.B e.Prefixes).1.length = 0
    · rw [compare_cons_zero w e rest tr h0 (by omega), ih _ hrest]
      constructor
      · intro hr x hx
        rcases List.mem_cons.mp hx with hx | hx
        · rw [hx]; exact h0
        · exact hr x hx
      · intro hr x hx
        exact hr x (List.mem_cons_of_mem e hx)
    · obtain ⟨log, _, hc⟩ := compare_cons_nonzero w e rest tr he h0
      rw [hc]
      constructor
      · intro hp
        cases hp
      · intro hr
        exact absurd (hr e (List.mem_cons_self _ _)) h0

/-- A list that has an entry with divergent pairs splits at the first such entry. -/
theorem exists_first_nonzero (w : World) :
    ∀ (l : List StoreKeysPrefixes),
      ¬ (∀ e ∈ l, (w.DiffKVStores e.A e.B e.Prefixes).1.length = 0) →
      ∃ pre skp post, l = pre ++ skp :: post ∧
        (∀ e ∈ pre, (w.DiffKVStores e.A e.B e.Prefixes).1.length = 0) ∧
        (w.DiffKVStores skp.A skp.B skp.Prefixes).1.length ≠ 0 := by
  intro l
  induction l with
  | nil => intro h; exact absurd (fun e he => absurd he (List.not_mem_nil e)) h
  | cons x rest ih =>
    intro h
    by_cases h0 : (w.DiffKVStores x.A x.B x.Prefixes).1.length = 0
    · have hrest : ¬ (∀ e ∈ rest, (w.DiffKVStores e.A e.B e.Prefixes).1.length = 0) := by
        intro hr
        apply h
        intro e he
        rcases List.mem_cons.mp he with he | he
        · rw [he]; exact h0
        · exact hr e he
      obtain ⟨pre, skp, post, hl, hpre, hskp⟩ := ih hrest
      refine ⟨x :: pre, skp, post, by rw [hl]; rfl, ?_, hskp⟩
      intro e he
      rcases List.mem_cons.mp he with he | he
      · rw [he]; exact h0
      · exact hpre e he
    · exact ⟨[], x, rest, rfl, fun e he => absurd he (List.not_mem_nil e), h0⟩

/-- C2. In the comparison loop, with a comparator that returns sequences of equal length
for every entry of the list: the loop passes if and only if no entry has a divergent pair;
otherwise it fails at the first entry that has one, with the message
`GetSimulationLog(skp.A.Name(), StoreDecoders, failedKVAs, failedKVBs)` of that entry, and
the steps taken are those of the entries before it and of that entry, none of a later
one. -/
theorem compare_verdict (w : World) (l : List StoreKeysPrefixes) (tr : List Step)
    (hlen : ∀ e ∈ l, (w.DiffKVStores e.A e.B e.Prefixes).1.length =
      (w.DiffKVStores e.A e.B e.Prefixes).2.length) :
    ((TestAppImportExport.compare w l tr).1 = TestResult.passed ↔
      ∀ e ∈ l, (w.DiffKVStores e.A e.B e.Prefixes).1.length = 0) ∧
    (¬ (∀ e ∈ l, (w.DiffKVStores e.A e.B e.Prefixes).1.length = 0) →
      ∃ pre skp post log, l = pre ++ skp :: post ∧
        (∀ e ∈ pre, (w.DiffKVStores e.A e.B e.Prefixes).1.length = 0) ∧
        (w.DiffKVStores skp.A skp.B skp.Prefixes).1.length ≠ 0 ∧
        GetSimulationLog w.quote skp.A.Name w.StoreDecoders
          (w.DiffKVStores skp.A skp.B skp.Prefixes).1
          (w.DiffKVStores skp.A skp.B skp.Prefixes).2 = Except.ok log ∧
        TestAppImportExport.compare w l tr =
          (TestResult.failed (Failure.lenNotZero
            (w.DiffKVStores skp.A skp.B skp.Prefixes).1.length log),
           tr ++ passSteps w pre ++ compareSteps w skp)) := by
  refine ⟨compare_pass_iff w l tr hlen, ?_⟩
  intro hnz
  obtain ⟨pre, skp, post, hl, hpre, hskp⟩ := exists_first_nonzero w l hnz
  have hskpLen := hlen skp (by rw [hl]; simp)
  have hpre2 : ∀ e ∈ pre, (w.DiffKVStores e.A e.B e.Prefixes).1.length = 0 ∧
      (w.DiffKVStores e.A e.B e.Prefixes).2.length = 0 := by
    intro e he
    have h1 := hpre e he
    have h2 := hlen e (by rw [hl]; simp [he])
    exact ⟨h1, by omega⟩
  obtain ⟨log, hlog, hc⟩ := compare_cons_nonzero w skp post (tr ++ passSteps w pre) hskpLen hskp
  refine ⟨pre, skp, post, log, hl, hpre, hskp, hlog, ?_⟩
  rw [hl, compare_pass_through w (skp :: post) pre tr hpre2, hc]

/-- Every `GetSimulationLog` step that the loop adds has arguments of equal length. -/
theorem compare_simulationLog_lengths (w : World) :
    ∀ (l : List StoreKeysPrefixes) (tr : List Step) (name : String) (kvAs kvBs : List Pair),
      Step.simulationLog name kvAs kvBs ∈ (TestAppImportExport.compare w l tr).2 →
      Step.simulationLog name kvAs kvBs ∈ tr ∨ kvAs.length = kvBs.length := by
  intro l
  induction l with
  | nil => intro tr name kvAs kvBs h; exact Or.inl (by simpa [TestAppImportExport.compare] using h)
  | cons e rest ih =>
    intro tr name kvAs kvBs h
    by_cases hlen : (w.DiffKVStores e.A e.B e.Prefixes).1.length =
        (w.DiffKVStores e.A e.B e.Prefixes).2.length
    · have hstep : Step.simulationLog name kvAs kvBs ∈ tr ++ compareSteps w e →
          Step.simulationLog name kvAs kvBs ∈ tr ∨ kvAs.length = kvBs.length := by
        intro hm
        rcases List.mem_append.mp hm with hm | hm
        · exact Or.inl hm
        · simp [compareSteps] at hm
          obtain ⟨_, hA, hB⟩ := hm
          rw [hA, hB]
          exact Or.inr hlen
      by_cases h0 : (w.DiffKVStores e.A e.B e.Prefixes).1.length = 0
      · rw [compare_cons_zero w e rest tr h0 (by omega)] at h
        rcases ih _ name kvAs kvBs h with h1 | h1
        · exact hstep h1
        · exact Or.inr h1
      · obtain ⟨log, _, hc⟩ := compare_cons_nonzero w e rest tr hlen h0
        rw [hc] at h
        exact hstep h
    · rw [compare_cons_mismatch w e rest tr hlen] at h
      rcases List.mem_append.mp h with hm | hm
      · exact Or.inl hm
      · simp at hm

theorem compare_verdict_witness :
    (∀ e ∈ sampleEntries, (sampleDiffWorld.DiffKVStores e.A e.B e.Prefixes).1.length =
      (sampleDiffWorld.DiffKVStores e.A e.B e.Prefixes).2.length) ∧
    (((TestAppImportExport.compare sampleDiffWorld sampleEntries []).1 = TestResult.passed ↔
      ∀ e ∈ sampleEntries, (sampleDiffWorld.DiffKVStores e.A e.B e.Prefixes).1.length = 0) ∧
    (¬ (∀ e ∈ sampleEntries,
        (sampleDiffWorld.DiffKVStores e.A e.B e.Prefixes).1.length = 0) →
      ∃ pre skp post log, sampleEntries = pre ++ skp :: post ∧
        (∀ e ∈ pre, (sampleDiffWorld.DiffKVStores e.A e.B e.Prefixes).1.length = 0) ∧
        (sampleDiffWorld.DiffKVStores skp.A skp.B skp.Prefixes).1.length ≠ 0 ∧
        GetSimulationLog sampleDiffWorld.quote skp.A.Name sampleDiffWorld.StoreDecoders
          (sampleDiffWorld.DiffKVStores skp.A skp.B skp.Prefixes).1
          (sampleDiffWorld.DiffKVStores skp.A skp.B skp.Prefixes).2 = Except.ok log ∧
        TestAppImportExport.compare sampleDiffWorld sampleEntries [] =
          (TestResult.failed (Failure.lenNotZero
            (sampleDiffWorld.DiffKVStores skp.A skp.B skp.Prefixes).1.length log),
           [] ++ passSteps sampleDiffWorld pre ++ compareSteps sampleDiffWorld skp))) :=
  have h : ∀ e ∈ sampleEntries, (sampleDiffWorld.DiffKVStores e.A e.B e.Prefixes).1.length =
      (sampleDiffWorld.DiffKVStores e.A e.B e.Prefixes).2.length := by decide
  ⟨h, compare_verdict sampleDiffWorld sampleEntries [] h⟩

/-- C9. In the comparison loop, an entry for which the comparator returns sequences of
different lengths fails the test with the message `unequal sets of key-values to compare`
right after the comparator has returned: no `GetSimulationLog` step and no zero-length
assertion is made for it. Hence every `GetSimulationLog` step of the loop has arguments of
equal length. -/
theorem compare_length_mismatch (w : World) (pre : List StoreKeysPrefixes)
    (skp : StoreKeysPrefixes) (post : List StoreKeysPrefixes) (tr : List Step)
    (hpre : ∀ e ∈ pre, (w.DiffKVStores e.A e.B e.Prefixes).1.length = 0 ∧
      (w.DiffKVStores e.A e.B e.Prefixes).2.length = 0)
    (hlen : (w.DiffKVStores skp.A skp.B skp.Prefixes).1.length ≠
      (w.DiffKVStores skp.A skp.B skp.Prefixes).2.length) :
    TestAppImportExport.compare w (pre ++ skp :: post) tr =
      (TestResult.failed (Failure.lengthsNotEqual
        (w.DiffKVStores skp.A skp.B skp.Prefixes).1.length
        (w.DiffKVStores skp.A skp.B skp.Prefixes).2.length
        "unequal sets of key-values to compare"),
       tr ++ passSteps w pre ++ [Step.diffed skp]) ∧
    (∀ (l : List StoreKeysPrefixes) (name : String) (kvAs kvBs : List Pair),
      Step.simulationLog name kvAs kvBs ∈ (TestAppImportExport.compare w l []).2 →
      kvAs.length = kvBs.length) := by
  constructor
  · rw [compare_pass_through w (skp :: post) pre tr hpre,
      compare_cons_mismatch w skp post _ hlen]
  · intro l name kvAs kvBs h
    rcases compare_simulationLog_lengths w l [] name kvAs kvBs h with h1 | h1
    · exact absurd h1 (List.not_mem_nil _)
    · exact h1

theorem compare_length_mismatch_witness :
    (∀ e ∈ [skpEntry "acc" []],
      (sampleDiffWorld.DiffKVStores e.A e.B e.Prefixes).1.length = 0 ∧
      (sampleDiffWorld.DiffKVStores e.A e.B e.Prefixes).2.length = 0) ∧
    (sampleDiffWorld.DiffKVStores (skpEntry "gov" []).A (skpEntry "gov" []).B
        (skpEntry "gov" []).Prefixes).1.length ≠
      (sampleDiffWorld.DiffKVStores (skpEntry "gov" []).A (skpEntry "gov" []).B
        (skpEntry "gov" []).Prefixes).2.length ∧
    (TestAppImportExport.compare sampleDiffWorld
        ([skpEntry "acc" []] ++ skpEntry "gov" [] :: [skpEntry "bank" []]) [] =
      (TestResult.failed (Failure.lengthsNotEqual
        (sampleDiffWorld.DiffKVStores (skpEntry "gov" []).A (skpEntry "gov" []).B
          (skpEntry "gov" []).Prefixes).1.length
        (sampleDiffWorld.DiffKVStores (skpEntry "gov" []).A (skpEntry "gov" []).B
          (skpEntry "gov" []).Prefixes).2.length
        "unequal sets of key-values to compare"),
       [] ++ passSteps sampleDiffWorld [skpEntry "acc" []] ++
        [Step.diffed (skpEntry "gov" [])]) ∧
    (∀ (l : List StoreKeysPrefixes) (name : String) (kvAs kvBs : List Pair),
      Step.simulationLog name kvAs kvBs ∈
        (TestAppImportExport.compare sampleDiffWorld l []).2 →
      kvAs.length = kvBs.length)) :=
  ⟨by decide, by decide, compare_length_mismatch sampleDiffWorld [skpEntry "acc" []]
    (skpEntry "gov" []) [skpEntry "bank" []] [] (by decide) (by decide)⟩

/-- C3, as the code has it. When the simulation of instance A returns an error and the
steps before the assertion of line 199 succeed, the test fails with that error: it has run
`simapp.CheckExportSimulation`, and it runs neither `ExportAppStateAndValidators`, nor
the import into B, nor the comparison of the stores. -/
theorem TestAppImportExport_simErr (c : Imports) (w : World) (e : String)
    (hskip : w.setupSkip = false) (hsetup : w.setupErr = none) (hname : w.Name = w.nameA)
    (hcheck : w.checkExportErr = none) (hsim : w.simErr = some e) :
    TestAppImportExport c w =
      (TestResult.failed (Failure.noError e ""),
       [Step.simulated, Step.checkedExportSimulation]) := by
  simp [TestAppImportExport, hskip, hsetup, hname, hcheck, hsim]

theorem TestAppImportExport_simErr_witness :
    TestAppImportExport sampleImports (sampleWorld (some "simulation failed")) =
      (TestResult.failed (Failure.noError "simulation failed" ""),
       [Step.simulated, Step.checkedExportSimulation]) :=
  TestAppImportExport_simErr sampleImports (sampleWorld (some "simulation failed"))
    "simulation failed" rfl rfl rfl rfl rfl

/-- C3, as stated, fails: in an execution where every other step succeeds and the stores of
A and B agree on every namespace, so that the comparison passes, a simulation error alone
fails the test, before the state is exported for the import; without the error the same
execution passes. -/
theorem TestAppImportExport_simErr_counterexample :
    TestAppImportExport sampleImports (sampleWorld (some "simulation failed")) =
      (TestResult.failed (Failure.noError "simulation failed" ""),
       [Step.simulated, Step.checkedExportSimulation]) ∧
    (TestAppImportExport sampleImports (sampleWorld none)).1 = TestResult.passed ∧
    (TestAppImportExport.compare (sampleWorld (some "simulation failed"))
      (storeKeysPrefixes sampleImports) []).1 = TestResult.passed := by
  have hz : ∀ (s : Option String), ∀ e ∈ storeKeysPrefixes sampleImports,
      ((sampleWorld s).DiffKVStores e.A e.B e.Prefixes).1.length =
        ((sampleWorld s).DiffKVStores e.A e.B e.Prefixes).2.length := by
    intro s e _
    rfl
  have hp : ∀ (s : Option String) (tr : List Step),
      (TestAppImportExport.compare (sampleWorld s) (storeKeysPrefixes sampleImports) tr).1 =
        TestResult.passed := by
    intro s tr
    rw [compare_pass_iff (sampleWorld s) _ tr (hz s)]
    intro e _
    rfl
  refine ⟨by simp [TestAppImportExport, sampleWorld], ?_, hp _ []⟩
  have h2 : TestAppImportExport sampleImports (sampleWorld none) =
      TestAppImportExport.compare (sampleWorld none) (storeKeysPrefixes sampleImports)
        ([Step.simulated, Step.checkedExportSimulation] ++ [Step.exportedState] ++
          [Step.importedState, Step.deletedKey ⟨Instance.A, sampleImports.wasmStoreKey⟩
            sampleImports.TXCounterPrefix]) := by
    simp [TestAppImportExport, sampleWorld]
  rw [h2]
  exact hp none _

/-! ## The loops of `TestAppStateDeterminism` -/

theorem runs_done (sim : SimRun) (S R i j : Nat) (st : CampaignState) (hj : R ≤ j) :
    TestAppStateDeterminism.runs sim S R i j st = (Verdict.pass, st) := by
  rw [TestAppStateDeterminism.runs]
  simp [Nat.not_lt.mpr hj]

/-- A run whose simulation returns an error fails the campaign. -/
theorem runs_error (sim : SimRun) (S R i j : Nat) (st : CampaignState) (hj : j < R)
    (err : String) (hsim : sim i j st.Seed = Except.error err) :
    TestAppStateDeterminism.runs sim S R i j st =
      (Verdict.simulationError err,
       ⟨st.appHashList, st.Seed, st.draws, st.trace ++ [Event.runStarted i j st.Seed]⟩) := by
  rw [TestAppStateDeterminism.runs]
  simp [hj, hsim]

/-- The first run of a seed records its hash and is followed by the second. -/
theorem runs_first (sim : SimRun) (S R i : Nat) (st : CampaignState) (hj : 0 < R)
    (hlen : st.appHashList.length = R) (h : Bytes) (hsim : sim i 0 st.Seed = Except.ok h) :
    TestAppStateDeterminism.runs sim S R i 0 st =
      TestAppStateDeterminism.runs sim S R i 1
        ⟨st.appHashList.set 0 h, st.Seed, st.draws,
         st.trace ++ [Event.runStarted i 0 st.Seed, Event.hashRecorded i 0 h]⟩ := by
  rw [TestAppStateDeterminism.runs]
  simp [hj, hsim, assignIndex, hlen]

/-- A later run whose hash equals the entry `appHashList[0]` is followed by the next. -/
theorem runs_equal (sim : SimRun) (S R i j : Nat) (st : CampaignState) (hj : j < R)
    (hj0 : j ≠ 0) (hlen : st.appHashList.length = R) (h : Bytes)
    (hsim : sim i j st.Seed = Except.ok h) (h0 : st.appHashList[0]? = some h) :
    TestAppStateDeterminism.runs sim S R i j st =
      TestAppStateDeterminism.runs sim S R i (j + 1)
        ⟨st.appHashList.set j h, st.Seed, st.draws,
         st.trace ++ [Event.runStarted i j st.Seed, Event.hashRecorded i j h,
           Event.compared i j h h]⟩ := by
  have hidx0 : index (st.appHashList.set j h) 0 = Except.ok h := by
    simp [index, List.getElem?_set, hj0, h0]
  have hidxj : index (st.appHashList.set j h) j = Except.ok h := by
    simp [index, List.getElem?_set, hlen, hj]
  rw [TestAppStateDeterminism.runs]
  simp [hj, hsim, assignIndex, hlen, hj0, hidx0, hidxj]

/-- A later run whose hash differs from the entry `appHashList[0]` fails the campaign. -/
theorem runs_differ (sim : SimRun) (S R i j : Nat) (st : CampaignState) (hj : j < R)
    (hj0 : j ≠ 0) (hlen : st.appHashList.length = R) (h h0 : Bytes)
    (hsim : sim i j st.Seed = Except.ok h) (hh0 : st.appHashList[0]? = some h0)
    (hne : h0 ≠ h) :
    TestAppStateDeterminism.runs sim S R i j st =
      (Verdict.nonDeterminism h0 h st.Seed (i + 1) S (j + 1) R
        (nonDeterminismMessage st.Seed i S j R),
       ⟨st.appHashList.set j h, st.Seed, st.draws,
         st.trace ++ [Event.runStarted i j st.Seed, Event.hashRecorded i j h,
           Event.compared i j h0 h]⟩) := by
  have hidx0 : index (st.appHashList.set j h) 0 = Except.ok h0 := by
    simp [index, List.getElem?_set, hj0, hh0]
  have hidxj : index (st.appHashList.set j h) j = Except.ok h := by
    simp [index, List.getElem?_set, hlen, hj]
  rw [TestAppStateDeterminism.runs]
  simp [hj, hsim, assignIndex, hlen, hj0, hidx0, hidxj, hne]

/-- The inner loop from repetition `j` on, when every run of the seed succeeds with the
hash `c j`: it passes exactly when every later hash equals `c 0`, and it keeps the length of
`appHashList` and the number of values drawn. -/
theorem runs_pass_iff (sim : SimRun) (S R i : Nat) (seed : Int) (c : Nat → Bytes)
    (hsim : ∀ j, j < R → sim i j seed = Except.ok (c j)) :
    ∀ (n j : Nat) (st : CampaignState), R - j = n → st.Seed = seed →
      st.appHashList.length = R → (j ≠ 0 → st.appHashList[0]? = some (c 0)) →
      (((TestAppStateDeterminism.runs sim S R i j st).1 = Verdict.pass ↔
          ∀ k, j ≤ k → k < R → k ≠ 0 → c k = c 0) ∧
        (TestAppStateDeterminism.runs sim S R i j st).2.appHashList.length = R ∧
        (TestAppStateDeterminism.runs sim S R i j st).2.draws = st.draws) := by
  intro n
  induction n with
  | zero =>
    intro j st hn _ hlen _
    rw [runs_done sim S R i j st (by omega)]
    exact ⟨⟨fun _ k h1 h2 _ => absurd h2 (by omega), fun _ => rfl⟩, hlen, rfl⟩
  | succ n ih =>
    intro j st hn hseed hlen h0
    have hj : j < R := by omega
    have hs : sim i j st.Seed = Except.ok (c j) := by rw [hseed]; exact hsim j hj
    by_cases hj0 : j = 0
    · subst hj0
      rw [runs_first sim S R i st hj hlen (c 0) hs]
      have hrec := ih 1 ⟨st.appHashList.set 0 (c 0), st.Seed, st.draws,
        st.trace ++ [Event.runStarted i 0 st.Seed, Event.hashRecorded i 0 (c 0)]⟩
        (by omega) hseed (by simp [hlen])
        (fun _ => by simp [List.getElem?_set, hlen, hj])
      refine ⟨?_, hrec.2.1, hrec.2.2⟩
      rw [hrec.1]
      constructor
      · intro h k _ hk hk0
        exact h k (by omega) hk hk0
      · intro h k _ hk hk0
        exact h k (by omega) hk hk0
    · by_cases heq : c j = c 0
      · have h0' : st.appHashList[0]? = some (c j) := by rw [heq]; exact h0 hj0
        rw [runs_equal sim S R i j st hj hj0 hlen (c j) hs h0']
        have hrec := ih (j + 1) ⟨st.appHashList.set j (c j), st.Seed, st.draws,
          st.trace ++ [Event.runStarted i j st.Seed, Event.hashRecorded i j (c j),
            Event.compared i j (c j) (c j)]⟩
          (by omega) hseed (by simp [hlen])
          (fun _ => by simp [List.getElem?_set, hj0, h0 hj0])
        refine ⟨?_, hrec.2.1, hrec.2.2⟩
        rw [hrec.1]
        constructor
        · intro h k hk1 hk hk0
          by_cases hkj : k = j
          · rw [hkj]; exact heq
          · exact h k (by omega) hk hk0
        · intro h k hk1 hk hk0
          exact h k (by omega) hk hk0
      · rw [runs_differ sim S R i j st hj hj0 hlen (c j) (c 0) hs (h0 hj0)
          (fun h => heq h.symm)]
        refine ⟨⟨fun h => (by cases h), fun h => absurd (h j (le_refl j) hj hj0) heq⟩, ?_, rfl⟩
        simp [hlen]

/-- The outer loop from the seed index `i` on, when every run succeeds with the hash
`c i j`: it passes exactly when, for every later seed index, every hash equals the first
one of that seed. -/
theorem seeds_pass_iff (rand : Nat → Int) (sim : SimRun) (S R : Nat) (c : Nat → Nat → Bytes)
    (hsim : ∀ i, i < S → ∀ j, j < R → sim i j (rand i) = Except.ok (c i j)) :
    ∀ (n i : Nat) (st : CampaignState), S - i = n → st.draws = i →
      st.appHashList.length = R →
      ((TestAppStateDeterminism.seeds rand sim S R i st).1 = Verdict.pass ↔
        ∀ k, i ≤ k → k < S → ∀ j, 0 < j → j < R → c k j = c k 0) := by
  intro n
  induction n with
  | zero =>
    intro i st hn _ _
    rw [TestAppStateDeterminism.seeds, if_neg (show ¬ i < S by omega)]
    exact ⟨fun _ k h1 h2 => absurd h2 (by omega), fun _ => rfl⟩
  | succ n ih =>
    intro i st hn hdraws hlen
    have hi : i < S := by omega
    have hinner := runs_pass_iff sim S R i (rand i) (c i) (hsim i hi) R 0
      ⟨st.appHashList, rand st.draws, st.draws + 1,
        st.trace ++ [Event.seedDrawn i (rand st.draws)]⟩ rfl (by rw [hdraws]) hlen
      (fun h => absurd rfl h)
    rw [TestAppStateDeterminism.seeds]
    simp only [hi, if_true]
    generalize TestAppStateDeterminism.runs sim S R i 0
      ⟨st.appHashList, rand st.draws, st.draws + 1,
        st.trace ++ [Event.seedDrawn i (rand st.draws)]⟩ = r at hinner
    obtain ⟨v, st2⟩ := r
    obtain ⟨hiff, hlen2, hdraws2⟩ := hinner
    simp only at hiff hlen2 hdraws2
    by_cases hv : v = Verdict.pass
    · subst hv
      simp only
      rw [ih (i + 1) st2 (by omega) (by rw [hdraws2, hdraws]) hlen2]
      have hall := hiff.mp rfl
      constructor
      · intro h k hk1 hk j hj0 hj
        by_cases hki : k = i
        · rw [hki]; exact hall j (Nat.zero_le j) hj (by omega)
        · exact h k (by omega) hk j hj0 hj
      · intro h k hk1 hk j hj0 hj
        exact h k (by omega) hk j hj0 hj
    · have hres : (match (v, st2) with
          | (Verdict.pass, st2) =>
            TestAppStateDeterminism.seeds rand sim S R (i + 1) st2
          | (v, st2) => (v, st2)) = (v, st2) := by
        cases v <;> first | rfl | exact absurd rfl hv
      rw [hres]
      constructor
      · intro h; exact absurd h hv
      · intro h
        exact absurd (hiff.mpr (fun k _ hk hk0 => h i (le_refl i) hi k (by omega) hk)) hv

/-- C1. With every run of seed index `i < S` and repetition `j < R` succeeding with the
commitment `c i j`, the campaign passes if and only if for every `i < S` and every `j`
with `0 < j < R` the commitment of run `(i, j)` equals that of run `(i, 0)`. -/
theorem TestAppStateDeterminism_pass_iff (rand : Nat → Int) (sim : SimRun) (seed0 : Int)
    (S R : Nat) (c : Nat → Nat → Bytes)
    (hsim : ∀ i, i < S → ∀ j, j < R → sim i j (rand i) = Except.ok (c i j)) :
    (TestAppStateDeterminism rand sim seed0 S R).1 = Verdict.pass ↔
      ∀ i, i < S → ∀ j, 0 < j → j < R → c i j = c i 0 := by
  unfold TestAppStateDeterminism
  rw [seeds_pass_iff rand sim S R c hsim S 0 _ rfl rfl (by simp)]
  constructor
  · intro h i hi j hj0 hj
    exact h i (Nat.zero_le i) hi j hj0 hj
  · intro h i _ hi j hj0 hj
    exact h i hi j hj0 hj

theorem TestAppStateDeterminism_pass_iff_witness :
    (∀ i, i < 2 → ∀ j, j < 3 →
      (fun i j _ => Except.ok [i, j % 2] : SimRun) i j ((fun k => 42 + k : Nat → Int) i) =
        Except.ok ((fun i j => [i, j % 2] : Nat → Nat → Bytes) i j)) ∧
    ((TestAppStateDeterminism (fun k => 42 + k) (fun i j _ => Except.ok [i, j % 2]) 0 2 3).1 =
        Verdict.pass ↔
      ∀ i, i < 2 → ∀ j, 0 < j → j < 3 →
        (fun i j => [i, j % 2] : Nat → Nat → Bytes) i j =
          (fun i j => [i, j % 2] : Nat → Nat → Bytes) i 0) :=
  ⟨fun _ _ _ _ => rfl,
   TestAppStateDeterminism_pass_iff (fun k => 42 + k) (fun i j _ => Except.ok [i, j % 2]) 0 2 3
    (fun i j => [i, j % 2]) (fun _ _ _ _ => rfl)⟩

/-- The outer loop runs through seed indices whose runs all succeed with one hash. -/
theorem seeds_skip_passing (rand : Nat → Int) (sim : SimRun) (S R : Nat) (c : Nat → Bytes)
    (i : Nat) (hi : i ≤ S)
    (hprev : ∀ k, k < i → ∀ j, j < R → sim k j (rand k) = Except.ok (c k)) :
    ∀ (n i0 : Nat) (st : CampaignState), i - i0 = n → i0 ≤ i → st.draws = i0 →
      st.appHashList.length = R →
      ∃ st', TestAppStateDeterminism.seeds rand sim S R i0 st =
          TestAppStateDeterminism.seeds rand sim S R i st' ∧
        st'.draws = i ∧ st'.appHashList.length = R := by
  intro n
  induction n with
  | zero =>
    intro i0 st hn hle hdraws hlen
    have : i0 = i := by omega
    subst this
    exact ⟨st, rfl, hdraws, hlen⟩
  | succ n ih =>
    intro i0 st hn hle hdraws hlen
    have hi0 : i0 < i := by omega
    have hinner := runs_pass_iff sim S R i0 (rand i0) (fun _ => c i0)
      (hprev i0 hi0) R 0
      ⟨st.appHashList, rand st.draws, st.draws + 1,
        st.trace ++ [Event.seedDrawn i0 (rand st.draws)]⟩ rfl (by rw [hdraws]) hlen
      (fun h => absurd rfl h)
    rw [TestAppStateDeterminism.seeds, if_pos (show i0 < S by omega)]
    simp only
    generalize TestAppStateDeterminism.runs sim S R i0 0
      ⟨st.appHashList, rand st.draws, st.draws + 1,
        st.trace ++ [Event.seedDrawn i0 (rand st.draws)]⟩ = r at hinner
    obtain ⟨v, st2⟩ := r
    obtain ⟨hiff, hlen2, hdraws2⟩ := hinner
    have hv : v = Verdict.pass := hiff.mpr (fun _ _ _ _ => rfl)
    simp only at hlen2 hdraws2
    subst hv
    simp only
    exact ih (i0 + 1) st2 (by omega) (by omega) (by rw [hdraws2, hdraws]) hlen2

/-- C10. With three repetitions, if the three runs of the seed index `i` yield the
commitments `h, h, h'` with `h'` different from `h` (the campaign reaches that seed: the
runs of the seeds before it agree), the campaign fails with the non-determinism report at
the third run of that seed, the run of repetition index 2, and nothing is run after it. The
report is the one that lines 158-161 format for `i` and `j = 2`: it cites the seed
`config.Seed` and the repetition index 2, printed as are all the counts of the test from
one on, "attempt: 3/3". -/
theorem TestAppStateDeterminism_third_run_differs (rand : Nat → Int) (sim : SimRun)
    (seed0 : Int) (S i : Nat) (c : Nat → Bytes) (h h' : Bytes) (hi : i < S)
    (hprev : ∀ k, k < i → ∀ j, j < 3 → sim k j (rand k) = Except.ok (c k))
    (h0 : sim i 0 (rand i) = Except.ok h) (h1 : sim i 1 (rand i) = Except.ok h)
    (h2 : sim i 2 (rand i) = Except.ok h') (hne : h' ≠ h) :
    (TestAppStateDeterminism rand sim seed0 S 3).1 =
      Verdict.nonDeterminism h h' (rand i) (i + 1) S (2 + 1) 3
        (nonDeterminismMessage (rand i) i S 2 3) ∧
    nonDeterminismMessage (rand i) i S 2 3 =
      "non-determinism in seed " ++ toString (rand i) ++ ": " ++ toString (i + 1) ++ "/" ++
        toString S ++ ", attempt: 3/3\n" ∧
    (TestAppStateDeterminism rand sim seed0 S 3).1.citedAttempt = some (2 + 1) ∧
    [Event.runStarted i 2 (rand i), Event.hashRecorded i 2 h', Event.compared i 2 h h'] <:+
      (TestAppStateDeterminism rand sim seed0 S 3).2.trace := by
  obtain ⟨st, hst, hdraws, hlen⟩ := seeds_skip_passing rand sim S 3 c i (le_of_lt hi) hprev
    i 0 ⟨List.replicate 3 [], seed0, 0, []⟩ (by omega) (Nat.zero_le i) rfl (by simp)
  have hres : TestAppStateDeterminism rand sim seed0 S 3 =
      (Verdict.nonDeterminism h h' (rand i) (i + 1) S 3 3 (nonDeterminismMessage (rand i) i S 2 3),
       ⟨((st.appHashList.set 0 h).set 1 h).set 2 h', rand i, i + 1,
        st.trace ++ [Event.seedDrawn i (rand i)] ++
          [Event.runStarted i 0 (rand i), Event.hashRecorded i 0 h] ++
          [Event.runStarted i 1 (rand i), Event.hashRecorded i 1 h, Event.compared i 1 h h] ++
          [Event.runStarted i 2 (rand i), Event.hashRecorded i 2 h',
            Event.compared i 2 h h']⟩) := by
    unfold TestAppStateDeterminism
    rw [hst, TestAppStateDeterminism.seeds, if_pos hi]
    simp only [hdraws]
    have e1 := runs_first sim S 3 i
      ⟨st.appHashList, rand i, i + 1, st.trace ++ [Event.seedDrawn i (rand i)]⟩
      (by omega) hlen h h0
    have e2 := runs_equal sim S 3 i 1
      ⟨st.appHashList.set 0 h, rand i, i + 1, st.trace ++ [Event.seedDrawn i (rand i)] ++
        [Event.runStarted i 0 (rand i), Event.hashRecorded i 0 h]⟩
      (by omega) (by omega) (by simp [hlen]) h h1 (by simp [List.getElem?_set, hlen])
    have e3 := runs_differ sim S 3 i 2
      ⟨(st.appHashList.set 0 h).set 1 h, rand i, i + 1,
        st.trace ++ [Event.seedDrawn i (rand i)] ++
          [Event.runStarted i 0 (rand i), Event.hashRecorded i 0 h] ++
          [Event.runStarted i 1 (rand i), Event.hashRecorded i 1 h, Event.compared i 1 h h]⟩
      (by omega) (by omega) (by simp [hlen]) h' h h2
      (by simp [List.getElem?_set, hlen]) (fun e => hne e.symm)
    rw [e1.trans (e2.trans e3)]
  rw [hres]
  refine ⟨rfl, ?_, rfl, List.suffix_append _ _⟩
  unfold nonDeterminismMessage
  simp only [String.append_assoc]
  rfl

theorem TestAppStateDeterminism_third_run_differs_witness :
    (TestAppStateDeterminism (fun _ => 42) (fun _ j _ => Except.ok (if j = 2 then [1] else [0]))
        0 1 3).1 =
      Verdict.nonDeterminism [0] [1] ((fun _ => 42 : Nat → Int) 0) (0 + 1) 1 (2 + 1) 3
        (nonDeterminismMessage ((fun _ => 42 : Nat → Int) 0) 0 1 2 3) ∧
    nonDeterminismMessage ((fun _ => 42 : Nat → Int) 0) 0 1 2 3 =
      "non-determinism in seed " ++ toString ((fun _ => 42 : Nat → Int) 0) ++ ": " ++
        toString (0 + 1) ++ "/" ++ toString 1 ++ ", attempt: 3/3\n" ∧
    (TestAppStateDeterminism (fun _ => 42) (fun _ j _ => Except.ok (if j = 2 then [1] else [0]))
        0 1 3).1.citedAttempt = some (2 + 1) ∧
    [Event.runStarted 0 2 ((fun _ => 42 : Nat → Int) 0), Event.hashRecorded 0 2 [1],
        Event.compared 0 2 [0] [1]] <:+
      (TestAppStateDeterminism (fun _ => 42)
        (fun _ j _ => Except.ok (if j = 2 then [1] else [0])) 0 1 3).2.trace :=
  TestAppStateDeterminism_third_run_differs (fun _ => 42)
    (fun _ j _ => Except.ok (if j = 2 then [1] else [0])) 0 1 0 (fun _ => []) [0] [1]
    (by decide) (fun k hk => absurd hk (Nat.not_lt_zero k)) rfl rfl rfl (by decide)

/-! ## The trace of `TestAppStateDeterminism` -/

/-- The inner loop runs from repetition `j` to repetition `m` when the runs in between
succeed with hashes equal to the first one of the seed. -/
theorem runs_advance (sim : SimRun) (S R i : Nat) (c : Nat → Bytes) (m : Nat) (hm : m ≤ R) :
    ∀ (n j : Nat) (st : CampaignState), m - j = n → j ≤ m →
      (∀ k, j ≤ k → k < m → sim i k st.Seed = Except.ok (c k) ∧ (k ≠ 0 → c k = c 0)) →
      st.appHashList.length = R → (j ≠ 0 → st.appHashList[0]? = some (c 0)) →
      ∃ st', TestAppStateDeterminism.runs sim S R i j st =
          TestAppStateDeterminism.runs sim S R i m st' ∧
        st'.Seed = st.Seed ∧ st'.draws = st.draws ∧ st'.appHashList.length = R ∧
        (m ≠ 0 → st'.appHashList[0]? = some (c 0)) ∧
        st'.trace = st.trace ++ runsEvents i st.Seed c n j := by
  intro n
  induction n with
  | zero =>
    intro j st hn hjm _ hlen h0
    have hj : j = m := by omega
    subst hj
    exact ⟨st, rfl, rfl, rfl, hlen, h0, by simp [runsEvents]⟩
  | succ n ih =>
    intro j st hn hjm hsim hlen h0
    have hj : j < R := by omega
    obtain ⟨hs, hc⟩ := hsim j (le_refl j) (by omega)
    by_cases hj0 : j = 0
    · subst hj0
      rw [runs_first sim S R i st hj hlen (c 0) hs]
      obtain ⟨st', h1, h2, h3, h4, h5, h6⟩ := ih 1
        ⟨st.appHashList.set 0 (c 0), st.Seed, st.draws,
          st.trace ++ [Event.runStarted i 0 st.Seed, Event.hashRecorded i 0 (c 0)]⟩
        (by omega) (by omega) (fun k hk1 hk2 => hsim k (by omega) hk2) (by simp [hlen])
        (fun _ => by simp [List.getElem?_set, hlen, hj])
      refine ⟨st', h1, h2, h3, h4, h5, ?_⟩
      rw [h6]
      simp [runsEvents, runEvents]
    · have heq : c j = c 0 := hc hj0
      have h0' : st.appHashList[0]? = some (c j) := by rw [heq]; exact h0 hj0
      rw [runs_equal sim S R i j st hj hj0 hlen (c j) hs h0']
      obtain ⟨st', h1, h2, h3, h4, h5, h6⟩ := ih (j + 1)
        ⟨st.appHashList.set j (c j), st.Seed, st.draws,
          st.trace ++ [Event.runStarted i j st.Seed, Event.hashRecorded i j (c j),
            Event.compared i j (c j) (c j)]⟩
        (by omega) (by omega) (fun k hk1 hk2 => hsim k (by omega) hk2) (by simp [hlen])
        (fun _ => by simp [List.getElem?_set, hj0, h0 hj0])
      refine ⟨st', h1, h2, h3, h4, h5, ?_⟩
      rw [h6]
      simp [runsEvents, runEvents, hj0, heq]

/-- The outer loop runs from the seed index `i0` to the seed index `i` when the runs of the
seeds in between succeed with hashes equal to the first one of their seed. -/
theorem seeds_advance (rand : Nat → Int) (sim : SimRun) (S R : Nat) (c : Nat → Nat → Bytes)
    (i : Nat) (hi : i ≤ S)
    (hprev : ∀ k, k < i → ∀ j, j < R →
      sim k j (rand k) = Except.ok (c k j) ∧ (j ≠ 0 → c k j = c k 0)) :
    ∀ (n i0 : Nat) (st : CampaignState), i - i0 = n → i0 ≤ i → st.draws = i0 →
      st.appHashList.length = R →
      ∃ st', TestAppStateDeterminism.seeds rand sim S R i0 st =
          TestAppStateDeterminism.seeds rand sim S R i st' ∧
        st'.draws = i ∧ st'.appHashList.length = R ∧
        st'.trace = st.trace ++ seedsEvents rand c R n i0 := by
  intro n
  induction n with
  | zero =>
    intro i0 st hn hle hdraws hlen
    have : i0 = i := by omega
    subst this
    exact ⟨st, rfl, hdraws, hlen, by simp [seedsEvents]⟩
  | succ n ih =>
    intro i0 st hn hle hdraws hlen
    have hi0 : i0 < i := by omega
    subst hdraws
    obtain ⟨st2, h1, h2, h3, h4, _, h6⟩ := runs_advance sim S R st.draws (c st.draws) R
      (le_refl R) R 0
      ⟨st.appHashList, rand st.draws, st.draws + 1,
        st.trace ++ [Event.seedDrawn st.draws (rand st.draws)]⟩ rfl (Nat.zero_le R)
      (fun k _ hk => hprev st.draws hi0 k hk) hlen (fun h => absurd rfl h)
    rw [runs_done sim S R st.draws R st2 (le_refl R)] at h1
    obtain ⟨st', g1, g2, g3, g4⟩ := ih (st.draws + 1) st2 (by omega) (by omega)
      (by rw [h3]) h4
    refine ⟨st', ?_, g2, g3, ?_⟩
    · rw [TestAppStateDeterminism.seeds, if_pos (show st.draws < S by omega)]
      simp only [h1]
      exact g1
    · rw [g4, h6]
      simp [seedsEvents]

theorem runsEvents_runIndex (i : Nat) (seed : Int) (c : Nat → Bytes) :
    ∀ (n j : Nat), (runsEvents i seed c n j).filterMap Event.runIndex =
      repetitionsFrom i n j := by
  intro n
  induction n with
  | zero => intro j; rfl
  | succ n ih =>
    intro j
    by_cases hj : j = 0
    · simp [runsEvents, runEvents, repetitionsFrom, Event.runIndex, hj, ih]
    · simp [runsEvents, runEvents, repetitionsFrom, Event.runIndex, hj, ih]

theorem seedsEvents_runIndex (rand : Nat → Int) (c : Nat → Nat → Bytes) (R : Nat) :
    ∀ (n i : Nat), (seedsEvents rand c R n i).filterMap Event.runIndex =
      runsInOrder R n i := by
  intro n
  induction n with
  | zero => intro i; rfl
  | succ n ih =>
    intro i
    simp [seedsEvents, runsInOrder, Event.runIndex, ih, runsEvents_runIndex]

theorem repetitionsFrom_length (i : Nat) :
    ∀ (n j : Nat), (repetitionsFrom i n j).length = n := by
  intro n
  induction n with
  | zero => intro j; rfl
  | succ n ih => intro j; simp [repetitionsFrom, ih]

theorem runsInOrder_length (R : Nat) :
    ∀ (n i : Nat), (runsInOrder R n i).length = n * R := by
  intro n
  induction n with
  | zero => intro i; simp [runsInOrder]
  | succ n ih =>
    intro i
    simp [runsInOrder, ih, repetitionsFrom_length, Nat.succ_mul, Nat.add_comm]

theorem mem_repetitionsFrom (i : Nat) :
    ∀ (n j : Nat) (p : Nat × Nat), p ∈ repetitionsFrom i n j →
      p.1 = i ∧ j ≤ p.2 ∧ p.2 < j + n := by
  intro n
  induction n with
  | zero => intro j p h; simp [repetitionsFrom] at h
  | succ n ih =>
    intro j p h
    simp only [repetitionsFrom, List.mem_cons] at h
    rcases h with h | h
    · subst h; exact ⟨rfl, le_refl _, by omega⟩
    · obtain ⟨h1, h2, h3⟩ := ih (j + 1) p h
      exact ⟨h1, by omega, by omega⟩

theorem mem_runsInOrder (R : Nat) :
    ∀ (n i : Nat) (p : Nat × Nat), p ∈ runsInOrder R n i →
      i ≤ p.1 ∧ p.1 < i + n ∧ p.2 < R := by
  intro n
  induction n with
  | zero => intro i p h; simp [runsInOrder] at h
  | succ n ih =>
    intro i p h
    simp only [runsInOrder, List.mem_append] at h
    rcases h with h | h
    · obtain ⟨h1, _, h3⟩ := mem_repetitionsFrom i R 0 p h
      exact ⟨by omega, by omega, by omega⟩
    · obtain ⟨h1, h2, h3⟩ := ih (i + 1) p h
      exact ⟨by omega, by omega, h3⟩

theorem runsEvents_isComparison_one (i : Nat) (seed : Int) (c : Nat → Bytes) :
    (runsEvents i seed c 1 0).filter Event.isComparison = [] := by
  simp [runsEvents, runEvents, Event.isComparison]

theorem seedsEvents_isComparison_one (rand : Nat → Int) (c : Nat → Nat → Bytes) :
    ∀ (n i : Nat), (seedsEvents rand c 1 n i).filter Event.isComparison = [] := by
  intro n
  induction n with
  | zero => intro i; rfl
  | succ n ih =>
    intro i
    simp [seedsEvents, List.filter_append, ih, runsEvents_isComparison_one,
      Event.isComparison]

/-- The campaign in which every run succeeds with a hash equal to the first one of its
seed: the verdict and the final state. -/
theorem campaign_all_agree (rand : Nat → Int) (sim : SimRun) (seed0 : Int) (S R : Nat)
    (c : Nat → Nat → Bytes)
    (hsim : ∀ i, i < S → ∀ j, j < R →
      sim i j (rand i) = Except.ok (c i j) ∧ (j ≠ 0 → c i j = c i 0)) :
    (TestAppStateDeterminism rand sim seed0 S R).1 = Verdict.pass ∧
    (TestAppStateDeterminism rand sim seed0 S R).2.trace = seedsEvents rand c R S 0 ∧
    (TestAppStateDeterminism rand sim seed0 S R).2.draws = S := by
  obtain ⟨st, h1, h2, _, h4⟩ := seeds_advance rand sim S R c S (le_refl S) hsim S 0
    ⟨List.replicate R [], seed0, 0, []⟩ rfl (Nat.zero_le S) rfl (by simp)
  unfold TestAppStateDeterminism
  rw [h1, TestAppStateDeterminism.seeds, if_neg (Nat.lt_irrefl S)]
  exact ⟨rfl, by simpa using h4, h2⟩

/-- C11. With one repetition per seed and every run succeeding, whatever the hashes: the
campaign passes, the runs executed are `(0, 0), (1, 0), ..., (S-1, 0)`, one per seed and `S`
in total, and no comparison of hashes is made. -/
theorem TestAppStateDeterminism_single_repetition (rand : Nat → Int) (sim : SimRun)
    (seed0 : Int) (S : Nat) (c : Nat → Bytes)
    (hsim : ∀ i, i < S → sim i 0 (rand i) = Except.ok (c i)) :
    (TestAppStateDeterminism rand sim seed0 S 1).1 = Verdict.pass ∧
    (TestAppStateDeterminism rand sim seed0 S 1).2.trace.filterMap Event.runIndex =
      runsInOrder 1 S 0 ∧
    ((TestAppStateDeterminism rand sim seed0 S 1).2.trace.filter Event.isRun).length = S ∧
    (TestAppStateDeterminism rand sim seed0 S 1).2.trace.filter Event.isComparison = [] := by
  obtain ⟨h1, h2, _⟩ := campaign_all_agree rand sim seed0 S 1 (fun i _ => c i)
    (fun i hi j hj => by
      have : j = 0 := by omega
      subst this
      exact ⟨hsim i hi, fun _ => rfl⟩)
  refine ⟨h1, ?_, ?_, ?_⟩
  · rw [h2, seedsEvents_runIndex]
  · have hcount : ∀ (l : List Event),
        (l.filter Event.isRun).length = (l.filterMap Event.runIndex).length := by
      intro l
      induction l with
      | nil => rfl
      | cons e l ih => cases e <;> simp [List.filter, List.filterMap, Event.isRun, Event.runIndex, ih]
    rw [hcount, h2, seedsEvents_runIndex, runsInOrder_length]
    simp
  · rw [h2, seedsEvents_isComparison_one]

theorem TestAppStateDeterminism_single_repetition_witness :
    (TestAppStateDeterminism (fun k => 42 + k) (fun i _ _ => Except.ok [i]) 0 3 1).1 =
      Verdict.pass ∧
    (TestAppStateDeterminism (fun k => 42 + k) (fun i _ _ => Except.ok [i]) 0 3
      1).2.trace.filterMap Event.runIndex = runsInOrder 1 3 0 ∧
    ((TestAppStateDeterminism (fun k => 42 + k) (fun i _ _ => Except.ok [i]) 0 3
      1).2.trace.filter Event.isRun).length = 3 ∧
    (TestAppStateDeterminism (fun k => 42 + k) (fun i _ _ => Except.ok [i]) 0 3
      1).2.trace.filter Event.isComparison = [] :=
  TestAppStateDeterminism_single_repetition (fun k => 42 + k) (fun i _ _ => Except.ok [i]) 0 3
    (fun i => [i]) (fun _ _ => rfl)

theorem repetitionsFrom_succ (i : Nat) :
    ∀ (n j : Nat), repetitionsFrom i (n + 1) j = repetitionsFrom i n j ++ [(i, j + n)] := by
  intro n
  induction n with
  | zero => intro j; simp [repetitionsFrom]
  | succ n ih =>
    intro j
    have h := ih (j + 1)
    simp only [repetitionsFrom] at h ⊢
    rw [h]
    simp [Nat.add_assoc, Nat.add_comm 1 n]

/-- C12. If the run `(i, j)` is the first, in execution order, whose simulation returns an
error or whose hash (for `j > 0`) differs from that of the run `(i, 0)`, the campaign fails
there: the verdict is the failed assertion of that run, the runs executed are those of the
seeds before `i` and the runs `(i, 0), ..., (i, j)`, and no run after `(i, j)` is
executed, neither a further repetition of the seed `i` nor a run of a later seed. -/
theorem TestAppStateDeterminism_abort (rand : Nat → Int) (sim : SimRun) (seed0 : Int)
    (S R : Nat) (c : Nat → Nat → Bytes) (i j : Nat) (hi : i < S) (hj : j < R)
    (hprev : ∀ k, k < i → ∀ r, r < R →
      sim k r (rand k) = Except.ok (c k r) ∧ (r ≠ 0 → c k r = c k 0))
    (hcur : ∀ r, r < j → sim i r (rand i) = Except.ok (c i r) ∧ (r ≠ 0 → c i r = c i 0))
    (hfail : (∃ err, sim i j (rand i) = Except.error err) ∨
      (j ≠ 0 ∧ ∃ h, sim i j (rand i) = Except.ok h ∧ h ≠ c i 0)) :
    ((∃ err, sim i j (rand i) = Except.error err ∧
        (TestAppStateDeterminism rand sim seed0 S R).1 = Verdict.simulationError err) ∨
      (∃ h, sim i j (rand i) = Except.ok h ∧
        (TestAppStateDeterminism rand sim seed0 S R).1 =
          Verdict.nonDeterminism (c i 0) h (rand i) (i + 1) S (j + 1) R
            (nonDeterminismMessage (rand i) i S j R))) ∧
    (TestAppStateDeterminism rand sim seed0 S R).2.trace.filterMap Event.runIndex =
      runsInOrder R i 0 ++ repetitionsFrom i (j + 1) 0 ∧
    (∀ p ∈ (TestAppStateDeterminism rand sim seed0 S R).2.trace.filterMap Event.runIndex,
      p.1 < i ∨ (p.1 = i ∧ p.2 ≤ j)) := by
  obtain ⟨st, h1, h2, h3, h4⟩ := seeds_advance rand sim S R c i (le_of_lt hi) hprev i 0
    ⟨List.replicate R [], seed0, 0, []⟩ rfl (Nat.zero_le i) rfl (by simp)
  simp only [List.nil_append] at h4
  subst h2
  obtain ⟨st2, g1, g2, g3, g4, g5, g6⟩ := runs_advance sim S R st.draws (c st.draws) j
    (le_of_lt hj) j 0
    ⟨st.appHashList, rand st.draws, st.draws + 1,
      st.trace ++ [Event.seedDrawn st.draws (rand st.draws)]⟩ rfl (Nat.zero_le j)
    (fun k _ hk => hcur k hk) h3 (fun h => absurd rfl h)
  simp only at g2 g3 g6
  have hmem : ∀ p ∈ runsInOrder R st.draws 0 ++ repetitionsFrom st.draws (j + 1) 0,
      p.1 < st.draws ∨ (p.1 = st.draws ∧ p.2 ≤ j) := by
    intro p hp
    rcases List.mem_append.mp hp with hp | hp
    · obtain ⟨_, h, _⟩ := mem_runsInOrder R st.draws 0 p hp
      exact Or.inl (by omega)
    · obtain ⟨h, _, h'⟩ := mem_repetitionsFrom st.draws (j + 1) 0 p hp
      exact Or.inr ⟨h, by omega⟩
  have hidx : ∀ (tail : List Event), tail.filterMap Event.runIndex = [(st.draws, j)] →
      (st2.trace ++ tail).filterMap Event.runIndex =
        runsInOrder R st.draws 0 ++ repetitionsFrom st.draws (j + 1) 0 := by
    intro tail ht
    rw [g6, h4]
    simp only [List.filterMap_append, ht, seedsEvents_runIndex, runsEvents_runIndex,
      repetitionsFrom_succ, Nat.zero_add]
    simp [Event.runIndex]
  rcases hfail with ⟨err, herr⟩ | ⟨hj0, h, hok, hne⟩
  · have hres : TestAppStateDeterminism rand sim seed0 S R =
        (Verdict.simulationError err,
          ⟨st2.appHashList, st2.Seed, st2.draws,
            st2.trace ++ [Event.runStarted st.draws j st2.Seed]⟩) := by
      unfold TestAppStateDeterminism
      rw [h1, TestAppStateDeterminism.seeds, if_pos hi]
      simp only
      rw [g1, runs_error sim S R st.draws j st2 hj err (by rw [g2]; exact herr)]
    rw [hres]
    refine ⟨Or.inl ⟨err, herr, rfl⟩, ?_, ?_⟩
    · exact hidx _ (by simp [Event.runIndex])
    · rw [hidx _ (by simp [Event.runIndex])]
      exact hmem
  · have hres : TestAppStateDeterminism rand sim seed0 S R =
        (Verdict.nonDeterminism (c st.draws 0) h st2.Seed (st.draws + 1) S (j + 1) R
            (nonDeterminismMessage st2.Seed st.draws S j R),
          ⟨st2.appHashList.set j h, st2.Seed, st2.draws,
            st2.trace ++ [Event.runStarted st.draws j st2.Seed,
              Event.hashRecorded st.draws j h, Event.compared st.draws j (c st.draws 0) h]⟩) := by
      unfold TestAppStateDeterminism
      rw [h1, TestAppStateDeterminism.seeds, if_pos hi]
      simp only
      rw [g1, runs_differ sim S R st.draws j st2 hj hj0 g4 h (c st.draws 0)
        (by rw [g2]; exact hok) (g5 hj0) (fun e => hne e.symm)]
    rw [hres]
    refine ⟨Or.inr ⟨h, hok, by rw [g2]⟩, ?_, ?_⟩
    · exact hidx _ (by simp [Event.runIndex])
    · rw [hidx _ (by simp [Event.runIndex])]
      exact hmem

theorem TestAppStateDeterminism_abort_witness :
    ((∃ err, (fun i j _ => if i = 1 ∧ j = 1 then Except.error "halt" else Except.ok [i] :
          SimRun) 1 1 ((fun k => 42 + k : Nat → Int) 1) = Except.error err ∧
        (TestAppStateDeterminism (fun k => 42 + k)
          (fun i j _ => if i = 1 ∧ j = 1 then Except.error "halt" else Except.ok [i])
          0 3 2).1 = Verdict.simulationError err) ∨
      (∃ h, (fun i j _ => if i = 1 ∧ j = 1 then Except.error "halt" else Except.ok [i] :
          SimRun) 1 1 ((fun k => 42 + k : Nat → Int) 1) = Except.ok h ∧
        (TestAppStateDeterminism (fun k => 42 + k)
          (fun i j _ => if i = 1 ∧ j = 1 then Except.error "halt" else Except.ok [i])
          0 3 2).1 =
          Verdict.nonDeterminism ((fun i _ => [i] : Nat → Nat → Bytes) 1 0) h
            ((fun k => 42 + k : Nat → Int) 1) (1 + 1) 3 (1 + 1) 2
            (nonDeterminismMessage ((fun k => 42 + k : Nat → Int) 1) 1 3 1 2))) ∧
    (TestAppStateDeterminism (fun k => 42 + k)
      (fun i j _ => if i = 1 ∧ j = 1 then Except.error "halt" else Except.ok [i])
      0 3 2).2.trace.filterMap Event.runIndex =
      runsInOrder 2 1 0 ++ repetitionsFrom 1 (1 + 1) 0 ∧
    (∀ p ∈ (TestAppStateDeterminism (fun k => 42 + k)
      (fun i j _ => if i = 1 ∧ j = 1 then Except.error "halt" else Except.ok [i])
      0 3 2).2.trace.filterMap Event.runIndex, p.1 < 1 ∨ (p.1 = 1 ∧ p.2 ≤ 1)) :=
  TestAppStateDeterminism_abort (fun k => 42 + k)
    (fun i j _ => if i = 1 ∧ j = 1 then Except.error "halt" else Except.ok [i]) 0 3 2
    (fun i _ => [i]) 1 1 (by decide) (by decide)
    (fun k hk r _ => by
      have hk0 : k = 0 := by omega
      subst hk0
      exact ⟨rfl, fun _ => rfl⟩)
    (fun r hr => by
      have hr0 : r = 0 := by omega
      subst hr0
      exact ⟨rfl, fun _ => rfl⟩)
    (Or.inl ⟨"halt", rfl⟩)

/-- Whatever the runs return, the inner loop keeps the seed of the events, the length of
`appHashList` and the number of values drawn. -/
theorem runs_seedOk (rand : Nat → Int) (sim : SimRun) (S R i : Nat) :
    ∀ (n j : Nat) (st : CampaignState), R - j = n → st.appHashList.length = R →
      st.Seed = rand i → (∀ e ∈ st.trace, Event.seedOk rand e) →
      (∀ e ∈ (TestAppStateDeterminism.runs sim S R i j st).2.trace, Event.seedOk rand e) ∧
      (TestAppStateDeterminism.runs sim S R i j st).2.draws = st.draws ∧
      (TestAppStateDeterminism.runs sim S R i j st).2.appHashList.length = R := by
  intro n
  induction n with
  | zero =>
    intro j st hn hlen _ htr
    rw [runs_done sim S R i j st (by omega)]
    exact ⟨htr, rfl, hlen⟩
  | succ n ih =>
    intro j st hn hlen hseed htr
    have hj : j < R := by omega
    have hext : ∀ (evs : List Event), (∀ e ∈ evs, Event.seedOk rand e) →
        ∀ e ∈ st.trace ++ evs, Event.seedOk rand e := by
      intro evs hevs e he
      rcases List.mem_append.mp he with he | he
      · exact htr e he
      · exact hevs e he
    cases hs : sim i j st.Seed with
    | error err =>
      rw [runs_error sim S R i j st hj err hs]
      refine ⟨hext _ ?_, rfl, hlen⟩
      intro e he
      simp only [List.mem_singleton] at he
      subst he
      exact hseed
    | ok h =>
      by_cases hj0 : j = 0
      · subst hj0
        rw [runs_first sim S R i st hj hlen h hs]
        exact ih 1 _ (by omega) (by simp [hlen]) hseed (hext _ (by
          intro e he
          simp only [List.mem_cons, List.mem_singleton, List.not_mem_nil, or_false] at he
          rcases he with he | he
          · subst he; exact hseed
          · subst he; trivial))
      · obtain ⟨h0, hh0⟩ : ∃ h0, st.appHashList[0]? = some h0 :=
          ⟨st.appHashList[0], List.getElem?_eq_getElem (by omega)⟩
        have hevs : ∀ e ∈ [Event.runStarted i j st.Seed, Event.hashRecorded i j h,
            Event.compared i j h0 h], Event.seedOk rand e := by
          intro e he
          simp only [List.mem_cons, List.mem_singleton, List.not_mem_nil, or_false] at he
          rcases he with he | he | he
          · subst he; exact hseed
          · subst he; trivial
          · subst he; trivial
        by_cases heq : h0 = h
        · subst heq
          rw [runs_equal sim S R i j st hj hj0 hlen h0 hs hh0]
          exact ih (j + 1) _ (by omega) (by simp [hlen]) hseed (hext _ hevs)
        · rw [runs_differ sim S R i j st hj hj0 hlen h h0 hs hh0 heq]
          exact ⟨hext _ hevs, rfl, by simp [hlen]⟩

/-- Whatever the runs return, every seed in the events of the outer loop is the value drawn
for its seed index. -/
theorem seeds_seedOk (rand : Nat → Int) (sim : SimRun) (S R : Nat) :
    ∀ (n i : Nat) (st : CampaignState), S - i = n → st.draws = i →
      st.appHashList.length = R → (∀ e ∈ st.trace, Event.seedOk rand e) →
      ∀ e ∈ (TestAppStateDeterminism.seeds rand sim S R i st).2.trace,
        Event.seedOk rand e := by
  intro n
  induction n with
  | zero =>
    intro i st hn _ _ htr
    rw [TestAppStateDeterminism.seeds, if_neg (show ¬ i < S by omega)]
    exact htr
  | succ n ih =>
    intro i st hn hdraws hlen htr
    have hi : i < S := by omega
    have hinner := runs_seedOk rand sim S R i R 0
      ⟨st.appHashList, rand st.draws, st.draws + 1,
        st.trace ++ [Event.seedDrawn i (rand st.draws)]⟩ rfl hlen (by rw [hdraws])
      (by
        intro e he
        rcases List.mem_append.mp he with he | he
        · exact htr e he
        · simp only [List.mem_singleton] at he
          subst he
          show rand st.draws = rand i
          rw [hdraws])
    rw [TestAppStateDeterminism.seeds, if_pos hi]
    simp only
    generalize TestAppStateDeterminism.runs sim S R i 0
      ⟨st.appHashList, rand st.draws, st.draws + 1,
        st.trace ++ [Event.seedDrawn i (rand st.draws)]⟩ = r at hinner
    obtain ⟨v, st2⟩ := r
    obtain ⟨h1, h2, h3⟩ := hinner
    simp only at h1 h2 h3
    by_cases hv : v = Verdict.pass
    · subst hv
      simp only
      exact ih (i + 1) st2 (by omega) (by rw [h2, hdraws]) h3 h1
    · have hres : (match (v, st2) with
          | (Verdict.pass, st2) =>
            TestAppStateDeterminism.seeds rand sim S R (i + 1) st2
          | (v, st2) => (v, st2)) = (v, st2) := by
        cases v <;> first | rfl | exact absurd rfl hv
      rw [hres]
      exact h1

/-- C20. The seed is drawn once per seed index: whatever the runs return, every run of the
seed index `i` is started with the `i`-th value drawn, which is also the value of the draw
recorded for `i`. When no run fails, the events are, for each seed index in turn, the draw
of its seed followed by the runs of its repetitions in order, each with its hash recorded
(and compared) before the next run starts; the runs are the `S * R` pairs `(i, j)` in
lexicographic order and `S` seeds are drawn. -/
theorem TestAppStateDeterminism_order (rand : Nat → Int) (sim : SimRun) (seed0 : Int)
    (S R : Nat) (c : Nat → Nat → Bytes)
    (hsim : ∀ i, i < S → ∀ j, j < R →
      sim i j (rand i) = Except.ok (c i j) ∧ (j ≠ 0 → c i j = c i 0)) :
    (∀ (sim' : SimRun),
      ∀ e ∈ (TestAppStateDeterminism rand sim' seed0 S R).2.trace, Event.seedOk rand e) ∧
    (TestAppStateDeterminism rand sim seed0 S R).2.trace = seedsEvents rand c R S 0 ∧
    (TestAppStateDeterminism rand sim seed0 S R).2.trace.filterMap Event.runIndex =
      runsInOrder R S 0 ∧
    ((TestAppStateDeterminism rand sim seed0 S R).2.trace.filterMap Event.runIndex).length =
      S * R ∧
    (TestAppStateDeterminism rand sim seed0 S R).2.draws = S ∧
    ((TestAppStateDeterminism rand sim seed0 S R).2.trace.filter Event.isDraw).length = S := by
  obtain ⟨_, h2, h3⟩ := campaign_all_agree rand sim seed0 S R c hsim
  have hdraws : ∀ (n i : Nat), ((seedsEvents rand c R n i).filter Event.isDraw).length = n := by
    intro n
    induction n with
    | zero => intro i; rfl
    | succ n ih =>
      intro i
      have hruns : ∀ (k j : Nat), (runsEvents i (rand i) (c i) k j).filter Event.isDraw = [] := by
        intro k
        induction k with
        | zero => intro j; rfl
        | succ k ihk =>
          intro j
          by_cases hj : j = 0 <;>
            simp [runsEvents, runEvents, Event.isDraw, List.filter_append, ihk, hj]
      simp [seedsEvents, List.filter_append, Event.isDraw, hruns, ih]
  refine ⟨?_, h2, ?_, ?_, h3, ?_⟩
  · intro sim'
    exact seeds_seedOk rand sim' S R S 0 ⟨List.replicate R [], seed0, 0, []⟩ rfl rfl
      (by simp) (fun e he => absurd he (List.not_mem_nil e))
  · rw [h2, seedsEvents_runIndex]
  · rw [h2, seedsEvents_runIndex, runsInOrder_length]
  · rw [h2, hdraws]

theorem TestAppStateDeterminism_order_witness :
    (∀ (sim' : SimRun),
      ∀ e ∈ (TestAppStateDeterminism (fun k => 42 + k) sim' 0 2 2).2.trace,
        Event.seedOk (fun k => 42 + k) e) ∧
    (TestAppStateDeterminism (fun k => 42 + k) (fun i _ _ => Except.ok [i]) 0 2 2).2.trace =
      seedsEvents (fun k => 42 + k) (fun i _ => [i]) 2 2 0 ∧
    (TestAppStateDeterminism (fun k => 42 + k) (fun i _ _ => Except.ok [i]) 0 2
      2).2.trace.filterMap Event.runIndex = runsInOrder 2 2 0 ∧
    ((TestAppStateDeterminism (fun k => 42 + k) (fun i _ _ => Except.ok [i]) 0 2
      2).2.trace.filterMap Event.runIndex).length = 2 * 2 ∧
    (TestAppStateDeterminism (fun k => 42 + k) (fun i _ _ => Except.ok [i]) 0 2 2).2.draws =
      2 ∧
    ((TestAppStateDeterminism (fun k => 42 + k) (fun i _ _ => Except.ok [i]) 0 2
      2).2.trace.filter Event.isDraw).length = 2 :=
  TestAppStateDeterminism_order (fun k => 42 + k) (fun i _ _ => Except.ok [i]) 0 2 2
    (fun i _ => [i]) (fun _ _ _ _ => ⟨rfl, fun _ => rfl⟩)

/-! ## The list `storeKeysPrefixes` -/

/-- Every call of the comparator that the loop adds is for an entry of the list. -/
theorem compare_diffed_mem (w : World) :
    ∀ (l : List StoreKeysPrefixes) (tr : List Step) (skp : StoreKeysPrefixes),
      Step.diffed skp ∈ (TestAppImportExport.compare w l tr).2 →
      Step.diffed skp ∈ tr ∨ skp ∈ l := by
  intro l
  induction l with
  | nil => intro tr skp h; exact Or.inl (by simpa [TestAppImportExport.compare] using h)
  | cons e rest ih =>
    intro tr skp h
    by_cases hlen : (w.DiffKVStores e.A e.B e.Prefixes).1.length =
        (w.DiffKVStores e.A e.B e.Prefixes).2.length
    · have hstep : Step.diffed skp ∈ tr ++ compareSteps w e →
          Step.diffed skp ∈ tr ∨ skp ∈ e :: rest := by
        intro hm
        rcases List.mem_append.mp hm with hm | hm
        · exact Or.inl hm
        · simp [compareSteps] at hm
          exact Or.inr (by rw [hm]; exact List.mem_cons_self _ _)
      by_cases h0 : (w.DiffKVStores e.A e.B e.Prefixes).1.length = 0
      · rw [compare_cons_zero w e rest tr h0 (by omega)] at h
        rcases ih _ skp h with h1 | h1
        · exact hstep h1
        · exact Or.inr (List.mem_cons_of_mem _ h1)
      · obtain ⟨log, _, hc⟩ := compare_cons_nonzero w e rest tr hlen h0
        rw [hc] at h
        exact hstep h
    · rw [compare_cons_mismatch w e rest tr hlen] at h
      rcases List.mem_append.mp h with hm | hm
      · exact Or.inl hm
      · simp at hm
        exact Or.inr (by rw [hm]; exact List.mem_cons_self _ _)

/-- Every call of the comparator in `TestAppImportExport` is for an entry of
`storeKeysPrefixes`. -/
theorem TestAppImportExport_diffed_mem (c : Imports) (w : World) (skp : StoreKeysPrefixes)
    (h : Step.diffed skp ∈ (TestAppImportExport c w).2) : skp ∈ storeKeysPrefixes c := by
  unfold TestAppImportExport at h
  repeat' split at h
  all_goals first
    | (rcases compare_diffed_mem w _ _ skp h with h1 | h1
       · simp at h1
       · exact h1)
    | simp at h

/-- C13, as the code has it. The list `storeKeysPrefixes` has thirteen entries, those of the
store keys of auth, staking, slashing, mint, distribution, bank, params, gov, evidence,
capability, IBC host, IBC transfer and fee refunder, each pairing the key of A with the key
of B; a namespace whose name is not one of these thirteen, such as the one of the wasm
module when its name differs from them, has no entry, and the comparator is called on the
entries of the list only: the deletion of the tx-counter key of the wasm store of A is
followed by no comparison of that store. -/
theorem storeKeysPrefixes_names (c : Imports) :
    (storeKeysPrefixes c).map (fun e => e.A.Name) = comparedNames c ∧
    (storeKeysPrefixes c).map (fun e => e.B.Name) = comparedNames c ∧
    (storeKeysPrefixes c).length = 13 ∧
    (∀ name, name ∉ comparedNames c →
      ∀ e ∈ storeKeysPrefixes c, e.A.Name ≠ name ∧ e.B.Name ≠ name) ∧
    (∀ (w : World) (skp : StoreKeysPrefixes),
      Step.diffed skp ∈ (TestAppImportExport c w).2 → skp.A.Name ∈ comparedNames c) := by
  have hA : (storeKeysPrefixes c).map (fun e => e.A.Name) = comparedNames c := rfl
  have hB : (storeKeysPrefixes c).map (fun e => e.B.Name) = comparedNames c := rfl
  refine ⟨hA, hB, rfl, ?_, ?_⟩
  · intro name hname e he
    constructor
    · intro hn
      apply hname
      rw [← hA, ← hn]
      exact List.mem_map_of_mem (fun e => e.A.Name) he
    · intro hn
      apply hname
      rw [← hB, ← hn]
      exact List.mem_map_of_mem (fun e => e.B.Name) he
  · intro w skp h
    rw [← hA]
    exact List.mem_map_of_mem (fun e => e.A.Name) (TestAppImportExport_diffed_mem c w skp h)

/-- C13, as stated, fails: with the names that the imported packages give to their store
keys, the list has no entry for the namespace `wasm`, nor one for a namespace `tax`; in an
execution that passes, the tx-counter key of the wasm store of A is deleted and the
namespaces compared after it are the thirteen of the list, `wasm` not among them. -/
theorem storeKeysPrefixes_names_counterexample :
    (storeKeysPrefixes sampleImports).map (fun e => e.A.Name) =
      ["acc", "staking", "slashing", "mint", "distribution", "bank", "params", "gov",
       "evidence", "capability", "ibc", "transfer", "feerefunder"] ∧
    sampleImports.wasmStoreKey = "wasm" ∧
    "wasm" ∉ (storeKeysPrefixes sampleImports).map (fun e => e.A.Name) ∧
    "tax" ∉ (storeKeysPrefixes sampleImports).map (fun e => e.A.Name) ∧
    (TestAppImportExport sampleImports (sampleWorld none)).1 = TestResult.passed ∧
    Step.deletedKey ⟨Instance.A, "wasm"⟩ [8] ∈
      (TestAppImportExport sampleImports (sampleWorld none)).2 ∧
    (TestAppImportExport sampleImports (sampleWorld none)).2.filterMap Step.diffedName =
      ["acc", "staking", "slashing", "mint", "distribution", "bank", "params", "gov",
       "evidence", "capability", "ibc", "transfer", "feerefunder"] := by
  have hz : ∀ e ∈ storeKeysPrefixes sampleImports,
      ((sampleWorld none).DiffKVStores e.A e.B e.Prefixes).1.length = 0 ∧
        ((sampleWorld none).DiffKVStores e.A e.B e.Prefixes).2.length = 0 := by
    intro e _
    exact ⟨rfl, rfl⟩
  have h2 : TestAppImportExport sampleImports (sampleWorld none) =
      (TestResult.passed,
        [Step.simulated, Step.checkedExportSimulation] ++ [Step.exportedState] ++
          [Step.importedState, Step.deletedKey ⟨Instance.A, sampleImports.wasmStoreKey⟩
            sampleImports.TXCounterPrefix] ++
          passSteps (sampleWorld none) (storeKeysPrefixes sampleImports)) := by
    have h3 := compare_pass_through (sampleWorld none) [] (storeKeysPrefixes sampleImports)
      ([Step.simulated, Step.checkedExportSimulation] ++ [Step.exportedState] ++
        [Step.importedState, Step.deletedKey ⟨Instance.A, sampleImports.wasmStoreKey⟩
          sampleImports.TXCounterPrefix]) hz
    rw [List.append_nil] at h3
    simp only [TestAppImportExport, sampleWorld] at h3 ⊢
    simp only [ne_eq, not_true_eq_false, if_false, Bool.false_eq_true]
    rw [h3]
    rfl
  rw [h2]
  refine ⟨rfl, rfl, by decide, by decide, rfl, ?_, ?_⟩
  · simp [sampleImports]
  · simp [passSteps, storeKeysPrefixes, compareSteps, skpEntry, Step.diffedName, sampleImports]

/-! ## The store comparator and the provisioner -/

/-- C14. The store comparator returns two sequences of equal length, for all stores A and B
and every list of excluded prefixes. -/
theorem DiffKVStores_lengths (storeA storeB : List Pair) (exclusions : List Bytes) :
    (DiffKVStores storeA storeB exclusions).1.length =
      (DiffKVStores storeA storeB exclusions).2.length := by
  simp [DiffKVStores]

theorem matchesExclusion_eq_false (exclusions : List Bytes) (k : Bytes) :
    matchesExclusion exclusions k = false ↔ ∀ e ∈ exclusions, ¬ e <+: k := by
  simp [matchesExclusion]

theorem storeLookup_eq_none (store : List Pair) (k : Bytes)
    (h : k ∉ store.map (fun p => p.Key)) : storeLookup store k = none := by
  unfold storeLookup
  rw [Option.map_eq_none', List.find?_eq_none]
  intro p hp hk
  exact h (List.mem_map.mpr ⟨p, hp, by simpa using hk⟩)

theorem mem_unionKeys (storeA storeB : List Pair) (k : Bytes) :
    k ∈ unionKeys storeA storeB ↔
      k ∈ storeA.map (fun p => p.Key) ∨ k ∈ storeB.map (fun p => p.Key) := by
  unfold unionKeys
  rw [(List.perm_insertionSort _ _).mem_iff, List.mem_dedup, List.mem_append]

/-- C15. No key that has one of the excluded prefixes appears in either output sequence of
the store comparator. The comparator returns two empty sequences exactly when A and B have
the same entry, in value and in presence, for every key that has none of the excluded
prefixes: so it does when they differ only on keys with an excluded prefix. In particular
a key that is present only in A is not reported when it has an excluded prefix, and is
reported by one pair on each side when it has none, whatever its value, the empty one
included. -/
theorem DiffKVStores_exclusion (storeA storeB : List Pair) (exclusions : List Bytes) :
    (∀ p ∈ (DiffKVStores storeA storeB exclusions).1, ∀ e ∈ exclusions, ¬ e <+: p.Key) ∧
    (∀ p ∈ (DiffKVStores storeA storeB exclusions).2, ∀ e ∈ exclusions, ¬ e <+: p.Key) ∧
    (DiffKVStores storeA storeB exclusions = ([], []) ↔
      ∀ k, (∀ e ∈ exclusions, ¬ e <+: k) → storeLookup storeA k = storeLookup storeB k) ∧
    (∀ k v, (∃ e ∈ exclusions, e <+: k) → DiffKVStores [⟨k, v⟩] [] exclusions = ([], [])) ∧
    (∀ k v, (∀ e ∈ exclusions, ¬ e <+: k) →
      DiffKVStores [⟨k, v⟩] [] exclusions = ([⟨k, v⟩], [⟨k, []⟩])) := by
  have hmem : ∀ (f : Bytes → Pair) (p : Pair), p ∈ ((unionKeys storeA storeB).filter (fun k =>
      !matchesExclusion exclusions k &&
        decide (storeLookup storeA k ≠ storeLookup storeB k))).map f →
      ∃ k, matchesExclusion exclusions k = false ∧ f k = p := by
    intro f p hp
    simp only [List.mem_map, List.mem_filter] at hp
    obtain ⟨k, ⟨_, hk⟩, rfl⟩ := hp
    simp only [Bool.and_eq_true, Bool.not_eq_true'] at hk
    exact ⟨k, hk.1, rfl⟩
  have hiff : DiffKVStores storeA storeB exclusions = ([], []) ↔
      ∀ k, (∀ e ∈ exclusions, ¬ e <+: k) → storeLookup storeA k = storeLookup storeB k := by
    constructor
    · intro h k hk
      by_cases hin : k ∈ unionKeys storeA storeB
      · have hnil : (unionKeys storeA storeB).filter (fun k =>
            !matchesExclusion exclusions k &&
              decide (storeLookup storeA k ≠ storeLookup storeB k)) = [] := by
          have h1 := congrArg Prod.fst h
          simp only [DiffKVStores] at h1
          exact List.map_eq_nil_iff.mp h1
        rw [List.filter_eq_nil_iff] at hnil
        have := hnil k hin
        rw [(matchesExclusion_eq_false exclusions k).mpr hk] at this
        simpa using this
      · rw [mem_unionKeys, not_or] at hin
        rw [storeLookup_eq_none storeA k hin.1, storeLookup_eq_none storeB k hin.2]
    · intro h
      have hnil : (unionKeys storeA storeB).filter (fun k =>
          !matchesExclusion exclusions k &&
            decide (storeLookup storeA k ≠ storeLookup storeB k)) = [] := by
        rw [List.filter_eq_nil_iff]
        intro k _
        cases hm : matchesExclusion exclusions k with
        | true => simp
        | false => simp [h k ((matchesExclusion_eq_false exclusions k).mp hm)]
      simp only [DiffKVStores, hnil, List.map_nil]
  have hkeys : ∀ k v, unionKeys [(⟨k, v⟩ : Pair)] [] = [k] := by
    intro k v
    simp [unionKeys]
  refine ⟨?_, ?_, hiff, ?_, ?_⟩
  · intro p hp
    obtain ⟨k, hk, rfl⟩ := hmem _ p hp
    exact (matchesExclusion_eq_false exclusions k).mp hk
  · intro p hp
    obtain ⟨k, hk, rfl⟩ := hmem _ p hp
    exact (matchesExclusion_eq_false exclusions k).mp hk
  · intro k v hex
    have hm : matchesExclusion exclusions k = true := by
      cases hm : matchesExclusion exclusions k with
      | true => rfl
      | false =>
        obtain ⟨e, he, hpre⟩ := hex
        exact absurd hpre ((matchesExclusion_eq_false exclusions k).mp hm e he)
    simp [DiffKVStores, hkeys, hm]
  · intro k v hex
    have hm := (matchesExclusion_eq_false exclusions k).mpr hex
    simp [DiffKVStores, hkeys, hm, storeLookup, storePair]

/-- C16. The function that `AppStateFn` returns rejects a configuration that supplies both
a genesis document and a simulation-parameters document, and produces no state for it; a
configuration that supplies at most one of them is not rejected. -/
theorem AppStateFn_rejects_both (ModuleBasics : List String) (now : Int) (g : SimappGlobals)
    (config : Config) :
    (config.GenesisFile.isSome = true ∧ config.ParamsFile.isSome = true →
      (AppStateFn ModuleBasics now g).2 config =
        Except.error ConfigurationError.bothGenesisAndParams) ∧
    (¬ (config.GenesisFile.isSome = true ∧ config.ParamsFile.isSome = true) →
      ∃ source, (AppStateFn ModuleBasics now g).2 config = Except.ok source) := by
  obtain ⟨genesis, params, seed⟩ := config
  cases genesis <;> cases params <;> simp [AppStateFn, simappAppStateFn]

/-- C17. `AppStateFn` sets the genesis-time flag to the reading of the clock when the flag
is zero on entry, and leaves it unchanged when it is not zero. -/
theorem AppStateFn_genesis_time (ModuleBasics : List String) (now : Int) (g : SimappGlobals) :
    (g.FlagGenesisTimeValue = 0 →
      (AppStateFn ModuleBasics now g).1.FlagGenesisTimeValue = now) ∧
    (g.FlagGenesisTimeValue ≠ 0 →
      (AppStateFn ModuleBasics now g).1.FlagGenesisTimeValue = g.FlagGenesisTimeValue) ∧
    (AppStateFn ModuleBasics now g).1.ModuleBasics = ModuleBasics := by
  refine ⟨?_, ?_, ?_⟩
  · intro h
    simp [AppStateFn, h]
  · intro h
    simp [AppStateFn, h]
  · unfold AppStateFn
    simp only
    split <;> rfl


/-! ## Varints -/

theorem varintBytes_lt (v : Nat) (h : v < 128) : varintBytes v = [v] := by
  rw [varintBytes]
  simp [Nat.not_le.mpr h]

theorem varintBytes_ge (v : Nat) (h : 128 ≤ v) :
    varintBytes v = (v % 128 + 128) :: varintBytes (v / 128) := by
  rw [varintBytes]
  simp [h]

theorem size_or_one (v : Nat) (h : 1 ≤ v) : Nat.size (v ||| 1) = Nat.size v := by
  apply le_antisymm
  · rw [Nat.size_le]
    have h1 : 0 < Nat.size v := Nat.size_pos.mpr h
    exact Nat.or_lt_two_pow (Nat.lt_size_self v)
      (Nat.one_lt_two_pow (Nat.pos_iff_ne_zero.mp h1))
  · apply Nat.size_le_size
    apply Nat.le_of_testBit
    intro i hi
    simp [hi]

theorem size_div_128 (v : Nat) (h : 128 ≤ v) : Nat.size v = Nat.size (v / 128) + 7 := by
  have hk : ∀ k, Nat.size v ≤ k + 7 ↔ Nat.size (v / 128) ≤ k := by
    intro k
    rw [Nat.size_le, Nat.size_le, Nat.div_lt_iff_lt_mul (by decide), pow_succ, pow_succ,
      pow_succ, pow_succ, pow_succ, pow_succ, pow_succ]
    constructor <;> intro h' <;> omega
  have h7 : 7 < Nat.size v := Nat.lt_size.mpr h
  have h1 := (hk (Nat.size (v / 128))).mpr (le_refl _)
  have h2 := (hk (Nat.size v - 7)).mp (by omega)
  omega

theorem sovMint_lt (v : Nat) (h : v < 128) : sovMint v = 1 := by
  unfold sovMint Len64
  have h1 : Nat.size (v ||| 1) ≤ 7 :=
    Nat.size_le.mpr (Nat.or_lt_two_pow (by simpa using h) (by decide))
  have h2 : 0 < Nat.size (v ||| 1) := by
    rw [Nat.size_pos]
    have : 1 ≤ v ||| 1 := by
      apply Nat.le_of_testBit
      intro i hi
      simp [hi]
    omega
  omega

theorem sovMint_ge (v : Nat) (h : 128 ≤ v) : sovMint v = sovMint (v / 128) + 1 := by
  unfold sovMint Len64
  have hd : 1 ≤ v / 128 := by omega
  rw [size_or_one v (by omega), size_or_one (v / 128) hd, size_div_128 v h]
  omega

/-- The varint of `v` has `sovMint(v)` bytes. -/
theorem varintBytes_length : ∀ (v : Nat), (varintBytes v).length = sovMint v := by
  intro v
  induction v using Nat.strong_induction_on with
  | _ v ih =>
    by_cases h : v < 128
    · rw [varintBytes_lt v h, sovMint_lt v h]
      rfl
    · have h' : 128 ≤ v := Nat.not_lt.mp h
      rw [varintBytes_ge v h', sovMint_ge v h', List.length_cons, ih (v / 128) (by omega)]

theorem sovMint_pos (v : Nat) : 1 ≤ sovMint v := by
  by_cases h : v < 128
  · rw [sovMint_lt v h]
  · rw [sovMint_ge v (Nat.not_lt.mp h)]
    omega

theorem byte_low_bits (v : Nat) : (v % 128 + 128) &&& 0x7F = v % 128 := by
  have h := Nat.and_pow_two_sub_one_eq_mod (v % 128 + 128) 7
  simp only [Nat.reducePow, Nat.add_one_sub_one] at h
  rw [show (0x7F : Nat) = 127 from rfl, h]
  omega

theorem byte_high_bit (v : Nat) : ((v &&& 0x7f) ||| 0x80) % 256 = v % 128 + 128 := by
  have h := Nat.and_pow_two_sub_one_eq_mod v 7
  simp only [Nat.reducePow, Nat.add_one_sub_one] at h
  have h2 := Nat.mul_add_lt_is_or (show v % 128 < 2 ^ 7 by omega) 1
  simp only [Nat.reducePow, Nat.mul_one] at h2
  rw [show (0x7f : Nat) = 127 from rfl, show (0x80 : Nat) = 128 from rfl, h, Nat.or_comm, ← h2]
  omega

theorem or_shift_eq_add (acc x shift : Nat) (hacc : acc < 2 ^ shift)
    (hx : x * 2 ^ shift < 2 ^ 64) :
    acc ||| uint64 (x <<< shift) = acc + x * 2 ^ shift := by
  unfold uint64
  rw [Nat.shiftLeft_eq, Nat.mod_eq_of_lt hx, Nat.or_comm, Nat.mul_comm x,
    ← Nat.mul_add_lt_is_or hacc x, Nat.add_comm]

/-! ## Marshalling -/

theorem writeByte_spec (pre post : Bytes) (x y : Nat) (i : Int) (hi : i = (pre.length : Int)) :
    writeByte (pre ++ x :: post) i y = Except.ok (pre ++ y :: post) := by
  subst hi
  unfold writeByte
  have h : (0 : Int) ≤ pre.length ∧ (pre.length : Int) < ((pre ++ x :: post).length : Nat) := by
    constructor
    · exact Int.natCast_nonneg _
    · simp only [List.length_append, List.length_cons]
      omega
  rw [if_pos h]
  simp

/-- The loop of `encodeVarintMint` writes the varint of `v` over as many bytes. -/
theorem encodeVarintMint_loop_spec : ∀ (v : Nat) (pre mid post : Bytes) (i : Int),
    i = (pre.length : Int) → mid.length = (varintBytes v).length →
    encodeVarintMint.loop (pre ++ mid ++ post) i v =
      Except.ok (pre ++ varintBytes v ++ post) := by
  intro v
  induction v using Nat.strong_induction_on with
  | _ v ih =>
    intro pre mid post i hi hmid
    rw [encodeVarintMint.loop]
    by_cases h : v < 128
    · rw [varintBytes_lt v h] at hmid ⊢
      have hv : ¬ v ≥ 1 <<< 7 := by
        simp only [Nat.shiftLeft_eq, Nat.one_mul, Nat.reducePow]
        omega
      rw [dif_neg hv]
      cases mid with
      | nil => simp at hmid
      | cons x mid' =>
        have hnil : mid' = [] := by
          simpa using hmid
        subst hnil
        have := writeByte_spec pre post x (v % 256) i hi
        simp only [List.append_assoc, List.singleton_append] at this ⊢
        rw [this, Nat.mod_eq_of_lt (by omega)]
    · have h' : 128 ≤ v := Nat.not_lt.mp h
      rw [varintBytes_ge v h'] at hmid ⊢
      have hv : v ≥ 1 <<< 7 := by
        simp only [Nat.shiftLeft_eq, Nat.one_mul, Nat.reducePow]
        omega
      rw [dif_pos hv]
      cases mid with
      | nil => simp at hmid
      | cons x mid' =>
        have hw := writeByte_spec pre (mid' ++ post) x (((v &&& 0x7f) ||| 0x80) % 256) i hi
        simp only [List.append_assoc, List.cons_append] at hw ⊢
        rw [hw, byte_high_bit]
        simp only
        have hrec := ih (v / 128) (by omega) (pre ++ [v % 128 + 128]) mid' post (i + 1)
          (by simp only [List.length_append, List.length_singleton]; omega)
          (by simpa using hmid)
        simp only [List.append_assoc, List.singleton_append] at hrec
        rw [Nat.shiftRight_eq_div_pow]
        exact hrec

theorem encodeVarintMint_spec (v : Nat) (pre mid post : Bytes) (i : Int)
    (hi : i = (pre.length : Int) + (mid.length : Int)) (hmid : mid.length = sovMint v) :
    encodeVarintMint (pre ++ mid ++ post) i v =
      Except.ok (pre ++ varintBytes v ++ post, (pre.length : Int)) := by
  unfold encodeVarintMint
  have hbase : i - (sovMint v : Int) = (pre.length : Int) := by
    rw [hi, hmid]
    omega
  simp only [hbase]
  rw [encodeVarintMint_loop_spec v pre mid post _ rfl (by rw [hmid, varintBytes_length])]

theorem writeFrom_spec (pre rest : Bytes) (write : Bytes → Except String Bytes) (s : Bytes)
    (i : Int) (hi : i = (pre.length : Int)) (h : write rest = Except.ok s) :
    writeFrom (pre ++ rest) i write = Except.ok (pre ++ s) := by
  subst hi
  unfold writeFrom
  have hc : (0 : Int) ≤ pre.length ∧ (pre.length : Int) ≤ ((pre ++ rest).length : Nat) := by
    constructor
    · exact Int.natCast_nonneg _
    · simp only [List.length_append]
      omega
  rw [if_pos hc]
  simp [h]

/-- A list of `1 + a + b` elements is one element, then `a` elements, then `b` elements. -/
theorem split_three (mid : Bytes) (a b : Nat) (h : mid.length = 1 + a + b) :
    ∃ t vs body, mid = t :: (vs ++ body) ∧ vs.length = a ∧ body.length = b := by
  cases mid with
  | nil => simp at h; omega
  | cons t rest =>
    simp only [List.length_cons] at h
    refine ⟨t, rest.take a, rest.drop a, by rw [List.take_append_drop], ?_, ?_⟩
    · rw [List.length_take]; omega
    · rw [List.length_drop]; omega

/-- The steps that write a length-delimited field, on a slice whose bytes before the index
are split as the field needs them. -/
theorem marshal_field_steps (tag : Nat) (body : Bytes) (pre vs old post : Bytes) (t : Nat)
    (write : Bytes → Except String Bytes) (i : Int)
    (hi : i = (pre.length : Int) + 1 + (vs.length : Int))
    (hvs : vs.length = sovMint (uint64 body.length))
    (hwrite : write (old ++ post) = Except.ok (body ++ post)) :
    (match writeFrom (pre ++ t :: (vs ++ old) ++ post) i write with
      | Except.error e => Except.error e
      | Except.ok d1 =>
        match encodeVarintMint d1 i (uint64 body.length) with
        | Except.error e => Except.error e
        | Except.ok (d2, i2) =>
          match writeByte d2 (i2 - 1) tag with
          | Except.error e => Except.error e
          | Except.ok d3 => Except.ok (d3, i2 - 1)) =
      (Except.ok (pre ++ fieldBytes tag body ++ post, (pre.length : Int)) :
        Except MintError (Bytes × Int)) := by
  have hw1 : writeFrom (pre ++ t :: (vs ++ old) ++ post) i write =
      Except.ok (pre ++ [t] ++ vs ++ (body ++ post)) := by
    have h := writeFrom_spec (pre ++ t :: vs) (old ++ post) write (body ++ post) i
      (by simp only [List.length_append, List.length_cons]; omega) hwrite
    simpa using h
  have hw2 := encodeVarintMint_spec (uint64 body.length) (pre ++ [t]) vs (body ++ post) i
    (by simp only [List.length_append, List.length_singleton]; omega) hvs
  have hw3 := writeByte_spec pre (varintBytes (uint64 body.length) ++ (body ++ post)) t tag
    ((((pre ++ [t]).length : Nat) : Int) - 1)
    (by simp only [List.length_append, List.length_singleton]; omega)
  rw [hw1]
  simp only
  rw [hw2]
  simp only [List.append_assoc, List.singleton_append, List.cons_append,
    List.nil_append] at hw3 ⊢
  rw [hw3]
  simp [fieldBytes]

/-- The block of a field of a custom type writes the tag, the varint of the length and the
bytes of the field over the last bytes before the index, and moves the index before
them. -/
theorem marshalCustomField_spec {T : Type} (C : CustomType T) (enc : T → Bytes)
    (hC : C.Writes enc) (x : T) (tag : Nat) (pre mid post : Bytes) (i : Int)
    (hi : i = (pre.length : Int) + (mid.length : Int))
    (hmid : mid.length = 1 + sovMint (uint64 (C.Size x)) + C.Size x) :
    marshalCustomField C x tag (pre ++ mid ++ post) i =
      Except.ok (pre ++ fieldBytes tag (enc x) ++ post, (pre.length : Int)) := by
  obtain ⟨hsize, hwrite⟩ := hC
  obtain ⟨t, vs, old, hsplit, hvsl, hbl⟩ := split_three mid _ _ hmid
  subst hsplit
  unfold marshalCustomField
  have h := marshal_field_steps tag (enc x) pre vs old post t (C.MarshalTo x)
    (i - (C.Size x : Int))
    (by simp only [List.length_cons, List.length_append] at hi; omega)
    (by rw [hsize]; exact hvsl)
    (by
      rw [hwrite x (old ++ post) (by simp only [List.length_append]; omega)]
      rw [← hbl, List.drop_left])
  rw [hsize] at h
  exact h

/-- The block of the field `MintDenom` writes the field when the string is not empty, and
nothing when it is empty. -/
theorem marshalMintDenom_spec (MintDenom : Bytes) (pre mid post : Bytes) (i : Int)
    (hi : i = (pre.length : Int) + (mid.length : Int))
    (hmid : mid.length =
      if MintDenom.length > 0 then
        1 + sovMint (uint64 MintDenom.length) + MintDenom.length else 0) :
    marshalMintDenom MintDenom (pre ++ mid ++ post) i =
      Except.ok (pre ++ (if MintDenom.length > 0 then fieldBytes 0xa MintDenom else []) ++ post,
        (pre.length : Int)) := by
  unfold marshalMintDenom
  by_cases hl : MintDenom.length > 0
  · rw [if_pos hl] at hmid ⊢
    rw [if_pos hl]
    obtain ⟨t, vs, old, hsplit, hvsl, hbl⟩ := split_three mid _ _ hmid
    subst hsplit
    exact marshal_field_steps 0xa MintDenom pre vs old post t
      (fun s => Except.ok (copyBytes s MintDenom)) (i - (MintDenom.length : Int))
      (by simp only [List.length_cons, List.length_append] at hi; omega) hvsl
      (by
        show (Except.ok (copyBytes (old ++ post) MintDenom) : Except String Bytes) = _
        unfold copyBytes
        rw [List.take_of_length_le (by simp only [List.length_append]; omega), ← hbl,
          List.drop_left])
  · rw [if_neg hl] at hmid ⊢
    rw [if_neg hl]
    have hnil : mid = [] := List.length_eq_zero.mp hmid
    subst hnil
    simp [hi]

theorem fieldBytes_length (tag : Nat) (body : Bytes) :
    (fieldBytes tag body).length = 1 + body.length + sovMint (uint64 body.length) := by
  simp only [fieldBytes, List.length_cons, List.length_append, varintBytes_length]
  omega

theorem split_two (l : Bytes) (a b : Nat) (h : l.length = a + b) :
    ∃ x y, l = x ++ y ∧ x.length = a ∧ y.length = b :=
  ⟨l.take a, l.drop a, (List.take_append_drop a l).symm,
    by rw [List.length_take]; omega, by rw [List.length_drop]; omega⟩

theorem sliceTo_length (dAtA : Bytes) : sliceTo dAtA (dAtA.length : Int) = Except.ok dAtA := by
  unfold sliceTo
  rw [if_pos ⟨Int.natCast_nonneg _, le_refl _⟩]
  simp

theorem Params_wire_length {U : Type} (uint : CustomType U) (enc : U → Bytes)
    (hU : uint.Writes enc) (m : Params U) :
    (Params.wire enc m).length = Params.Size uint m := by
  unfold Params.wire Params.Size
  by_cases hl : m.MintDenom.length > 0
  · simp only [hl, if_true, List.length_append, fieldBytes_length, hU.1]
  · simp only [hl, if_false, List.length_append, fieldBytes_length, hU.1, List.length_nil]

theorem Minter_wire_length {D U : Type} (dec : CustomType D) (uint : CustomType U)
    (encD : D → Bytes) (encU : U → Bytes) (hD : dec.Writes encD) (hU : uint.Writes encU)
    (m : Minter D U) : (Minter.wire encD encU m).length = Minter.Size dec uint m := by
  unfold Minter.wire Minter.Size
  simp only [List.length_append, fieldBytes_length, hU.1, hD.1]

/-- On a slice of `Size()` bytes, `Params.MarshalToSizedBuffer` writes the wire format of
the record and returns `Size()`. -/
theorem Params_MarshalToSizedBuffer_spec {U : Type} (uint : CustomType U) (enc : U → Bytes)
    (hU : uint.Writes enc) (m : Params U) (dAtA : Bytes)
    (hlen : dAtA.length = Params.Size uint m) :
    Params.MarshalToSizedBuffer uint m dAtA =
      Except.ok (Params.wire enc m, (Params.Size uint m : Int)) := by
  obtain ⟨a, b, hab, ha, hb⟩ := split_two dAtA
    (if m.MintDenom.length > 0 then
      1 + sovMint (uint64 m.MintDenom.length) + m.MintDenom.length else 0)
    (1 + sovMint (uint64 (uint.Size m.MaxMintableNanoseconds)) +
      uint.Size m.MaxMintableNanoseconds)
    (by
      rw [hlen]
      unfold Params.Size
      by_cases hl : m.MintDenom.length > 0
      · simp only [hl, if_true]; omega
      · simp only [hl, if_false]; omega)
  subst hab
  unfold Params.MarshalToSizedBuffer
  have h1 := marshalCustomField_spec uint enc hU m.MaxMintableNanoseconds 0x12 a b []
    (((a ++ b).length : Nat) : Int) (by simp only [List.length_append]; omega) hb
  have h2 := marshalMintDenom_spec m.MintDenom [] a
    (fieldBytes 0x12 (enc m.MaxMintableNanoseconds)) ((a.length : Nat) : Int)
    (by simp) ha
  simp only [List.append_nil, List.nil_append, List.length_nil] at h1 h2
  simp only [h1, h2, Params.wire]
  rw [← hlen]
  simp

/-- On a slice of `Size()` bytes, `Minter.MarshalToSizedBuffer` writes the wire format of
the record and returns `Size()`. -/
theorem Minter_MarshalToSizedBuffer_spec {D U : Type} (dec : CustomType D)
    (uint : CustomType U) (encD : D → Bytes) (encU : U → Bytes) (hD : dec.Writes encD)
    (hU : uint.Writes encU) (m : Minter D U) (dAtA : Bytes)
    (hlen : dAtA.length = Minter.Size dec uint m) :
    Minter.MarshalToSizedBuffer dec uint m dAtA =
      Except.ok (Minter.wire encD encU m, (Minter.Size dec uint m : Int)) := by
  obtain ⟨abc, d, h1, habc, hd⟩ := split_two dAtA
    ((1 + sovMint (uint64 (dec.Size m.NormTimePassed)) + dec.Size m.NormTimePassed) +
      (1 + sovMint (uint64 (uint.Size m.TotalMinted)) + uint.Size m.TotalMinted) +
      (1 + sovMint (uint64 (uint.Size m.PrevBlockTimestamp)) + uint.Size m.PrevBlockTimestamp))
    (1 + sovMint (uint64 (uint.Size m.AnnualInflation)) + uint.Size m.AnnualInflation)
    (by rw [hlen]; simp only [Minter.Size]; omega)
  obtain ⟨ab, c, h2, hab, hc⟩ := split_two abc _ _ habc
  obtain ⟨a, b, h3, ha, hb⟩ := split_two ab _ _ hab
  subst h1 h2 h3
  unfold Minter.MarshalToSizedBuffer
  have e1 := marshalCustomField_spec uint encU hU m.AnnualInflation 0x2a (a ++ b ++ c) d []
    (((a ++ b ++ c ++ d).length : Nat) : Int) (by simp only [List.length_append]; omega) hd
  have e2 := marshalCustomField_spec uint encU hU m.PrevBlockTimestamp 0x22 (a ++ b) c
    (fieldBytes 0x2a (encU m.AnnualInflation) ++ [])
    (((a ++ b ++ c).length : Nat) : Int) (by simp only [List.length_append]; omega) hc
  have e3 := marshalCustomField_spec uint encU hU m.TotalMinted 0x1a a b
    (fieldBytes 0x22 (encU m.PrevBlockTimestamp) ++
      (fieldBytes 0x2a (encU m.AnnualInflation) ++ []))
    (((a ++ b).length : Nat) : Int) (by simp only [List.length_append]; omega) hb
  have e4 := marshalCustomField_spec dec encD hD m.NormTimePassed 0x12 [] a
    (fieldBytes 0x1a (encU m.TotalMinted) ++ (fieldBytes 0x22 (encU m.PrevBlockTimestamp) ++
      (fieldBytes 0x2a (encU m.AnnualInflation) ++ [])))
    ((a.length : Nat) : Int) (by simp) ha
  simp only [List.append_assoc, List.append_nil, List.nil_append, List.length_nil] at e1 e2 e3 e4
  simp only [List.append_assoc, List.append_nil, e1, e2, e3, e4, Minter.wire]
  rw [← hlen]
  simp

/-- C19. When the method `MarshalTo` of each custom field type succeeds and writes exactly
its `Size()` bytes, then for every `Minter` and every `Params` value: on a slice of
`Size()` bytes `MarshalToSizedBuffer` returns `Size()` without an error, and `Marshal`
returns without an error a slice of `Size()` bytes. -/
theorem Marshal_size {D U : Type} (dec : CustomType D) (uint : CustomType U)
    (encD : D → Bytes) (encU : U → Bytes) (hD : dec.Writes encD) (hU : uint.Writes encU)
    (m : Minter D U) (p : Params U) :
    (∀ dAtA : Bytes, dAtA.length = Minter.Size dec uint m →
      ∃ d, Minter.MarshalToSizedBuffer dec uint m dAtA =
        Except.ok (d, (Minter.Size dec uint m : Int))) ∧
    (∃ out, Minter.Marshal dec uint m = Except.ok out ∧
      out.length = Minter.Size dec uint m) ∧
    (∀ dAtA : Bytes, dAtA.length = Params.Size uint p →
      ∃ d, Params.MarshalToSizedBuffer uint p dAtA =
        Except.ok (d, (Params.Size uint p : Int))) ∧
    (∃ out, Params.Marshal uint p = Except.ok out ∧ out.length = Params.Size uint p) := by
  refine ⟨?_, ?_, ?_, ?_⟩
  · intro dAtA h
    exact ⟨_, Minter_MarshalToSizedBuffer_spec dec uint encD encU hD hU m dAtA h⟩
  · refine ⟨Minter.wire encD encU m, ?_, Minter_wire_length dec uint encD encU hD hU m⟩
    unfold Minter.Marshal
    simp only [Minter_MarshalToSizedBuffer_spec dec uint encD encU hD hU m _
      (List.length_replicate _ _)]
    rw [← Minter_wire_length dec uint encD encU hD hU m, sliceTo_length]
  · intro dAtA h
    exact ⟨_, Params_MarshalToSizedBuffer_spec uint encU hU p dAtA h⟩
  · refine ⟨Params.wire encU p, ?_, Params_wire_length uint encU hU p⟩
    unfold Params.Marshal
    simp only [Params_MarshalToSizedBuffer_spec uint encU hU p _ (List.length_replicate _ _)]
    rw [← Params_wire_length uint encU hU p, sliceTo_length]

/-! ## Unmarshalling -/

theorem getElem?_middle (pre post : Bytes) (x : Nat) (i : Nat) (hi : i = pre.length) :
    (pre ++ x :: post)[i]? = some x := by
  subst hi
  rw [List.getElem?_append_right (le_refl _)]
  simp

/-- The varint loop of `Unmarshal` reads the varint of `v` and yields `v`, shifted and added
to the bits read before. -/
theorem decodeVarint_spec : ∀ (v : Nat) (pre post : Bytes) (i shift acc : Nat),
    i = pre.length → shift < 64 → acc < 2 ^ shift → v * 2 ^ shift < 2 ^ 64 →
    decodeVarint (pre ++ varintBytes v ++ post) i shift acc =
      Except.ok (acc + v * 2 ^ shift, i + (varintBytes v).length) := by
  intro v
  induction v using Nat.strong_induction_on with
  | _ v ih =>
    intro pre post i shift acc hi hshift hacc hv
    rw [decodeVarint, if_neg (by omega)]
    have hlen : ¬ i ≥ (pre ++ varintBytes v ++ post).length := by
      have := sovMint_pos v
      simp only [List.length_append, varintBytes_length]
      omega
    rw [if_neg hlen]
    by_cases h : v < 128
    · rw [varintBytes_lt v h]
      have hget : (pre ++ [v] ++ post)[i]? = some v := by
        rw [List.append_assoc]
        exact getElem?_middle pre post v i hi
      rw [hget]
      simp only
      rw [if_pos (show v < 0x80 from h)]
      have hlow : v &&& 0x7F = v := by
        have h7 := Nat.and_pow_two_sub_one_eq_mod v 7
        simp only [Nat.reducePow, Nat.add_one_sub_one] at h7
        rw [show (0x7F : Nat) = 127 from rfl, h7]
        omega
      rw [hlow, or_shift_eq_add acc v shift hacc hv]
      simp
    · have h' : 128 ≤ v := Nat.not_lt.mp h
      rw [varintBytes_ge v h']
      have hget : (pre ++ (v % 128 + 128) :: varintBytes (v / 128) ++ post)[i]? =
          some (v % 128 + 128) := by
        rw [List.append_assoc]
        exact getElem?_middle pre _ _ i hi
      rw [hget]
      simp only
      rw [if_neg (show ¬ v % 128 + 128 < 0x80 by omega), byte_low_bits]
      have hP : 0 < 2 ^ shift := Nat.two_pow_pos shift
      have hpow : 2 ^ (shift + 7) = 128 * 2 ^ shift := by
        rw [pow_add]; norm_num; ring
      have hvdecomp : v = 128 * (v / 128) + v % 128 := (Nat.div_add_mod v 128).symm
      have hq : 1 ≤ v / 128 := by omega
      have hlowlt : v % 128 * 2 ^ shift < 2 ^ 64 := by
        have : v % 128 * 2 ^ shift ≤ v * 2 ^ shift :=
          Nat.mul_le_mul_right _ (Nat.mod_le v 128)
        omega
      have hhigh : v / 128 * 2 ^ (shift + 7) ≤ v * 2 ^ shift := by
        rw [hpow, ← Nat.mul_assoc]
        exact Nat.mul_le_mul_right _ (by omega)
      have hshift' : shift + 7 < 64 := by
        have h1 : 2 ^ (shift + 7) ≤ v / 128 * 2 ^ (shift + 7) :=
          Nat.le_mul_of_pos_left _ (by omega)
        have h2 : 2 ^ (shift + 7) < 2 ^ 64 := by omega
        exact (Nat.pow_lt_pow_iff_right (by decide)).mp h2
      have hacc' : acc + v % 128 * 2 ^ shift < 2 ^ (shift + 7) := by
        rw [hpow]
        have : v % 128 * 2 ^ shift ≤ 127 * 2 ^ shift :=
          Nat.mul_le_mul_right _ (by omega)
        omega
      rw [or_shift_eq_add acc (v % 128) shift hacc hlowlt]
      have hrec := ih (v / 128) (by omega) (pre ++ [v % 128 + 128]) post (i + 1) (shift + 7)
        (acc + v % 128 * 2 ^ shift) (by simp [hi]) hshift' hacc' (by omega)
      simp only [List.append_assoc, List.singleton_append, List.cons_append,
        List.nil_append] at hrec ⊢
      simp only [List.length_cons]
      rw [hrec]
      congr 2
      · rw [hpow]
        have h3 : v * 2 ^ shift = (128 * (v / 128) + v % 128) * 2 ^ shift := by
          rw [← hvdecomp]
        rw [h3]
        ring
      · omega

theorem toInt64_small (n : Nat) (h : n < 2 ^ 63) : toInt64 n = (n : Int) := by
  unfold toInt64
  have h1 : n % 2 ^ 64 = n := Nat.mod_eq_of_lt (by omega)
  rw [h1, if_pos h]

theorem wrapInt64_small (n : Nat) (h : n < 2 ^ 63) : wrapInt64 (n : Int) = (n : Int) := by
  unfold wrapInt64
  have h1 : ((n : Int) % 2 ^ 64).toNat = n := by
    omega
  rw [h1, toInt64_small n h]

theorem slice_spec (pre body post : Bytes) (lo hi : Int) (hlo : lo = (pre.length : Int))
    (hhi : hi = (pre.length : Int) + (body.length : Int)) :
    slice (pre ++ body ++ post) lo hi = Except.ok body := by
  subst hlo hhi
  unfold slice
  have hc : (0 : Int) ≤ pre.length ∧ (pre.length : Int) ≤ pre.length + body.length ∧
      (pre.length : Int) + body.length ≤ ((pre ++ body ++ post).length : Nat) := by
    simp only [List.length_append]
    omega
  rw [if_pos hc]
  have h1 : ((pre.length : Int) + (body.length : Int)).toNat - (pre.length : Int).toNat =
      body.length := by omega
  rw [h1]
  simp

/-- The shared part of the cases of the known fields reads the varint of the length and
yields the bytes of the field and the index after them. -/
theorem lengthDelimited_spec (pre body post : Bytes) (i : Nat) (hi : i = pre.length)
    (hlen : (pre ++ varintBytes (uint64 body.length) ++ body ++ post).length < 2 ^ 63) :
    lengthDelimited (pre ++ varintBytes (uint64 body.length) ++ body ++ post) i =
      Except.ok (body, i + sovMint (uint64 body.length) + body.length) := by
  have hb : body.length < 2 ^ 63 := by
    simp only [List.length_append] at hlen
    omega
  have hu : uint64 body.length = body.length := Nat.mod_eq_of_lt (by omega)
  rw [hu] at hlen ⊢
  unfold lengthDelimited
  have hd := decodeVarint_spec body.length pre (body ++ post) i 0 0 hi (by decide)
    (by decide) (by simp only [pow_zero, Nat.mul_one]; omega)
  simp only [List.append_assoc, pow_zero, Nat.mul_one, Nat.zero_add] at hd ⊢
  rw [hd]
  simp only
  have htot : i + (varintBytes body.length).length + body.length < 2 ^ 63 := by
    simp only [List.length_append] at hlen
    omega
  rw [toInt64_small body.length hb]
  have hsum : ((i + (varintBytes body.length).length : Nat) : Int) + (body.length : Int) =
      ((i + (varintBytes body.length).length + body.length : Nat) : Int) := by
    omega
  rw [hsum, wrapInt64_small _ htot]
  rw [if_neg (by omega), if_neg (by omega), if_neg (by
    simp only [List.length_append]
    omega)]
  have hs := slice_spec (pre ++ varintBytes body.length) body post
    ((i + (varintBytes body.length).length : Nat) : Int)
    ((i + (varintBytes body.length).length + body.length : Nat) : Int)
    (by simp only [List.length_append]; omega)
    (by simp only [List.length_append]; omega)
  simp only [List.append_assoc] at hs
  rw [hs]
  simp [varintBytes_length]
  omega

/-- The start of an iteration of `Unmarshal` on a one-byte tag of wire type 2. -/
theorem readTag_spec (record : String) (pre post : Bytes) (tag i : Nat) (fieldNum : Int)
    (hi : i = pre.length) (htag : tag < 128) (hwire : tag &&& 0x7 = 2)
    (hnum : toInt32 (tag >>> 3) = fieldNum) (hpos : 0 < fieldNum) :
    readTag record (pre ++ tag :: post) i = Except.ok (fieldNum, 2, i + 1) := by
  unfold readTag
  have hd := decodeVarint_spec tag pre post i 0 0 hi (by decide) (by decide)
    (by simp only [pow_zero, Nat.mul_one]; omega)
  rw [varintBytes_lt tag htag] at hd
  simp only [List.append_assoc, List.singleton_append, pow_zero, Nat.mul_one, Nat.zero_add,
    List.length_singleton] at hd
  rw [hd]
  simp only [hwire, hnum]
  rw [if_neg (by decide), if_neg (by omega)]

/-- The case of a field of a custom type, on the wire format of a field. -/
theorem unmarshalCustomField_spec {T : Type} (C : CustomType T) (name : String) (x : T)
    (pre body post : Bytes) (tag i : Nat) (hi : i = pre.length + 1)
    (hlen : (pre ++ fieldBytes tag body ++ post).length < 2 ^ 63) :
    unmarshalCustomField C name x (pre ++ fieldBytes tag body ++ post) i 2 =
      match C.Unmarshal x body with
      | Except.error e => Except.error (MintError.customType e)
      | Except.ok x1 => Except.ok (x1, pre.length + (fieldBytes tag body).length) := by
  unfold unmarshalCustomField
  rw [if_neg (by decide)]
  have hform : pre ++ fieldBytes tag body ++ post =
      (pre ++ [tag]) ++ varintBytes (uint64 body.length) ++ body ++ post := by
    simp [fieldBytes]
  rw [hform] at hlen ⊢
  rw [lengthDelimited_spec (pre ++ [tag]) body post i (by simp [hi]) hlen]
  simp only
  have hpost : i + sovMint (uint64 body.length) + body.length =
      pre.length + (fieldBytes tag body).length := by
    rw [fieldBytes_length, hi]
    omega
  rw [hpost]

/-- At the end of the input the loop of `Params.Unmarshal` returns the receiver. -/
theorem Params_loop_end {U : Type} (uint : CustomType U) (dAtA : Bytes) (fuel : Nat)
    (m : Params U) : Params.Unmarshal.loop uint dAtA fuel dAtA.length m = Except.ok m := by
  cases fuel <;> simp [Params.Unmarshal.loop]

/-- At the end of the input the loop of `Minter.Unmarshal` returns the receiver. -/
theorem Minter_loop_end {D U : Type} (dec : CustomType D) (uint : CustomType U) (dAtA : Bytes)
    (fuel : Nat) (m : Minter D U) :
    Minter.Unmarshal.loop dec uint dAtA fuel dAtA.length m = Except.ok m := by
  cases fuel <;> simp [Minter.Unmarshal.loop]

theorem index_lt_of_field (pre post : Bytes) (tag : Nat) (body : Bytes) :
    pre.length < (pre ++ fieldBytes tag body ++ post).length := by
  simp only [List.length_append, fieldBytes_length]
  omega

/-- An iteration of `Params.Unmarshal` on the field `MintDenom`. -/
theorem Params.loop_MintDenom {U : Type} (uint : CustomType U) (pre body post : Bytes)
    (fuel : Nat) (m : Params U)
    (hlen : (pre ++ fieldBytes 0xa body ++ post).length < 2 ^ 63) :
    Params.Unmarshal.loop uint (pre ++ fieldBytes 0xa body ++ post) (fuel + 1) pre.length m =
      Params.Unmarshal.loop uint (pre ++ fieldBytes 0xa body ++ post) fuel
        (pre.length + (fieldBytes 0xa body).length) { m with MintDenom := body } := by
  rw [Params.Unmarshal.loop, if_pos (index_lt_of_field pre post 0xa body)]
  have htag : readTag "Params" (pre ++ fieldBytes 0xa body ++ post) pre.length =
      Except.ok (1, 2, pre.length + 1) := by
    have h := readTag_spec "Params" pre (varintBytes (uint64 body.length) ++ body ++ post)
      0xa pre.length 1 rfl (by decide) (by decide) (by decide) (by decide)
    simpa [fieldBytes] using h
  rw [htag]
  simp only [Params.Unmarshal.field]
  rw [if_pos trivial, if_neg (by decide)]
  have hform : pre ++ fieldBytes 0xa body ++ post =
      (pre ++ [0xa]) ++ varintBytes (uint64 body.length) ++ body ++ post := by
    simp [fieldBytes]
  have hl := lengthDelimited_spec (pre ++ [0xa]) body post (pre.length + 1) (by simp)
    (by rw [← hform]; exact hlen)
  rw [← hform] at hl
  rw [hl]
  simp only
  have hpost : pre.length + 1 + sovMint (uint64 body.length) + body.length =
      pre.length + (fieldBytes 0xa body).length := by
    rw [fieldBytes_length]
    omega
  rw [hpost]

/-- An iteration of `Params.Unmarshal` on the field `MaxMintableNanoseconds`. -/
theorem Params.loop_MaxMintableNanoseconds {U : Type} (uint : CustomType U)
    (pre body post : Bytes) (fuel : Nat) (m : Params U) (x : U)
    (hlen : (pre ++ fieldBytes 0x12 body ++ post).length < 2 ^ 63)
    (hx : uint.Unmarshal m.MaxMintableNanoseconds body = Except.ok x) :
    Params.Unmarshal.loop uint (pre ++ fieldBytes 0x12 body ++ post) (fuel + 1) pre.length m =
      Params.Unmarshal.loop uint (pre ++ fieldBytes 0x12 body ++ post) fuel
        (pre.length + (fieldBytes 0x12 body).length)
        { m with MaxMintableNanoseconds := x } := by
  rw [Params.Unmarshal.loop, if_pos (index_lt_of_field pre post 0x12 body)]
  have htag : readTag "Params" (pre ++ fieldBytes 0x12 body ++ post) pre.length =
      Except.ok (2, 2, pre.length + 1) := by
    have h := readTag_spec "Params" pre (varintBytes (uint64 body.length) ++ body ++ post)
      0x12 pre.length 2 rfl (by decide) (by decide) (by decide) (by decide)
    simpa [fieldBytes] using h
  rw [htag]
  simp only [Params.Unmarshal.field]
  rw [if_pos trivial,
    unmarshalCustomField_spec uint "MaxMintableNanoseconds" m.MaxMintableNanoseconds pre body
      post 0x12 (pre.length + 1) rfl hlen, hx, if_neg (by decide)]

/-- An iteration of `Minter.Unmarshal` on the field `NormTimePassed`. -/
theorem Minter.loop_NormTimePassed {D U : Type} (dec : CustomType D) (uint : CustomType U)
    (pre body post : Bytes) (fuel : Nat) (m : Minter D U) (x : D)
    (hlen : (pre ++ fieldBytes 0x12 body ++ post).length < 2 ^ 63)
    (hx : dec.Unmarshal m.NormTimePassed body = Except.ok x) :
    Minter.Unmarshal.loop dec uint (pre ++ fieldBytes 0x12 body ++ post) (fuel + 1)
        pre.length m =
      Minter.Unmarshal.loop dec uint (pre ++ fieldBytes 0x12 body ++ post) fuel
        (pre.length + (fieldBytes 0x12 body).length) { m with NormTimePassed := x } := by
  rw [Minter.Unmarshal.loop, if_pos (index_lt_of_field pre post 0x12 body)]
  have htag : readTag "Minter" (pre ++ fieldBytes 0x12 body ++ post) pre.length =
      Except.ok (2, 2, pre.length + 1) := by
    have h := readTag_spec "Minter" pre (varintBytes (uint64 body.length) ++ body ++ post)
      0x12 pre.length 2 rfl (by decide) (by decide) (by decide) (by decide)
    simpa [fieldBytes] using h
  rw [htag]
  simp only [Minter.Unmarshal.field]
  rw [if_pos trivial,
    unmarshalCustomField_spec dec "NormTimePassed" m.NormTimePassed pre body post 0x12 (pre.length + 1)
      rfl hlen, hx]

/-- An iteration of `Minter.Unmarshal` on the field `TotalMinted`. -/
theorem Minter.loop_TotalMinted {D U : Type} (dec : CustomType D) (uint : CustomType U)
    (pre body post : Bytes) (fuel : Nat) (m : Minter D U) (x : U)
    (hlen : (pre ++ fieldBytes 0x1a body ++ post).length < 2 ^ 63)
    (hx : uint.Unmarshal m.TotalMinted body = Except.ok x) :
    Minter.Unmarshal.loop dec uint (pre ++ fieldBytes 0x1a body ++ post) (fuel + 1)
        pre.length m =
      Minter.Unmarshal.loop dec uint (pre ++ fieldBytes 0x1a body ++ post) fuel
        (pre.length + (fieldBytes 0x1a body).length) { m with TotalMinted := x } := by
  rw [Minter.Unmarshal.loop, if_pos (index_lt_of_field pre post 0x1a body)]
  have htag : readTag "Minter" (pre ++ fieldBytes 0x1a body ++ post) pre.length =
      Except.ok (3, 2, pre.length + 1) := by
    have h := readTag_spec "Minter" pre (varintBytes (uint64 body.length) ++ body ++ post)
      0x1a pre.length 3 rfl (by decide) (by decide) (by decide) (by decide)
    simpa [fieldBytes] using h
  rw [htag]
  simp only [Minter.Unmarshal.field]
  rw [if_neg (by decide), if_pos trivial,
    unmarshalCustomField_spec uint "TotalMinted" m.TotalMinted pre body post 0x1a (pre.length + 1)
      rfl hlen, hx]

/-- An iteration of `Minter.Unmarshal` on the field `PrevBlockTimestamp`. -/
theorem Minter.loop_PrevBlockTimestamp {D U : Type} (dec : CustomType D) (uint : CustomType U)
    (pre body post : Bytes) (fuel : Nat) (m : Minter D U) (x : U)
    (hlen : (pre ++ fieldBytes 0x22 body ++ post).length < 2 ^ 63)
    (hx : uint.Unmarshal m.PrevBlockTimestamp body = Except.ok x) :
    Minter.Unmarshal.loop dec uint (pre ++ fieldBytes 0x22 body ++ post) (fuel + 1)
        pre.length m =
      Minter.Unmarshal.loop dec uint (pre ++ fieldBytes 0x22 body ++ post) fuel
        (pre.length + (fieldBytes 0x22 body).length) { m with PrevBlockTimestamp := x } := by
  rw [Minter.Unmarshal.loop, if_pos (index_lt_of_field pre post 0x22 body)]
  have htag : readTag "Minter" (pre ++ fieldBytes 0x22 body ++ post) pre.length =
      Except.ok (4, 2, pre.length + 1) := by
    have h := readTag_spec "Minter" pre (varintBytes (uint64 body.length) ++ body ++ post)
      0x22 pre.length 4 rfl (by decide) (by decide) (by decide) (by decide)
    simpa [fieldBytes] using h
  rw [htag]
  simp only [Minter.Unmarshal.field]
  rw [if_neg (by decide), if_neg (by decide), if_pos trivial,
    unmarshalCustomField_spec uint "PrevBlockTimestamp" m.PrevBlockTimestamp pre body post 0x22 (pre.length + 1)
      rfl hlen, hx]

/-- An iteration of `Minter.Unmarshal` on the field `AnnualInflation`. -/
theorem Minter.loop_AnnualInflation {D U : Type} (dec : CustomType D) (uint : CustomType U)
    (pre body post : Bytes) (fuel : Nat) (m : Minter D U) (x : U)
    (hlen : (pre ++ fieldBytes 0x2a body ++ post).length < 2 ^ 63)
    (hx : uint.Unmarshal m.AnnualInflation body = Except.ok x) :
    Minter.Unmarshal.loop dec uint (pre ++ fieldBytes 0x2a body ++ post) (fuel + 1)
        pre.length m =
      Minter.Unmarshal.loop dec uint (pre ++ fieldBytes 0x2a body ++ post) fuel
        (pre.length + (fieldBytes 0x2a body).length) { m with AnnualInflation := x } := by
  rw [Minter.Unmarshal.loop, if_pos (index_lt_of_field pre post 0x2a body)]
  have htag : readTag "Minter" (pre ++ fieldBytes 0x2a body ++ post) pre.length =
      Except.ok (5, 2, pre.length + 1) := by
    have h := readTag_spec "Minter" pre (varintBytes (uint64 body.length) ++ body ++ post)
      0x2a pre.length 5 rfl (by decide) (by decide) (by decide) (by decide)
    simpa [fieldBytes] using h
  rw [htag]
  simp only [Minter.Unmarshal.field]
  rw [if_neg (by decide), if_neg (by decide), if_neg (by decide), if_pos trivial,
    unmarshalCustomField_spec uint "AnnualInflation" m.AnnualInflation pre body post 0x2a (pre.length + 1)
      rfl hlen, hx]


/-- `Params.Unmarshal` on a zero-valued receiver reads the wire format of a record back. -/
theorem Params_Unmarshal_wire {U : Type} (uint : CustomType U) (enc : U → Bytes) (zero : U)
    (hI : uint.Inverts enc zero) (p : Params U) (hlen : (Params.wire enc p).length < 2 ^ 63) :
    Params.Unmarshal uint ⟨[], zero⟩ (Params.wire enc p) = Except.ok p := by
  obtain ⟨denom, max⟩ := p
  unfold Params.Unmarshal
  by_cases hl : denom.length > 0
  · have hw : Params.wire enc ⟨denom, max⟩ =
        fieldBytes 0xa denom ++ fieldBytes 0x12 (enc max) := by
      simp [Params.wire, hl]
    rw [hw] at hlen ⊢
    obtain ⟨k, hk⟩ : ∃ k, (fieldBytes 0xa denom ++ fieldBytes 0x12 (enc max)).length = k + 2 := by
      refine ⟨(fieldBytes 0xa denom ++ fieldBytes 0x12 (enc max)).length - 2, ?_⟩
      simp only [List.length_append, fieldBytes_length]
      omega
    rw [hk]
    have s1 := Params.loop_MintDenom uint [] denom (fieldBytes 0x12 (enc max)) (k + 1)
      ⟨[], zero⟩ (by simpa using hlen)
    have s2 := Params.loop_MaxMintableNanoseconds uint (fieldBytes 0xa denom) (enc max) [] k
      ⟨denom, zero⟩ max (by simpa using hlen) (hI max)
    simp only [List.nil_append, List.append_nil, List.length_nil, Nat.zero_add] at s1 s2
    rw [s1, s2]
    have hidx : (fieldBytes 0xa denom).length + (fieldBytes 0x12 (enc max)).length =
        (fieldBytes 0xa denom ++ fieldBytes 0x12 (enc max)).length := by
      rw [List.length_append]
    rw [hidx]
    exact Params_loop_end uint _ k _
  · have hnil : denom = [] := List.length_eq_zero.mp (by omega)
    subst hnil
    have hw : Params.wire enc ⟨[], max⟩ = fieldBytes 0x12 (enc max) := by
      simp [Params.wire]
    rw [hw] at hlen ⊢
    obtain ⟨k, hk⟩ : ∃ k, (fieldBytes 0x12 (enc max)).length = k + 1 := by
      refine ⟨(fieldBytes 0x12 (enc max)).length - 1, ?_⟩
      simp only [fieldBytes_length]
      omega
    rw [hk]
    have s2 := Params.loop_MaxMintableNanoseconds uint [] (enc max) [] k
      ⟨[], zero⟩ max (by simpa using hlen) (hI max)
    simp only [List.nil_append, List.append_nil, List.length_nil, Nat.zero_add] at s2
    rw [s2]
    exact Params_loop_end uint _ k _

/-- `Minter.Unmarshal` on a zero-valued receiver reads the wire format of a record back. -/
theorem Minter_Unmarshal_wire {D U : Type} (dec : CustomType D) (uint : CustomType U)
    (encD : D → Bytes) (encU : U → Bytes) (zeroD : D) (zeroU : U)
    (hD : dec.Inverts encD zeroD) (hU : uint.Inverts encU zeroU) (m : Minter D U)
    (hlen : (Minter.wire encD encU m).length < 2 ^ 63) :
    Minter.Unmarshal dec uint ⟨zeroD, zeroU, zeroU, zeroU⟩ (Minter.wire encD encU m) =
      Except.ok m := by
  obtain ⟨a, b, c, d⟩ := m
  unfold Minter.Unmarshal
  simp only [Minter.wire] at hlen ⊢
  obtain ⟨k, hk⟩ : ∃ k, (fieldBytes 0x12 (encD a) ++ fieldBytes 0x1a (encU b) ++
      fieldBytes 0x22 (encU c) ++ fieldBytes 0x2a (encU d)).length = k + 4 := by
    refine ⟨(fieldBytes 0x12 (encD a) ++ fieldBytes 0x1a (encU b) ++
      fieldBytes 0x22 (encU c) ++ fieldBytes 0x2a (encU d)).length - 4, ?_⟩
    simp only [List.length_append, fieldBytes_length]
    omega
  rw [hk]
  have s1 := Minter.loop_NormTimePassed dec uint [] (encD a)
    (fieldBytes 0x1a (encU b) ++ fieldBytes 0x22 (encU c) ++ fieldBytes 0x2a (encU d)) (k + 3)
    ⟨zeroD, zeroU, zeroU, zeroU⟩ a (by simpa [List.append_assoc] using hlen) (hD a)
  have s2 := Minter.loop_TotalMinted dec uint (fieldBytes 0x12 (encD a)) (encU b)
    (fieldBytes 0x22 (encU c) ++ fieldBytes 0x2a (encU d)) (k + 2)
    ⟨a, zeroU, zeroU, zeroU⟩ b (by simpa [List.append_assoc] using hlen) (hU b)
  have s3 := Minter.loop_PrevBlockTimestamp dec uint
    (fieldBytes 0x12 (encD a) ++ fieldBytes 0x1a (encU b)) (encU c)
    (fieldBytes 0x2a (encU d)) (k + 1)
    ⟨a, b, zeroU, zeroU⟩ c (by simpa [List.append_assoc] using hlen) (hU c)
  have s4 := Minter.loop_AnnualInflation dec uint
    (fieldBytes 0x12 (encD a) ++ fieldBytes 0x1a (encU b) ++ fieldBytes 0x22 (encU c))
    (encU d) [] k
    ⟨a, b, c, zeroU⟩ d (by simpa [List.append_assoc] using hlen) (hU d)
  have h := Minter_loop_end dec uint (fieldBytes 0x12 (encD a) ++ (fieldBytes 0x1a (encU b) ++
    (fieldBytes 0x22 (encU c) ++ fieldBytes 0x2a (encU d)))) k ⟨a, b, c, d⟩
  simp only [List.nil_append, List.append_nil, List.length_nil, Nat.zero_add,
    List.append_assoc, List.length_append, Nat.add_assoc] at s1 s2 s3 s4 h ⊢
  exact s1.trans (s2.trans (s3.trans (s4.trans h)))

/-- C18. When the method `MarshalTo` of each custom field type writes exactly `Size()`
bytes and its method `Unmarshal`, on the zero value, inverts it, then for every `Minter`
and every `Params` value of fewer than `2^63` bytes: `Marshal` succeeds, and `Unmarshal` of
its result on a zero-valued receiver returns no error and yields the record, also when
`MintDenom` is the empty string. -/
theorem Marshal_Unmarshal_roundtrip {D U : Type} (dec : CustomType D) (uint : CustomType U)
    (encD : D → Bytes) (encU : U → Bytes) (zeroD : D) (zeroU : U)
    (hD : dec.Writes encD) (hU : uint.Writes encU)
    (hDi : dec.Inverts encD zeroD) (hUi : uint.Inverts encU zeroU)
    (m : Minter D U) (p : Params U)
    (hm : Minter.Size dec uint m < 2 ^ 63) (hp : Params.Size uint p < 2 ^ 63) :
    (∃ bz, Minter.Marshal dec uint m = Except.ok bz ∧
      Minter.Unmarshal dec uint ⟨zeroD, zeroU, zeroU, zeroU⟩ bz = Except.ok m) ∧
    (∃ bz, Params.Marshal uint p = Except.ok bz ∧
      Params.Unmarshal uint ⟨[], zeroU⟩ bz = Except.ok p) := by
  constructor
  · refine ⟨Minter.wire encD encU m, ?_, ?_⟩
    · unfold Minter.Marshal
      simp only [Minter_MarshalToSizedBuffer_spec dec uint encD encU hD hU m _
        (List.length_replicate _ _)]
      rw [← Minter_wire_length dec uint encD encU hD hU m, sliceTo_length]
    · exact Minter_Unmarshal_wire dec uint encD encU zeroD zeroU hDi hUi m
        (by rw [Minter_wire_length dec uint encD encU hD hU m]; exact hm)
  · refine ⟨Params.wire encU p, ?_, ?_⟩
    · unfold Params.Marshal
      simp only [Params_MarshalToSizedBuffer_spec uint encU hU p _ (List.length_replicate _ _)]
      rw [← Params_wire_length uint encU hU p, sliceTo_length]
    · exact Params_Unmarshal_wire uint encU zeroU hUi p
        (by rw [Params_wire_length uint encU hU p]; exact hp)

theorem sampleType_writes : sampleType.Writes id := by
  constructor
  · intro x
    rfl
  · intro x s h
    show (Except.ok (copyBytes s x) : Except String Bytes) = Except.ok (id x ++ s.drop x.length)
    unfold copyBytes
    rw [List.take_of_length_le h]
    rfl

theorem sampleType_inverts : sampleType.Inverts id [] := by
  intro x
  rfl

theorem sample_sizes :
    Minter.Size sampleType sampleType ⟨[1], [2, 2], [], [4]⟩ = 12 ∧
    Params.Size sampleType ⟨[97, 98], [1, 2, 3]⟩ = 9 := by
  constructor
  · simp [Minter.Size, sampleType, uint64, sovMint_lt]
  · simp [Params.Size, sampleType, uint64, sovMint_lt]

theorem Marshal_size_witness :
    sampleType.Writes id ∧ sampleType.Writes id ∧
    ((∀ dAtA : Bytes,
        dAtA.length = Minter.Size sampleType sampleType ⟨[1], [2, 2], [], [4]⟩ →
        ∃ d, Minter.MarshalToSizedBuffer sampleType sampleType ⟨[1], [2, 2], [], [4]⟩ dAtA =
          Except.ok (d, (Minter.Size sampleType sampleType ⟨[1], [2, 2], [], [4]⟩ : Int))) ∧
      (∃ out, Minter.Marshal sampleType sampleType ⟨[1], [2, 2], [], [4]⟩ = Except.ok out ∧
        out.length = Minter.Size sampleType sampleType ⟨[1], [2, 2], [], [4]⟩) ∧
      (∀ dAtA : Bytes, dAtA.length = Params.Size sampleType ⟨[97, 98], [1, 2, 3]⟩ →
        ∃ d, Params.MarshalToSizedBuffer sampleType ⟨[97, 98], [1, 2, 3]⟩ dAtA =
          Except.ok (d, (Params.Size sampleType ⟨[97, 98], [1, 2, 3]⟩ : Int))) ∧
      (∃ out, Params.Marshal sampleType ⟨[97, 98], [1, 2, 3]⟩ = Except.ok out ∧
        out.length = Params.Size sampleType ⟨[97, 98], [1, 2, 3]⟩)) :=
  ⟨sampleType_writes, sampleType_writes,
    Marshal_size sampleType sampleType id id sampleType_writes sampleType_writes
      ⟨[1], [2, 2], [], [4]⟩ ⟨[97, 98], [1, 2, 3]⟩⟩

theorem Marshal_Unmarshal_roundtrip_witness :
    sampleType.Writes id ∧ sampleType.Inverts id [] ∧
    Minter.Size sampleType sampleType ⟨[1], [2, 2], [], [4]⟩ < 2 ^ 63 ∧
    Params.Size sampleType ⟨[], [1, 2, 3]⟩ < 2 ^ 63 ∧
    ((∃ bz, Minter.Marshal sampleType sampleType ⟨[1], [2, 2], [], [4]⟩ = Except.ok bz ∧
        Minter.Unmarshal sampleType sampleType ⟨[], [], [], []⟩ bz =
          Except.ok ⟨[1], [2, 2], [], [4]⟩) ∧
      (∃ bz, Params.Marshal sampleType ⟨[], [1, 2, 3]⟩ = Except.ok bz ∧
        Params.Unmarshal sampleType ⟨[], []⟩ bz = Except.ok ⟨[], [1, 2, 3]⟩)) :=
  have hm : Minter.Size sampleType sampleType ⟨[1], [2, 2], [], [4]⟩ < 2 ^ 63 := by
    rw [sample_sizes.1]
    decide
  have hp : Params.Size sampleType ⟨[], [1, 2, 3]⟩ < 2 ^ 63 := by
    simp [Params.Size, sampleType, uint64, sovMint_lt]
  ⟨sampleType_writes, sampleType_inverts, hm, hp,
    Marshal_Unmarshal_roundtrip sampleType sampleType id id [] [] sampleType_writes
      sampleType_writes sampleType_inverts sampleType_inverts ⟨[1], [2, 2], [], [4]⟩
      ⟨[], [1, 2, 3]⟩ hm hp⟩

/-! ## The remaining properties of the test harness -/

/-- C21. Every entry of `storeKeysPrefixes` pairs the store key of instance A with the
store key of instance B of the same name; the entry of auth excludes nothing, the entry of
staking excludes its eight queue, historical-info, unbonding and validator-update
prefixes, the entry of bank excludes exactly one prefix, and every other entry excludes
nothing. -/
theorem storeKeysPrefixes_exclusions (c : Imports) :
    (∀ e ∈ storeKeysPrefixes c,
      e.A.app = Instance.A ∧ e.B.app = Instance.B ∧ e.A.Name = e.B.Name) ∧
    (storeKeysPrefixes c).map (fun e => (e.A.Name, e.Prefixes)) =
      [(c.authStoreKey, []),
       (c.stakingStoreKey,
         [c.UnbondingQueueKey, c.RedelegationQueueKey, c.ValidatorQueueKey,
          c.HistoricalInfoKey, c.UnbondingIdKey, c.UnbondingIndexKey, c.UnbondingTypeKey,
          c.ValidatorUpdatesKey]),
       (c.slashingStoreKey, []), (c.mintStoreKey, []), (c.distrStoreKey, []),
       (c.bankStoreKey, [c.BalancesPrefix]), (c.paramsStoreKey, []), (c.govStoreKey, []),
       (c.evidenceStoreKey, []), (c.capabilityStoreKey, []), (c.ibchostStoreKey, []),
       (c.ibctransferStoreKey, []), (c.feeStoreKey, [])] ∧
    (∀ e ∈ storeKeysPrefixes c, e.Prefixes ≠ [] →
      (e.A.Name = c.stakingStoreKey ∧ e.Prefixes.length = 8) ∨
      (e.A.Name = c.bankStoreKey ∧ e.Prefixes = [c.BalancesPrefix])) := by
  refine ⟨?_, rfl, ?_⟩
  · intro e he
    simp only [storeKeysPrefixes, skpEntry, List.mem_cons, List.mem_singleton,
      List.not_mem_nil, or_false] at he
    rcases he with h | h | h | h | h | h | h | h | h | h | h | h | h <;> subst h <;>
      exact ⟨rfl, rfl, rfl⟩
  · intro e he hne
    simp only [storeKeysPrefixes, skpEntry, List.mem_cons, List.mem_singleton,
      List.not_mem_nil, or_false] at he
    rcases he with h | h | h | h | h | h | h | h | h | h | h | h | h <;> subst h <;>
      first
        | exact absurd rfl hne
        | exact Or.inl ⟨rfl, rfl⟩
        | exact Or.inr ⟨rfl, rfl⟩

/-- C27. Without a decoder for the store name, `GetSimulationLog` on equal-length sequences
returns the empty string if and only if at every index both values are empty; a pair with
a non-empty value on either side, the other one empty or not, is rendered as the raw
rendering, which is not empty. -/
theorem GetSimulationLog_raw_empty_iff (quote : Bytes → String) (storeName : String)
    (sdr : StoreDecoderRegistry) (kvAs kvBs : List Pair)
    (hlen : kvAs.length = kvBs.length) (hno : sdr storeName = none) :
    (GetSimulationLog quote storeName sdr kvAs kvBs = Except.ok "" ↔
      (∀ p ∈ kvAs, p.Value = []) ∧ (∀ p ∈ kvBs, p.Value = [])) ∧
    (∀ a b : Pair, a.Value ≠ [] ∨ b.Value ≠ [] →
      GetSimulationLog quote storeName sdr [a] [b] = Except.ok (rawRendering quote a b) ∧
      rawRendering quote a b ≠ "") := by
  constructor
  · rw [GetSimulationLog_eq quote storeName sdr kvAs kvBs (le_of_eq hlen)]
    constructor
    · intro h
      exact pairsStep_log_empty quote storeName sdr kvAs kvBs hlen
        (fun d hd => by rw [hno] at hd; cases hd) (Except.ok.inj h)
    · intro h
      rw [pairsStep_all_empty quote storeName sdr kvAs kvBs _ h.1 h.2]
  · intro a b hne
    refine ⟨?_, rawRendering_ne_empty quote a b⟩
    have hv : ¬ (a.Value = [] ∧ b.Value = []) := by
      intro h
      rcases hne with h1 | h1
      · exact h1 h.1
      · exact h1 h.2
    rw [GetSimulationLog_eq quote storeName sdr [a] [b] (le_refl _)]
    simp [pairsStep, pairStep, hv, hno]

theorem GetSimulationLog_raw_empty_iff_witness :
    ([⟨[1], [2]⟩, ⟨[3], []⟩] : List Pair).length = ([⟨[1], []⟩, ⟨[3], []⟩] : List Pair).length ∧
    (fun _ => none : StoreDecoderRegistry) "bank" = none ∧
    ((GetSimulationLog (fun _ => "q") "bank" (fun _ => none)
        [⟨[1], [2]⟩, ⟨[3], []⟩] [⟨[1], []⟩, ⟨[3], []⟩] = Except.ok "" ↔
      (∀ p ∈ ([⟨[1], [2]⟩, ⟨[3], []⟩] : List Pair), p.Value = []) ∧
        (∀ p ∈ ([⟨[1], []⟩, ⟨[3], []⟩] : List Pair), p.Value = [])) ∧
    (∀ a b : Pair, a.Value ≠ [] ∨ b.Value ≠ [] →
      GetSimulationLog (fun _ => "q") "bank" (fun _ => none) [a] [b] =
        Except.ok (rawRendering (fun _ => "q") a b) ∧
      rawRendering (fun _ => "q") a b ≠ "")) :=
  ⟨by decide, rfl, GetSimulationLog_raw_empty_iff (fun _ => "q") "bank" (fun _ => none)
    [⟨[1], [2]⟩, ⟨[3], []⟩] [⟨[1], []⟩, ⟨[3], []⟩] (by decide) rfl⟩

/-- Whatever the runs return, the inner loop of the seed index `i` records and compares only
hashes of runs of `i`, never panics, and keeps the length of `appHashList` and the number
of values drawn, provided that from the second repetition on `appHashList[0]` holds the
hash of the run `(i, 0)`. -/
theorem runs_hashesOk (rand : Nat → Int) (sim : SimRun) (S R i : Nat) :
    ∀ (n j : Nat) (st : CampaignState), R - j = n → st.appHashList.length = R →
      st.Seed = rand i →
      (j ≠ 0 → ∃ h0, st.appHashList[0]? = some h0 ∧ sim i 0 (rand i) = Except.ok h0) →
      (∀ e ∈ st.trace, Event.hashesOk rand sim R e) →
      (∀ e ∈ (TestAppStateDeterminism.runs sim S R i j st).2.trace,
        Event.hashesOk rand sim R e) ∧
      (∀ f, (TestAppStateDeterminism.runs sim S R i j st).1 ≠ Verdict.panic f) ∧
      (TestAppStateDeterminism.runs sim S R i j st).2.draws = st.draws ∧
      (TestAppStateDeterminism.runs sim S R i j st).2.appHashList.length = R := by
  intro n
  induction n with
  | zero =>
    intro j st hn hlen _ _ htr
    rw [runs_done sim S R i j st (by omega)]
    exact ⟨htr, (fun f hf => by cases hf), rfl, hlen⟩
  | succ n ih =>
    intro j st hn hlen hseed hzero htr
    have hj : j < R := by omega
    have hext : ∀ (evs : List Event), (∀ e ∈ evs, Event.hashesOk rand sim R e) →
        ∀ e ∈ st.trace ++ evs, Event.hashesOk rand sim R e := by
      intro evs hevs e he
      rcases List.mem_append.mp he with he | he
      · exact htr e he
      · exact hevs e he
    cases hs : sim i j st.Seed with
    | error err =>
      rw [runs_error sim S R i j st hj err hs]
      refine ⟨hext _ ?_, (fun f hf => by cases hf), rfl, hlen⟩
      intro e he
      simp only [List.mem_singleton] at he
      subst he
      trivial
    | ok h =>
      have hs' : sim i j (rand i) = Except.ok h := by rw [← hseed]; exact hs
      by_cases hj0 : j = 0
      · subst hj0
        rw [runs_first sim S R i st hj hlen h hs]
        have hstep := ih 1 ⟨st.appHashList.set 0 h, st.Seed, st.draws,
            st.trace ++ [Event.runStarted i 0 st.Seed, Event.hashRecorded i 0 h]⟩
          (by omega) (by simp [hlen]) hseed
          (fun _ => ⟨h, by simp [List.getElem?_set, hlen, hj], hs'⟩)
          (hext _ (by
            intro e he
            simp only [List.mem_cons, List.mem_singleton, List.not_mem_nil, or_false] at he
            rcases he with he | he
            · subst he; trivial
            · subst he; exact ⟨hj, hs'⟩))
        exact hstep
      · obtain ⟨h0, hh0, hsim0⟩ := hzero hj0
        have hevs : ∀ e ∈ [Event.runStarted i j st.Seed, Event.hashRecorded i j h,
            Event.compared i j h0 h], Event.hashesOk rand sim R e := by
          intro e he
          simp only [List.mem_cons, List.mem_singleton, List.not_mem_nil, or_false] at he
          rcases he with he | he | he
          · subst he; trivial
          · subst he; exact ⟨hj, hs'⟩
          · subst he; exact ⟨hj0, hsim0, hs'⟩
        by_cases heq : h0 = h
        · subst heq
          rw [runs_equal sim S R i j st hj hj0 hlen h0 hs hh0]
          have hstep := ih (j + 1) ⟨st.appHashList.set j h0, st.Seed, st.draws,
              st.trace ++ [Event.runStarted i j st.Seed, Event.hashRecorded i j h0,
                Event.compared i j h0 h0]⟩
            (by omega) (by simp [hlen]) hseed
            (fun _ => ⟨h0, by simp [List.getElem?_set, hj0, hh0], hsim0⟩) (hext _ hevs)
          exact hstep
        · rw [runs_differ sim S R i j st hj hj0 hlen h h0 hs hh0 heq]
          exact ⟨hext _ hevs, (fun f hf => by cases hf), rfl, by simp [hlen]⟩

/-- Whatever the runs return, the outer loop records and compares, for every seed index,
only hashes of runs of that seed index, and never panics. -/
theorem seeds_hashesOk (rand : Nat → Int) (sim : SimRun) (S R : Nat) :
    ∀ (n i : Nat) (st : CampaignState), S - i = n → st.draws = i →
      st.appHashList.length = R → (∀ e ∈ st.trace, Event.hashesOk rand sim R e) →
      (∀ e ∈ (TestAppStateDeterminism.seeds rand sim S R i st).2.trace,
        Event.hashesOk rand sim R e) ∧
      (∀ f, (TestAppStateDeterminism.seeds rand sim S R i st).1 ≠ Verdict.panic f) := by
  intro n
  induction n with
  | zero =>
    intro i st hn _ _ htr
    rw [TestAppStateDeterminism.seeds, if_neg (show ¬ i < S by omega)]
    exact ⟨htr, (fun f hf => by cases hf)⟩
  | succ n ih =>
    intro i st hn hdraws hlen htr
    have hi : i < S := by omega
    have hinner := runs_hashesOk rand sim S R i R 0
      ⟨st.appHashList, rand st.draws, st.draws + 1,
        st.trace ++ [Event.seedDrawn i (rand st.draws)]⟩ rfl hlen (by rw [hdraws])
      (fun h => absurd rfl h)
      (by
        intro e he
        rcases List.mem_append.mp he with he | he
        · exact htr e he
        · simp only [List.mem_singleton] at he
          subst he
          trivial)
    rw [TestAppStateDeterminism.seeds, if_pos hi]
    simp only
    generalize TestAppStateDeterminism.runs sim S R i 0
      ⟨st.appHashList, rand st.draws, st.draws + 1,
        st.trace ++ [Event.seedDrawn i (rand st.draws)]⟩ = r at hinner
    obtain ⟨v, st2⟩ := r
    obtain ⟨h1, hp, h2, h3⟩ := hinner
    simp only at h1 hp h2 h3
    by_cases hv : v = Verdict.pass
    · subst hv
      simp only
      exact ih (i + 1) st2 (by omega) (by rw [h2, hdraws]) h3 h1
    · have hres : (match (v, st2) with
          | (Verdict.pass, st2) =>
            TestAppStateDeterminism.seeds rand sim S R (i + 1) st2
          | (v, st2) => (v, st2)) = (v, st2) := by
        cases v <;> first | rfl | exact absurd rfl hv
      rw [hres]
      exact ⟨h1, hp⟩

/-- C26. No hash leaks from one seed to the next through `appHashList`: whatever the runs
return, every comparison of the campaign, made at `(i, j)` with `j > 0`, is between the
hash of the run `(i, 0)` of the same seed index, read from `appHashList[0]`, and the hash of
the run `(i, j)`; every hash is written at an index `j` below `NumTimesToRunPerSeed`, the
length of `appHashList`, and the campaign never ends in an index panic. -/
theorem TestAppStateDeterminism_no_leak (rand : Nat → Int) (sim : SimRun) (seed0 : Int)
    (S R : Nat) :
    (∀ i j h0 hj, Event.compared i j h0 hj ∈ (TestAppStateDeterminism rand sim seed0 S R).2.trace →
      0 < j ∧ sim i 0 (rand i) = Except.ok h0 ∧ sim i j (rand i) = Except.ok hj) ∧
    (∀ i j h, Event.hashRecorded i j h ∈ (TestAppStateDeterminism rand sim seed0 S R).2.trace →
      j < R ∧ sim i j (rand i) = Except.ok h) ∧
    (∀ f, (TestAppStateDeterminism rand sim seed0 S R).1 ≠ Verdict.panic f) := by
  have h := seeds_hashesOk rand sim S R S 0 ⟨List.replicate R [], seed0, 0, []⟩ rfl rfl
    (by simp) (fun e he => absurd he (List.not_mem_nil e))
  refine ⟨?_, ?_, h.2⟩
  · intro i j h0 hj he
    have := h.1 _ he
    exact ⟨Nat.pos_of_ne_zero this.1, this.2⟩
  · intro i j x he
    exact h.1 _ he

/-! ## The varint round trip -/

theorem sovMint_le_ten (v : Nat) (hv : v < 2 ^ 64) : sovMint v ≤ 10 := by
  unfold sovMint Len64
  have h1 : v ||| 1 < 2 ^ 64 := Nat.or_lt_two_pow hv (by decide)
  have h2 : Nat.size (v ||| 1) ≤ 64 := Nat.size_le.mpr h1
  omega

/-- C23. The varint round trip: for a 64-bit `v`, a buffer and an offset with
`sovMint v <= offset <= len`, `encodeVarintMint` returns `offset - sovMint v`, keeps the
length of the buffer, writes the `sovMint v` bytes of the varint of `v` at the indices from
the returned position up to `offset` and leaves every other byte as it was, with
`1 <= sovMint v <= 10`; the varint loop of `Unmarshal` started at the returned position
reads exactly those bytes, ending at `offset`, and yields `v`. -/
theorem encodeVarintMint_round_trip (v : Nat) (dAtA : Bytes) (offset : Nat)
    (hv : v < 2 ^ 64) (hlo : sovMint v ≤ offset) (hhi : offset ≤ dAtA.length) :
    1 ≤ sovMint v ∧ sovMint v ≤ 10 ∧
    ∃ d : Bytes,
      encodeVarintMint dAtA (offset : Int) v =
        Except.ok (d, (offset : Int) - (sovMint v : Int)) ∧
      d.length = dAtA.length ∧
      (d.drop (offset - sovMint v)).take (sovMint v) = varintBytes v ∧
      (∀ k, k < offset - sovMint v ∨ offset ≤ k → d[k]? = dAtA[k]?) ∧
      decodeVarint d (offset - sovMint v) 0 0 = Except.ok (v, offset) := by
  refine ⟨sovMint_pos v, sovMint_le_ten v hv, ?_⟩
  obtain ⟨pre, mid, post, hd, hpre, hmid⟩ :
      ∃ pre mid post : Bytes, dAtA = pre ++ mid ++ post ∧ pre.length = offset - sovMint v ∧
        mid.length = sovMint v := by
    refine ⟨dAtA.take (offset - sovMint v), (dAtA.drop (offset - sovMint v)).take (sovMint v),
      (dAtA.drop (offset - sovMint v)).drop (sovMint v), ?_, ?_, ?_⟩
    · rw [List.append_assoc, List.take_append_drop, List.take_append_drop]
    · rw [List.length_take]; omega
    · rw [List.length_take, List.length_drop]; omega
  have hvl : (varintBytes v).length = sovMint v := varintBytes_length v
  refine ⟨pre ++ varintBytes v ++ post, ?_, ?_, ?_, ?_, ?_⟩
  · rw [hd, encodeVarintMint_spec v pre mid post (offset : Int) (by omega) hmid]
    congr 2
    omega
  · rw [hd]
    simp only [List.length_append, hvl, hmid]
  · rw [← hpre, List.append_assoc, List.drop_left, ← hvl, List.take_left]
  · intro k hk
    rw [hd]
    rcases hk with hk | hk
    · rw [List.append_assoc, List.append_assoc,
        List.getElem?_append_left (by omega), List.getElem?_append_left (by omega)]
    · rw [List.getElem?_append_right (by simp only [List.length_append]; omega),
        List.getElem?_append_right (by simp only [List.length_append]; omega)]
      simp only [List.length_append, hvl, hmid]
  · have h := decodeVarint_spec v pre post (offset - sovMint v) 0 0 hpre.symm (by decide)
      (by decide) (by simp only [pow_zero, Nat.mul_one]; exact hv)
    rw [h]
    simp only [pow_zero, Nat.mul_one, Nat.zero_add, hvl]
    congr 2
    omega

theorem encodeVarintMint_round_trip_witness :
    (300 : Nat) < 2 ^ 64 ∧ sovMint 300 ≤ 3 ∧ 3 ≤ ([9, 9, 9, 9] : Bytes).length ∧
    (1 ≤ sovMint 300 ∧ sovMint 300 ≤ 10 ∧
    ∃ d : Bytes,
      encodeVarintMint [9, 9, 9, 9] ((3 : Nat) : Int) 300 =
        Except.ok (d, ((3 : Nat) : Int) - (sovMint 300 : Int)) ∧
      d.length = ([9, 9, 9, 9] : Bytes).length ∧
      (d.drop (3 - sovMint 300)).take (sovMint 300) = varintBytes 300 ∧
      (∀ k, k < 3 - sovMint 300 ∨ 3 ≤ k → d[k]? = ([9, 9, 9, 9] : Bytes)[k]?) ∧
      decodeVarint d (3 - sovMint 300) 0 0 = Except.ok (300, 3)) :=
  have hs : sovMint 300 = 2 := by
    rw [sovMint_ge 300 (by decide), sovMint_lt (300 / 128) (by decide)]
  ⟨by decide, by rw [hs]; decide, by decide,
    encodeVarintMint_round_trip 300 [9, 9, 9, 9] 3 (by decide) (by rw [hs]; decide)
      (by decide)⟩

/-! ## The loops of `Unmarshal` and `skipMint` on arbitrary input -/

/-- The varint loop reads at least one byte and none after the end of the input. -/
theorem decodeVarint_bounds (dAtA : Bytes) : ∀ (n iNdEx shift wire v i1 : Nat),
    64 - shift ≤ n → decodeVarint dAtA iNdEx shift wire = Except.ok (v, i1) →
    iNdEx < i1 ∧ i1 ≤ dAtA.length := by
  intro n
  induction n with
  | zero =>
    intro i s w v i1 hn h
    rw [decodeVarint, if_pos (by omega)] at h
    cases h
  | succ n ih =>
    intro i s w v i1 hn h
    rw [decodeVarint] at h
    by_cases h1 : s ≥ 64
    · rw [if_pos h1] at h; cases h
    rw [if_neg h1] at h
    by_cases h2 : i ≥ dAtA.length
    · rw [if_pos h2] at h; cases h
    rw [if_neg h2, List.getElem?_eq_getElem (by omega)] at h
    simp only at h
    by_cases h3 : dAtA[i] < 0x80
    · rw [if_pos h3] at h
      injection h with h
      injection h with _ h
      omega
    · rw [if_neg h3] at h
      have := ih (i + 1) (s + 7) _ v i1 (by omega) h
      omega

/-- The varint loop fails only with `ErrIntOverflowMint` or `io.ErrUnexpectedEOF`: every
byte it reads is in range. -/
theorem decodeVarint_error (dAtA : Bytes) : ∀ (n iNdEx shift wire : Nat) (e : MintError),
    64 - shift ≤ n → decodeVarint dAtA iNdEx shift wire = Except.error e →
    e = MintError.ErrIntOverflowMint ∨ e = MintError.ErrUnexpectedEOF := by
  intro n
  induction n with
  | zero =>
    intro i s w e hn h
    rw [decodeVarint, if_pos (by omega)] at h
    injection h with h
    exact Or.inl h.symm
  | succ n ih =>
    intro i s w e hn h
    rw [decodeVarint] at h
    by_cases h1 : s ≥ 64
    · rw [if_pos h1] at h
      injection h with h
      exact Or.inl h.symm
    rw [if_neg h1] at h
    by_cases h2 : i ≥ dAtA.length
    · rw [if_pos h2] at h
      injection h with h
      exact Or.inr h.symm
    rw [if_neg h2, List.getElem?_eq_getElem (by omega)] at h
    simp only at h
    by_cases h3 : dAtA[i] < 0x80
    · rw [if_pos h3] at h; cases h
    · rw [if_neg h3] at h
      exact ih (i + 1) (s + 7) _ e (by omega) h

/-- The varint loop reads the same varint when bytes are appended to the input. -/
theorem decodeVarint_append (dAtA u : Bytes) : ∀ (n iNdEx shift wire : Nat) (r : Nat × Nat),
    64 - shift ≤ n → decodeVarint dAtA iNdEx shift wire = Except.ok r →
    decodeVarint (dAtA ++ u) iNdEx shift wire = Except.ok r := by
  intro n
  induction n with
  | zero =>
    intro i s w r hn h
    rw [decodeVarint, if_pos (by omega)] at h
    cases h
  | succ n ih =>
    intro i s w r hn h
    rw [decodeVarint] at h
    rw [decodeVarint]
    by_cases h1 : s ≥ 64
    · rw [if_pos h1] at h; cases h
    rw [if_neg h1] at h ⊢
    by_cases h2 : i ≥ dAtA.length
    · rw [if_pos h2] at h; cases h
    rw [if_neg h2, List.getElem?_eq_getElem (by omega)] at h
    rw [if_neg (by simp only [List.length_append]; omega),
      List.getElem?_append_left (by omega), List.getElem?_eq_getElem (by omega)]
    simp only at h ⊢
    by_cases h3 : dAtA[i] < 0x80
    · rw [if_pos h3] at h ⊢
      exact h
    · rw [if_neg h3] at h ⊢
      exact ih (i + 1) (s + 7) _ r (by omega) h

/-- On an input that ends in the middle of a varint the varint loop returns
`io.ErrUnexpectedEOF`. -/
theorem decodeVarint_truncated (dAtA : Bytes) : ∀ (n iNdEx shift wire : Nat),
    dAtA.length - iNdEx = n → iNdEx ≤ dAtA.length → shift + 7 * n < 64 →
    (∀ b ∈ dAtA.drop iNdEx, 0x80 ≤ b) →
    decodeVarint dAtA iNdEx shift wire = Except.error MintError.ErrUnexpectedEOF := by
  intro n
  induction n with
  | zero =>
    intro i s w hn hi hs _
    rw [decodeVarint, if_neg (by omega), if_pos (by omega)]
  | succ n ih =>
    intro i s w hn hi hs hb
    have hlt : i < dAtA.length := by omega
    rw [decodeVarint, if_neg (by omega), if_neg (by omega), List.getElem?_eq_getElem hlt]
    simp only
    have hdrop : dAtA.drop i = dAtA[i] :: dAtA.drop (i + 1) := List.drop_eq_getElem_cons hlt
    have h3 : ¬ dAtA[i] < 0x80 := by
      have := hb dAtA[i] (by rw [hdrop]; exact List.mem_cons_self _ _)
      omega
    rw [if_neg h3]
    exact ih (i + 1) (s + 7) _ (by omega) (by omega) (by omega)
      (fun b hb1 => hb b (by rw [hdrop]; exact List.mem_cons_of_mem _ hb1))

theorem toInt64_range (x : Nat) : -(2 ^ 63 : Int) ≤ toInt64 x ∧ toInt64 x < 2 ^ 63 := by
  unfold toInt64
  split <;> omega

/-- An `int` sum of two non-negative 63-bit values either wraps to a negative value or is
exact. -/
theorem wrapInt64_nonneg (z : Int) (h0 : 0 ≤ z) (h1 : z < 2 ^ 64) (h : ¬ wrapInt64 z < 0) :
    wrapInt64 z = z := by
  unfold wrapInt64 toInt64 at h ⊢
  have h2 : (z % 2 ^ 64).toNat % 2 ^ 64 = z.toNat := by omega
  rw [h2] at h ⊢
  split at h <;> split <;> omega

theorem slice_append (dAtA u field : Bytes) (lo hi : Int)
    (h : slice dAtA lo hi = Except.ok field) : slice (dAtA ++ u) lo hi = Except.ok field := by
  unfold slice at h ⊢
  by_cases hc : 0 ≤ lo ∧ lo ≤ hi ∧ hi ≤ dAtA.length
  · rw [if_pos hc] at h
    rw [if_pos (by simp only [List.length_append]; omega)]
    rw [← h, List.drop_append_of_le_length (by omega),
      List.take_append_of_le_length (by rw [List.length_drop]; omega)]
  · rw [if_neg hc] at h
    cases h

/-- The shared part of the cases of the known fields ends after the index it starts at and
not after the end of the input. -/
theorem lengthDelimited_bounds (dAtA : Bytes) (iNdEx : Nat) (field : Bytes) (postIndex : Nat)
    (h : lengthDelimited dAtA iNdEx = Except.ok (field, postIndex)) :
    iNdEx < postIndex ∧ postIndex ≤ dAtA.length := by
  unfold lengthDelimited at h
  cases hd : decodeVarint dAtA iNdEx 0 0 with
  | error e => rw [hd] at h; cases h
  | ok r =>
    obtain ⟨stringLen, i1⟩ := r
    have hb := decodeVarint_bounds dAtA 64 iNdEx 0 0 stringLen i1 (by omega) hd
    rw [hd] at h
    simp only at h
    by_cases h1 : toInt64 stringLen < 0
    · rw [if_pos h1] at h; cases h
    rw [if_neg h1] at h
    by_cases h2 : wrapInt64 ((i1 : Int) + toInt64 stringLen) < 0
    · rw [if_pos h2] at h; cases h
    rw [if_neg h2] at h
    by_cases h3 : wrapInt64 ((i1 : Int) + toInt64 stringLen) > dAtA.length
    · rw [if_pos h3] at h; cases h
    rw [if_neg h3] at h
    unfold slice at h
    by_cases hc : 0 ≤ (i1 : Int) ∧ (i1 : Int) ≤ wrapInt64 ((i1 : Int) + toInt64 stringLen) ∧
        wrapInt64 ((i1 : Int) + toInt64 stringLen) ≤ dAtA.length
    · rw [if_pos hc] at h
      simp only at h
      injection h with h
      injection h with _ h
      omega
    · rw [if_neg hc] at h
      cases h

/-- The shared part of the cases of the known fields fails only with an error that the code
returns: the slice expression is in range. -/
theorem lengthDelimited_error (dAtA : Bytes) (iNdEx : Nat) (e : MintError)
    (hlen : dAtA.length < 2 ^ 63) (h : lengthDelimited dAtA iNdEx = Except.error e) :
    e = MintError.ErrIntOverflowMint ∨ e = MintError.ErrUnexpectedEOF ∨
      e = MintError.ErrInvalidLengthMint := by
  unfold lengthDelimited at h
  cases hd : decodeVarint dAtA iNdEx 0 0 with
  | error e1 =>
    rw [hd] at h
    injection h with h
    subst h
    rcases decodeVarint_error dAtA 64 iNdEx 0 0 e1 (by omega) hd with h | h
    · exact Or.inl h
    · exact Or.inr (Or.inl h)
  | ok r =>
    obtain ⟨stringLen, i1⟩ := r
    have hb := decodeVarint_bounds dAtA 64 iNdEx 0 0 stringLen i1 (by omega) hd
    have hr := toInt64_range stringLen
    rw [hd] at h
    simp only at h
    by_cases h1 : toInt64 stringLen < 0
    · rw [if_pos h1] at h
      injection h with h
      exact Or.inr (Or.inr h.symm)
    rw [if_neg h1] at h
    by_cases h2 : wrapInt64 ((i1 : Int) + toInt64 stringLen) < 0
    · rw [if_pos h2] at h
      injection h with h
      exact Or.inr (Or.inr h.symm)
    rw [if_neg h2] at h
    by_cases h3 : wrapInt64 ((i1 : Int) + toInt64 stringLen) > dAtA.length
    · rw [if_pos h3] at h
      injection h with h
      exact Or.inr (Or.inl h.symm)
    rw [if_neg h3] at h
    have hw := wrapInt64_nonneg ((i1 : Int) + toInt64 stringLen) (by omega) (by omega) h2
    unfold slice at h
    rw [if_pos (by omega)] at h
    cases h

/-- The shared part of the cases of the known fields yields the same bytes and index when
bytes are appended to the input. -/
theorem lengthDelimited_append (dAtA u : Bytes) (iNdEx : Nat) (r : Bytes × Nat)
    (h : lengthDelimited dAtA iNdEx = Except.ok r) :
    lengthDelimited (dAtA ++ u) iNdEx = Except.ok r := by
  unfold lengthDelimited at h ⊢
  cases hd : decodeVarint dAtA iNdEx 0 0 with
  | error e => rw [hd] at h; cases h
  | ok r1 =>
    obtain ⟨stringLen, i1⟩ := r1
    rw [hd] at h
    rw [decodeVarint_append dAtA u 64 iNdEx 0 0 _ (by omega) hd]
    simp only at h ⊢
    by_cases h1 : toInt64 stringLen < 0
    · rw [if_pos h1] at h; cases h
    rw [if_neg h1] at h ⊢
    by_cases h2 : wrapInt64 ((i1 : Int) + toInt64 stringLen) < 0
    · rw [if_pos h2] at h; cases h
    rw [if_neg h2] at h ⊢
    by_cases h3 : wrapInt64 ((i1 : Int) + toInt64 stringLen) > dAtA.length
    · rw [if_pos h3] at h; cases h
    rw [if_neg h3] at h
    rw [if_neg (by simp only [List.length_append]; omega)]
    cases hs : slice dAtA i1 (wrapInt64 ((i1 : Int) + toInt64 stringLen)) with
    | error e => rw [hs] at h; cases h
    | ok field =>
      rw [hs] at h
      rw [slice_append dAtA u field _ _ hs]
      exact h

/-- The tag of an iteration ends after the index it starts at and not after the end of the
input, and its field number is positive. -/
theorem readTag_bounds (record : String) (dAtA : Bytes) (iNdEx : Nat) (fieldNum : Int)
    (wireType i1 : Nat) (h : readTag record dAtA iNdEx = Except.ok (fieldNum, wireType, i1)) :
    iNdEx < i1 ∧ i1 ≤ dAtA.length ∧ 0 < fieldNum := by
  unfold readTag at h
  cases hd : decodeVarint dAtA iNdEx 0 0 with
  | error e => rw [hd] at h; cases h
  | ok r =>
    obtain ⟨wire, j⟩ := r
    have hb := decodeVarint_bounds dAtA 64 iNdEx 0 0 wire j (by omega) hd
    rw [hd] at h
    simp only at h
    by_cases h1 : wire &&& 0x7 = 4
    · rw [if_pos h1] at h; cases h
    rw [if_neg h1] at h
    by_cases h2 : toInt32 (wire >>> 3) ≤ 0
    · rw [if_pos h2] at h; cases h
    rw [if_neg h2] at h
    injection h with h
    injection h with hf h
    injection h with _ h
    omega

/-- Reading a tag fails only with an error that the code returns. -/
theorem readTag_error (record : String) (dAtA : Bytes) (iNdEx : Nat) (e : MintError)
    (h : readTag record dAtA iNdEx = Except.error e) :
    e ≠ MintError.panic ∧ e ≠ MintError.outOfFuel := by
  unfold readTag at h
  cases hd : decodeVarint dAtA iNdEx 0 0 with
  | error e1 =>
    rw [hd] at h
    injection h with h
    subst h
    rcases decodeVarint_error dAtA 64 iNdEx 0 0 e1 (by omega) hd with h | h <;>
      subst h <;> exact (by constructor <;> intro h <;> cases h)
  | ok r =>
    obtain ⟨wire, j⟩ := r
    rw [hd] at h
    simp only at h
    by_cases h1 : wire &&& 0x7 = 4
    · rw [if_pos h1] at h
      injection h with h
      subst h
      exact (by constructor <;> intro h <;> cases h)
    rw [if_neg h1] at h
    by_cases h2 : toInt32 (wire >>> 3) ≤ 0
    · rw [if_pos h2] at h
      injection h with h
      subst h
      exact (by constructor <;> intro h <;> cases h)
    rw [if_neg h2] at h
    cases h

/-- Reading a tag yields the same tag when bytes are appended to the input. -/
theorem readTag_append (record : String) (dAtA u : Bytes) (iNdEx : Nat) (r : Int × Nat × Nat)
    (h : readTag record dAtA iNdEx = Except.ok r) :
    readTag record (dAtA ++ u) iNdEx = Except.ok r := by
  unfold readTag at h ⊢
  cases hd : decodeVarint dAtA iNdEx 0 0 with
  | error e => rw [hd] at h; cases h
  | ok r1 =>
    rw [hd] at h
    rw [decodeVarint_append dAtA u 64 iNdEx 0 0 _ (by omega) hd]
    exact h

theorem wrapInt64_lt (z : Int) : wrapInt64 z < 2 ^ 63 := (toInt64_range _).2

/-- The `switch wireType` of `skipMint` does not move the index backwards. -/
theorem skipMint_field_bounds (dAtA : Bytes) (i1 depth w : Nat) (i2 : Int) (depth2 : Nat)
    (hlen : dAtA.length < 2 ^ 63) (hi : i1 ≤ dAtA.length)
    (h : skipMint.field dAtA i1 depth w = Except.ok (i2, depth2)) (hn : ¬ i2 < 0) :
    (i1 : Int) ≤ i2 ∧ i2 < 2 ^ 63 := by
  unfold skipMint.field at h
  by_cases h0 : w = 0
  · rw [if_pos h0] at h
    cases hd : decodeVarint dAtA i1 0 0 with
    | error e => rw [hd] at h; cases h
    | ok r =>
      obtain ⟨v, j⟩ := r
      have hb := decodeVarint_bounds dAtA 64 i1 0 0 v j (by omega) hd
      rw [hd] at h
      simp only at h
      injection h with h
      injection h with h _
      omega
  rw [if_neg h0] at h
  by_cases h1 : w = 1
  · rw [if_pos h1] at h
    injection h with h
    injection h with h _
    subst h
    have := wrapInt64_nonneg ((i1 : Int) + 8) (by omega) (by omega) hn
    have := wrapInt64_lt ((i1 : Int) + 8)
    omega
  rw [if_neg h1] at h
  by_cases h2 : w = 2
  · rw [if_pos h2] at h
    cases hd : decodeVarint dAtA i1 0 0 with
    | error e => rw [hd] at h; cases h
    | ok r =>
      obtain ⟨v, j⟩ := r
      have hb := decodeVarint_bounds dAtA 64 i1 0 0 v j (by omega) hd
      have hr := toInt64_range v
      rw [hd] at h
      simp only at h
      by_cases hneg : toInt64 v < 0
      · rw [if_pos hneg] at h; cases h
      rw [if_neg hneg] at h
      injection h with h
      injection h with h _
      subst h
      have := wrapInt64_nonneg ((j : Int) + toInt64 v) (by omega) (by omega) hn
      have := wrapInt64_lt ((j : Int) + toInt64 v)
      omega
  rw [if_neg h2] at h
  by_cases h3 : w = 3
  · rw [if_pos h3] at h
    injection h with h
    injection h with h _
    omega
  rw [if_neg h3] at h
  by_cases h4 : w = 4
  · rw [if_pos h4] at h
    by_cases hd : depth = 0
    · rw [if_pos hd] at h; cases h
    rw [if_neg hd] at h
    injection h with h
    injection h with h _
    omega
  rw [if_neg h4] at h
  by_cases h5 : w = 5
  · rw [if_pos h5] at h
    injection h with h
    injection h with h _
    subst h
    have := wrapInt64_nonneg ((i1 : Int) + 4) (by omega) (by omega) hn
    have := wrapInt64_lt ((i1 : Int) + 4)
    omega
  rw [if_neg h5] at h
  cases h

/-- The `switch wireType` of `skipMint` fails only with an error that the code returns. -/
theorem skipMint_field_error (dAtA : Bytes) (i1 depth w : Nat) (e : MintError)
    (h : skipMint.field dAtA i1 depth w = Except.error e) :
    e ≠ MintError.panic ∧ e ≠ MintError.outOfFuel := by
  unfold skipMint.field at h
  have hv : ∀ e1, decodeVarint dAtA i1 0 0 = Except.error e1 →
      e1 ≠ MintError.panic ∧ e1 ≠ MintError.outOfFuel := by
    intro e1 hd
    rcases decodeVarint_error dAtA 64 i1 0 0 e1 (by omega) hd with h | h <;>
      subst h <;> exact (by constructor <;> intro h <;> cases h)
  by_cases h0 : w = 0
  · rw [if_pos h0] at h
    cases hd : decodeVarint dAtA i1 0 0 with
    | error e1 =>
      rw [hd] at h
      injection h with h
      subst h
      exact hv e1 hd
    | ok r => rw [hd] at h; cases h
  rw [if_neg h0] at h
  by_cases h1 : w = 1
  · rw [if_pos h1] at h; cases h
  rw [if_neg h1] at h
  by_cases h2 : w = 2
  · rw [if_pos h2] at h
    cases hd : decodeVarint dAtA i1 0 0 with
    | error e1 =>
      rw [hd] at h
      injection h with h
      subst h
      exact hv e1 hd
    | ok r =>
      rw [hd] at h
      simp only at h
      by_cases hneg : toInt64 r.1 < 0
      · rw [if_pos hneg] at h
        injection h with h
        subst h
        exact (by constructor <;> intro h <;> cases h)
      · rw [if_neg hneg] at h; cases h
  rw [if_neg h2] at h
  by_cases h3 : w = 3
  · rw [if_pos h3] at h; cases h
  rw [if_neg h3] at h
  by_cases h4 : w = 4
  · rw [if_pos h4] at h
    by_cases hd : depth = 0
    · rw [if_pos hd] at h
      injection h with h
      subst h
      exact (by constructor <;> intro h <;> cases h)
    · rw [if_neg hd] at h; cases h
  rw [if_neg h4] at h
  by_cases h5 : w = 5
  · rw [if_pos h5] at h; cases h
  rw [if_neg h5] at h
  injection h with h
  subst h
  exact (by constructor <;> intro h <;> cases h)

/-- The `switch wireType` of `skipMint` yields the same index when bytes are appended to the
input. -/
theorem skipMint_field_append (dAtA u : Bytes) (i1 depth w : Nat) (r : Int × Nat)
    (h : skipMint.field dAtA i1 depth w = Except.ok r) :
    skipMint.field (dAtA ++ u) i1 depth w = Except.ok r := by
  unfold skipMint.field at h ⊢
  by_cases h0 : w = 0
  · rw [if_pos h0] at h ⊢
    cases hd : decodeVarint dAtA i1 0 0 with
    | error e => rw [hd] at h; cases h
    | ok r1 =>
      rw [hd] at h
      rw [decodeVarint_append dAtA u 64 i1 0 0 _ (by omega) hd]
      exact h
  rw [if_neg h0] at h ⊢
  by_cases h1 : w = 1
  · rw [if_pos h1] at h ⊢
    exact h
  rw [if_neg h1] at h ⊢
  by_cases h2 : w = 2
  · rw [if_pos h2] at h ⊢
    cases hd : decodeVarint dAtA i1 0 0 with
    | error e => rw [hd] at h; cases h
    | ok r1 =>
      rw [hd] at h
      rw [decodeVarint_append dAtA u 64 i1 0 0 _ (by omega) hd]
      exact h
  rw [if_neg h2] at h ⊢
  exact h

/-- The loop of `skipMint` returns an index after the one it starts at. -/
theorem skipMint_loop_bounds (dAtA : Bytes) (hlen : dAtA.length < 2 ^ 63) :
    ∀ (fuel i depth : Nat) (n : Int), skipMint.loop dAtA fuel i depth = Except.ok n →
    (i : Int) < n ∧ n < 2 ^ 63 := by
  intro fuel
  induction fuel with
  | zero =>
    intro i depth n h
    simp only [skipMint.loop] at h
    split at h <;> cases h
  | succ fuel ih =>
    intro i depth n h
    simp only [skipMint.loop] at h
    by_cases hi : i < dAtA.length
    · rw [if_pos hi] at h
      cases hd : decodeVarint dAtA i 0 0 with
      | error e => rw [hd] at h; cases h
      | ok r =>
        obtain ⟨wire, i1⟩ := r
        have hb := decodeVarint_bounds dAtA 64 i 0 0 wire i1 (by omega) hd
        rw [hd] at h
        simp only at h
        cases hf : skipMint.field dAtA i1 depth (wire &&& 0x7) with
        | error e => rw [hf] at h; cases h
        | ok r2 =>
          obtain ⟨i2, depth2⟩ := r2
          rw [hf] at h
          simp only at h
          by_cases hneg : i2 < 0
          · rw [if_pos hneg] at h; cases h
          rw [if_neg hneg] at h
          have hb2 := skipMint_field_bounds dAtA i1 depth _ i2 depth2 hlen hb.2 hf hneg
          by_cases hdepth : depth2 = 0
          · rw [if_pos hdepth] at h
            injection h with h
            omega
          · rw [if_neg hdepth] at h
            have := ih i2.toNat depth2 n h
            omega
    · rw [if_neg hi] at h
      cases h

/-- The loop of `skipMint` ends within as many iterations as there are bytes left, and
fails only with an error that the code returns. -/
theorem skipMint_loop_error (dAtA : Bytes) (hlen : dAtA.length < 2 ^ 63) :
    ∀ (fuel i depth : Nat) (e : MintError), dAtA.length ≤ fuel + i →
    skipMint.loop dAtA fuel i depth = Except.error e →
    e ≠ MintError.panic ∧ e ≠ MintError.outOfFuel := by
  intro fuel
  induction fuel with
  | zero =>
    intro i depth e hfuel h
    simp only [skipMint.loop] at h
    rw [if_neg (by omega)] at h
    injection h with h
    subst h
    exact (by constructor <;> intro h <;> cases h)
  | succ fuel ih =>
    intro i depth e hfuel h
    simp only [skipMint.loop] at h
    by_cases hi : i < dAtA.length
    · rw [if_pos hi] at h
      cases hd : decodeVarint dAtA i 0 0 with
      | error e1 =>
        rw [hd] at h
        injection h with h
        subst h
        rcases decodeVarint_error dAtA 64 i 0 0 e1 (by omega) hd with h | h <;>
          subst h <;> exact (by constructor <;> intro h <;> cases h)
      | ok r =>
        obtain ⟨wire, i1⟩ := r
        have hb := decodeVarint_bounds dAtA 64 i 0 0 wire i1 (by omega) hd
        rw [hd] at h
        simp only at h
        cases hf : skipMint.field dAtA i1 depth (wire &&& 0x7) with
        | error e1 =>
          rw [hf] at h
          injection h with h
          subst h
          exact skipMint_field_error dAtA i1 depth _ e1 hf
        | ok r2 =>
          obtain ⟨i2, depth2⟩ := r2
          rw [hf] at h
          simp only at h
          by_cases hneg : i2 < 0
          · rw [if_pos hneg] at h
            injection h with h
            subst h
            exact (by constructor <;> intro h <;> cases h)
          rw [if_neg hneg] at h
          have hb2 := skipMint_field_bounds dAtA i1 depth _ i2 depth2 hlen hb.2 hf hneg
          by_cases hdepth : depth2 = 0
          · rw [if_pos hdepth] at h; cases h
          · rw [if_neg hdepth] at h
            exact ih i2.toNat depth2 e (by omega) h
    · rw [if_neg hi] at h
      injection h with h
      subst h
      exact (by constructor <;> intro h <;> cases h)

/-- The loop of `skipMint` returns the same index when bytes are appended to the input,
with as many iterations or more. -/
theorem skipMint_loop_append (dAtA u : Bytes) (k : Nat) :
    ∀ (fuel i depth : Nat) (n : Int), skipMint.loop dAtA fuel i depth = Except.ok n →
    skipMint.loop (dAtA ++ u) (fuel + k) i depth = Except.ok n := by
  intro fuel
  induction fuel with
  | zero =>
    intro i depth n h
    simp only [skipMint.loop] at h
    split at h <;> cases h
  | succ fuel ih =>
    intro i depth n h
    rw [show fuel + 1 + k = (fuel + k) + 1 by omega]
    simp only [skipMint.loop] at h ⊢
    by_cases hi : i < dAtA.length
    · rw [if_pos hi] at h
      rw [if_pos (by simp only [List.length_append]; omega)]
      cases hd : decodeVarint dAtA i 0 0 with
      | error e => rw [hd] at h; cases h
      | ok r =>
        obtain ⟨wire, i1⟩ := r
        rw [hd] at h
        rw [decodeVarint_append dAtA u 64 i 0 0 _ (by omega) hd]
        simp only at h ⊢
        cases hf : skipMint.field dAtA i1 depth (wire &&& 0x7) with
        | error e => rw [hf] at h; cases h
        | ok r2 =>
          obtain ⟨i2, depth2⟩ := r2
          rw [hf] at h
          rw [skipMint_field_append dAtA u i1 depth _ _ hf]
          simp only at h ⊢
          by_cases hneg : i2 < 0
          · rw [if_pos hneg] at h; cases h
          rw [if_neg hneg] at h ⊢
          by_cases hdepth : depth2 = 0
          · rw [if_pos hdepth] at h ⊢
            exact h
          · rw [if_neg hdepth] at h ⊢
            exact ih i2.toNat depth2 n h
    · rw [if_neg hi] at h
      cases h

/-- The default case of `Unmarshal` ends after the index at which the field starts and not
after the end of the input. -/
theorem skipField_bounds (dAtA : Bytes) (preIndex i2 : Nat) (hlen : dAtA.length < 2 ^ 63)
    (hpre : preIndex ≤ dAtA.length) (h : skipField dAtA preIndex = Except.ok i2) :
    preIndex < i2 ∧ i2 ≤ dAtA.length := by
  unfold skipField at h
  cases hs : skipMint (dAtA.drop preIndex) with
  | error e => rw [hs] at h; cases h
  | ok skippy =>
    rw [hs] at h
    simp only at h
    have hb := skipMint_loop_bounds (dAtA.drop preIndex)
      (by rw [List.length_drop]; omega) _ 0 0 skippy hs
    by_cases h1 : skippy < 0 ∨ wrapInt64 ((preIndex : Int) + skippy) < 0
    · rw [if_pos h1] at h; cases h
    rw [if_neg h1] at h
    by_cases h2 : wrapInt64 ((preIndex : Int) + skippy) > dAtA.length
    · rw [if_pos h2] at h; cases h
    rw [if_neg h2] at h
    injection h with h
    have := wrapInt64_nonneg ((preIndex : Int) + skippy) (by omega) (by omega)
      (fun hc => h1 (Or.inr hc))
    omega

/-- The default case of `Unmarshal` fails only with an error that the code returns. -/
theorem skipField_error (dAtA : Bytes) (preIndex : Nat) (e : MintError)
    (hlen : dAtA.length < 2 ^ 63) (h : skipField dAtA preIndex = Except.error e) :
    e ≠ MintError.panic ∧ e ≠ MintError.outOfFuel := by
  unfold skipField at h
  cases hs : skipMint (dAtA.drop preIndex) with
  | error e1 =>
    rw [hs] at h
    injection h with h
    subst h
    exact skipMint_loop_error (dAtA.drop preIndex) (by rw [List.length_drop]; omega) _ 0 0 e1
      (by omega) hs
  | ok skippy =>
    rw [hs] at h
    simp only at h
    by_cases h1 : skippy < 0 ∨ wrapInt64 ((preIndex : Int) + skippy) < 0
    · rw [if_pos h1] at h
      injection h with h
      subst h
      exact (by constructor <;> intro h <;> cases h)
    rw [if_neg h1] at h
    by_cases h2 : wrapInt64 ((preIndex : Int) + skippy) > dAtA.length
    · rw [if_pos h2] at h
      injection h with h
      subst h
      exact (by constructor <;> intro h <;> cases h)
    rw [if_neg h2] at h
    cases h

/-- The default case of `Unmarshal` yields the same index when bytes are appended to the
input. -/
theorem skipField_append (dAtA u : Bytes) (preIndex i2 : Nat) (hpre : preIndex ≤ dAtA.length)
    (h : skipField dAtA preIndex = Except.ok i2) :
    skipField (dAtA ++ u) preIndex = Except.ok i2 := by
  unfold skipField at h ⊢
  cases hs : skipMint (dAtA.drop preIndex) with
  | error e => rw [hs] at h; cases h
  | ok skippy =>
    rw [hs] at h
    have hs2 : skipMint ((dAtA ++ u).drop preIndex) = Except.ok skippy := by
      rw [List.drop_append_of_le_length hpre]
      unfold skipMint at hs ⊢
      rw [List.length_append]
      exact skipMint_loop_append _ u u.length _ 0 0 skippy hs
    rw [hs2]
    simp only at h ⊢
    by_cases h1 : skippy < 0 ∨ wrapInt64 ((preIndex : Int) + skippy) < 0
    · rw [if_pos h1] at h; cases h
    rw [if_neg h1] at h ⊢
    by_cases h2 : wrapInt64 ((preIndex : Int) + skippy) > dAtA.length
    · rw [if_pos h2] at h; cases h
    rw [if_neg h2] at h
    rw [if_neg (by simp only [List.length_append]; omega)]
    exact h

/-- A case of a field of a custom type ends after the index it starts at and not after the
end of the input. -/
theorem unmarshalCustomField_bounds {T : Type} (C : CustomType T) (name : String) (x x1 : T)
    (dAtA : Bytes) (iNdEx wireType postIndex : Nat)
    (h : unmarshalCustomField C name x dAtA iNdEx wireType = Except.ok (x1, postIndex)) :
    iNdEx < postIndex ∧ postIndex ≤ dAtA.length := by
  unfold unmarshalCustomField at h
  by_cases hw : wireType ≠ 2
  · rw [if_pos hw] at h; cases h
  rw [if_neg hw] at h
  cases hl : lengthDelimited dAtA iNdEx with
  | error e => rw [hl] at h; cases h
  | ok r =>
    obtain ⟨field, post⟩ := r
    rw [hl] at h
    simp only at h
    cases hu : C.Unmarshal x field with
    | error e => rw [hu] at h; cases h
    | ok x2 =>
      rw [hu] at h
      injection h with h
      injection h with _ h
      subst h
      exact lengthDelimited_bounds dAtA iNdEx field post hl

/-- A case of a field of a custom type fails only with an error that the code returns. -/
theorem unmarshalCustomField_error {T : Type} (C : CustomType T) (name : String) (x : T)
    (dAtA : Bytes) (iNdEx wireType : Nat) (e : MintError) (hlen : dAtA.length < 2 ^ 63)
    (h : unmarshalCustomField C name x dAtA iNdEx wireType = Except.error e) :
    e ≠ MintError.panic ∧ e ≠ MintError.outOfFuel := by
  unfold unmarshalCustomField at h
  by_cases hw : wireType ≠ 2
  · rw [if_pos hw] at h
    injection h with h
    subst h
    exact (by constructor <;> intro h <;> cases h)
  rw [if_neg hw] at h
  cases hl : lengthDelimited dAtA iNdEx with
  | error e1 =>
    rw [hl] at h
    injection h with h
    subst h
    rcases lengthDelimited_error dAtA iNdEx e1 hlen hl with h | h | h <;>
      subst h <;> exact (by constructor <;> intro h <;> cases h)
  | ok r =>
    obtain ⟨field, post⟩ := r
    rw [hl] at h
    simp only at h
    cases hu : C.Unmarshal x field with
    | error e1 =>
      rw [hu] at h
      injection h with h
      subst h
      exact (by constructor <;> intro h <;> cases h)
    | ok x2 => rw [hu] at h; cases h

/-- A case of a field of a custom type has the same result when bytes are appended to the
input. -/
theorem unmarshalCustomField_append {T : Type} (C : CustomType T) (name : String) (x : T)
    (dAtA u : Bytes) (iNdEx wireType : Nat) (r : T × Nat)
    (h : unmarshalCustomField C name x dAtA iNdEx wireType = Except.ok r) :
    unmarshalCustomField C name x (dAtA ++ u) iNdEx wireType = Except.ok r := by
  unfold unmarshalCustomField at h ⊢
  by_cases hw : wireType ≠ 2
  · rw [if_pos hw] at h; cases h
  rw [if_neg hw] at h ⊢
  cases hl : lengthDelimited dAtA iNdEx with
  | error e => rw [hl] at h; cases h
  | ok r1 =>
    rw [hl] at h
    rw [lengthDelimited_append dAtA u iNdEx r1 hl]
    exact h

theorem Params_field_safe {U : Type} (uint : CustomType U) :
    FieldSafe (Params.Unmarshal.field uint) := by
  intro dAtA pre i fn w m hlen hpre hi
  constructor
  · intro e h
    unfold Params.Unmarshal.field at h
    by_cases h1 : fn = 1
    · rw [if_pos h1] at h
      by_cases hw : w ≠ 2
      · rw [if_pos hw] at h
        injection h with h
        subst h
        exact (by constructor <;> intro h <;> cases h)
      rw [if_neg hw] at h
      cases hl : lengthDelimited dAtA i with
      | error e1 =>
        rw [hl] at h
        injection h with h
        subst h
        rcases lengthDelimited_error dAtA i e1 hlen hl with h | h | h <;>
          subst h <;> exact (by constructor <;> intro h <;> cases h)
      | ok r => rw [hl] at h; cases h
    rw [if_neg h1] at h
    by_cases h2 : fn = 2
    · rw [if_pos h2] at h
      cases hc : unmarshalCustomField uint "MaxMintableNanoseconds" m.MaxMintableNanoseconds
          dAtA i w with
      | error e1 =>
        rw [hc] at h
        injection h with h
        subst h
        exact unmarshalCustomField_error uint _ _ dAtA i w e1 hlen hc
      | ok r => rw [hc] at h; cases h
    rw [if_neg h2] at h
    cases hs : skipField dAtA pre with
    | error e1 =>
      rw [hs] at h
      injection h with h
      subst h
      exact skipField_error dAtA pre e1 hlen hs
    | ok r => rw [hs] at h; cases h
  · intro m1 i2 h
    unfold Params.Unmarshal.field at h
    by_cases h1 : fn = 1
    · rw [if_pos h1] at h
      by_cases hw : w ≠ 2
      · rw [if_pos hw] at h; cases h
      rw [if_neg hw] at h
      cases hl : lengthDelimited dAtA i with
      | error e1 => rw [hl] at h; cases h
      | ok r =>
        obtain ⟨field, post⟩ := r
        rw [hl] at h
        injection h with h
        injection h with _ h
        have := lengthDelimited_bounds dAtA i field post hl
        omega
    rw [if_neg h1] at h
    by_cases h2 : fn = 2
    · rw [if_pos h2] at h
      cases hc : unmarshalCustomField uint "MaxMintableNanoseconds" m.MaxMintableNanoseconds
          dAtA i w with
      | error e1 => rw [hc] at h; cases h
      | ok r =>
        obtain ⟨x, post⟩ := r
        rw [hc] at h
        injection h with h
        injection h with _ h
        have := unmarshalCustomField_bounds uint _ _ x dAtA i w post hc
        omega
    rw [if_neg h2] at h
    cases hs : skipField dAtA pre with
    | error e1 => rw [hs] at h; cases h
    | ok r =>
      rw [hs] at h
      injection h with h
      injection h with _ h
      have := skipField_bounds dAtA pre r hlen (by omega) hs
      omega

theorem Params_field_mono {U : Type} (uint : CustomType U) :
    FieldMono (Params.Unmarshal.field uint) := by
  intro dAtA u pre i fn w m r hpre hi h
  unfold Params.Unmarshal.field at h ⊢
  by_cases h1 : fn = 1
  · rw [if_pos h1] at h ⊢
    by_cases hw : w ≠ 2
    · rw [if_pos hw] at h; cases h
    rw [if_neg hw] at h ⊢
    cases hl : lengthDelimited dAtA i with
    | error e1 => rw [hl] at h; cases h
    | ok r1 =>
      rw [hl] at h
      rw [lengthDelimited_append dAtA u i r1 hl]
      exact h
  rw [if_neg h1] at h ⊢
  by_cases h2 : fn = 2
  · rw [if_pos h2] at h ⊢
    cases hc : unmarshalCustomField uint "MaxMintableNanoseconds" m.MaxMintableNanoseconds
        dAtA i w with
    | error e1 => rw [hc] at h; cases h
    | ok r1 =>
      rw [hc] at h
      rw [unmarshalCustomField_append uint _ _ dAtA u i w r1 hc]
      exact h
  rw [if_neg h2] at h ⊢
  cases hs : skipField dAtA pre with
  | error e1 => rw [hs] at h; cases h
  | ok r1 =>
    rw [hs] at h
    rw [skipField_append dAtA u pre r1 (by omega) hs]
    exact h

/-- A case of a field of a custom type, followed by the assignment of the field. -/
theorem customCase_safe {T M : Type} (C : CustomType T) (name : String) (x : T)
    (upd : T → M) (dAtA : Bytes) (iNdEx wireType : Nat) (hlen : dAtA.length < 2 ^ 63) :
    (∀ e, (match unmarshalCustomField C name x dAtA iNdEx wireType with
        | Except.error e => (Except.error e : Except MintError (M × Nat))
        | Except.ok (x1, postIndex) => Except.ok (upd x1, postIndex)) = Except.error e →
      e ≠ MintError.panic ∧ e ≠ MintError.outOfFuel) ∧
    (∀ m1 i2, (match unmarshalCustomField C name x dAtA iNdEx wireType with
        | Except.error e => (Except.error e : Except MintError (M × Nat))
        | Except.ok (x1, postIndex) => Except.ok (upd x1, postIndex)) = Except.ok (m1, i2) →
      iNdEx < i2 ∧ i2 ≤ dAtA.length) := by
  cases hc : unmarshalCustomField C name x dAtA iNdEx wireType with
  | error e1 =>
    refine ⟨?_, ?_⟩
    · intro e h
      injection h with h
      subst h
      exact unmarshalCustomField_error C name x dAtA iNdEx wireType e1 hlen hc
    · intro m1 i2 h
      cases h
  | ok r =>
    obtain ⟨x1, post⟩ := r
    refine ⟨?_, ?_⟩
    · intro e h
      cases h
    · intro m1 i2 h
      injection h with h
      injection h with _ h
      subst h
      exact unmarshalCustomField_bounds C name x x1 dAtA iNdEx wireType post hc

theorem customCase_append {T M : Type} (C : CustomType T) (name : String) (x : T)
    (upd : T → M) (dAtA u : Bytes) (iNdEx wireType : Nat) (r : M × Nat)
    (h : (match unmarshalCustomField C name x dAtA iNdEx wireType with
        | Except.error e => (Except.error e : Except MintError (M × Nat))
        | Except.ok (x1, postIndex) => Except.ok (upd x1, postIndex)) = Except.ok r) :
    (match unmarshalCustomField C name x (dAtA ++ u) iNdEx wireType with
        | Except.error e => (Except.error e : Except MintError (M × Nat))
        | Except.ok (x1, postIndex) => Except.ok (upd x1, postIndex)) = Except.ok r := by
  cases hc : unmarshalCustomField C name x dAtA iNdEx wireType with
  | error e1 => rw [hc] at h; cases h
  | ok r1 =>
    rw [hc] at h
    rw [unmarshalCustomField_append C name x dAtA u iNdEx wireType r1 hc]
    exact h

theorem skipCase_safe {M : Type} (m : M) (dAtA : Bytes) (preIndex : Nat)
    (hlen : dAtA.length < 2 ^ 63) (hpre : preIndex ≤ dAtA.length) :
    (∀ e, (match skipField dAtA preIndex with
        | Except.error e => (Except.error e : Except MintError (M × Nat))
        | Except.ok iNdEx1 => Except.ok (m, iNdEx1)) = Except.error e →
      e ≠ MintError.panic ∧ e ≠ MintError.outOfFuel) ∧
    (∀ m1 i2, (match skipField dAtA preIndex with
        | Except.error e => (Except.error e : Except MintError (M × Nat))
        | Except.ok iNdEx1 => Except.ok (m, iNdEx1)) = Except.ok (m1, i2) →
      preIndex < i2 ∧ i2 ≤ dAtA.length) := by
  cases hs : skipField dAtA preIndex with
  | error e1 =>
    refine ⟨?_, ?_⟩
    · intro e h
      injection h with h
      subst h
      exact skipField_error dAtA preIndex e1 hlen hs
    · intro m1 i2 h
      cases h
  | ok r =>
    refine ⟨?_, ?_⟩
    · intro e h
      cases h
    · intro m1 i2 h
      injection h with h
      injection h with _ h
      subst h
      exact skipField_bounds dAtA preIndex r hlen hpre hs

theorem skipCase_append {M : Type} (m : M) (dAtA u : Bytes) (preIndex : Nat) (r : M × Nat)
    (hpre : preIndex ≤ dAtA.length)
    (h : (match skipField dAtA preIndex with
        | Except.error e => (Except.error e : Except MintError (M × Nat))
        | Except.ok iNdEx1 => Except.ok (m, iNdEx1)) = Except.ok r) :
    (match skipField (dAtA ++ u) preIndex with
        | Except.error e => (Except.error e : Except MintError (M × Nat))
        | Except.ok iNdEx1 => Except.ok (m, iNdEx1)) = Except.ok r := by
  cases hs : skipField dAtA preIndex with
  | error e1 => rw [hs] at h; cases h
  | ok r1 =>
    rw [hs] at h
    rw [skipField_append dAtA u preIndex r1 hpre hs]
    exact h

theorem Minter_field_safe {D U : Type} (dec : CustomType D) (uint : CustomType U) :
    FieldSafe (Minter.Unmarshal.field dec uint) := by
  intro dAtA pre i fn w m hlen hpre hi
  have hwiden : ∀ (P : Except MintError (Minter D U × Nat)),
      ((∀ e, P = Except.error e → e ≠ MintError.panic ∧ e ≠ MintError.outOfFuel) ∧
        (∀ m1 i2, P = Except.ok (m1, i2) → i < i2 ∧ i2 ≤ dAtA.length)) →
      ((∀ e, P = Except.error e → e ≠ MintError.panic ∧ e ≠ MintError.outOfFuel) ∧
        (∀ m1 i2, P = Except.ok (m1, i2) → pre < i2 ∧ i2 ≤ dAtA.length)) := by
    intro P hP
    exact ⟨hP.1, fun m1 i2 h => ⟨by have := (hP.2 m1 i2 h).1; omega, (hP.2 m1 i2 h).2⟩⟩
  unfold Minter.Unmarshal.field
  by_cases h2 : fn = 2
  · rw [if_pos h2]
    exact hwiden _ (customCase_safe dec _ _ _ dAtA i w hlen)
  rw [if_neg h2]
  by_cases h3 : fn = 3
  · rw [if_pos h3]
    exact hwiden _ (customCase_safe uint _ _ _ dAtA i w hlen)
  rw [if_neg h3]
  by_cases h4 : fn = 4
  · rw [if_pos h4]
    exact hwiden _ (customCase_safe uint _ _ _ dAtA i w hlen)
  rw [if_neg h4]
  by_cases h5 : fn = 5
  · rw [if_pos h5]
    exact hwiden _ (customCase_safe uint _ _ _ dAtA i w hlen)
  rw [if_neg h5]
  exact skipCase_safe m dAtA pre hlen (by omega)

theorem Minter_field_mono {D U : Type} (dec : CustomType D) (uint : CustomType U) :
    FieldMono (Minter.Unmarshal.field dec uint) := by
  intro dAtA u pre i fn w m r hpre hi h
  unfold Minter.Unmarshal.field at h ⊢
  by_cases h2 : fn = 2
  · rw [if_pos h2] at h ⊢
    exact customCase_append dec _ _ _ dAtA u i w r h
  rw [if_neg h2] at h ⊢
  by_cases h3 : fn = 3
  · rw [if_pos h3] at h ⊢
    exact customCase_append uint _ _ _ dAtA u i w r h
  rw [if_neg h3] at h ⊢
  by_cases h4 : fn = 4
  · rw [if_pos h4] at h ⊢
    exact customCase_append uint _ _ _ dAtA u i w r h
  rw [if_neg h4] at h ⊢
  by_cases h5 : fn = 5
  · rw [if_pos h5] at h ⊢
    exact customCase_append uint _ _ _ dAtA u i w r h
  rw [if_neg h5] at h ⊢
  exact skipCase_append m dAtA u pre r (by omega) h

theorem Params_loop_eq {U : Type} (uint : CustomType U) (dAtA : Bytes) :
    ∀ (fuel i : Nat) (m : Params U), Params.Unmarshal.loop uint dAtA fuel i m =
      unmarshalLoop "Params" (Params.Unmarshal.field uint) dAtA fuel i m := by
  intro fuel
  induction fuel with
  | zero => intro i m; rfl
  | succ fuel ih =>
    intro i m
    simp only [Params.Unmarshal.loop, unmarshalLoop, ih]
    by_cases hi : i < dAtA.length
    · rw [if_pos hi, if_pos hi]
      cases readTag "Params" dAtA i with
      | error e => rfl
      | ok r =>
        obtain ⟨fn, w, i1⟩ := r
        simp only
        cases Params.Unmarshal.field uint dAtA i i1 fn w m with
        | error e => rfl
        | ok r2 => rfl
    · rw [if_neg hi, if_neg hi]

theorem Minter_loop_eq {D U : Type} (dec : CustomType D) (uint : CustomType U) (dAtA : Bytes) :
    ∀ (fuel i : Nat) (m : Minter D U), Minter.Unmarshal.loop dec uint dAtA fuel i m =
      unmarshalLoop "Minter" (Minter.Unmarshal.field dec uint) dAtA fuel i m := by
  intro fuel
  induction fuel with
  | zero => intro i m; rfl
  | succ fuel ih =>
    intro i m
    simp only [Minter.Unmarshal.loop, unmarshalLoop, ih]
    by_cases hi : i < dAtA.length
    · rw [if_pos hi, if_pos hi]
      cases readTag "Minter" dAtA i with
      | error e => rfl
      | ok r =>
        obtain ⟨fn, w, i1⟩ := r
        simp only
        cases Minter.Unmarshal.field dec uint dAtA i i1 fn w m with
        | error e => rfl
        | ok r2 => rfl
    · rw [if_neg hi, if_neg hi]

/-- The loop of `Unmarshal` at or after the end of the input, whatever the bound on its
iterations. -/
theorem unmarshalLoop_end {M : Type} (record : String)
    (field : Bytes → Nat → Nat → Int → Nat → M → Except MintError (M × Nat)) (dAtA : Bytes)
    (fuel i : Nat) (m : M) (hi : ¬ i < dAtA.length) :
    unmarshalLoop record field dAtA fuel i m =
      if i > dAtA.length then Except.error MintError.ErrUnexpectedEOF else Except.ok m := by
  cases fuel <;> simp only [unmarshalLoop] <;> rw [if_neg hi]

/-- An iteration of the loop of `Unmarshal` within the input. -/
theorem unmarshalLoop_step {M : Type} (record : String)
    (field : Bytes → Nat → Nat → Int → Nat → M → Except MintError (M × Nat)) (dAtA : Bytes)
    (fuel i : Nat) (m : M) (hi : i < dAtA.length) :
    unmarshalLoop record field dAtA (fuel + 1) i m =
      match readTag record dAtA i with
      | Except.error e => Except.error e
      | Except.ok (fieldNum, wireType, iNdEx1) =>
        match field dAtA i iNdEx1 fieldNum wireType m with
        | Except.error e => Except.error e
        | Except.ok (m1, iNdEx2) => unmarshalLoop record field dAtA fuel iNdEx2 m1 := by
  simp only [unmarshalLoop]
  rw [if_pos hi]

/-- The loop of `Unmarshal` ends within as many iterations as there are bytes left, and
fails only with an error that the code returns. -/
theorem unmarshalLoop_error {M : Type} (record : String)
    (field : Bytes → Nat → Nat → Int → Nat → M → Except MintError (M × Nat))
    (hsafe : FieldSafe field) (dAtA : Bytes) (hlen : dAtA.length < 2 ^ 63) :
    ∀ (fuel i : Nat) (m : M) (e : MintError), dAtA.length ≤ fuel + i →
    unmarshalLoop record field dAtA fuel i m = Except.error e →
    e ≠ MintError.panic ∧ e ≠ MintError.outOfFuel := by
  intro fuel
  induction fuel with
  | zero =>
    intro i m e hfuel h
    rw [unmarshalLoop_end record field dAtA 0 i m (by omega)] at h
    split at h
    · injection h with h
      subst h
      exact (by constructor <;> intro h <;> cases h)
    · cases h
  | succ fuel ih =>
    intro i m e hfuel h
    by_cases hi : i < dAtA.length
    · rw [unmarshalLoop_step record field dAtA fuel i m hi] at h
      cases ht : readTag record dAtA i with
      | error e1 =>
        rw [ht] at h
        injection h with h
        subst h
        exact readTag_error record dAtA i e1 ht
      | ok r =>
        obtain ⟨fn, w, i1⟩ := r
        have hb := readTag_bounds record dAtA i fn w i1 ht
        rw [ht] at h
        simp only at h
        have hs := hsafe dAtA i i1 fn w m hlen hb.1 hb.2.1
        cases hf : field dAtA i i1 fn w m with
        | error e1 =>
          rw [hf] at h
          injection h with h
          subst h
          exact hs.1 e1 hf
        | ok r2 =>
          obtain ⟨m1, i2⟩ := r2
          rw [hf] at h
          have := hs.2 m1 i2 hf
          exact ih i2 m1 e (by omega) h
    · rw [unmarshalLoop_end record field dAtA (fuel + 1) i m hi] at h
      split at h
      · injection h with h
        subst h
        exact (by constructor <;> intro h <;> cases h)
      · cases h

/-- The result of the loop of `Unmarshal` does not depend on the bound on its iterations,
once the bound is the number of bytes left or more. -/
theorem unmarshalLoop_fuel {M : Type} (record : String)
    (field : Bytes → Nat → Nat → Int → Nat → M → Except MintError (M × Nat))
    (hsafe : FieldSafe field) (dAtA : Bytes) (hlen : dAtA.length < 2 ^ 63) :
    ∀ (f1 f2 i : Nat) (m : M), dAtA.length ≤ f1 + i → dAtA.length ≤ f2 + i →
    unmarshalLoop record field dAtA f1 i m = unmarshalLoop record field dAtA f2 i m := by
  intro f1
  induction f1 with
  | zero =>
    intro f2 i m h1 h2
    rw [unmarshalLoop_end record field dAtA 0 i m (by omega),
      unmarshalLoop_end record field dAtA f2 i m (by omega)]
  | succ f1 ih =>
    intro f2 i m h1 h2
    by_cases hi : i < dAtA.length
    · cases f2 with
      | zero => omega
      | succ f2 =>
        rw [unmarshalLoop_step record field dAtA f1 i m hi,
          unmarshalLoop_step record field dAtA f2 i m hi]
        cases ht : readTag record dAtA i with
        | error e1 => rfl
        | ok r =>
          obtain ⟨fn, w, i1⟩ := r
          have hb := readTag_bounds record dAtA i fn w i1 ht
          simp only
          have hs := hsafe dAtA i i1 fn w m hlen hb.1 hb.2.1
          cases hf : field dAtA i i1 fn w m with
          | error e1 => rfl
          | ok r2 =>
            obtain ⟨m1, i2⟩ := r2
            have := hs.2 m1 i2 hf
            exact ih f2 i2 m1 (by omega) (by omega)
    · rw [unmarshalLoop_end record field dAtA (f1 + 1) i m hi,
        unmarshalLoop_end record field dAtA f2 i m hi]

/-- After bytes are appended to an input that the loop of `Unmarshal` accepts, the loop
reaches the end of the accepted input with the record that it returned there. -/
theorem unmarshalLoop_append {M : Type} (record : String)
    (field : Bytes → Nat → Nat → Int → Nat → M → Except MintError (M × Nat))
    (hsafe : FieldSafe field) (hmono : FieldMono field) (dAtA u : Bytes)
    (hlen : (dAtA ++ u).length < 2 ^ 63) :
    ∀ (fuel i : Nat) (m r : M), unmarshalLoop record field dAtA fuel i m = Except.ok r →
    unmarshalLoop record field (dAtA ++ u) (fuel + u.length) i m =
      unmarshalLoop record field (dAtA ++ u) u.length dAtA.length r := by
  intro fuel
  induction fuel with
  | zero =>
    intro i m r h
    have hi : ¬ i < dAtA.length := by
      intro hi
      simp only [unmarshalLoop] at h
      rw [if_pos hi] at h
      cases h
    rw [unmarshalLoop_end record field dAtA 0 i m hi] at h
    split at h
    · cases h
    · injection h with h
      subst h
      rw [Nat.zero_add, show i = dAtA.length by omega]
  | succ fuel ih =>
    intro i m r h
    by_cases hi : i < dAtA.length
    · rw [unmarshalLoop_step record field dAtA fuel i m hi] at h
      rw [show fuel + 1 + u.length = (fuel + u.length) + 1 by omega,
        unmarshalLoop_step record field (dAtA ++ u) _ i m
          (by simp only [List.length_append]; omega)]
      cases ht : readTag record dAtA i with
      | error e1 => rw [ht] at h; cases h
      | ok r1 =>
        obtain ⟨fn, w, i1⟩ := r1
        have hb := readTag_bounds record dAtA i fn w i1 ht
        rw [ht] at h
        rw [readTag_append record dAtA u i _ ht]
        simp only at h ⊢
        cases hf : field dAtA i i1 fn w m with
        | error e1 => rw [hf] at h; cases h
        | ok r2 =>
          obtain ⟨m1, i2⟩ := r2
          rw [hf] at h
          rw [hmono dAtA u i i1 fn w m _ hb.1 hb.2.1 hf]
          exact ih i2 m1 r h
    · rw [unmarshalLoop_end record field dAtA (fuel + 1) i m hi] at h
      split at h
      · cases h
      · injection h with h
        subst h
        have hieq : i = dAtA.length := by omega
        subst hieq
        exact unmarshalLoop_fuel record field hsafe (dAtA ++ u) hlen _ _ _ _
          (by simp only [List.length_append]; omega)
          (by simp only [List.length_append]; omega)

/-- C22. `Minter.Unmarshal`, `Params.Unmarshal` and `skipMint` are total on every input
(whose length is an `int`), whatever the decoders of the custom types return: none ends in
an out-of-range access (`panic`) and each ends within `len(dAtA)` iterations of its loop
(never `outOfFuel`), so that the result is nil or an error that the code returns. Every
iteration advances the read index: a tag ends after the index at which it starts, the
`switch fieldNum` ends after the index at which the field starts, both within the input,
the `switch wireType` of `skipMint` does not move the index backwards, and `skipMint`
returns a positive number of bytes. -/
theorem Unmarshal_total {D U : Type} (dec : CustomType D) (uint : CustomType U)
    (mM : Minter D U) (mP : Params U) (dAtA : Bytes) (hlen : dAtA.length < 2 ^ 63) :
    (∀ e, Minter.Unmarshal dec uint mM dAtA = Except.error e →
      e ≠ MintError.panic ∧ e ≠ MintError.outOfFuel) ∧
    (∀ e, Params.Unmarshal uint mP dAtA = Except.error e →
      e ≠ MintError.panic ∧ e ≠ MintError.outOfFuel) ∧
    (∀ e, skipMint dAtA = Except.error e →
      e ≠ MintError.panic ∧ e ≠ MintError.outOfFuel) ∧
    (∀ record i fieldNum wireType i1,
      readTag record dAtA i = Except.ok (fieldNum, wireType, i1) →
      i < i1 ∧ i1 ≤ dAtA.length) ∧
    (∀ i i1 fieldNum wireType m m1 i2, i < i1 → i1 ≤ dAtA.length →
      Minter.Unmarshal.field dec uint dAtA i i1 fieldNum wireType m = Except.ok (m1, i2) →
      i < i2 ∧ i2 ≤ dAtA.length) ∧
    (∀ i i1 fieldNum wireType m m1 i2, i < i1 → i1 ≤ dAtA.length →
      Params.Unmarshal.field uint dAtA i i1 fieldNum wireType m = Except.ok (m1, i2) →
      i < i2 ∧ i2 ≤ dAtA.length) ∧
    (∀ i1 depth wireType i2 depth2, i1 ≤ dAtA.length →
      skipMint.field dAtA i1 depth wireType = Except.ok (i2, depth2) → ¬ i2 < 0 →
      (i1 : Int) ≤ i2) ∧
    (∀ n, skipMint dAtA = Except.ok n → 0 < n) := by
  refine ⟨?_, ?_, ?_, ?_, ?_, ?_, ?_, ?_⟩
  · intro e h
    unfold Minter.Unmarshal at h
    rw [Minter_loop_eq] at h
    exact unmarshalLoop_error "Minter" _ (Minter_field_safe dec uint) dAtA hlen _ 0 mM e
      (by omega) h
  · intro e h
    unfold Params.Unmarshal at h
    rw [Params_loop_eq] at h
    exact unmarshalLoop_error "Params" _ (Params_field_safe uint) dAtA hlen _ 0 mP e
      (by omega) h
  · intro e h
    exact skipMint_loop_error dAtA hlen _ 0 0 e (by omega) h
  · intro record i fn w i1 h
    have := readTag_bounds record dAtA i fn w i1 h
    exact ⟨this.1, this.2.1⟩
  · intro i i1 fn w m m1 i2 h1 h2 h
    exact (Minter_field_safe dec uint dAtA i i1 fn w m hlen h1 h2).2 m1 i2 h
  · intro i i1 fn w m m1 i2 h1 h2 h
    exact (Params_field_safe uint dAtA i i1 fn w m hlen h1 h2).2 m1 i2 h
  · intro i1 depth w i2 depth2 hi h hn
    exact (skipMint_field_bounds dAtA i1 depth w i2 depth2 hlen hi h hn).1
  · intro n h
    have := (skipMint_loop_bounds dAtA hlen _ 0 0 n h).1
    omega

theorem Unmarshal_total_witness :
    ([0x0a, 0x02, 0x61] : Bytes).length < 2 ^ 63 ∧
    ((∀ e, Minter.Unmarshal sampleType sampleType ⟨[], [], [], []⟩ [0x0a, 0x02, 0x61] =
        Except.error e → e ≠ MintError.panic ∧ e ≠ MintError.outOfFuel) ∧
    (∀ e, Params.Unmarshal sampleType ⟨[], []⟩ [0x0a, 0x02, 0x61] = Except.error e →
      e ≠ MintError.panic ∧ e ≠ MintError.outOfFuel) ∧
    (∀ e, skipMint [0x0a, 0x02, 0x61] = Except.error e →
      e ≠ MintError.panic ∧ e ≠ MintError.outOfFuel) ∧
    (∀ record i fieldNum wireType i1,
      readTag record [0x0a, 0x02, 0x61] i = Except.ok (fieldNum, wireType, i1) →
      i < i1 ∧ i1 ≤ ([0x0a, 0x02, 0x61] : Bytes).length) ∧
    (∀ i i1 fieldNum wireType m m1 i2, i < i1 → i1 ≤ ([0x0a, 0x02, 0x61] : Bytes).length →
      Minter.Unmarshal.field sampleType sampleType [0x0a, 0x02, 0x61] i i1 fieldNum wireType m =
        Except.ok (m1, i2) →
      i < i2 ∧ i2 ≤ ([0x0a, 0x02, 0x61] : Bytes).length) ∧
    (∀ i i1 fieldNum wireType m m1 i2, i < i1 → i1 ≤ ([0x0a, 0x02, 0x61] : Bytes).length →
      Params.Unmarshal.field sampleType [0x0a, 0x02, 0x61] i i1 fieldNum wireType m =
        Except.ok (m1, i2) →
      i < i2 ∧ i2 ≤ ([0x0a, 0x02, 0x61] : Bytes).length) ∧
    (∀ i1 depth wireType i2 depth2, i1 ≤ ([0x0a, 0x02, 0x61] : Bytes).length →
      skipMint.field [0x0a, 0x02, 0x61] i1 depth wireType = Except.ok (i2, depth2) →
      ¬ i2 < 0 → (i1 : Int) ≤ i2) ∧
    (∀ n, skipMint [0x0a, 0x02, 0x61] = Except.ok n → 0 < n)) :=
  ⟨by decide,
   Unmarshal_total sampleType sampleType ⟨[], [], [], []⟩ ⟨[], []⟩ [0x0a, 0x02, 0x61]
     (by decide)⟩

/-! ## Unknown fields -/

theorem tag_wireType (fieldNum w : Nat) (hw : w < 8) : (fieldNum * 8 + w) &&& 0x7 = w := by
  have h : (fieldNum * 8 + w) &&& (2 ^ 3 - 1) = (fieldNum * 8 + w) % 2 ^ 3 :=
    Nat.and_pow_two_sub_one_eq_mod _ 3
  have h2 : (fieldNum * 8 + w) % 2 ^ 3 = w := by omega
  exact h.trans h2

theorem tag_fieldNum (fieldNum w : Nat) (hw : w < 8) (hnum : fieldNum < 2 ^ 31) :
    toInt32 ((fieldNum * 8 + w) >>> 3) = (fieldNum : Int) := by
  rw [Nat.shiftRight_eq_div_pow]
  have h : (fieldNum * 8 + w) / 2 ^ 3 = fieldNum := by omega
  rw [h]
  unfold toInt32
  have h2 : fieldNum % 2 ^ 32 = fieldNum := Nat.mod_eq_of_lt (by omega)
  rw [h2, if_pos hnum]

/-- The start of an iteration of `Unmarshal` on the varint of a tag. -/
theorem readTag_varint (record : String) (pre post : Bytes) (fieldNum w i : Nat)
    (hi : i = pre.length) (hw : w < 8) (hw4 : w ≠ 4) (hpos : 0 < fieldNum)
    (hnum : fieldNum < 2 ^ 31) :
    readTag record (pre ++ varintBytes (fieldNum * 8 + w) ++ post) i =
      Except.ok ((fieldNum : Int), w, i + sovMint (fieldNum * 8 + w)) := by
  unfold readTag
  have hd := decodeVarint_spec (fieldNum * 8 + w) pre post i 0 0 hi (by decide) (by decide)
    (by simp only [pow_zero, Nat.mul_one]; omega)
  simp only [pow_zero, Nat.mul_one, Nat.zero_add, varintBytes_length] at hd
  rw [hd]
  simp only [tag_wireType fieldNum w hw, tag_fieldNum fieldNum w hw hnum]
  rw [if_neg hw4, if_neg (by omega)]

theorem FieldValue.wireType_lt (x : FieldValue) : x.wireType < 8 ∧ x.wireType ≠ 4 := by
  cases x <;> simp [FieldValue.wireType]

theorem encodeField_length (fieldNum : Nat) (x : FieldValue) :
    (encodeField fieldNum x).length = sovMint (fieldNum * 8 + x.wireType) + x.bytes.length := by
  simp only [encodeField, List.length_append, varintBytes_length]

/-- On the encoding of a single field, `skipMint` returns the number of its bytes. -/
theorem skipMint_encodeField (fieldNum : Nat) (x : FieldValue) (post : Bytes)
    (hnum : fieldNum < 2 ^ 31) (hx : x.WellFormed)
    (hlen : (encodeField fieldNum x ++ post).length < 2 ^ 63) :
    skipMint (encodeField fieldNum x ++ post) =
      Except.ok ((encodeField fieldNum x).length : Int) := by
  have hw := FieldValue.wireType_lt x
  have hpos := sovMint_pos (fieldNum * 8 + x.wireType)
  have hel := encodeField_length fieldNum x
  unfold skipMint
  obtain ⟨fuel, hfuel⟩ : ∃ fuel, (encodeField fieldNum x ++ post).length = fuel + 1 :=
    ⟨(encodeField fieldNum x ++ post).length - 1, by
      rw [List.length_append, hel]; omega⟩
  rw [hfuel]
  simp only [skipMint.loop]
  rw [if_pos (by omega)]
  have hd := decodeVarint_spec (fieldNum * 8 + x.wireType) [] (x.bytes ++ post) 0 0 0 rfl
    (by decide) (by decide) (by simp only [pow_zero, Nat.mul_one]; omega)
  simp only [pow_zero, Nat.mul_one, Nat.zero_add, varintBytes_length, List.nil_append,
    List.append_assoc] at hd
  have hform : encodeField fieldNum x ++ post =
      varintBytes (fieldNum * 8 + x.wireType) ++ (x.bytes ++ post) := by
    simp only [encodeField, List.append_assoc]
  rw [hform] at hlen ⊢
  rw [hd]
  simp only [tag_wireType fieldNum x.wireType hw.1]
  simp only [List.length_append, varintBytes_length] at hlen
  cases x with
  | varint v =>
    simp only [FieldValue.wireType, FieldValue.bytes, FieldValue.WellFormed] at *
    have hv := decodeVarint_spec v (varintBytes (fieldNum * 8 + 0)) post
      (sovMint (fieldNum * 8 + 0)) 0 0 (by rw [varintBytes_length]) (by decide) (by decide)
      (by simp only [pow_zero, Nat.mul_one]; exact hx)
    simp only [pow_zero, Nat.mul_one, Nat.zero_add, varintBytes_length,
      List.append_assoc] at hv
    simp only [skipMint.field]
    rw [if_pos trivial, hv]
    simp only
    rw [if_neg (by omega), if_pos trivial, hel]
    simp only [varintBytes_length]
  | fixed64 bytes =>
    simp only [FieldValue.wireType, FieldValue.bytes, FieldValue.WellFormed] at *
    simp only [skipMint.field]
    rw [if_neg (by decide), if_pos trivial]
    simp only
    have hwrap : wrapInt64 ((sovMint (fieldNum * 8 + 1) : Int) + 8) =
        ((sovMint (fieldNum * 8 + 1) + 8 : Nat) : Int) := by
      have := wrapInt64_small (sovMint (fieldNum * 8 + 1) + 8) (by omega)
      rw [← this]
      norm_cast
    rw [hwrap, if_neg (by omega), if_pos trivial, hel, hx]
  | fixed32 bytes =>
    simp only [FieldValue.wireType, FieldValue.bytes, FieldValue.WellFormed] at *
    simp only [skipMint.field]
    rw [if_neg (by decide), if_neg (by decide), if_neg (by decide), if_neg (by decide),
      if_neg (by decide), if_pos trivial]
    simp only
    have hwrap : wrapInt64 ((sovMint (fieldNum * 8 + 5) : Int) + 4) =
        ((sovMint (fieldNum * 8 + 5) + 4 : Nat) : Int) := by
      have := wrapInt64_small (sovMint (fieldNum * 8 + 5) + 4) (by omega)
      rw [← this]
      norm_cast
    rw [hwrap, if_neg (by omega), if_pos trivial, hel, hx]
  | lengthDelimited body =>
    simp only [FieldValue.wireType, FieldValue.bytes, FieldValue.WellFormed,
      List.length_append, varintBytes_length] at *
    have hv := decodeVarint_spec body.length (varintBytes (fieldNum * 8 + 2)) (body ++ post)
      (sovMint (fieldNum * 8 + 2)) 0 0 (by rw [varintBytes_length]) (by decide) (by decide)
      (by simp only [pow_zero, Nat.mul_one]; omega)
    simp only [pow_zero, Nat.mul_one, Nat.zero_add, varintBytes_length,
      List.append_assoc] at hv
    simp only [skipMint.field, List.append_assoc]
    rw [if_neg (by decide), if_neg (by decide), if_pos trivial, hv]
    simp only
    rw [toInt64_small body.length (by omega)]
    have hwrap : wrapInt64 (((sovMint (fieldNum * 8 + 2) + sovMint body.length : Nat) : Int) +
        (body.length : Int)) =
        ((sovMint (fieldNum * 8 + 2) + sovMint body.length + body.length : Nat) : Int) := by
      have := wrapInt64_small (sovMint (fieldNum * 8 + 2) + sovMint body.length + body.length)
        (by omega)
      rw [← this]
      norm_cast
    rw [if_neg (by omega), hwrap]
    simp only
    rw [if_neg (by omega), if_pos trivial, hel, Nat.add_assoc]

/-- The default case of `Unmarshal` on the encoding of a single field ends after it. -/
theorem skipField_encodeField (b post : Bytes) (fieldNum : Nat) (x : FieldValue) (i : Nat)
    (hi : i = b.length) (hnum : fieldNum < 2 ^ 31) (hx : x.WellFormed)
    (hlen : (b ++ encodeField fieldNum x ++ post).length < 2 ^ 63) :
    skipField (b ++ encodeField fieldNum x ++ post) i =
      Except.ok (i + (encodeField fieldNum x).length) := by
  subst hi
  unfold skipField
  simp only [List.length_append] at hlen
  rw [List.append_assoc, List.drop_left,
    skipMint_encodeField fieldNum x post hnum hx (by simp only [List.length_append]; omega)]
  simp only
  have hwrap : wrapInt64 ((b.length : Int) + ((encodeField fieldNum x).length : Int)) =
      ((b.length + (encodeField fieldNum x).length : Nat) : Int) := by
    have := wrapInt64_small (b.length + (encodeField fieldNum x).length) (by omega)
    rw [← this]
    norm_cast
  rw [hwrap, if_neg (by omega), if_neg (by simp only [List.length_append]; omega)]
  rfl

/-- After bytes are appended to an input that `Unmarshal` accepts, `Unmarshal` goes on from
the end of the accepted input with the record that it returned there. -/
theorem unmarshalLoop_resume {M : Type} (record : String)
    (field : Bytes → Nat → Nat → Int → Nat → M → Except MintError (M × Nat))
    (hsafe : FieldSafe field) (hmono : FieldMono field) (b u : Bytes)
    (hlen : (b ++ u).length < 2 ^ 63) (m r : M)
    (hb : unmarshalLoop record field b b.length 0 m = Except.ok r) :
    unmarshalLoop record field (b ++ u) (b ++ u).length 0 m =
      unmarshalLoop record field (b ++ u) u.length b.length r := by
  rw [List.length_append]
  exact unmarshalLoop_append record field hsafe hmono b u hlen b.length 0 m r hb

/-- The loop of `Unmarshal` skips the encoding of a single field that its
`switch fieldNum` sends to the default case. -/
theorem unmarshalLoop_unknown {M : Type} (record : String)
    (field : Bytes → Nat → Nat → Int → Nat → M → Except MintError (M × Nat))
    (hsafe : FieldSafe field) (hmono : FieldMono field) (fieldNum : Nat) (x : FieldValue)
    (hdefault : ∀ (d : Bytes) (pre i1 w : Nat) (m : M) (i2 : Nat),
      skipField d pre = Except.ok i2 → field d pre i1 (fieldNum : Int) w m = Except.ok (m, i2))
    (hpos : 0 < fieldNum) (hnum : fieldNum < 2 ^ 31) (hx : x.WellFormed) (b : Bytes)
    (hlen : (b ++ encodeField fieldNum x).length < 2 ^ 63) (m r : M)
    (hb : unmarshalLoop record field b b.length 0 m = Except.ok r) :
    unmarshalLoop record field (b ++ encodeField fieldNum x)
      (b ++ encodeField fieldNum x).length 0 m = Except.ok r := by
  rw [unmarshalLoop_resume record field hsafe hmono b _ hlen m r hb]
  have hw := FieldValue.wireType_lt x
  have hel := encodeField_length fieldNum x
  have hsov := sovMint_pos (fieldNum * 8 + x.wireType)
  obtain ⟨k, hk⟩ : ∃ k, (encodeField fieldNum x).length = k + 1 :=
    ⟨(encodeField fieldNum x).length - 1, by omega⟩
  rw [hk, unmarshalLoop_step record field _ k b.length r
    (by simp only [List.length_append]; omega)]
  have ht := readTag_varint record b x.bytes fieldNum x.wireType b.length rfl hw.1 hw.2 hpos
    hnum
  have hform : b ++ varintBytes (fieldNum * 8 + x.wireType) ++ x.bytes =
      b ++ encodeField fieldNum x := by
    simp only [encodeField, List.append_assoc]
  rw [hform] at ht
  rw [ht]
  simp only
  have hs := skipField_encodeField b [] fieldNum x b.length rfl hnum hx
    (by rw [List.append_nil]; exact hlen)
  rw [List.append_nil] at hs
  rw [hdefault _ _ _ _ r _ hs]
  simp only
  rw [unmarshalLoop_end record field _ k _ r (by simp only [List.length_append]; omega),
    if_neg (by simp only [List.length_append]; omega)]

theorem Params_field_default {U : Type} (uint : CustomType U) (fieldNum : Nat)
    (h1 : fieldNum ≠ 1) (h2 : fieldNum ≠ 2) (d : Bytes) (pre i1 w : Nat) (m : Params U)
    (i2 : Nat) (hs : skipField d pre = Except.ok i2) :
    Params.Unmarshal.field uint d pre i1 (fieldNum : Int) w m = Except.ok (m, i2) := by
  unfold Params.Unmarshal.field
  rw [if_neg (by omega), if_neg (by omega), hs]

theorem Minter_field_default {D U : Type} (dec : CustomType D) (uint : CustomType U)
    (fieldNum : Nat) (h2 : fieldNum ≠ 2) (h3 : fieldNum ≠ 3) (h4 : fieldNum ≠ 4)
    (h5 : fieldNum ≠ 5) (d : Bytes) (pre i1 w : Nat) (m : Minter D U) (i2 : Nat)
    (hs : skipField d pre = Except.ok i2) :
    Minter.Unmarshal.field dec uint d pre i1 (fieldNum : Int) w m = Except.ok (m, i2) := by
  unfold Minter.Unmarshal.field
  rw [if_neg (by omega), if_neg (by omega), if_neg (by omega), if_neg (by omega), hs]

/-- C25. Unknown fields are skipped: for a byte sequence `b` that `Params.Unmarshal` (resp.
`Minter.Unmarshal`) accepts and the well-formed encoding `u` of a single field with a
positive field number (below `2^31`; those of protobuf are below `2^29`) that is not one of
the known numbers of the record (`Params`: 1, 2; `Minter`: 2, 3, 4, 5) and with wire type
varint, fixed64, fixed32 or length-delimited, `Unmarshal` of `b ++ u` (of a length that is
an `int`) succeeds and yields the same record as `Unmarshal` of `b`. -/
theorem Unmarshal_unknown_field {D U : Type} (dec : CustomType D) (uint : CustomType U)
    (fieldNum : Nat) (x : FieldValue) (b : Bytes) (hpos : 0 < fieldNum)
    (hnum : fieldNum < 2 ^ 31) (hx : x.WellFormed)
    (hlen : (b ++ encodeField fieldNum x).length < 2 ^ 63) :
    (∀ (m r : Params U), fieldNum ≠ 1 → fieldNum ≠ 2 →
      Params.Unmarshal uint m b = Except.ok r →
      Params.Unmarshal uint m (b ++ encodeField fieldNum x) = Except.ok r) ∧
    (∀ (m r : Minter D U), fieldNum ≠ 2 → fieldNum ≠ 3 → fieldNum ≠ 4 → fieldNum ≠ 5 →
      Minter.Unmarshal dec uint m b = Except.ok r →
      Minter.Unmarshal dec uint m (b ++ encodeField fieldNum x) = Except.ok r) := by
  constructor
  · intro m r h1 h2 hb
    unfold Params.Unmarshal at hb ⊢
    rw [Params_loop_eq] at hb ⊢
    exact unmarshalLoop_unknown "Params" _ (Params_field_safe uint) (Params_field_mono uint)
      fieldNum x (Params_field_default uint fieldNum h1 h2) hpos hnum hx b hlen m r hb
  · intro m r h2 h3 h4 h5 hb
    unfold Minter.Unmarshal at hb ⊢
    rw [Minter_loop_eq] at hb ⊢
    exact unmarshalLoop_unknown "Minter" _ (Minter_field_safe dec uint)
      (Minter_field_mono dec uint) fieldNum x
      (Minter_field_default dec uint fieldNum h2 h3 h4 h5) hpos hnum hx b hlen m r hb

theorem Unmarshal_unknown_field_witness :
    (0 : Nat) < 7 ∧ (7 : Nat) < 2 ^ 31 ∧ (FieldValue.lengthDelimited [1, 2, 3]).WellFormed ∧
    (Params.wire id ⟨[97], [5]⟩ ++
      encodeField 7 (FieldValue.lengthDelimited [1, 2, 3])).length < 2 ^ 63 ∧
    Params.Unmarshal sampleType ⟨[], []⟩ (Params.wire id ⟨[97], [5]⟩) =
      Except.ok ⟨[97], [5]⟩ ∧
    Params.Unmarshal sampleType ⟨[], []⟩
      (Params.wire id ⟨[97], [5]⟩ ++ encodeField 7 (FieldValue.lengthDelimited [1, 2, 3])) =
      Except.ok ⟨[97], [5]⟩ :=
  have hlen : (Params.wire id ⟨[97], [5]⟩ ++
      encodeField 7 (FieldValue.lengthDelimited [1, 2, 3])).length < 2 ^ 63 := by
    simp [Params.wire, fieldBytes, encodeField, FieldValue.bytes, FieldValue.wireType, uint64,
      varintBytes]
  have hb : Params.Unmarshal sampleType ⟨[], []⟩ (Params.wire id ⟨[97], [5]⟩) =
      Except.ok ⟨[97], [5]⟩ :=
    Params_Unmarshal_wire sampleType id [] sampleType_inverts ⟨[97], [5]⟩
      (by simp [Params.wire, fieldBytes, uint64, varintBytes])
  ⟨by decide, by decide, trivial, hlen, hb,
    (Unmarshal_unknown_field sampleType sampleType 7 (FieldValue.lengthDelimited [1, 2, 3])
      (Params.wire id ⟨[97], [5]⟩) (by decide) (by decide) trivial hlen).1
      ⟨[], []⟩ ⟨[97], [5]⟩ (by decide) (by decide) hb⟩

/-! ## Truncated input -/

theorem readTag_decode_error (record : String) (dAtA : Bytes) (i : Nat) (e : MintError)
    (h : decodeVarint dAtA i 0 0 = Except.error e) :
    readTag record dAtA i = Except.error e := by
  unfold readTag
  rw [h]

theorem lengthDelimited_decode_error (dAtA : Bytes) (i : Nat) (e : MintError)
    (h : decodeVarint dAtA i 0 0 = Except.error e) :
    lengthDelimited dAtA i = Except.error e := by
  unfold lengthDelimited
  rw [h]

/-- A varint that starts at the end of `b` and of which the input has only continuation
bytes, fewer than ten, is cut by the end of the input. -/
theorem decodeVarint_cut (b t : Bytes) (i : Nat) (hi : i = b.length) (h9 : t.length ≤ 9)
    (hcont : ∀ x ∈ t, 0x80 ≤ x) :
    decodeVarint (b ++ t) i 0 0 = Except.error MintError.ErrUnexpectedEOF := by
  subst hi
  exact decodeVarint_truncated (b ++ t) t.length b.length 0 0
    (by simp only [List.length_append]; omega) (by simp only [List.length_append]; omega)
    (by omega) (by rw [List.drop_left]; exact hcont)

/-- A length-delimited field that declares more bytes than the input has left: the error is
`io.ErrUnexpectedEOF` when the index after the declared bytes is an `int`, and
`ErrInvalidLengthMint` otherwise. -/
theorem lengthDelimited_too_long (pre rest : Bytes) (L i : Nat) (hi : i = pre.length)
    (hL : L < 2 ^ 64) (hrest : rest.length < L)
    (hlen : (pre ++ varintBytes L ++ rest).length < 2 ^ 63) :
    lengthDelimited (pre ++ varintBytes L ++ rest) i =
      Except.error (if i + sovMint L + L < 2 ^ 63 then MintError.ErrUnexpectedEOF
        else MintError.ErrInvalidLengthMint) := by
  unfold lengthDelimited
  have hd := decodeVarint_spec L pre rest i 0 0 hi (by decide) (by decide)
    (by simp only [pow_zero, Nat.mul_one]; exact hL)
  simp only [pow_zero, Nat.mul_one, Nat.zero_add, varintBytes_length] at hd
  rw [hd]
  simp only
  simp only [List.length_append, varintBytes_length] at hlen
  by_cases hbig : 2 ^ 63 ≤ L
  · have hneg : toInt64 L < 0 := by
      unfold toInt64
      have : L % 2 ^ 64 = L := Nat.mod_eq_of_lt hL
      rw [this, if_neg (by omega)]
      omega
    rw [if_pos hneg, if_neg (by omega)]
  · rw [toInt64_small L (by omega), if_neg (by omega)]
    by_cases hsum : i + sovMint L + L < 2 ^ 63
    · have hwrap : wrapInt64 (((i + sovMint L : Nat) : Int) + (L : Int)) =
          ((i + sovMint L + L : Nat) : Int) := by
        have := wrapInt64_small (i + sovMint L + L) hsum
        rw [← this]
        norm_cast
      rw [hwrap, if_neg (by omega), if_pos (by
        simp only [List.length_append, varintBytes_length]; omega), if_pos hsum]
    · have hneg : wrapInt64 (((i + sovMint L : Nat) : Int) + (L : Int)) < 0 := by
        unfold wrapInt64 toInt64
        have h2 : ((((i + sovMint L : Nat) : Int) + (L : Int)) % 2 ^ 64).toNat % 2 ^ 64 =
            i + sovMint L + L := by omega
        rw [h2, if_neg (by omega)]
        omega
      rw [if_pos hneg, if_neg hsum]

/-- After an input that the loop of `Unmarshal` accepts, a tag of which the input has only
continuation bytes is rejected with `io.ErrUnexpectedEOF`. -/
theorem unmarshalLoop_cut_tag {M : Type} (record : String)
    (field : Bytes → Nat → Nat → Int → Nat → M → Except MintError (M × Nat))
    (hsafe : FieldSafe field) (hmono : FieldMono field) (b t : Bytes)
    (hlen : (b ++ t).length < 2 ^ 63) (m r : M)
    (hb : unmarshalLoop record field b b.length 0 m = Except.ok r)
    (hne : t ≠ []) (h9 : t.length ≤ 9) (hcont : ∀ x ∈ t, 0x80 ≤ x) :
    unmarshalLoop record field (b ++ t) (b ++ t).length 0 m =
      Except.error MintError.ErrUnexpectedEOF := by
  rw [unmarshalLoop_resume record field hsafe hmono b t hlen m r hb]
  obtain ⟨k, hk⟩ : ∃ k, t.length = k + 1 := by
    cases t with
    | nil => exact absurd rfl hne
    | cons x xs => exact ⟨xs.length, rfl⟩
  rw [hk, unmarshalLoop_step record field _ k b.length r
    (by simp only [List.length_append]; omega),
    readTag_decode_error record _ _ _ (decodeVarint_cut b t b.length rfl h9 hcont)]

/-- After an input that the loop of `Unmarshal` accepts, the tag of a known field of wire
type 2 followed by a length that the shared part of the cases rejects is rejected with the
same error. -/
theorem unmarshalLoop_known_error {M : Type} (record : String)
    (field : Bytes → Nat → Nat → Int → Nat → M → Except MintError (M × Nat))
    (hsafe : FieldSafe field) (hmono : FieldMono field) (tag : Nat) (fieldNum : Int)
    (htag : tag < 128) (hwire : tag &&& 0x7 = 2) (hnum : toInt32 (tag >>> 3) = fieldNum)
    (hpos : 0 < fieldNum)
    (hknown : ∀ (d : Bytes) (pre i1 : Nat) (m : M) (e : MintError),
      lengthDelimited d i1 = Except.error e → field d pre i1 fieldNum 2 m = Except.error e)
    (b post : Bytes) (hlen : (b ++ tag :: post).length < 2 ^ 63) (m r : M)
    (hb : unmarshalLoop record field b b.length 0 m = Except.ok r) (e : MintError)
    (hl : lengthDelimited (b ++ tag :: post) (b.length + 1) = Except.error e) :
    unmarshalLoop record field (b ++ tag :: post) (b ++ tag :: post).length 0 m =
      Except.error e := by
  rw [unmarshalLoop_resume record field hsafe hmono b _ hlen m r hb]
  rw [List.length_cons, unmarshalLoop_step record field _ _ b.length r
    (by simp only [List.length_append, List.length_cons]; omega),
    readTag_spec record b post tag b.length fieldNum rfl htag hwire hnum hpos]
  simp only
  rw [hknown _ _ _ r e hl]

theorem Params_field_known {U : Type} (uint : CustomType U) (fieldNum : Int)
    (hk : fieldNum = 1 ∨ fieldNum = 2) (d : Bytes) (pre i1 : Nat) (m : Params U)
    (e : MintError) (hl : lengthDelimited d i1 = Except.error e) :
    Params.Unmarshal.field uint d pre i1 fieldNum 2 m = Except.error e := by
  unfold Params.Unmarshal.field
  rcases hk with hk | hk
  · subst hk
    rw [if_pos rfl, if_neg (by decide), hl]
  · subst hk
    rw [if_neg (by decide), if_pos rfl]
    unfold unmarshalCustomField
    rw [if_neg (by decide), hl]

theorem Minter_field_known {D U : Type} (dec : CustomType D) (uint : CustomType U)
    (fieldNum : Int) (hk : fieldNum = 2 ∨ fieldNum = 3 ∨ fieldNum = 4 ∨ fieldNum = 5)
    (d : Bytes) (pre i1 : Nat) (m : Minter D U) (e : MintError)
    (hl : lengthDelimited d i1 = Except.error e) :
    Minter.Unmarshal.field dec uint d pre i1 fieldNum 2 m = Except.error e := by
  unfold Minter.Unmarshal.field
  rcases hk with hk | hk | hk | hk
  · subst hk
    rw [if_pos rfl]
    unfold unmarshalCustomField
    rw [if_neg (by decide), hl]
  · subst hk
    rw [if_neg (by decide), if_pos rfl]
    unfold unmarshalCustomField
    rw [if_neg (by decide), hl]
  · subst hk
    rw [if_neg (by decide), if_neg (by decide), if_pos rfl]
    unfold unmarshalCustomField
    rw [if_neg (by decide), hl]
  · subst hk
    rw [if_neg (by decide), if_neg (by decide), if_neg (by decide), if_pos rfl]
    unfold unmarshalCustomField
    rw [if_neg (by decide), hl]

/-- After an input that the loop of `Unmarshal` accepts: a tag cut by the end of the input,
the length of a known field cut by the end of the input, and a known field that declares
more bytes than the input has left. -/
theorem unmarshalLoop_truncated {M : Type} (record : String)
    (field : Bytes → Nat → Nat → Int → Nat → M → Except MintError (M × Nat))
    (hsafe : FieldSafe field) (hmono : FieldMono field) (tag : Nat) (fieldNum : Int)
    (htag : tag < 128) (hwire : tag &&& 0x7 = 2) (hnum : toInt32 (tag >>> 3) = fieldNum)
    (hpos : 0 < fieldNum)
    (hknown : ∀ (d : Bytes) (pre i1 : Nat) (m : M) (e : MintError),
      lengthDelimited d i1 = Except.error e → field d pre i1 fieldNum 2 m = Except.error e)
    (b t : Bytes) (h9 : t.length ≤ 9) (hcont : ∀ x ∈ t, 0x80 ≤ x) (m r : M)
    (hb : unmarshalLoop record field b b.length 0 m = Except.ok r) :
    ((b ++ tag :: t).length < 2 ^ 63 →
      unmarshalLoop record field (b ++ tag :: t) (b ++ tag :: t).length 0 m =
        Except.error MintError.ErrUnexpectedEOF) ∧
    (∀ (L : Nat) (rest : Bytes), L < 2 ^ 64 → rest.length < L →
      (b ++ tag :: (varintBytes L ++ rest)).length < 2 ^ 63 →
      unmarshalLoop record field (b ++ tag :: (varintBytes L ++ rest))
        (b ++ tag :: (varintBytes L ++ rest)).length 0 m =
        Except.error (if b.length + 1 + sovMint L + L < 2 ^ 63 then MintError.ErrUnexpectedEOF
          else MintError.ErrInvalidLengthMint)) := by
  constructor
  · intro hlen
    apply unmarshalLoop_known_error record field hsafe hmono tag fieldNum htag hwire hnum hpos
      hknown b t hlen m r hb
    apply lengthDelimited_decode_error
    have := decodeVarint_cut (b ++ [tag]) t (b.length + 1) (by simp) h9 hcont
    simpa using this
  · intro L rest hL hrest hlen
    apply unmarshalLoop_known_error record field hsafe hmono tag fieldNum htag hwire hnum hpos
      hknown b _ hlen m r hb
    have := lengthDelimited_too_long (b ++ [tag]) rest L (b.length + 1) (by simp) hL hrest
      (by simpa using hlen)
    simpa using this

/-- C24. Truncated input is rejected. After a byte sequence `b` that `Params.Unmarshal`
(resp. `Minter.Unmarshal`) accepts, with `t` a sequence of at most nine continuation bytes
of a varint: an input that ends in the middle of a tag varint (`b ++ t`, `t` not empty) or
of the length varint of a known field (`b ++ tag :: t`) is rejected with
`io.ErrUnexpectedEOF`; a known length-delimited field that declares a length `L` larger
than the number of bytes remaining is rejected with `io.ErrUnexpectedEOF` when the index
after the declared bytes is below `2^63`, and with `ErrInvalidLengthMint` otherwise; in no
case is the result nil. -/
theorem Unmarshal_truncated {D U : Type} (dec : CustomType D) (uint : CustomType U)
    (b t : Bytes) (h9 : t.length ≤ 9) (hcont : ∀ x ∈ t, 0x80 ≤ x) :
    (∀ (m r : Params U), Params.Unmarshal uint m b = Except.ok r →
      (t ≠ [] → (b ++ t).length < 2 ^ 63 →
        Params.Unmarshal uint m (b ++ t) = Except.error MintError.ErrUnexpectedEOF) ∧
      (∀ tag, tag = 0x0a ∨ tag = 0x12 →
        ((b ++ tag :: t).length < 2 ^ 63 →
          Params.Unmarshal uint m (b ++ tag :: t) =
            Except.error MintError.ErrUnexpectedEOF) ∧
        (∀ (L : Nat) (rest : Bytes), L < 2 ^ 64 → rest.length < L →
          (b ++ tag :: (varintBytes L ++ rest)).length < 2 ^ 63 →
          Params.Unmarshal uint m (b ++ tag :: (varintBytes L ++ rest)) =
            Except.error (if b.length + 1 + sovMint L + L < 2 ^ 63
              then MintError.ErrUnexpectedEOF else MintError.ErrInvalidLengthMint)))) ∧
    (∀ (m r : Minter D U), Minter.Unmarshal dec uint m b = Except.ok r →
      (t ≠ [] → (b ++ t).length < 2 ^ 63 →
        Minter.Unmarshal dec uint m (b ++ t) = Except.error MintError.ErrUnexpectedEOF) ∧
      (∀ tag, tag = 0x12 ∨ tag = 0x1a ∨ tag = 0x22 ∨ tag = 0x2a →
        ((b ++ tag :: t).length < 2 ^ 63 →
          Minter.Unmarshal dec uint m (b ++ tag :: t) =
            Except.error MintError.ErrUnexpectedEOF) ∧
        (∀ (L : Nat) (rest : Bytes), L < 2 ^ 64 → rest.length < L →
          (b ++ tag :: (varintBytes L ++ rest)).length < 2 ^ 63 →
          Minter.Unmarshal dec uint m (b ++ tag :: (varintBytes L ++ rest)) =
            Except.error (if b.length + 1 + sovMint L + L < 2 ^ 63
              then MintError.ErrUnexpectedEOF else MintError.ErrInvalidLengthMint)))) := by
  constructor
  · intro m r hb
    unfold Params.Unmarshal at hb ⊢
    simp only [Params_loop_eq] at hb ⊢
    refine ⟨?_, ?_⟩
    · intro hne hlen
      exact unmarshalLoop_cut_tag "Params" _ (Params_field_safe uint) (Params_field_mono uint)
        b t hlen m r hb hne h9 hcont
    · intro tag htag
      rcases htag with htag | htag <;> subst htag
      · exact unmarshalLoop_truncated "Params" _ (Params_field_safe uint)
          (Params_field_mono uint) 0x0a 1 (by decide) (by decide) (by decide) (by decide)
          (Params_field_known uint 1 (Or.inl rfl)) b t h9 hcont m r hb
      · exact unmarshalLoop_truncated "Params" _ (Params_field_safe uint)
          (Params_field_mono uint) 0x12 2 (by decide) (by decide) (by decide) (by decide)
          (Params_field_known uint 2 (Or.inr rfl)) b t h9 hcont m r hb
  · intro m r hb
    unfold Minter.Unmarshal at hb ⊢
    simp only [Minter_loop_eq] at hb ⊢
    refine ⟨?_, ?_⟩
    · intro hne hlen
      exact unmarshalLoop_cut_tag "Minter" _ (Minter_field_safe dec uint)
        (Minter_field_mono dec uint) b t hlen m r hb hne h9 hcont
    · intro tag htag
      rcases htag with htag | htag | htag | htag <;> subst htag
      · exact unmarshalLoop_truncated "Minter" _ (Minter_field_safe dec uint)
          (Minter_field_mono dec uint) 0x12 2 (by decide) (by decide) (by decide) (by decide)
          (Minter_field_known dec uint 2 (Or.inl rfl)) b t h9 hcont m r hb
      · exact unmarshalLoop_truncated "Minter" _ (Minter_field_safe dec uint)
          (Minter_field_mono dec uint) 0x1a 3 (by decide) (by decide) (by decide) (by decide)
          (Minter_field_known dec uint 3 (Or.inr (Or.inl rfl))) b t h9 hcont m r hb
      · exact unmarshalLoop_truncated "Minter" _ (Minter_field_safe dec uint)
          (Minter_field_mono dec uint) 0x22 4 (by decide) (by decide) (by decide) (by decide)
          (Minter_field_known dec uint 4 (Or.inr (Or.inr (Or.inl rfl)))) b t h9 hcont m r hb
      · exact unmarshalLoop_truncated "Minter" _ (Minter_field_safe dec uint)
          (Minter_field_mono dec uint) 0x2a 5 (by decide) (by decide) (by decide) (by decide)
          (Minter_field_known dec uint 5 (Or.inr (Or.inr (Or.inr rfl)))) b t h9 hcont m r hb

theorem Unmarshal_truncated_witness :
    ([0x80, 0x81] : Bytes).length ≤ 9 ∧ (∀ x ∈ ([0x80, 0x81] : Bytes), 0x80 ≤ x) ∧
    Params.Unmarshal sampleType ⟨[], []⟩ (Params.wire id ⟨[97], [5]⟩) =
      Except.ok ⟨[97], [5]⟩ ∧
    Params.Unmarshal sampleType ⟨[], []⟩ (Params.wire id ⟨[97], [5]⟩ ++ [0x80, 0x81]) =
      Except.error MintError.ErrUnexpectedEOF ∧
    Params.Unmarshal sampleType ⟨[], []⟩ (Params.wire id ⟨[97], [5]⟩ ++ 0x12 :: [0x80, 0x81]) =
      Except.error MintError.ErrUnexpectedEOF ∧
    Params.Unmarshal sampleType ⟨[], []⟩
      (Params.wire id ⟨[97], [5]⟩ ++ 0x0a :: (varintBytes 3 ++ [1, 2])) =
      Except.error MintError.ErrUnexpectedEOF :=
  have h9 : ([0x80, 0x81] : Bytes).length ≤ 9 := by decide
  have hcont : ∀ x ∈ ([0x80, 0x81] : Bytes), 0x80 ≤ x := by decide
  have hb : Params.Unmarshal sampleType ⟨[], []⟩ (Params.wire id ⟨[97], [5]⟩) =
      Except.ok ⟨[97], [5]⟩ :=
    Params_Unmarshal_wire sampleType id [] sampleType_inverts ⟨[97], [5]⟩
      (by simp [Params.wire, fieldBytes, uint64, varintBytes])
  have hl : (Params.wire id (⟨[97], [5]⟩ : Params Bytes)).length = 6 := by
    simp [Params.wire, fieldBytes, uint64, varintBytes]
  have hT := (Unmarshal_truncated sampleType sampleType (Params.wire id ⟨[97], [5]⟩)
    [0x80, 0x81] h9 hcont).1 ⟨[], []⟩ ⟨[97], [5]⟩ hb
  ⟨h9, hcont, hb,
    hT.1 (by decide) (by rw [List.length_append, hl]; decide),
    (hT.2 0x12 (Or.inr rfl)).1 (by rw [List.length_append, hl]; decide),
    by
      have h := (hT.2 0x0a (Or.inl rfl)).2 3 [1, 2] (by decide) (by decide)
        (by
          rw [List.length_append, hl]
          simp [varintBytes])
      rw [h, if_pos (by rw [hl, sovMint_lt 3 (by decide)]; decide)]⟩

/-- A field of `Params` that declares `2^64 - 1` bytes when none is left is rejected with
`ErrInvalidLengthMint`, not with `io.ErrUnexpectedEOF`: its length is negative as an
`int`. -/
theorem Unmarshal_truncated_counterexample :
    varintBytes (2 ^ 64 - 1) = [255, 255, 255, 255, 255, 255, 255, 255, 255, 1] ∧
    ([] : Bytes).length < 2 ^ 64 - 1 ∧
    Params.Unmarshal sampleType ⟨[], []⟩
      [0x0a, 255, 255, 255, 255, 255, 255, 255, 255, 255, 1] =
      Except.error MintError.ErrInvalidLengthMint := by
  have hv : varintBytes (2 ^ 64 - 1) = [255, 255, 255, 255, 255, 255, 255, 255, 255, 1] := by
    simp [varintBytes]
  refine ⟨hv, by decide, ?_⟩
  have h := (unmarshalLoop_truncated "Params" _ (Params_field_safe sampleType)
    (Params_field_mono sampleType) 0x0a 1 (by decide) (by decide) (by decide) (by decide)
    (Params_field_known sampleType 1 (Or.inl rfl)) [] [] (by decide)
    (fun x hx => absurd hx (List.not_mem_nil x)) ⟨[], []⟩ ⟨[], []⟩ rfl).2 (2 ^ 64 - 1) []
    (by decide) (by decide) (by rw [hv]; decide)
  rw [hv, if_neg (by omega)] at h
  unfold Params.Unmarshal
  rw [Params_loop_eq]
  exact h

/-! ## A further occurrence of a known field -/

theorem Params_Unmarshal_nil {U : Type} (uint : CustomType U) (m : Params U) :
    Params.Unmarshal uint m [] = Except.ok m :=
  Params_loop_end uint [] 0 m

theorem Minter_Unmarshal_nil {D U : Type} (dec : CustomType D) (uint : CustomType U)
    (m : Minter D U) : Minter.Unmarshal dec uint m [] = Except.ok m :=
  Minter_loop_end dec uint [] 0 m

/-- After an input that the loop of `Unmarshal` accepts, one more field that an iteration
reads to its end yields the record of that iteration. -/
theorem unmarshalLoop_append_step {M : Type} (record : String)
    (field : Bytes → Nat → Nat → Int → Nat → M → Except MintError (M × Nat))
    (hsafe : FieldSafe field) (hmono : FieldMono field) (b f : Bytes) (hf : 0 < f.length)
    (hlen : (b ++ f).length < 2 ^ 63) (m rb m1 : M)
    (hb : unmarshalLoop record field b b.length 0 m = Except.ok rb)
    (hstep : ∀ fuel, unmarshalLoop record field (b ++ f) (fuel + 1) b.length rb =
      unmarshalLoop record field (b ++ f) fuel (b.length + f.length) m1) :
    unmarshalLoop record field (b ++ f) (b ++ f).length 0 m = Except.ok m1 := by
  rw [unmarshalLoop_resume record field hsafe hmono b f hlen m rb hb]
  obtain ⟨k, hk⟩ : ∃ k, f.length = k + 1 := ⟨f.length - 1, by omega⟩
  rw [hk, hstep k, unmarshalLoop_end record field _ k _ m1
    (by simp only [List.length_append]; omega),
    if_neg (by simp only [List.length_append]; omega)]

theorem Params_append_MintDenom {U : Type} (uint : CustomType U) (b body : Bytes)
    (hlen : (b ++ fieldBytes 0xa body).length < 2 ^ 63) (m rb : Params U)
    (hb : Params.Unmarshal uint m b = Except.ok rb) :
    Params.Unmarshal uint m (b ++ fieldBytes 0xa body) =
      Except.ok { rb with MintDenom := body } := by
  unfold Params.Unmarshal at hb ⊢
  simp only [Params_loop_eq] at hb ⊢
  apply unmarshalLoop_append_step "Params" _ (Params_field_safe uint) (Params_field_mono uint)
    b _ (by rw [fieldBytes_length]; omega) hlen m rb _ hb
  intro fuel
  have h := Params.loop_MintDenom uint b body [] fuel rb (by simpa using hlen)
  simpa only [List.append_nil, Params_loop_eq] using h

theorem Params_append_MaxMintableNanoseconds {U : Type} (uint : CustomType U)
    (b body : Bytes) (hlen : (b ++ fieldBytes 0x12 body).length < 2 ^ 63) (m rb : Params U)
    (x : U) (hb : Params.Unmarshal uint m b = Except.ok rb)
    (hx : uint.Unmarshal rb.MaxMintableNanoseconds body = Except.ok x) :
    Params.Unmarshal uint m (b ++ fieldBytes 0x12 body) =
      Except.ok { rb with MaxMintableNanoseconds := x } := by
  unfold Params.Unmarshal at hb ⊢
  simp only [Params_loop_eq] at hb ⊢
  apply unmarshalLoop_append_step "Params" _ (Params_field_safe uint) (Params_field_mono uint)
    b _ (by rw [fieldBytes_length]; omega) hlen m rb _ hb
  intro fuel
  have h := Params.loop_MaxMintableNanoseconds uint b body [] fuel rb x (by simpa using hlen)
    hx
  simpa only [List.append_nil, Params_loop_eq] using h

theorem Minter_append_NormTimePassed {D U : Type} (dec : CustomType D) (uint : CustomType U)
    (b body : Bytes) (hlen : (b ++ fieldBytes 0x12 body).length < 2 ^ 63) (m rb : Minter D U)
    (x : D) (hb : Minter.Unmarshal dec uint m b = Except.ok rb)
    (hx : dec.Unmarshal rb.NormTimePassed body = Except.ok x) :
    Minter.Unmarshal dec uint m (b ++ fieldBytes 0x12 body) =
      Except.ok { rb with NormTimePassed := x } := by
  unfold Minter.Unmarshal at hb ⊢
  simp only [Minter_loop_eq] at hb ⊢
  apply unmarshalLoop_append_step "Minter" _ (Minter_field_safe dec uint)
    (Minter_field_mono dec uint) b _ (by rw [fieldBytes_length]; omega) hlen m rb _ hb
  intro fuel
  have h := Minter.loop_NormTimePassed dec uint b body [] fuel rb x (by simpa using hlen) hx
  simpa only [List.append_nil, Minter_loop_eq] using h

theorem Minter_append_TotalMinted {D U : Type} (dec : CustomType D) (uint : CustomType U)
    (b body : Bytes) (hlen : (b ++ fieldBytes 0x1a body).length < 2 ^ 63) (m rb : Minter D U)
    (x : U) (hb : Minter.Unmarshal dec uint m b = Except.ok rb)
    (hx : uint.Unmarshal rb.TotalMinted body = Except.ok x) :
    Minter.Unmarshal dec uint m (b ++ fieldBytes 0x1a body) =
      Except.ok { rb with TotalMinted := x } := by
  unfold Minter.Unmarshal at hb ⊢
  simp only [Minter_loop_eq] at hb ⊢
  apply unmarshalLoop_append_step "Minter" _ (Minter_field_safe dec uint)
    (Minter_field_mono dec uint) b _ (by rw [fieldBytes_length]; omega) hlen m rb _ hb
  intro fuel
  have h := Minter.loop_TotalMinted dec uint b body [] fuel rb x (by simpa using hlen) hx
  simpa only [List.append_nil, Minter_loop_eq] using h

theorem Minter_append_PrevBlockTimestamp {D U : Type} (dec : CustomType D)
    (uint : CustomType U) (b body : Bytes)
    (hlen : (b ++ fieldBytes 0x22 body).length < 2 ^ 63) (m rb : Minter D U) (x : U)
    (hb : Minter.Unmarshal dec uint m b = Except.ok rb)
    (hx : uint.Unmarshal rb.PrevBlockTimestamp body = Except.ok x) :
    Minter.Unmarshal dec uint m (b ++ fieldBytes 0x22 body) =
      Except.ok { rb with PrevBlockTimestamp := x } := by
  unfold Minter.Unmarshal at hb ⊢
  simp only [Minter_loop_eq] at hb ⊢
  apply unmarshalLoop_append_step "Minter" _ (Minter_field_safe dec uint)
    (Minter_field_mono dec uint) b _ (by rw [fieldBytes_length]; omega) hlen m rb _ hb
  intro fuel
  have h := Minter.loop_PrevBlockTimestamp dec uint b body [] fuel rb x
    (by simpa using hlen) hx
  simpa only [List.append_nil, Minter_loop_eq] using h

theorem Minter_append_AnnualInflation {D U : Type} (dec : CustomType D) (uint : CustomType U)
    (b body : Bytes) (hlen : (b ++ fieldBytes 0x2a body).length < 2 ^ 63) (m rb : Minter D U)
    (x : U) (hb : Minter.Unmarshal dec uint m b = Except.ok rb)
    (hx : uint.Unmarshal rb.AnnualInflation body = Except.ok x) :
    Minter.Unmarshal dec uint m (b ++ fieldBytes 0x2a body) =
      Except.ok { rb with AnnualInflation := x } := by
  unfold Minter.Unmarshal at hb ⊢
  simp only [Minter_loop_eq] at hb ⊢
  apply unmarshalLoop_append_step "Minter" _ (Minter_field_safe dec uint)
    (Minter_field_mono dec uint) b _ (by rw [fieldBytes_length]; omega) hlen m rb _ hb
  intro fuel
  have h := Minter.loop_AnnualInflation dec uint b body [] fuel rb x (by simpa using hlen) hx
  simpa only [List.append_nil, Minter_loop_eq] using h

/-- The field numbers that occur from the start of a last field `MintDenom` on. -/
theorem Params_fieldNumbers_MintDenom {U : Type} (uint : CustomType U) (b body : Bytes)
    (fuel : Nat) (rb : Params U) (hlen : (b ++ fieldBytes 0xa body).length < 2 ^ 63) :
    fieldNumbers "Params" (Params.Unmarshal.field uint) (b ++ fieldBytes 0xa body) (fuel + 1)
      b.length rb = [1] := by
  have hlt : b.length < (b ++ fieldBytes 0xa body).length := by
    rw [List.length_append, fieldBytes_length]
    omega
  simp only [fieldNumbers]
  rw [if_pos hlt]
  have htag : readTag "Params" (b ++ fieldBytes 0xa body) b.length =
      Except.ok (1, 2, b.length + 1) := by
    have h := readTag_spec "Params" b (varintBytes (uint64 body.length) ++ body)
      0xa b.length 1 rfl (by decide) (by decide) (by decide) (by decide)
    simpa [fieldBytes] using h
  rw [htag]
  simp only [Params.Unmarshal.field]
  rw [if_pos trivial, if_neg (by decide)]
  have hform : b ++ fieldBytes 0xa body =
      (b ++ [0xa]) ++ varintBytes (uint64 body.length) ++ body ++ [] := by
    simp [fieldBytes]
  have hl := lengthDelimited_spec (b ++ [0xa]) body [] (b.length + 1) (by simp)
    (by rw [← hform]; exact hlen)
  rw [← hform] at hl
  rw [hl]
  simp only
  have hend : ¬ b.length + 1 + sovMint (uint64 body.length) + body.length <
      (b ++ fieldBytes 0xa body).length := by
    rw [List.length_append, fieldBytes_length]
    omega
  cases fuel with
  | zero => rfl
  | succ fuel =>
    simp only [fieldNumbers]
    rw [if_neg hend]

/-! ## `Unmarshal` on its receiver -/

theorem returned_eq_ok {M : Type} (p : M × Option MintError) (r : M) :
    returned p = Except.ok r ↔ p = (r, none) := by
  obtain ⟨m1, o⟩ := p
  cases o with
  | none =>
    simp only [returned]
    constructor
    · intro h
      injection h with h
      rw [h]
    · intro h
      injection h with h _
      rw [h]
  | some e =>
    simp only [returned]
    constructor
    · intro h
      cases h
    · intro h
      cases h

/-- A case of a field of a custom type yields what it leaves in the receiver. -/
theorem unmarshalCustomField_inPlace {T : Type} (C : CustomType T) (name : String) (x : T)
    (dAtA : Bytes) (iNdEx wireType : Nat) :
    unmarshalCustomField C name x dAtA iNdEx wireType =
      caseReturned (unmarshalCustomFieldInPlace C name x dAtA iNdEx wireType) := by
  unfold unmarshalCustomField unmarshalCustomFieldInPlace
  by_cases hw : wireType ≠ 2
  · rw [if_pos hw, if_pos hw]
    rfl
  · rw [if_neg hw, if_neg hw]
    cases lengthDelimited dAtA iNdEx with
    | error e => rfl
    | ok r =>
      obtain ⟨field, post⟩ := r
      simp only
      cases C.Unmarshal x field with
      | error e => rfl
      | ok x1 => rfl

/-- A case of a field of a custom type followed by the assignment of the field, and what
it leaves in the receiver. -/
theorem customCase_inPlace {T M : Type} (C : CustomType T) (name : String) (x : T)
    (upd : T → M) (dAtA : Bytes) (iNdEx wireType : Nat) :
    (match unmarshalCustomField C name x dAtA iNdEx wireType with
      | Except.error e => (Except.error e : Except MintError (M × Nat))
      | Except.ok (x1, postIndex) => Except.ok (upd x1, postIndex)) =
    caseReturned (match unmarshalCustomFieldInPlace C name x dAtA iNdEx wireType with
      | (x1, r) => (upd x1, r)) := by
  rw [unmarshalCustomField_inPlace]
  cases h : unmarshalCustomFieldInPlace C name x dAtA iNdEx wireType with
  | mk x1 r =>
    cases r with
    | error e => rfl
    | ok i => rfl

theorem skipCase_inPlace {M : Type} (m : M) (dAtA : Bytes) (preIndex : Nat) :
    (match skipField dAtA preIndex with
      | Except.error e => (Except.error e : Except MintError (M × Nat))
      | Except.ok iNdEx1 => Except.ok (m, iNdEx1)) =
    caseReturned (match skipField dAtA preIndex with
      | Except.error e => (m, (Except.error e : Except MintError Nat))
      | Except.ok iNdEx1 => (m, Except.ok iNdEx1)) := by
  cases skipField dAtA preIndex with
  | error e => rfl
  | ok i => rfl

/-- The `switch fieldNum` of `Params.Unmarshal` yields what it leaves in the receiver. -/
theorem Params_field_inPlace {U : Type} (uint : CustomType U) (dAtA : Bytes)
    (preIndex iNdEx : Nat) (fieldNum : Int) (wireType : Nat) (m : Params U) :
    Params.Unmarshal.field uint dAtA preIndex iNdEx fieldNum wireType m =
      caseReturned (Params.Unmarshal.fieldInPlace uint dAtA preIndex iNdEx fieldNum wireType
        m) := by
  unfold Params.Unmarshal.field Params.Unmarshal.fieldInPlace
  by_cases h1 : fieldNum = 1
  · rw [if_pos h1, if_pos h1]
    by_cases hw : wireType ≠ 2
    · rw [if_pos hw, if_pos hw]
      rfl
    · rw [if_neg hw, if_neg hw]
      cases lengthDelimited dAtA iNdEx with
      | error e => rfl
      | ok r => rfl
  rw [if_neg h1, if_neg h1]
  by_cases h2 : fieldNum = 2
  · rw [if_pos h2, if_pos h2]
    exact customCase_inPlace uint _ _ _ dAtA iNdEx wireType
  rw [if_neg h2, if_neg h2]
  exact skipCase_inPlace m dAtA preIndex

/-- The `switch fieldNum` of `Minter.Unmarshal` yields what it leaves in the receiver. -/
theorem Minter_field_inPlace {D U : Type} (dec : CustomType D) (uint : CustomType U)
    (dAtA : Bytes) (preIndex iNdEx : Nat) (fieldNum : Int) (wireType : Nat) (m : Minter D U) :
    Minter.Unmarshal.field dec uint dAtA preIndex iNdEx fieldNum wireType m =
      caseReturned (Minter.Unmarshal.fieldInPlace dec uint dAtA preIndex iNdEx fieldNum
        wireType m) := by
  unfold Minter.Unmarshal.field Minter.Unmarshal.fieldInPlace
  by_cases h2 : fieldNum = 2
  · rw [if_pos h2, if_pos h2]
    exact customCase_inPlace dec _ _ _ dAtA iNdEx wireType
  rw [if_neg h2, if_neg h2]
  by_cases h3 : fieldNum = 3
  · rw [if_pos h3, if_pos h3]
    exact customCase_inPlace uint _ _ _ dAtA iNdEx wireType
  rw [if_neg h3, if_neg h3]
  by_cases h4 : fieldNum = 4
  · rw [if_pos h4, if_pos h4]
    exact customCase_inPlace uint _ _ _ dAtA iNdEx wireType
  rw [if_neg h4, if_neg h4]
  by_cases h5 : fieldNum = 5
  · rw [if_pos h5, if_pos h5]
    exact customCase_inPlace uint _ _ _ dAtA iNdEx wireType
  rw [if_neg h5, if_neg h5]
  exact skipCase_inPlace m dAtA preIndex

/-- The loop of `Unmarshal` on its receiver at or after the end of the input. -/
theorem unmarshalInPlace_end {M : Type} (record : String)
    (fieldInPlace : Bytes → Nat → Nat → Int → Nat → M → M × Except MintError Nat)
    (dAtA : Bytes) (fuel i : Nat) (m : M) (hi : ¬ i < dAtA.length) :
    unmarshalInPlace record fieldInPlace dAtA fuel i m =
      if i > dAtA.length then (m, some MintError.ErrUnexpectedEOF) else (m, none) := by
  cases fuel <;> simp only [unmarshalInPlace] <;> rw [if_neg hi]

/-- An iteration of the loop of `Unmarshal` on its receiver, within the input. -/
theorem unmarshalInPlace_step {M : Type} (record : String)
    (fieldInPlace : Bytes → Nat → Nat → Int → Nat → M → M × Except MintError Nat)
    (dAtA : Bytes) (fuel i : Nat) (m : M) (hi : i < dAtA.length) :
    unmarshalInPlace record fieldInPlace dAtA (fuel + 1) i m =
      match readTag record dAtA i with
      | Except.error e => (m, some e)
      | Except.ok (fieldNum, wireType, iNdEx1) =>
        match fieldInPlace dAtA i iNdEx1 fieldNum wireType m with
        | (m1, Except.error e) => (m1, some e)
        | (m1, Except.ok iNdEx2) => unmarshalInPlace record fieldInPlace dAtA fuel iNdEx2 m1 := by
  simp only [unmarshalInPlace]
  rw [if_pos hi]

/-- The loop of `Unmarshal` returns what the loop on the receiver returns: its error, or
the receiver that it leaves when the error is nil. -/
theorem unmarshalLoop_inPlace {M : Type} (record : String)
    (field : Bytes → Nat → Nat → Int → Nat → M → Except MintError (M × Nat))
    (fieldInPlace : Bytes → Nat → Nat → Int → Nat → M → M × Except MintError Nat)
    (hlink : ∀ d pre i fn w m, field d pre i fn w m = caseReturned (fieldInPlace d pre i fn w m))
    (dAtA : Bytes) :
    ∀ (fuel i : Nat) (m : M), unmarshalLoop record field dAtA fuel i m =
      returned (unmarshalInPlace record fieldInPlace dAtA fuel i m) := by
  intro fuel
  induction fuel with
  | zero =>
    intro i m
    simp only [unmarshalLoop, unmarshalInPlace]
    split_ifs <;> rfl
  | succ fuel ih =>
    intro i m
    by_cases hi : i < dAtA.length
    · rw [unmarshalLoop_step record field dAtA fuel i m hi,
        unmarshalInPlace_step record fieldInPlace dAtA fuel i m hi]
      cases readTag record dAtA i with
      | error e => rfl
      | ok r =>
        obtain ⟨fn, w, i1⟩ := r
        simp only
        rw [hlink]
        cases hf : fieldInPlace dAtA i i1 fn w m with
        | mk m1 r1 =>
          cases r1 with
          | error e => rfl
          | ok i2 => exact ih i2 m1
    · rw [unmarshalLoop_end record field dAtA (fuel + 1) i m hi,
        unmarshalInPlace_end record fieldInPlace dAtA (fuel + 1) i m hi]
      split_ifs <;> rfl

theorem Params_Unmarshal_inPlace {U : Type} (uint : CustomType U) (m : Params U)
    (dAtA : Bytes) :
    Params.Unmarshal uint m dAtA = returned (Params.Unmarshal.inPlace uint m dAtA) := by
  unfold Params.Unmarshal Params.Unmarshal.inPlace
  rw [Params_loop_eq]
  exact unmarshalLoop_inPlace "Params" _ _ (Params_field_inPlace uint) dAtA _ 0 m

theorem Minter_Unmarshal_inPlace {D U : Type} (dec : CustomType D) (uint : CustomType U)
    (m : Minter D U) (dAtA : Bytes) :
    Minter.Unmarshal dec uint m dAtA = returned (Minter.Unmarshal.inPlace dec uint m dAtA) := by
  unfold Minter.Unmarshal Minter.Unmarshal.inPlace
  rw [Minter_loop_eq]
  exact unmarshalLoop_inPlace "Minter" _ _ (Minter_field_inPlace dec uint) dAtA _ 0 m

theorem caseReturned_ok {M : Type} (p : M × Except MintError Nat) (m1 : M) (i2 : Nat) :
    caseReturned p = Except.ok (m1, i2) ↔ p = (m1, Except.ok i2) := by
  obtain ⟨m2, r⟩ := p
  cases r with
  | error e =>
    simp only [caseReturned]
    constructor <;> intro h <;> cases h
  | ok i =>
    simp only [caseReturned]
    constructor
    · intro h
      injection h with h
      injection h with h1 h2
      rw [h1, h2]
    · intro h
      injection h with h1 h2
      injection h2 with h2
      rw [h1, h2]

/-- A field keeps its value through the loop of `Unmarshal`, whether the call returns nil
or an error, when every case of the `switch fieldNum` for another field number keeps it
and its field number does not occur. -/
theorem unmarshalInPlace_frame {M α : Type} (record : String)
    (field : Bytes → Nat → Nat → Int → Nat → M → Except MintError (M × Nat))
    (fieldInPlace : Bytes → Nat → Nat → Int → Nat → M → M × Except MintError Nat)
    (hlink : ∀ d pre i fn w m, field d pre i fn w m = caseReturned (fieldInPlace d pre i fn w m))
    (proj : M → α) (k : Int)
    (hframe : ∀ (d : Bytes) (pre i1 : Nat) (fn : Int) (w : Nat) (m : M),
      fn ≠ k → proj (fieldInPlace d pre i1 fn w m).1 = proj m)
    (dAtA : Bytes) :
    ∀ (fuel i : Nat) (m : M), k ∉ fieldNumbers record field dAtA fuel i m →
    proj (unmarshalInPlace record fieldInPlace dAtA fuel i m).1 = proj m := by
  intro fuel
  induction fuel with
  | zero =>
    intro i m _
    simp only [unmarshalInPlace]
    split_ifs <;> rfl
  | succ fuel ih =>
    intro i m hk
    by_cases hi : i < dAtA.length
    · rw [unmarshalInPlace_step record fieldInPlace dAtA fuel i m hi]
      simp only [fieldNumbers] at hk
      rw [if_pos hi] at hk
      cases ht : readTag record dAtA i with
      | error e => rfl
      | ok r =>
        obtain ⟨fn, w, i1⟩ := r
        rw [ht] at hk
        simp only at hk ⊢
        rw [hlink] at hk
        have hfr := hframe dAtA i i1 fn w m
        cases hf : fieldInPlace dAtA i i1 fn w m with
        | mk m1 r1 =>
          rw [hf] at hk hfr
          cases r1 with
          | error e =>
            simp only [caseReturned, List.mem_cons, not_or] at hk
            exact hfr (fun hc => hk.1 hc.symm)
          | ok i2 =>
            simp only [caseReturned, List.mem_cons, not_or] at hk
            simp only
            rw [ih i2 m1 hk.2]
            exact hfr (fun hc => hk.1 hc.symm)
    · rw [unmarshalInPlace_end record fieldInPlace dAtA (fuel + 1) i m hi]
      split_ifs <;> rfl

/-- The result of the loop of `Unmarshal` on its receiver does not depend on the bound on
its iterations, once the bound is the number of bytes left or more. -/
theorem unmarshalInPlace_fuel {M : Type} (record : String)
    (field : Bytes → Nat → Nat → Int → Nat → M → Except MintError (M × Nat))
    (fieldInPlace : Bytes → Nat → Nat → Int → Nat → M → M × Except MintError Nat)
    (hlink : ∀ d pre i fn w m, field d pre i fn w m = caseReturned (fieldInPlace d pre i fn w m))
    (hsafe : FieldSafe field) (dAtA : Bytes) (hlen : dAtA.length < 2 ^ 63) :
    ∀ (f1 f2 i : Nat) (m : M), dAtA.length ≤ f1 + i → dAtA.length ≤ f2 + i →
    unmarshalInPlace record fieldInPlace dAtA f1 i m =
      unmarshalInPlace record fieldInPlace dAtA f2 i m := by
  intro f1
  induction f1 with
  | zero =>
    intro f2 i m h1 h2
    rw [unmarshalInPlace_end record fieldInPlace dAtA 0 i m (by omega),
      unmarshalInPlace_end record fieldInPlace dAtA f2 i m (by omega)]
  | succ f1 ih =>
    intro f2 i m h1 h2
    by_cases hi : i < dAtA.length
    · cases f2 with
      | zero => omega
      | succ f2 =>
        rw [unmarshalInPlace_step record fieldInPlace dAtA f1 i m hi,
          unmarshalInPlace_step record fieldInPlace dAtA f2 i m hi]
        cases ht : readTag record dAtA i with
        | error e1 => rfl
        | ok r =>
          obtain ⟨fn, w, i1⟩ := r
          have hb := readTag_bounds record dAtA i fn w i1 ht
          simp only
          have hs := hsafe dAtA i i1 fn w m hlen hb.1 hb.2.1
          cases hf : fieldInPlace dAtA i i1 fn w m with
          | mk m1 r1 =>
            cases r1 with
            | error e => rfl
            | ok i2 =>
              have := hs.2 m1 i2 (by rw [hlink, hf]; rfl)
              exact ih f2 i2 m1 (by omega) (by omega)
    · rw [unmarshalInPlace_end record fieldInPlace dAtA (f1 + 1) i m hi,
        unmarshalInPlace_end record fieldInPlace dAtA f2 i m hi]

/-- After bytes are appended to an input that the loop of `Unmarshal` accepts, the loop on
the receiver reaches the end of the accepted input with the record that it returned
there. -/
theorem unmarshalInPlace_append {M : Type} (record : String)
    (field : Bytes → Nat → Nat → Int → Nat → M → Except MintError (M × Nat))
    (fieldInPlace : Bytes → Nat → Nat → Int → Nat → M → M × Except MintError Nat)
    (hlink : ∀ d pre i fn w m, field d pre i fn w m = caseReturned (fieldInPlace d pre i fn w m))
    (hsafe : FieldSafe field) (hmono : FieldMono field) (dAtA u : Bytes)
    (hlen : (dAtA ++ u).length < 2 ^ 63) :
    ∀ (fuel i : Nat) (m r : M), unmarshalLoop record field dAtA fuel i m = Except.ok r →
    unmarshalInPlace record fieldInPlace (dAtA ++ u) (fuel + u.length) i m =
      unmarshalInPlace record fieldInPlace (dAtA ++ u) u.length dAtA.length r := by
  intro fuel
  induction fuel with
  | zero =>
    intro i m r h
    have hi : ¬ i < dAtA.length := by
      intro hi
      simp only [unmarshalLoop] at h
      rw [if_pos hi] at h
      cases h
    rw [unmarshalLoop_end record field dAtA 0 i m hi] at h
    split at h
    · cases h
    · injection h with h
      subst h
      rw [Nat.zero_add, show i = dAtA.length by omega]
  | succ fuel ih =>
    intro i m r h
    by_cases hi : i < dAtA.length
    · rw [unmarshalLoop_step record field dAtA fuel i m hi] at h
      rw [show fuel + 1 + u.length = (fuel + u.length) + 1 by omega,
        unmarshalInPlace_step record fieldInPlace (dAtA ++ u) _ i m
          (by simp only [List.length_append]; omega)]
      cases ht : readTag record dAtA i with
      | error e1 => rw [ht] at h; cases h
      | ok r1 =>
        obtain ⟨fn, w, i1⟩ := r1
        have hb := readTag_bounds record dAtA i fn w i1 ht
        rw [ht] at h
        rw [readTag_append record dAtA u i _ ht]
        simp only at h ⊢
        cases hf : field dAtA i i1 fn w m with
        | error e1 => rw [hf] at h; cases h
        | ok r2 =>
          obtain ⟨m1, i2⟩ := r2
          rw [hf] at h
          have hf2 := hmono dAtA u i i1 fn w m _ hb.1 hb.2.1 hf
          rw [hlink, caseReturned_ok] at hf2
          rw [hf2]
          exact ih i2 m1 r h
    · rw [unmarshalLoop_end record field dAtA (fuel + 1) i m hi] at h
      split at h
      · cases h
      · injection h with h
        subst h
        have hieq : i = dAtA.length := by omega
        subst hieq
        exact unmarshalInPlace_fuel record field fieldInPlace hlink hsafe (dAtA ++ u) hlen
          _ _ _ _ (by simp only [List.length_append]; omega)
          (by simp only [List.length_append]; omega)

theorem Params_inPlace_MintDenom {U : Type} (uint : CustomType U) (d : Bytes) (pre i1 : Nat)
    (fn : Int) (w : Nat) (m : Params U) (hne : fn ≠ 1) :
    (Params.Unmarshal.fieldInPlace uint d pre i1 fn w m).1.MintDenom = m.MintDenom := by
  unfold Params.Unmarshal.fieldInPlace
  rw [if_neg hne]
  split_ifs <;> split <;> rfl

theorem Params_inPlace_MaxMintableNanoseconds {U : Type} (uint : CustomType U) (d : Bytes)
    (pre i1 : Nat) (fn : Int) (w : Nat) (m : Params U) (hne : fn ≠ 2) :
    (Params.Unmarshal.fieldInPlace uint d pre i1 fn w m).1.MaxMintableNanoseconds =
      m.MaxMintableNanoseconds := by
  unfold Params.Unmarshal.fieldInPlace
  rw [if_neg hne]
  split_ifs <;> (try split) <;> rfl

theorem Minter_inPlace_NormTimePassed {D U : Type} (dec : CustomType D) (uint : CustomType U)
    (d : Bytes) (pre i1 : Nat) (fn : Int) (w : Nat) (m : Minter D U) (hne : fn ≠ 2) :
    (Minter.Unmarshal.fieldInPlace dec uint d pre i1 fn w m).1.NormTimePassed =
      m.NormTimePassed := by
  unfold Minter.Unmarshal.fieldInPlace
  rw [if_neg hne]
  split_ifs <;> split <;> rfl

theorem Minter_inPlace_TotalMinted {D U : Type} (dec : CustomType D) (uint : CustomType U)
    (d : Bytes) (pre i1 : Nat) (fn : Int) (w : Nat) (m : Minter D U) (hne : fn ≠ 3) :
    (Minter.Unmarshal.fieldInPlace dec uint d pre i1 fn w m).1.TotalMinted =
      m.TotalMinted := by
  unfold Minter.Unmarshal.fieldInPlace
  rw [if_neg hne]
  split_ifs <;> split <;> rfl

theorem Minter_inPlace_PrevBlockTimestamp {D U : Type} (dec : CustomType D)
    (uint : CustomType U) (d : Bytes) (pre i1 : Nat) (fn : Int) (w : Nat) (m : Minter D U)
    (hne : fn ≠ 4) :
    (Minter.Unmarshal.fieldInPlace dec uint d pre i1 fn w m).1.PrevBlockTimestamp =
      m.PrevBlockTimestamp := by
  unfold Minter.Unmarshal.fieldInPlace
  rw [if_neg hne]
  split_ifs <;> split <;> rfl

theorem Minter_inPlace_AnnualInflation {D U : Type} (dec : CustomType D) (uint : CustomType U)
    (d : Bytes) (pre i1 : Nat) (fn : Int) (w : Nat) (m : Minter D U) (hne : fn ≠ 5) :
    (Minter.Unmarshal.fieldInPlace dec uint d pre i1 fn w m).1.AnnualInflation =
      m.AnnualInflation := by
  unfold Minter.Unmarshal.fieldInPlace
  rw [if_neg hne]
  split_ifs <;> split <;> rfl

theorem Params_inPlace_nil_iff {U : Type} (uint : CustomType U) (m r : Params U)
    (dAtA : Bytes) :
    Params.Unmarshal.inPlace uint m dAtA = (r, none) ↔
      Params.Unmarshal uint m dAtA = Except.ok r := by
  rw [Params_Unmarshal_inPlace, returned_eq_ok]

theorem Minter_inPlace_nil_iff {D U : Type} (dec : CustomType D) (uint : CustomType U)
    (m r : Minter D U) (dAtA : Bytes) :
    Minter.Unmarshal.inPlace dec uint m dAtA = (r, none) ↔
      Minter.Unmarshal dec uint m dAtA = Except.ok r := by
  rw [Minter_Unmarshal_inPlace, returned_eq_ok]

/-- After an input that `Params.Unmarshal` accepts, the call on the input with bytes
appended goes on, on the receiver, from the end of the accepted input. -/
theorem Params_inPlace_resume {U : Type} (uint : CustomType U) (b rest : Bytes)
    (hlen : (b ++ rest).length < 2 ^ 63) (m rb : Params U)
    (hb : Params.Unmarshal.inPlace uint m b = (rb, none)) :
    Params.Unmarshal.inPlace uint m (b ++ rest) =
      unmarshalInPlace "Params" (Params.Unmarshal.fieldInPlace uint) (b ++ rest) rest.length
        b.length rb := by
  rw [Params_inPlace_nil_iff] at hb
  unfold Params.Unmarshal at hb
  rw [Params_loop_eq] at hb
  unfold Params.Unmarshal.inPlace
  rw [List.length_append]
  exact unmarshalInPlace_append "Params" _ _ (Params_field_inPlace uint)
    (Params_field_safe uint) (Params_field_mono uint) b rest hlen b.length 0 m rb hb

/-- After an input that `Minter.Unmarshal` accepts, the call on the input with bytes
appended goes on, on the receiver, from the end of the accepted input. -/
theorem Minter_inPlace_resume {D U : Type} (dec : CustomType D) (uint : CustomType U)
    (b rest : Bytes) (hlen : (b ++ rest).length < 2 ^ 63) (m rb : Minter D U)
    (hb : Minter.Unmarshal.inPlace dec uint m b = (rb, none)) :
    Minter.Unmarshal.inPlace dec uint m (b ++ rest) =
      unmarshalInPlace "Minter" (Minter.Unmarshal.fieldInPlace dec uint) (b ++ rest)
        rest.length b.length rb := by
  rw [Minter_inPlace_nil_iff] at hb
  unfold Minter.Unmarshal at hb
  rw [Minter_loop_eq] at hb
  unfold Minter.Unmarshal.inPlace
  rw [List.length_append]
  exact unmarshalInPlace_append "Minter" _ _ (Minter_field_inPlace dec uint)
    (Minter_field_safe dec uint) (Minter_field_mono dec uint) b rest hlen b.length 0 m rb hb

/-- C28. `Unmarshal` does not reset its receiver. The statement is about
`Params.Unmarshal.inPlace` and `Minter.Unmarshal.inPlace`, which give the receiver after
the call whether it returns nil or an error, and of which `Params.Unmarshal` and
`Minter.Unmarshal` are what the call returns. `Unmarshal` of the empty input returns nil
and leaves the record unchanged. Every field whose field number does not occur in the
input keeps the value it had before the call, also when the call returns an error; more
generally, after an accepted input `b`, every field whose field number does not occur in
the bytes `rest` that follow keeps the value it has after `b`. A further occurrence of a
known field after `b` sets `MintDenom` to the bytes of the occurrence, and sets a field of
a custom type to what the method `Unmarshal` of the field returns on the bytes of the
occurrence, called on the value that the field has after `b`; every other field stays as
it is after `b`. So the last occurrence of a field number determines `MintDenom`, and it
determines a field of a custom type when the decoder of the type does not depend on the
value of its receiver. -/
theorem Unmarshal_keeps_receiver {D U : Type} (dec : CustomType D) (uint : CustomType U)
    (b rest body : Bytes) (hrest : (b ++ rest).length < 2 ^ 63)
    (hbody : (b ++ fieldBytes 0x12 body).length < 2 ^ 63) :
    (∀ (m : Params U) (dAtA : Bytes),
      Params.Unmarshal uint m dAtA = returned (Params.Unmarshal.inPlace uint m dAtA)) ∧
    (∀ (m : Minter D U) (dAtA : Bytes),
      Minter.Unmarshal dec uint m dAtA =
        returned (Minter.Unmarshal.inPlace dec uint m dAtA)) ∧
    (∀ m : Params U, Params.Unmarshal.inPlace uint m [] = (m, none)) ∧
    (∀ m : Minter D U, Minter.Unmarshal.inPlace dec uint m [] = (m, none)) ∧
    (∀ (m : Params U),
      (1 ∉ fieldNumbers "Params" (Params.Unmarshal.field uint) rest rest.length 0 m →
        (Params.Unmarshal.inPlace uint m rest).1.MintDenom = m.MintDenom) ∧
      (2 ∉ fieldNumbers "Params" (Params.Unmarshal.field uint) rest rest.length 0 m →
        (Params.Unmarshal.inPlace uint m rest).1.MaxMintableNanoseconds =
          m.MaxMintableNanoseconds)) ∧
    (∀ (m : Minter D U),
      (2 ∉ fieldNumbers "Minter" (Minter.Unmarshal.field dec uint) rest rest.length 0 m →
        (Minter.Unmarshal.inPlace dec uint m rest).1.NormTimePassed = m.NormTimePassed) ∧
      (3 ∉ fieldNumbers "Minter" (Minter.Unmarshal.field dec uint) rest rest.length 0 m →
        (Minter.Unmarshal.inPlace dec uint m rest).1.TotalMinted = m.TotalMinted) ∧
      (4 ∉ fieldNumbers "Minter" (Minter.Unmarshal.field dec uint) rest rest.length 0 m →
        (Minter.Unmarshal.inPlace dec uint m rest).1.PrevBlockTimestamp =
          m.PrevBlockTimestamp) ∧
      (5 ∉ fieldNumbers "Minter" (Minter.Unmarshal.field dec uint) rest rest.length 0 m →
        (Minter.Unmarshal.inPlace dec uint m rest).1.AnnualInflation = m.AnnualInflation)) ∧
    (∀ (m rb : Params U), Params.Unmarshal.inPlace uint m b = (rb, none) →
      (1 ∉ fieldNumbers "Params" (Params.Unmarshal.field uint) (b ++ rest) rest.length
          b.length rb →
        (Params.Unmarshal.inPlace uint m (b ++ rest)).1.MintDenom = rb.MintDenom) ∧
      (2 ∉ fieldNumbers "Params" (Params.Unmarshal.field uint) (b ++ rest) rest.length
          b.length rb →
        (Params.Unmarshal.inPlace uint m (b ++ rest)).1.MaxMintableNanoseconds =
          rb.MaxMintableNanoseconds)) ∧
    (∀ (m rb : Minter D U), Minter.Unmarshal.inPlace dec uint m b = (rb, none) →
      (2 ∉ fieldNumbers "Minter" (Minter.Unmarshal.field dec uint) (b ++ rest) rest.length
          b.length rb →
        (Minter.Unmarshal.inPlace dec uint m (b ++ rest)).1.NormTimePassed =
          rb.NormTimePassed) ∧
      (3 ∉ fieldNumbers "Minter" (Minter.Unmarshal.field dec uint) (b ++ rest) rest.length
          b.length rb →
        (Minter.Unmarshal.inPlace dec uint m (b ++ rest)).1.TotalMinted = rb.TotalMinted) ∧
      (4 ∉ fieldNumbers "Minter" (Minter.Unmarshal.field dec uint) (b ++ rest) rest.length
          b.length rb →
        (Minter.Unmarshal.inPlace dec uint m (b ++ rest)).1.PrevBlockTimestamp =
          rb.PrevBlockTimestamp) ∧
      (5 ∉ fieldNumbers "Minter" (Minter.Unmarshal.field dec uint) (b ++ rest) rest.length
          b.length rb →
        (Minter.Unmarshal.inPlace dec uint m (b ++ rest)).1.AnnualInflation =
          rb.AnnualInflation)) ∧
    (∀ (m rb : Params U), Params.Unmarshal.inPlace uint m b = (rb, none) →
      Params.Unmarshal.inPlace uint m (b ++ fieldBytes 0xa body) =
        ({ rb with MintDenom := body }, none) ∧
      (∀ x, uint.Unmarshal rb.MaxMintableNanoseconds body = Except.ok x →
        Params.Unmarshal.inPlace uint m (b ++ fieldBytes 0x12 body) =
          ({ rb with MaxMintableNanoseconds := x }, none))) ∧
    (∀ (m rb : Minter D U), Minter.Unmarshal.inPlace dec uint m b = (rb, none) →
      (∀ x, dec.Unmarshal rb.NormTimePassed body = Except.ok x →
        Minter.Unmarshal.inPlace dec uint m (b ++ fieldBytes 0x12 body) =
          ({ rb with NormTimePassed := x }, none)) ∧
      (∀ x, uint.Unmarshal rb.TotalMinted body = Except.ok x →
        Minter.Unmarshal.inPlace dec uint m (b ++ fieldBytes 0x1a body) =
          ({ rb with TotalMinted := x }, none)) ∧
      (∀ x, uint.Unmarshal rb.PrevBlockTimestamp body = Except.ok x →
        Minter.Unmarshal.inPlace dec uint m (b ++ fieldBytes 0x22 body) =
          ({ rb with PrevBlockTimestamp := x }, none)) ∧
      (∀ x, uint.Unmarshal rb.AnnualInflation body = Except.ok x →
        Minter.Unmarshal.inPlace dec uint m (b ++ fieldBytes 0x2a body) =
          ({ rb with AnnualInflation := x }, none))) := by
  have hlenf : ∀ tag, (b ++ fieldBytes tag body).length < 2 ^ 63 := by
    intro tag
    simp only [List.length_append, fieldBytes_length] at hbody ⊢
    exact hbody
  have hP := Params_field_inPlace uint
  have hM := Minter_field_inPlace dec uint
  refine ⟨Params_Unmarshal_inPlace uint, Minter_Unmarshal_inPlace dec uint, ?_, ?_, ?_, ?_,
    ?_, ?_, ?_, ?_⟩
  · intro m
    rw [Params_inPlace_nil_iff]
    exact Params_Unmarshal_nil uint m
  · intro m
    rw [Minter_inPlace_nil_iff]
    exact Minter_Unmarshal_nil dec uint m
  · intro m
    unfold Params.Unmarshal.inPlace
    exact ⟨unmarshalInPlace_frame "Params" _ _ hP (fun p : Params U => p.MintDenom) 1
        (Params_inPlace_MintDenom uint) rest _ 0 m,
      unmarshalInPlace_frame "Params" _ _ hP (fun p : Params U => p.MaxMintableNanoseconds) 2
        (Params_inPlace_MaxMintableNanoseconds uint) rest _ 0 m⟩
  · intro m
    unfold Minter.Unmarshal.inPlace
    exact ⟨unmarshalInPlace_frame "Minter" _ _ hM (fun p : Minter D U => p.NormTimePassed) 2
        (Minter_inPlace_NormTimePassed dec uint) rest _ 0 m,
      unmarshalInPlace_frame "Minter" _ _ hM (fun p : Minter D U => p.TotalMinted) 3
        (Minter_inPlace_TotalMinted dec uint) rest _ 0 m,
      unmarshalInPlace_frame "Minter" _ _ hM (fun p : Minter D U => p.PrevBlockTimestamp) 4
        (Minter_inPlace_PrevBlockTimestamp dec uint) rest _ 0 m,
      unmarshalInPlace_frame "Minter" _ _ hM (fun p : Minter D U => p.AnnualInflation) 5
        (Minter_inPlace_AnnualInflation dec uint) rest _ 0 m⟩
  · intro m rb hb
    rw [Params_inPlace_resume uint b rest hrest m rb hb]
    exact ⟨unmarshalInPlace_frame "Params" _ _ hP (fun p : Params U => p.MintDenom) 1
        (Params_inPlace_MintDenom uint) _ _ _ rb,
      unmarshalInPlace_frame "Params" _ _ hP (fun p : Params U => p.MaxMintableNanoseconds) 2
        (Params_inPlace_MaxMintableNanoseconds uint) _ _ _ rb⟩
  · intro m rb hb
    rw [Minter_inPlace_resume dec uint b rest hrest m rb hb]
    exact ⟨unmarshalInPlace_frame "Minter" _ _ hM (fun p : Minter D U => p.NormTimePassed) 2
        (Minter_inPlace_NormTimePassed dec uint) _ _ _ rb,
      unmarshalInPlace_frame "Minter" _ _ hM (fun p : Minter D U => p.TotalMinted) 3
        (Minter_inPlace_TotalMinted dec uint) _ _ _ rb,
      unmarshalInPlace_frame "Minter" _ _ hM (fun p : Minter D U => p.PrevBlockTimestamp) 4
        (Minter_inPlace_PrevBlockTimestamp dec uint) _ _ _ rb,
      unmarshalInPlace_frame "Minter" _ _ hM (fun p : Minter D U => p.AnnualInflation) 5
        (Minter_inPlace_AnnualInflation dec uint) _ _ _ rb⟩
  · intro m rb hb
    rw [Params_inPlace_nil_iff] at hb
    refine ⟨?_, ?_⟩
    · rw [Params_inPlace_nil_iff]
      exact Params_append_MintDenom uint b body (hlenf _) m rb hb
    · intro x hx
      rw [Params_inPlace_nil_iff]
      exact Params_append_MaxMintableNanoseconds uint b body (hlenf _) m rb x hb hx
  · intro m rb hb
    rw [Minter_inPlace_nil_iff] at hb
    refine ⟨?_, ?_, ?_, ?_⟩ <;> intro x hx <;> rw [Minter_inPlace_nil_iff]
    · exact Minter_append_NormTimePassed dec uint b body (hlenf _) m rb x hb hx
    · exact Minter_append_TotalMinted dec uint b body (hlenf _) m rb x hb hx
    · exact Minter_append_PrevBlockTimestamp dec uint b body (hlenf _) m rb x hb hx
    · exact Minter_append_AnnualInflation dec uint b body (hlenf _) m rb x hb hx

theorem Unmarshal_keeps_receiver_witness :
    (fieldBytes 0x12 [0x35] ++ fieldBytes 0xa [97]).length < 2 ^ 63 ∧
    (fieldBytes 0x12 [0x35] ++ [0x80]).length < 2 ^ 63 ∧
    (fieldBytes 0x12 [0x35] ++ fieldBytes 0x12 [0x37]).length < 2 ^ 63 ∧
    Params.Unmarshal.inPlace sampleType ⟨[9], [8]⟩ (fieldBytes 0x12 [0x35]) =
      (⟨[9], [0x35]⟩, none) ∧
    Params.Unmarshal.inPlace sampleType ⟨[9], [8]⟩
      (fieldBytes 0x12 [0x35] ++ fieldBytes 0x12 [0x37]) = (⟨[9], [0x37]⟩, none) ∧
    (Params.Unmarshal.inPlace sampleType ⟨[9], [8]⟩
      (fieldBytes 0x12 [0x35] ++ fieldBytes 0xa [97])).1.MaxMintableNanoseconds = [0x35] ∧
    Params.Unmarshal sampleType ⟨[9], [8]⟩ (fieldBytes 0x12 [0x35] ++ [0x80]) =
      Except.error MintError.ErrUnexpectedEOF ∧
    (Params.Unmarshal.inPlace sampleType ⟨[9], [8]⟩
      (fieldBytes 0x12 [0x35] ++ [0x80])).1.MintDenom = [9] ∧
    (Params.Unmarshal.inPlace sampleType ⟨[9], [8]⟩
      (fieldBytes 0x12 [0x35] ++ [0x80])).1.MaxMintableNanoseconds = [0x35] :=
  have hrest : (fieldBytes 0x12 [0x35] ++ fieldBytes 0xa [97]).length < 2 ^ 63 := by
    simp [fieldBytes, uint64, varintBytes]
  have hcut : (fieldBytes 0x12 [0x35] ++ [0x80]).length < 2 ^ 63 := by
    simp [fieldBytes, uint64, varintBytes]
  have hbody : (fieldBytes 0x12 [0x35] ++ fieldBytes 0x12 [0x37]).length < 2 ^ 63 := by
    simp [fieldBytes, uint64, varintBytes]
  have hb0 : Params.Unmarshal sampleType ⟨[9], [8]⟩ (fieldBytes 0x12 [0x35]) =
      Except.ok ⟨[9], [0x35]⟩ := by
    have h := Params_append_MaxMintableNanoseconds sampleType [] [0x35]
      (by simp [fieldBytes, uint64, varintBytes]) ⟨[9], [8]⟩ ⟨[9], [8]⟩ [0x35]
      (Params_Unmarshal_nil sampleType _) rfl
    simpa using h
  have hb : Params.Unmarshal.inPlace sampleType ⟨[9], [8]⟩ (fieldBytes 0x12 [0x35]) =
      (⟨[9], [0x35]⟩, none) := (Params_inPlace_nil_iff sampleType _ _ _).mpr hb0
  have hT := Unmarshal_keeps_receiver sampleType sampleType (fieldBytes 0x12 [0x35])
    (fieldBytes 0xa [97]) [0x37] hrest hbody
  have hC := Unmarshal_keeps_receiver sampleType sampleType (fieldBytes 0x12 [0x35])
    [0x80] [0x37] hcut hbody
  have hnone : fieldNumbers "Params" (Params.Unmarshal.field sampleType)
      (fieldBytes 0x12 [0x35] ++ [0x80]) ([0x80] : Bytes).length
      (fieldBytes 0x12 [0x35]).length ⟨[9], [0x35]⟩ = [] := by
    have hd := readTag_decode_error "Params" _ _ _
      (decodeVarint_cut (fieldBytes 0x12 [0x35]) [0x80] _ rfl (by decide) (by decide))
    simp only [List.length_singleton, fieldNumbers]
    rw [if_pos (by simp [fieldBytes, uint64, varintBytes]), hd]
  have herr : Params.Unmarshal sampleType ⟨[9], [8]⟩ (fieldBytes 0x12 [0x35] ++ [0x80]) =
      Except.error MintError.ErrUnexpectedEOF := by
    unfold Params.Unmarshal at hb0 ⊢
    rw [Params_loop_eq] at hb0 ⊢
    exact unmarshalLoop_cut_tag "Params" _ (Params_field_safe sampleType)
      (Params_field_mono sampleType) _ [0x80] hcut _ _ hb0 (by decide) (by decide) (by decide)
  ⟨hrest, hcut, hbody, hb,
    (hT.2.2.2.2.2.2.2.2.1 ⟨[9], [8]⟩ ⟨[9], [0x35]⟩ hb).2 [0x37] rfl,
    (hT.2.2.2.2.2.2.1 ⟨[9], [8]⟩ ⟨[9], [0x35]⟩ hb).2 (by
      have hk : (fieldBytes 0xa [97]).length = 2 + 1 := by
        simp [fieldBytes, uint64, varintBytes]
      rw [hk, Params_fieldNumbers_MintDenom sampleType _ [97] 2 _ hrest]
      decide),
    herr,
    (hC.2.2.2.2.2.2.1 ⟨[9], [8]⟩ ⟨[9], [0x35]⟩ hb).1 (by rw [hnone]; decide),
    (hC.2.2.2.2.2.2.1 ⟨[9], [8]⟩ ⟨[9], [0x35]⟩ hb).2 (by rw [hnone]; decide)⟩

/-- With a custom type whose `Unmarshal` leaves its receiver as it is on empty bytes, two
inputs in which field 2 occurs twice and whose last occurrence of it is the same, `0x12 0x00`,
leave different values in the field, those of the first occurrences (the digits `5` and
`6`): the last occurrence does not determine it. -/
theorem Unmarshal_keeps_receiver_counterexample :
    Params.Unmarshal.inPlace sampleKeepType ⟨[], []⟩ [0x12, 1, 0x35, 0x12, 0] =
      (⟨[], [0x35]⟩, none) ∧
    Params.Unmarshal.inPlace sampleKeepType ⟨[], []⟩ [0x12, 1, 0x36, 0x12, 0] =
      (⟨[], [0x36]⟩, none) := by
  have hone : ∀ v : Nat,
      Params.Unmarshal.inPlace sampleKeepType ⟨[], []⟩ [0x12, 1, v, 0x12, 0] =
        (⟨[], [v]⟩, none) := by
    intro v
    have h1 := Params_append_MaxMintableNanoseconds sampleKeepType [] [v]
      (by simp [fieldBytes, uint64, varintBytes]) ⟨[], []⟩ ⟨[], []⟩ [v]
      (Params_Unmarshal_nil sampleKeepType _) rfl
    have h2 := Params_append_MaxMintableNanoseconds sampleKeepType ([] ++ fieldBytes 0x12 [v])
      [] (by simp [fieldBytes, uint64, varintBytes]) ⟨[], []⟩ ⟨[], [v]⟩ [v] h1 rfl
    have hform : ([] ++ fieldBytes 0x12 [v]) ++ fieldBytes 0x12 [] = [0x12, 1, v, 0x12, 0] := by
      simp [fieldBytes, uint64, varintBytes]
    rw [hform] at h2
    exact (Params_inPlace_nil_iff sampleKeepType _ _ _).mpr h2
  exact ⟨hone 0x35, hone 0x36⟩

end NolusSim
